import Mathlib

/-!
# jsonrt: the reader and the lexer of the ffjson runtime

A shallow embedding of `src/jsonrt/reader.go` and `src/jsonrt/lexer.go`.

* A byte is a natural number; a byte slice is a `List Nat`; a `Buffer` is the list of the
  bytes written to it so far.
* A Go function that returns `(value, error)` returns an `Except GoError value` here, or a
  pair of a token and an `Option GoError` where the source returns both.
* Every function that can panic in Go (index out of range, `UnreadByte` at the start of
  the slice) returns an `Option`: `none` is the panic.  A loop is a recursive function on a
  fuel argument that its caller sets to the number of bytes left in the input plus one;
  every pass of every loop either returns or moves an index forward, so the fuel is never
  used up (a loop that did use it up would give `none` as well).
* State is passed explicitly: a method on `*ffReader` or `*FFLexer` returns the new state
  next to its result.
-/

namespace jsonrt

/-! ## Tokens and errors (lexer.go) -/

/-- The type `FFTok` of lexer.go. -/
inductive FFTok where
  | FFTok_init
  | FFTok_error
  | FFTok_bool
  | FFTok_colon
  | FFTok_comma
  | FFTok_eof
  | FFTok_left_brace
  | FFTok_left_bracket
  | FFTok_null
  | FFTok_right_brace
  | FFTok_right_bracket
  | FFTok_integer
  | FFTok_double
  | FFTok_string
  | FFTok_comment
  deriving DecidableEq, Repr

/-- The type `FFErrKind` of lexer.go. -/
inductive FFErrKind where
  | FFErr_e_ok
  | FFErr_io
  | FFErr_string_invalid_utf8
  | FFErr_string_invalid_escaped_char
  | FFErr_string_invalid_json_char
  | FFErr_string_invalid_hex_char
  | FFErr_invalid_char
  | FFErr_invalid_string
  | FFErr_missing_integer_after_decimal
  | FFErr_missing_integer_after_exponent
  | FFErr_missing_integer_after_minus
  | FFErr_unallowed_comment
  | FFErr_incomplete_comment
  | FFErr_unexpected_token_type
  deriving DecidableEq, Repr

/-- The non-nil `error` values that the reader and the lexer create: an `*FFError` made by
`NewFFError(kind)`, the sentinel `io.EOF`, and one constructor for each `fmt.Errorf` /
`errors.New` call site, carrying the values it formats. -/
inductive GoError where
  /-- The error `NewFFError(kind)`. -/
  | FFError (Kind : FFErrKind)
  /-- The sentinel `io.EOF`. -/
  | EOF
  /-- The error with text `lex_string_invalid_hex_char: c u4` (readU4). -/
  | lex_string_invalid_hex_char (c : Nat)
  /-- The error with text `lex_string_invalid_unicode_surrogate: ru ru2` (handleEscaped). -/
  | lex_string_invalid_unicode_surrogate (ru ru2 : Nat)
  /-- The error with text `lex_string_invalid_escaped_char: c` (handleEscaped). -/
  | lex_string_invalid_escaped_char (c : Nat)
  /-- The error with text `lex_string_invalid_json_char: c` (SliceString). -/
  | lex_string_invalid_json_char (c : Nat)
  /-- The error of ParseUint / ParseInt / ParseFloat. -/
  | parse_error
  /-- The error with text `ffjson: unexpected EOF` (captureField, SkipField). -/
  | unexpected_EOF
  /-- The error with text `ffjson: invalid capture type: start`. -/
  | invalid_capture_type (start : FFTok)
  /-- The error with text `ffjson: wanted token: want, but got token: got output=...`. -/
  | wanted_token (want got : FFTok) (output : List Nat)
  /-- The error with text `ffjson: wanted ... value, but got token: got` of a value scanner. -/
  | wanted_value (want got : FFTok)
  /-- The error with text `ffjson: unknow bool value` (ScanBoolValue). -/
  | unknow_bool_value
  /-- The error with text `ffjson: wanted value token, but got token: got` (ScanToValue). -/
  | wanted_value_token (got : FFTok)
  deriving DecidableEq, Repr

/-! ## Lookup tables (reader.go) -/

/-- The flag `cVEC`: valid escaped control char. -/
def cVEC : Nat := 0x01
/-- The flag `cIJC`: invalid json char. -/
def cIJC : Nat := 0x02
/-- The flag `cVHC`: valid hex char. -/
def cVHC : Nat := 0x04
/-- The flag `cNFP`: needs further processing. -/
def cNFP : Nat := 0x08
/-- The flag `cNUC`: needs utf8 checking. -/
def cNUC : Nat := 0x10

/-- The constant `sliceStringMask = cIJC | cNFP`. -/
def sliceStringMask : Nat := cIJC ||| cNFP

/-- The 256 entries of `whitespaceLookupTable`, in order. -/
def whitespaceLookupTableEntries : List Bool := [
  false, false, false, false, false, false, false, false, false, true, true, true, true, true, false, false,  -- 0
  false, false, false, false, false, false, false, false, false, false, false, false, false, false, false, false,  -- 16
  true, false, false, false, false, false, false, false, false, false, false, false, false, false, false, false,  -- 32
  false, false, false, false, false, false, false, false, false, false, false, false, false, false, false, false,  -- 48
  false, false, false, false, false, false, false, false, false, false, false, false, false, false, false, false,  -- 64
  false, false, false, false, false, false, false, false, false, false, false, false, false, false, false, false,  -- 80
  false, false, false, false, false, false, false, false, false, false, false, false, false, false, false, false,  -- 96
  false, false, false, false, false, false, false, false, false, false, false, false, false, false, false, false,  -- 112
  false, false, false, false, false, false, false, false, false, false, false, false, false, false, false, false,  -- 128
  false, false, false, false, false, false, false, false, false, false, false, false, false, false, false, false,  -- 144
  false, false, false, false, false, false, false, false, false, false, false, false, false, false, false, false,  -- 160
  false, false, false, false, false, false, false, false, false, false, false, false, false, false, false, false,  -- 176
  false, false, false, false, false, false, false, false, false, false, false, false, false, false, false, false,  -- 192
  false, false, false, false, false, false, false, false, false, false, false, false, false, false, false, false,  -- 208
  false, false, false, false, false, false, false, false, false, false, false, false, false, false, false, false,  -- 224
  false, false, false, false, false, false, false, false, false, false, false, false, false, false, false, false  -- 240
]

/-- The lookup `whitespaceLookupTable[c]`. -/
def whitespaceLookupTable (c : Nat) : Bool := whitespaceLookupTableEntries.getD c false

/-- The 256 entries of `byteLookupTable`, in order. -/
def byteLookupTableEntries : List Nat := [
  cIJC, cIJC, cIJC, cIJC, cIJC, cIJC, cIJC, cIJC,  -- 0
  cIJC, cIJC, cIJC, cIJC, cIJC, cIJC, cIJC, cIJC,  -- 8
  cIJC, cIJC, cIJC, cIJC, cIJC, cIJC, cIJC, cIJC,  -- 16
  cIJC, cIJC, cIJC, cIJC, cIJC, cIJC, cIJC, cIJC,  -- 24
  0, 0, cVEC ||| cIJC ||| cNFP, 0, 0, 0, 0, 0,  -- 32
  0, 0, 0, 0, 0, 0, 0, cVEC,  -- 40
  cVHC, cVHC, cVHC, cVHC, cVHC, cVHC, cVHC, cVHC,  -- 48
  cVHC, cVHC, 0, 0, 0, 0, 0, 0,  -- 56
  0, cVHC, cVHC, cVHC, cVHC, cVHC, cVHC, 0,  -- 64
  0, 0, 0, 0, 0, 0, 0, 0,  -- 72
  0, 0, 0, 0, 0, 0, 0, 0,  -- 80
  0, 0, 0, 0, cVEC ||| cIJC ||| cNFP, 0, 0, 0,  -- 88
  0, cVHC, cVEC ||| cVHC, cVHC, cVHC, cVHC, cVEC ||| cVHC, 0,  -- 96
  0, 0, 0, 0, 0, 0, cVEC, 0,  -- 104
  0, 0, cVEC, 0, cVEC, 0, 0, 0,  -- 112
  0, 0, 0, 0, 0, 0, 0, 0,  -- 120
  cNUC, cNUC, cNUC, cNUC, cNUC, cNUC, cNUC, cNUC,  -- 128
  cNUC, cNUC, cNUC, cNUC, cNUC, cNUC, cNUC, cNUC,  -- 136
  cNUC, cNUC, cNUC, cNUC, cNUC, cNUC, cNUC, cNUC,  -- 144
  cNUC, cNUC, cNUC, cNUC, cNUC, cNUC, cNUC, cNUC,  -- 152
  cNUC, cNUC, cNUC, cNUC, cNUC, cNUC, cNUC, cNUC,  -- 160
  cNUC, cNUC, cNUC, cNUC, cNUC, cNUC, cNUC, cNUC,  -- 168
  cNUC, cNUC, cNUC, cNUC, cNUC, cNUC, cNUC, cNUC,  -- 176
  cNUC, cNUC, cNUC, cNUC, cNUC, cNUC, cNUC, cNUC,  -- 184
  cNUC, cNUC, cNUC, cNUC, cNUC, cNUC, cNUC, cNUC,  -- 192
  cNUC, cNUC, cNUC, cNUC, cNUC, cNUC, cNUC, cNUC,  -- 200
  cNUC, cNUC, cNUC, cNUC, cNUC, cNUC, cNUC, cNUC,  -- 208
  cNUC, cNUC, cNUC, cNUC, cNUC, cNUC, cNUC, cNUC,  -- 216
  cNUC, cNUC, cNUC, cNUC, cNUC, cNUC, cNUC, cNUC,  -- 224
  cNUC, cNUC, cNUC, cNUC, cNUC, cNUC, cNUC, cNUC,  -- 232
  cNUC, cNUC, cNUC, cNUC, cNUC, cNUC, cNUC, cNUC,  -- 240
  cNUC, cNUC, cNUC, cNUC, cNUC, cNUC, cNUC, cNUC  -- 248
]

/-- The lookup `byteLookupTable[c]`. -/
def byteLookupTable (c : Nat) : Nat := byteLookupTableEntries.getD c 0

/-! ## Library functions the reader calls -/

/-- The Go slice expression `s[a:b]`: the bytes at the indices `a`, ..., `b-1`; a panic
(`none`) when the bounds are out of range. -/
def goSlice (s : List Nat) (a b : Nat) : Option (List Nat) :=
  if a ≤ b ∧ b ≤ s.length then some ((s.drop a).take (b - a)) else none

/-- The value of the byte `c` as a digit (`0`-`9`, `a`-`z`, `A`-`Z`), as in strconv. -/
def digitVal (c : Nat) : Option Nat :=
  if 48 ≤ c ∧ c ≤ 57 then some (c - 48)
  else if 97 ≤ c ∧ c ≤ 122 then some (c - 97 + 10)
  else if 65 ≤ c ∧ c ≤ 90 then some (c - 65 + 10)
  else none

/-- The digit loop of `ParseUint`: `n = n*base + v` for each digit, an error on a byte that
is not a digit of the base or when the value leaves the range of `bitSize` bits. -/
def ParseUint_loop (base bitSize : Nat) : List Nat → Nat → Except GoError Nat
  | [], n => .ok n
  | c :: rest, n =>
    match digitVal c with
    | none => .error .parse_error
    | some v =>
      if v ≥ base then .error .parse_error
      else if n * base + v ≥ 2 ^ bitSize then .error .parse_error
      else ParseUint_loop base bitSize rest (n * base + v)

/-- Modelled from the spec: `ParseUint` is not under src/ ("integer/unsigned parsing with
explicit base and bit-width"); the reader calls it with base 16 and bit size 64 on four hex
digits.  It is the unsigned number that the digits `s` write in the given base, and an
error for an empty `s`, a byte that is not a digit of the base, or a value that does not
fit `bitSize` bits. -/
def ParseUint (s : List Nat) (base bitSize : Nat) : Except GoError Nat :=
  if s = [] then .error .parse_error else ParseUint_loop base bitSize s 0

/-- The function `utf16.IsSurrogate` of the Go library: `surr1 <= r && r < surr3`. -/
def utf16_IsSurrogate (r : Nat) : Bool := 0xd800 ≤ r && r < 0xe000

/-- The rune `unicode.ReplacementChar`. -/
def unicode_ReplacementChar : Nat := 0xFFFD

/-- The function `utf16.DecodeRune` of the Go library:
`if surr1 <= r1 && r1 < surr2 && surr2 <= r2 && r2 < surr3 { return (r1-surr1)<<10 | (r2 - surr2) + surrSelf }`
and U+FFFD otherwise. -/
def utf16_DecodeRune (r1 r2 : Nat) : Nat :=
  if 0xd800 ≤ r1 ∧ r1 < 0xdc00 ∧ 0xdc00 ≤ r2 ∧ r2 < 0xe000 then
    (((r1 - 0xd800) <<< 10) ||| (r2 - 0xdc00)) + 0x10000
  else unicode_ReplacementChar

/-- The function `utf8.EncodeRune` of the Go library: the one to four bytes it writes for
the rune `r`; a surrogate and a rune above U+10FFFF are written as U+FFFD. -/
def utf8_EncodeRune (r : Nat) : List Nat :=
  if r ≤ 0x7F then [r]
  else if r ≤ 0x7FF then [0xC0 ||| (r >>> 6), 0x80 ||| (r &&& 0x3F)]
  else if r > 0x10FFFF ∨ (0xD800 ≤ r ∧ r ≤ 0xDFFF) then [0xEF, 0xBF, 0xBD]
  else if r ≤ 0xFFFF then
    [0xE0 ||| (r >>> 12), 0x80 ||| ((r >>> 6) &&& 0x3F), 0x80 ||| (r &&& 0x3F)]
  else
    [0xF0 ||| (r >>> 18), 0x80 ||| ((r >>> 12) &&& 0x3F), 0x80 ||| ((r >>> 6) &&& 0x3F),
      0x80 ||| (r &&& 0x3F)]

/-- Modelled from the spec: the type `Buffer` is not under src/ ("an owned, growable byte
accumulator"); a buffer is the list of its bytes and `WriteRune` appends the UTF-8 bytes
of the rune, one byte below `utf8.RuneSelf`. -/
def Buffer_WriteRune (out : List Nat) (r : Nat) : List Nat :=
  if r < 0x80 then out ++ [r] else out ++ utf8_EncodeRune r

/-- The loop of the string scan on the bytes from index `j` on: stop just after the first
byte that has a bit of `sliceStringMask`, and return the index after it and the byte. -/
def aScanString_from : List Nat → Nat → Nat × Nat
  | [], j => (j, 0)
  | c :: rest, j =>
    if byteLookupTable c &&& sliceStringMask = 0 then aScanString_from rest (j + 1)
    else (j + 1, c)

/-- Modelled from the spec: `aScanString` is not under src/ (the "scan to closing quote"
fast path, which stops at a backslash, a quote or an invalid-JSON control byte).  From the
index `j` it skips the bytes that have no bit of `sliceStringMask` and returns the index
just after the first byte that has one, with that byte; at the end of the input it
returns the length of the input and the byte 0. -/
def aScanString (s : List Nat) (j : Nat) : Nat × Nat := aScanString_from (s.drop j) j

/-! ## The reader (reader.go) -/

/-- The type `ffReader`: the input `s`, the cursor `i` and the cached length `l`. -/
structure ffReader where
  s : List Nat
  i : Nat
  l : Nat
  deriving DecidableEq, Repr

/-- The constructor `newffReader`. -/
def newffReader (d : List Nat) : ffReader := { s := d, i := 0, l := d.length }

/-- The method `ffReader.Pos`. -/
def ffReader.Pos (r : ffReader) : Nat := r.i

/-- The method `ffReader.Reset`. -/
def ffReader.Reset (_r : ffReader) (d : List Nat) : ffReader :=
  { s := d, i := 0, l := d.length }

/-- The loop of `ReadByteNoWS`, at the index `j`. -/
def ffReader.ReadByteNoWS_loop (r : ffReader) : Nat → Nat → Option (Except GoError Nat × ffReader)
  | 0, _ => none
  | fuel + 1, j =>
    match r.s[j]? with
    | none => none
    | some c =>
      if whitespaceLookupTable c = false then some (.ok c, { r with i := j + 1 })
      else if j + 1 ≥ r.l then some (.error .EOF, r)
      else ffReader.ReadByteNoWS_loop r fuel (j + 1)

/-- The method `ffReader.ReadByteNoWS`. -/
def ffReader.ReadByteNoWS (r : ffReader) : Option (Except GoError Nat × ffReader) :=
  if r.i ≥ r.l then some (.error .EOF, r)
  else r.ReadByteNoWS_loop (r.l - r.i + 1) r.i

/-- The method `ffReader.ReadByte`. -/
def ffReader.ReadByte (r : ffReader) : Option (Except GoError Nat × ffReader) :=
  if r.i ≥ r.l then some (.error .EOF, r)
  else
    match r.s[r.i]? with
    | none => none
    | some c => some (.ok c, { r with i := r.i + 1 })

/-- The method `ffReader.UnreadByte`: a panic at the beginning of the slice. -/
def ffReader.UnreadByte (r : ffReader) : Option ffReader :=
  if r.i ≤ 0 then none else some { r with i := r.i - 1 }

/-- The loop `for i := 0; i < 4; i++` of `readU4` with `n` passes left: the hex digits read
so far are `u4`, the next index is `j`. -/
def ffReader.readU4_loop (r : ffReader) : Nat → Nat → List Nat → Option (Except GoError (List Nat))
  | 0, _, u4 => some (.ok u4)
  | n + 1, j, u4 =>
    if j ≥ r.l then some (.error .EOF)
    else
      match r.s[j]? with
      | none => none
      | some c =>
        if byteLookupTable c &&& cVHC ≠ 0 then ffReader.readU4_loop r n (j + 1) (u4 ++ [c])
        else some (.error (.lex_string_invalid_hex_char c))

/-- The method `ffReader.readU4`. -/
def ffReader.readU4 (r : ffReader) (j : Nat) : Option (Except GoError Nat) :=
  match r.readU4_loop 4 j [] with
  | none => none
  | some (.error e) => some (.error e)
  | some (.ok u4) =>
    match ParseUint u4 16 64 with
    | .error e => some (.error e)
    | .ok rr => some (.ok rr)

/-- The `switch c` at the end of `handleEscaped`: the byte written for the escape letter. -/
def escapedByte (out : List Nat) (c : Nat) : List Nat :=
  if c = 34 then out ++ [34]
  else if c = 92 then out ++ [92]
  else if c = 47 then out ++ [47]
  else if c = 98 then out ++ [8]
  else if c = 102 then out ++ [12]
  else if c = 110 then out ++ [10]
  else if c = 114 then out ++ [13]
  else if c = 116 then out ++ [9]
  else out

/-- The method `ffReader.handleEscaped`, called with `j` just after a backslash: the new
index or the error, with the new reader and the new contents of `out`. -/
def ffReader.handleEscaped (r : ffReader) (_c : Nat) (j : Nat) (out : List Nat) :
    Option (Except GoError Nat × ffReader × List Nat) :=
  if j ≥ r.l then some (.error .EOF, r, out)
  else
    match r.s[j]? with
    | none => none
    | some c =>
      let j := j + 1
      if c = 117 then
        match r.readU4 j with
        | none => none
        | some (.error e) => some (.error e, r, out)
        | some (.ok ru) =>
          if utf16_IsSurrogate ru then
            match r.readU4 (j + 6) with
            | none => none
            | some (.error e) => some (.error e, r, out)
            | some (.ok ru2) =>
              match goSlice r.s r.i (j - 2) with
              | none => none
              | some b =>
                let out := out ++ b
                let r := { r with i := j + 10 }
                let rval := utf16_DecodeRune ru ru2
                if rval ≠ unicode_ReplacementChar then
                  some (.ok r.i, r, Buffer_WriteRune out rval)
                else some (.error (.lex_string_invalid_unicode_surrogate ru ru2), r, out)
          else
            match goSlice r.s r.i (j - 2) with
            | none => none
            | some b =>
              let r := { r with i := j + 4 }
              some (.ok r.i, r, Buffer_WriteRune (out ++ b) ru)
      else if byteLookupTable c &&& cVEC = 0 then
        some (.error (.lex_string_invalid_escaped_char c), r, out)
      else
        match goSlice r.s r.i (j - 2) with
        | none => none
        | some b =>
          let r := { r with i := j }
          some (.ok r.i, r, escapedByte (out ++ b) c)

/-- The loop of `SliceString`, at the index `j`. -/
def ffReader.SliceString_loop : Nat → ffReader → Nat → List Nat →
    Option (Option GoError × ffReader × List Nat)
  | 0, _, _, _ => none
  | fuel + 1, r, j, out =>
    if j ≥ r.l then some (some .EOF, r, out)
    else
      let jc := aScanString r.s j
      let j := jc.1
      let c := jc.2
      if c = 34 then
        if j ≠ r.i then
          match goSlice r.s r.i (j - 1) with
          | none => none
          | some b => some (none, { r with i := j }, out ++ b)
        else some (none, r, out)
      else if c = 92 then
        match r.handleEscaped c j out with
        | none => none
        | some (.error e, r, out) => some (some e, r, out)
        | some (.ok j, r, out) => ffReader.SliceString_loop fuel r j out
      else if byteLookupTable c &&& cIJC ≠ 0 then
        some (some (.lex_string_invalid_json_char c), r, out)
      else ffReader.SliceString_loop fuel r j out

/-- The method `ffReader.SliceString`: the error or nil, the new reader and the new
contents of `out`. -/
def ffReader.SliceString (r : ffReader) (out : List Nat) :
    Option (Option GoError × ffReader × List Nat) :=
  ffReader.SliceString_loop (r.l - r.i + 1) r r.i out

/-! ## The lexer (lexer.go) -/

/-- The type `FFLexer`.  The field `Output` of the source is the same buffer as
`outputbuf` and has no field of its own here. -/
structure FFLexer where
  reader : ffReader
  outputbuf : List Nat
  Token : FFTok
  lastCurrentChar : Nat
  buf : List Nat
  deriving DecidableEq, Repr

/-- The constructor `NewFFLexer`. -/
def NewFFLexer (input : List Nat) : FFLexer :=
  { Token := .FFTok_init, reader := newffReader input, outputbuf := [],
    lastCurrentChar := 0, buf := [] }

/-- The method `FFLexer.Reset`. -/
def FFLexer.Reset (ffl : FFLexer) (input : List Nat) : FFLexer :=
  { ffl with Token := .FFTok_init, reader := ffl.reader.Reset input, lastCurrentChar := 0,
             outputbuf := [] }

/-- The result of a lexing method: the token and the error (`none` is nil). -/
abbrev TokErr := FFTok × Option GoError

/-- The call `ffl.outputbuf.WriteByte(c)`. -/
def FFLexer.WriteByte (ffl : FFLexer) (c : Nat) : FFLexer :=
  { ffl with outputbuf := ffl.outputbuf ++ [c] }

/-- The method `FFLexer.readByte`. -/
def FFLexer.readByte (ffl : FFLexer) : Option (Except GoError Nat × FFLexer) :=
  match ffl.reader.ReadByte with
  | none => none
  | some (.error _, r) => some (.error (.FFError .FFErr_io), { ffl with reader := r })
  | some (.ok c, r) => some (.ok c, { ffl with reader := r })

/-- The method `FFLexer.unreadByte`. -/
def FFLexer.unreadByte (ffl : FFLexer) : Option FFLexer :=
  match ffl.reader.UnreadByte with
  | none => none
  | some r => some { ffl with reader := r }

/-- The method `FFLexer.wantBytes`. -/
def FFLexer.wantBytes : List Nat → FFTok → FFLexer → Option (TokErr × FFLexer)
  | [], iftrue, ffl => some ((iftrue, none), ffl)
  | b :: want, iftrue, ffl =>
    match ffl.readByte with
    | none => none
    | some (.error err, ffl) => some ((.FFTok_error, some err), ffl)
    | some (.ok c, ffl) =>
      if c ≠ b then
        match ffl.unreadByte with
        | none => none
        | some ffl => some ((.FFTok_error, some (.FFError .FFErr_invalid_string)), ffl)
      else FFLexer.wantBytes want iftrue (ffl.WriteByte c)

/-- The loop of `lexComment` for a `//` comment. -/
def FFLexer.lexComment_line : Nat → FFLexer → Option (TokErr × FFLexer)
  | 0, _ => none
  | fuel + 1, ffl =>
    match ffl.readByte with
    | none => none
    | some (.error err, ffl) => some ((.FFTok_error, some err), ffl)
    | some (.ok c, ffl) =>
      if c = 10 then some ((.FFTok_comment, none), ffl)
      else FFLexer.lexComment_line fuel ffl

/-- The loop of `lexComment` for a `/*` comment. -/
def FFLexer.lexComment_block : Nat → FFLexer → Option (TokErr × FFLexer)
  | 0, _ => none
  | fuel + 1, ffl =>
    match ffl.readByte with
    | none => none
    | some (.error err, ffl) => some ((.FFTok_error, some err), ffl)
    | some (.ok c, ffl) =>
      if c = 42 then
        match ffl.readByte with
        | none => none
        | some (.error err, ffl) => some ((.FFTok_error, some err), ffl)
        | some (.ok c, ffl) =>
          if c = 47 then some ((.FFTok_comment, none), ffl)
          else some ((.FFTok_error, some (.FFError .FFErr_incomplete_comment)), ffl)
      else FFLexer.lexComment_block fuel ffl

/-- The method `FFLexer.lexComment`. -/
def FFLexer.lexComment (ffl : FFLexer) : Option (TokErr × FFLexer) :=
  match ffl.readByte with
  | none => none
  | some (.error err, ffl) => some ((.FFTok_error, some err), ffl)
  | some (.ok c, ffl) =>
    if c = 47 then FFLexer.lexComment_line (ffl.reader.l - ffl.reader.i + 1) ffl
    else if c = 42 then FFLexer.lexComment_block (ffl.reader.l - ffl.reader.i + 1) ffl
    else some ((.FFTok_error, some (.FFError .FFErr_incomplete_comment)), ffl)

/-- The method `FFLexer.lexString`.  `WriteJson` is not under src/: the parameter
`WriteJson` gives the bytes that the call `WriteJson(buf, s)` appends to `buf`. -/
def FFLexer.lexString (WriteJson : List Nat → List Nat) (captureall : Bool) (ffl : FFLexer) :
    Option (TokErr × FFLexer) :=
  if captureall then
    match ffl.reader.SliceString [] with
    | none => none
    | some (some err, r, b) => some ((.FFTok_error, some err), { ffl with reader := r, buf := b })
    | some (none, r, b) =>
      some ((.FFTok_string, none),
        { ffl with reader := r, buf := b, outputbuf := ffl.outputbuf ++ WriteJson b })
  else
    match ffl.reader.SliceString ffl.outputbuf with
    | none => none
    | some (some err, r, out) =>
      some ((.FFTok_error, some err), { ffl with reader := r, outputbuf := out })
    | some (none, r, out) => some ((.FFTok_string, none), { ffl with reader := r, outputbuf := out })

/-- The three loops `for c >= '0' && c <= '9'` of `lexNumber`, entered with the byte `c`
and the count `numRead` (the first of the three does not count): the byte that ended the
loop and the count, or the error of `readByte`. -/
def FFLexer.lexNumber_digits : Nat → Nat → Nat → FFLexer → Option (Except GoError (Nat × Nat) × FFLexer)
  | 0, _, _, _ => none
  | fuel + 1, c, numRead, ffl =>
    if 48 ≤ c ∧ c ≤ 57 then
      match (ffl.WriteByte c).readByte with
      | none => none
      | some (.error err, ffl) => some (.error err, ffl)
      | some (.ok c, ffl) => FFLexer.lexNumber_digits fuel c (numRead + 1) ffl
    else some (.ok (c, numRead), ffl)

/-- The end of `lexNumber`, from the comment `optional exponent` on, entered with the
current byte `c` and the token kind `tok` found so far. -/
def FFLexer.lexNumber_exponent (c : Nat) (tok : FFTok) (ffl : FFLexer) : Option (TokErr × FFLexer) :=
  if c = 101 ∨ c = 69 then
    match (ffl.WriteByte c).readByte with
    | none => none
    | some (.error err, ffl) => some ((.FFTok_error, some err), ffl)
    | some (.ok c, ffl) =>
      let afterSign : Option (Except GoError Nat × FFLexer) :=
        if c = 43 ∨ c = 45 then (ffl.WriteByte c).readByte else some (.ok c, ffl)
      match afterSign with
      | none => none
      | some (.error err, ffl) => some ((.FFTok_error, some err), ffl)
      | some (.ok c, ffl) =>
        match FFLexer.lexNumber_digits (ffl.reader.l - ffl.reader.i + 1) c 0 ffl with
        | none => none
        | some (.error err, ffl) => some ((.FFTok_error, some err), ffl)
        | some (.ok (_, numRead), ffl) =>
          if numRead = 0 then
            some ((.FFTok_error, some (.FFError .FFErr_missing_integer_after_exponent)), ffl)
          else
            match ffl.unreadByte with
            | none => none
            | some ffl => some ((.FFTok_double, none), ffl)
  else
    match ffl.unreadByte with
    | none => none
    | some ffl => some ((tok, none), ffl)

/-- The middle of `lexNumber`, from `if c == '.'` on, entered with the current byte `c`. -/
def FFLexer.lexNumber_fraction (c : Nat) (ffl : FFLexer) : Option (TokErr × FFLexer) :=
  if c = 46 then
    match (ffl.WriteByte c).readByte with
    | none => none
    | some (.error err, ffl) => some ((.FFTok_error, some err), ffl)
    | some (.ok c, ffl) =>
      match FFLexer.lexNumber_digits (ffl.reader.l - ffl.reader.i + 1) c 0 ffl with
      | none => none
      | some (.error err, ffl) => some ((.FFTok_error, some err), ffl)
      | some (.ok (c, numRead), ffl) =>
        if numRead = 0 then
          match ffl.unreadByte with
          | none => none
          | some ffl =>
            some ((.FFTok_error, some (.FFError .FFErr_missing_integer_after_decimal)), ffl)
        else ffl.lexNumber_exponent c .FFTok_double
  else ffl.lexNumber_exponent c .FFTok_integer

/-- The part of `lexNumber` from the comment `a single zero, or a series of integers` on,
entered with the current byte `c`. -/
def FFLexer.lexNumber_integer (c : Nat) (ffl : FFLexer) : Option (TokErr × FFLexer) :=
  if c = 48 then
    match (ffl.WriteByte c).readByte with
    | none => none
    | some (.error err, ffl) => some ((.FFTok_error, some err), ffl)
    | some (.ok c, ffl) => ffl.lexNumber_fraction c
  else if 49 ≤ c ∧ c ≤ 57 then
    match FFLexer.lexNumber_digits (ffl.reader.l - ffl.reader.i + 1) c 0 ffl with
    | none => none
    | some (.error err, ffl) => some ((.FFTok_error, some err), ffl)
    | some (.ok (c, _), ffl) => ffl.lexNumber_fraction c
  else
    match ffl.unreadByte with
    | none => none
    | some ffl => some ((.FFTok_error, some (.FFError .FFErr_missing_integer_after_minus)), ffl)

/-- The method `FFLexer.lexNumber`. -/
def FFLexer.lexNumber (ffl : FFLexer) : Option (TokErr × FFLexer) :=
  match ffl.readByte with
  | none => none
  | some (.error err, ffl) => some ((.FFTok_error, some err), ffl)
  | some (.ok c, ffl) =>
    if c = 45 then
      match (ffl.WriteByte c).readByte with
      | none => none
      | some (.error err, ffl) => some ((.FFTok_error, some err), ffl)
      | some (.ok c, ffl) => ffl.lexNumber_integer c
    else ffl.lexNumber_integer c

/-- The bytes `true_bytes1`. -/
def true_bytes1 : List Nat := [114, 117, 101]
/-- The bytes `false_bytes1`. -/
def false_bytes1 : List Nat := [97, 108, 115, 101]
/-- The bytes `null_bytes`. -/
def null_bytes : List Nat := [117, 108, 108]

/-- The label `lexed` of `Scan`: `ffl.Token = tok; return tok, nil`. -/
def FFLexer.lexed (tok : FFTok) (ffl : FFLexer) : Option (TokErr × FFLexer) :=
  some ((tok, none), { ffl with Token := tok })

/-- A structural single of `Scan`: in capture mode its byte is written. -/
def FFLexer.single (captureall : Bool) (tok : FFTok) (c : Nat) (ffl : FFLexer) :
    Option (TokErr × FFLexer) :=
  FFLexer.lexed tok (if captureall then ffl.WriteByte c else ffl)

/-- The end of a case of `Scan` that calls a lexing method:
`if err != nil { return FFTok_error, err }; goto lexed`. -/
def FFLexer.afterLex : Option (TokErr × FFLexer) → Option (TokErr × FFLexer)
  | none => none
  | some ((tok, none), ffl) => FFLexer.lexed tok ffl
  | some ((_, some err), ffl) => some ((.FFTok_error, some err), ffl)

/-- The `switch c` of `Scan`, for the byte `c` just read; `again` is the next pass of the
`for` loop, taken after a whitespace byte. -/
def FFLexer.Scan_switch (WriteJson : List Nat → List Nat) (captureall : Bool)
    (again : FFLexer → Option (TokErr × FFLexer)) (c : Nat) (ffl : FFLexer) :
    Option (TokErr × FFLexer) :=
  if c = 123 then ffl.single captureall .FFTok_left_bracket 123
  else if c = 125 then ffl.single captureall .FFTok_right_bracket 125
  else if c = 91 then ffl.single captureall .FFTok_left_brace 91
  else if c = 93 then ffl.single captureall .FFTok_right_brace 93
  else if c = 44 then ffl.single captureall .FFTok_comma 44
  else if c = 58 then ffl.single captureall .FFTok_colon 58
  else if c = 9 ∨ c = 10 ∨ c = 11 ∨ c = 12 ∨ c = 13 ∨ c = 32 then
    again (if captureall then ffl.WriteByte c else ffl)
  else if c = 116 then
    FFLexer.afterLex ((ffl.WriteByte 116).wantBytes true_bytes1 .FFTok_bool)
  else if c = 102 then
    FFLexer.afterLex ((ffl.WriteByte 102).wantBytes false_bytes1 .FFTok_bool)
  else if c = 110 then
    FFLexer.afterLex ((ffl.WriteByte 110).wantBytes null_bytes .FFTok_null)
  else if c = 34 then FFLexer.afterLex (ffl.lexString WriteJson captureall)
  else if c = 45 ∨ (48 ≤ c ∧ c ≤ 57) then
    match ffl.unreadByte with
    | none => none
    | some ffl => FFLexer.afterLex ffl.lexNumber
  else if c = 47 then FFLexer.afterLex ffl.lexComment
  else some ((.FFTok_error, some (.FFError .FFErr_invalid_char)), ffl)

/-- The `for` loop of `Scan`: read a byte, then the `switch`. -/
def FFLexer.Scan_loop (WriteJson : List Nat → List Nat) (captureall : Bool) :
    Nat → FFLexer → Option (TokErr × FFLexer)
  | 0, _ => none
  | fuel + 1, ffl =>
    match (if captureall then ffl.reader.ReadByte else ffl.reader.ReadByteNoWS) with
    | none => none
    | some (.error err, r) =>
      if err = .EOF then some ((.FFTok_eof, some err), { ffl with reader := r })
      else some ((.FFTok_error, some err), { ffl with reader := r })
    | some (.ok c, r) =>
      FFLexer.Scan_switch WriteJson captureall (FFLexer.Scan_loop WriteJson captureall fuel) c
        { ffl with reader := r }

/-- The method `FFLexer.Scan`. -/
def FFLexer.Scan (WriteJson : List Nat → List Nat) (captureall : Bool) (ffl : FFLexer) :
    Option (TokErr × FFLexer) :=
  let ffl := if captureall then ffl else { ffl with outputbuf := [] }
  let ffl := { ffl with Token := .FFTok_init }
  FFLexer.Scan_loop WriteJson captureall (ffl.reader.l - ffl.reader.i + 1) ffl

/-- The method `FFLexer.ScanStringValue`: the string (the bytes of the output buffer) or
the error. -/
def FFLexer.ScanStringValue (WriteJson : List Nat → List Nat) (ffl : FFLexer) :
    Option (Except GoError (List Nat) × FFLexer) :=
  match ffl.Scan WriteJson false with
  | none => none
  | some ((_, some err), ffl) => some (.error err, ffl)
  | some ((tok, none), ffl) =>
    if tok ≠ .FFTok_colon then
      some (.error (.wanted_token .FFTok_colon tok ffl.outputbuf), ffl)
    else
      match ffl.Scan WriteJson false with
      | none => none
      | some ((_, some err), ffl) => some (.error err, ffl)
      | some ((tok, none), ffl) =>
        if tok ≠ .FFTok_string then some (.error (.wanted_value .FFTok_string tok), ffl)
        else some (.ok ffl.outputbuf, ffl)

/-- The token that closes the structure opened by `start` in `captureField` and
`SkipField`: `end := FFTok_right_brace; if start == FFTok_left_bracket { end = FFTok_right_bracket }`. -/
def endTok (start : FFTok) : FFTok :=
  if start = .FFTok_left_bracket then .FFTok_right_bracket else .FFTok_right_brace

/-- The loop `scanloop` of `SkipField`. -/
def FFLexer.SkipField_loop (WriteJson : List Nat → List Nat) (start : FFTok) :
    Nat → Nat → FFLexer → Option (Option GoError × FFLexer)
  | 0, _, _ => none
  | fuel + 1, depth, ffl =>
    match ffl.Scan WriteJson false with
    | none => none
    | some ((_, some err), ffl) => some (some err, ffl)
    | some ((tok, none), ffl) =>
      if tok = .FFTok_eof then some (some .unexpected_EOF, ffl)
      else if tok = endTok start then
        if depth - 1 = 0 then some (none, ffl)
        else FFLexer.SkipField_loop WriteJson start fuel (depth - 1) ffl
      else if tok = start then FFLexer.SkipField_loop WriteJson start fuel (depth + 1) ffl
      else FFLexer.SkipField_loop WriteJson start fuel depth ffl

/-- The method `FFLexer.SkipField`. -/
def FFLexer.SkipField (WriteJson : List Nat → List Nat) (start : FFTok) (ffl : FFLexer) :
    Option (Option GoError × FFLexer) :=
  if start = .FFTok_left_brace ∨ start = .FFTok_left_bracket then
    FFLexer.SkipField_loop WriteJson start (ffl.reader.l - ffl.reader.i + 1) 1 ffl
  else if start = .FFTok_bool ∨ start = .FFTok_integer ∨ start = .FFTok_null ∨
      start = .FFTok_double ∨ start = .FFTok_string then
    some (none, ffl)
  else some (some (.invalid_capture_type start), ffl)

/-- The loop `scanloop` of `captureField`. -/
def FFLexer.captureField_loop (WriteJson : List Nat → List Nat) (start : FFTok) :
    Nat → Nat → FFLexer → Option (Except GoError (List Nat) × FFLexer)
  | 0, _, _ => none
  | fuel + 1, depth, ffl =>
    match ffl.Scan WriteJson true with
    | none => none
    | some ((_, some err), ffl) => some (.error err, ffl)
    | some ((tok, none), ffl) =>
      if tok = .FFTok_eof then some (.error .unexpected_EOF, ffl)
      else if tok = endTok start then
        if depth - 1 = 0 then some (.ok ffl.outputbuf, ffl)
        else FFLexer.captureField_loop WriteJson start fuel (depth - 1) ffl
      else if tok = start then FFLexer.captureField_loop WriteJson start fuel (depth + 1) ffl
      else FFLexer.captureField_loop WriteJson start fuel depth ffl

/-- The method `FFLexer.captureField`. -/
def FFLexer.captureField (WriteJson : List Nat → List Nat) (start : FFTok) (ffl : FFLexer) :
    Option (Except GoError (List Nat) × FFLexer) :=
  if start = .FFTok_left_brace ∨ start = .FFTok_left_bracket then
    let ffl := if start = .FFTok_left_bracket then ffl.WriteByte 123 else ffl.WriteByte 91
    FFLexer.captureField_loop WriteJson start (ffl.reader.l - ffl.reader.i + 1) 1 ffl
  else if start = .FFTok_bool ∨ start = .FFTok_integer ∨ start = .FFTok_null ∨
      start = .FFTok_double then
    some (.ok ffl.outputbuf, ffl)
  else if start = .FFTok_string then
    let ffl := { ffl with buf := WriteJson ffl.outputbuf }
    some (.ok ffl.buf, ffl)
  else some (.error (.invalid_capture_type start), ffl)

/-- The method `FFLexer.CaptureField`. -/
def FFLexer.CaptureField (WriteJson : List Nat → List Nat) (start : FFTok) (ffl : FFLexer) :
    Option (Except GoError (List Nat) × FFLexer) :=
  ffl.captureField WriteJson start

/-! ## The grammar of JSON numbers -/

/-- A byte is one of the decimal digits `0`-`9`. -/
def isDigit (c : Nat) : Bool := 48 ≤ c && c ≤ 57

/-- The parts of a text of the JSON number grammar: an optional `-`, the integer part, an
optional fractional part (the digits after the `.`) and an optional exponent (the letter
`e` or `E`, an optional sign, the digits). -/
structure JNumber where
  minus : Bool
  int : List Nat
  frac : Option (List Nat)
  exp : Option (Nat × Option Nat × List Nat)
  deriving DecidableEq, Repr

/-- The integer part is a single `0`, or a nonzero digit followed by digits. -/
def intPartOk : List Nat → Bool
  | [] => false
  | c :: ds => (c == 48 && ds == []) || (49 ≤ c && c ≤ 57 && ds.all isDigit)

/-- A fractional part has one or more digits. -/
def fracOk : Option (List Nat) → Bool
  | none => true
  | some ds => ds != [] && ds.all isDigit

/-- An exponent has the letter `e` or `E`, at most one sign `+` or `-`, and one or more
digits. -/
def expOk : Option (Nat × Option Nat × List Nat) → Bool
  | none => true
  | some (e, sign, ds) =>
    (e == 101 || e == 69) && (sign == none || sign == some 43 || sign == some 45) &&
      ds != [] && ds.all isDigit

/-- The parts are those of a JSON number: the integer part is a single `0` or a nonzero
digit followed by digits, a fractional part has one or more digits, and an exponent has
the letter `e` or `E`, at most one sign `+` or `-`, and one or more digits. -/
def JNumber.wf (n : JNumber) : Bool :=
  intPartOk n.int && fracOk n.frac && expOk n.exp

/-- The bytes of the fractional part. -/
def renderFrac : Option (List Nat) → List Nat
  | none => []
  | some ds => 46 :: ds

/-- The bytes of the exponent. -/
def renderExp : Option (Nat × Option Nat × List Nat) → List Nat
  | none => []
  | some (e, none, ds) => e :: ds
  | some (e, some sign, ds) => e :: sign :: ds

/-- The text of a number: its parts in order. -/
def JNumber.render (n : JNumber) : List Nat :=
  (if n.minus then [45] else []) ++ n.int ++ renderFrac n.frac ++ renderExp n.exp

/-- The token kind of a number: `FFTok_integer` when it has neither a fractional part nor
an exponent, `FFTok_double` otherwise. -/
def JNumber.kind (n : JNumber) : FFTok :=
  if n.frac.isNone && n.exp.isNone then .FFTok_integer else .FFTok_double

/-- The byte `d` cannot follow the exponent `exp` (or, when there is none, start one). -/
def expStoppedBy (exp : Option (Nat × Option Nat × List Nat)) (d : Nat) : Bool :=
  match exp with
  | some _ => !isDigit d
  | none => d != 101 && d != 69

/-- The byte `d` cannot follow the fractional part and the exponent. -/
def fracStoppedBy (frac : Option (List Nat)) (exp : Option (Nat × Option Nat × List Nat))
    (d : Nat) : Bool :=
  expStoppedBy exp d &&
    match frac, exp with
    | some _, none => !isDigit d
    | none, none => d != 46
    | _, some _ => true

/-- The byte `d` cannot continue the number `n`: it is not a digit where the last part of
`n` is a run of digits that may go on (all but a lone integer `0`), not a `.` where a
fractional part may start and not `e` or `E` where an exponent may start. -/
def JNumber.stoppedBy (n : JNumber) (d : Nat) : Bool :=
  fracStoppedBy n.frac n.exp d &&
    match n.frac, n.exp with
    | none, none => n.int == [48] || !isDigit d
    | _, _ => true

/-- The bytes after a number are empty or start with a byte that satisfies `ok`. -/
def headOk (ok : Nat → Bool) : List Nat → Bool
  | [] => true
  | d :: _ => ok d

/-- The outcome of number lexing by the bytes `tail` that follow the number: the error
of `readByte` when there are none, the token `tok` otherwise. -/
def numberResult (tok : FFTok) (tail : List Nat) : TokErr :=
  match tail with
  | [] => (.FFTok_error, some (.FFError .FFErr_io))
  | _ :: _ => (tok, none)

/-! ## The grammar of JSON strings -/

/-- A byte is a hex digit: `0`-`9`, `a`-`f` or `A`-`F`. -/
def isHexDigit (c : Nat) : Bool :=
  (48 ≤ c && c ≤ 57) || (97 ≤ c && c ≤ 102) || (65 ≤ c && c ≤ 70)

/-- The value of a hex digit, in either letter case. -/
def hexDigitValue (c : Nat) : Nat :=
  if c ≤ 57 then c - 48 else if c ≤ 70 then c - 55 else c - 87

/-- The number that four hex digits write. -/
def hex4 (h1 h2 h3 h4 : Nat) : Nat :=
  hexDigitValue h1 * 4096 + hexDigitValue h2 * 256 + hexDigitValue h3 * 16 + hexDigitValue h4

/-- The UTF-8 encoding of a code point, as RFC 3629 defines it: one byte below U+0080, two
below U+0800, three below U+10000 and four from there on, the leading byte carrying the
high bits and each continuation byte six more bits. -/
def utf8 (cp : Nat) : List Nat :=
  if cp < 0x80 then [cp]
  else if cp < 0x800 then [0xC0 + cp / 64, 0x80 + cp % 64]
  else if cp < 0x10000 then [0xE0 + cp / 4096, 0x80 + cp / 64 % 64, 0x80 + cp % 64]
  else [0xF0 + cp / 262144, 0x80 + cp / 4096 % 64, 0x80 + cp / 64 % 64, 0x80 + cp % 64]

/-- The byte that a two-character escape stands for, by its letter: the eight escapes
`\"`, `\\`, `\/`, `\b`, `\f`, `\n`, `\r`, `\t`. -/
def escapeByte (c : Nat) : Option Nat :=
  if c = 34 then some 0x22
  else if c = 92 then some 0x5C
  else if c = 47 then some 0x2F
  else if c = 98 then some 0x08
  else if c = 102 then some 0x0C
  else if c = 110 then some 0x0A
  else if c = 114 then some 0x0D
  else if c = 116 then some 0x09
  else none

/-- A byte that may stand for itself in a string: no control character (below 0x20), no
backslash and no quote. -/
def isPlain (c : Nat) : Bool := 32 ≤ c && c != 34 && c != 92

/-- The scalar value of a UTF-16 surrogate pair. -/
def pairValue (hi lo : Nat) : Nat := 0x10000 + (hi - 0xD800) * 0x400 + (lo - 0xDC00)

/-- An item of a string body: a plain byte, a two-character escape (by its letter), a
`\uXXXX` escape of a code point that is not a surrogate, or a `\uXXXX\uXXXX` escape of a
high and a low surrogate. -/
inductive JStrItem where
  | raw (c : Nat)
  | esc (c : Nat)
  | u4 (h1 h2 h3 h4 : Nat)
  | pair (h1 h2 h3 h4 l1 l2 l3 l4 : Nat)
  deriving DecidableEq, Repr

/-- The item is one of the string grammar. -/
def JStrItem.wf : JStrItem → Bool
  | .raw c => isPlain c
  | .esc c => (escapeByte c).isSome
  | .u4 h1 h2 h3 h4 =>
    isHexDigit h1 && isHexDigit h2 && isHexDigit h3 && isHexDigit h4 &&
      !(0xD800 ≤ hex4 h1 h2 h3 h4 && hex4 h1 h2 h3 h4 ≤ 0xDFFF)
  | .pair h1 h2 h3 h4 l1 l2 l3 l4 =>
    isHexDigit h1 && isHexDigit h2 && isHexDigit h3 && isHexDigit h4 &&
      isHexDigit l1 && isHexDigit l2 && isHexDigit l3 && isHexDigit l4 &&
      (0xD800 ≤ hex4 h1 h2 h3 h4 && hex4 h1 h2 h3 h4 ≤ 0xDBFF) &&
      (0xDC00 ≤ hex4 l1 l2 l3 l4 && hex4 l1 l2 l3 l4 ≤ 0xDFFF)

/-- The bytes of the item in the JSON text. -/
def JStrItem.render : JStrItem → List Nat
  | .raw c => [c]
  | .esc c => [92, c]
  | .u4 h1 h2 h3 h4 => [92, 117, h1, h2, h3, h4]
  | .pair h1 h2 h3 h4 l1 l2 l3 l4 => [92, 117, h1, h2, h3, h4, 92, 117, l1, l2, l3, l4]

/-- The bytes that the item stands for. -/
def JStrItem.decode : JStrItem → List Nat
  | .raw c => [c]
  | .esc c => (escapeByte c).toList
  | .u4 h1 h2 h3 h4 => utf8 (hex4 h1 h2 h3 h4)
  | .pair h1 h2 h3 h4 l1 l2 l3 l4 => utf8 (pairValue (hex4 h1 h2 h3 h4) (hex4 l1 l2 l3 l4))

/-- All the items are of the string grammar. -/
def itemsOk : List JStrItem → Bool
  | [] => true
  | x :: xs => x.wf && itemsOk xs

/-- The text of a string body: the bytes of its items in order. -/
def renderItems : List JStrItem → List Nat
  | [] => []
  | x :: xs => x.render ++ renderItems xs

/-- The content of a string body: the bytes its items stand for, in order. -/
def decodeItems : List JStrItem → List Nat
  | [] => []
  | x :: xs => x.decode ++ decodeItems xs

/-- The bytes after an opening quote hold a closing quote: a quote that is not the second
byte of a backslash pair.  The bytes are read from the left; a backslash takes the byte
after it with it. -/
def hasClosingQuote : List Nat → Bool
  | [] => false
  | [c] => c == 34
  | c :: d :: rest =>
    if c = 34 then true
    else if c = 92 then hasClosingQuote rest
    else hasClosingQuote (d :: rest)

/-- The token of a structural byte. -/
def singleTok (c : Nat) : FFTok :=
  if c = 123 then .FFTok_left_bracket
  else if c = 125 then .FFTok_right_bracket
  else if c = 91 then .FFTok_left_brace
  else if c = 93 then .FFTok_right_brace
  else if c = 44 then .FFTok_comma
  else .FFTok_colon

/-- The byte is one of the six structural bytes `{`, `}`, `[`, `]`, `,`, `:`. -/
def isSingle (c : Nat) : Bool :=
  c == 123 || c == 125 || c == 91 || c == 93 || c == 44 || c == 58

/-- The text of a literal: `null` for 0, `true` for 1, `false` otherwise. -/
def literalText (which : Nat) : List Nat :=
  if which = 0 then [110, 117, 108, 108]
  else if which = 1 then [116, 114, 117, 101]
  else [102, 97, 108, 115, 101]

/-- The token of a literal. -/
def literalTok (which : Nat) : FFTok :=
  if which = 0 then .FFTok_null else .FFTok_bool

/-! ## States used in the statements -/

/-- The reader over the input `a ++ b` with the cursor just after `a`. -/
def rd (a b : List Nat) : ffReader := { s := a ++ b, i := a.length, l := (a ++ b).length }

/-- A reader as `newffReader` and `Reset` make it and as the methods keep it: the cached
length is the length of the input and the cursor is inside it. -/
def ffReader.wf (r : ffReader) : Prop := r.l = r.s.length ∧ r.i ≤ r.l

instance (r : ffReader) : Decidable r.wf := by
  unfold ffReader.wf
  infer_instance

/-- The byte is one of the six that `whitespaceLookupTable` marks. -/
def isWS (c : Nat) : Bool := c == 9 || c == 10 || c == 11 || c == 12 || c == 13 || c == 32

/-! ## The grammar of JSON values -/

/-- A byte is JSON whitespace: space, tab, line feed or carriage return. -/
def isJsonWS (c : Nat) : Bool := c == 32 || c == 9 || c == 10 || c == 13

/-- The three levels of the value grammar: a value, the elements of an array (one or
more, separated by commas) and the members of an object (one or more, separated by
commas). -/
inductive JKind where
  | value
  | elements
  | members
  deriving DecidableEq, Repr

/-- The syntax of a JSON text, whitespace included.  Whitespace stands before the token it
precedes: `ws1` before the first token of a value or before a key, `ws2` before a colon or
a comma, `ws3` before the value of a member, `ws` before a closing bracket or brace.  A
literal is `null` for 0, `true` for 1 and `false` for any other number. -/
inductive JSyn : JKind → Type where
  | literal (which : Nat) : JSyn .value
  | number (n : JNumber) : JSyn .value
  | string (s : List JStrItem) : JSyn .value
  | emptyArray (ws : List Nat) : JSyn .value
  | array (es : JSyn .elements) (ws : List Nat) : JSyn .value
  | emptyObject (ws : List Nat) : JSyn .value
  | object (ms : JSyn .members) (ws : List Nat) : JSyn .value
  | element (ws1 : List Nat) (v : JSyn .value) : JSyn .elements
  | elements (ws1 : List Nat) (v : JSyn .value) (ws2 : List Nat) (rest : JSyn .elements) :
      JSyn .elements
  | member (ws1 : List Nat) (key : List JStrItem) (ws2 ws3 : List Nat) (v : JSyn .value) :
      JSyn .members
  | members (ws1 : List Nat) (key : List JStrItem) (ws2 ws3 : List Nat) (v : JSyn .value)
      (ws4 : List Nat) (rest : JSyn .members) : JSyn .members

/-- The text of a JSON syntax tree. -/
def JSyn.render : {k : JKind} → JSyn k → List Nat
  | _, .literal which => literalText which
  | _, .number n => n.render
  | _, .string s => 34 :: (renderItems s ++ [34])
  | _, .emptyArray ws => 91 :: (ws ++ [93])
  | _, .array es ws => 91 :: (es.render ++ (ws ++ [93]))
  | _, .emptyObject ws => 123 :: (ws ++ [125])
  | _, .object ms ws => 123 :: (ms.render ++ (ws ++ [125]))
  | _, .element ws1 v => ws1 ++ v.render
  | _, .elements ws1 v ws2 rest => ws1 ++ (v.render ++ (ws2 ++ 44 :: rest.render))
  | _, .member ws1 key ws2 ws3 v =>
    ws1 ++ (34 :: (renderItems key ++ 34 :: (ws2 ++ 58 :: (ws3 ++ v.render))))
  | _, .members ws1 key ws2 ws3 v ws4 rest =>
    ws1 ++ (34 :: (renderItems key ++ 34 :: (ws2 ++ 58 :: (ws3 ++ (v.render ++
      (ws4 ++ 44 :: rest.render))))))

/-- The tree is well formed: its numbers and strings are of their grammars and its
whitespace is JSON whitespace. -/
def JSyn.wf : {k : JKind} → JSyn k → Bool
  | _, .literal _ => true
  | _, .number n => n.wf
  | _, .string s => itemsOk s
  | _, .emptyArray ws => ws.all isJsonWS
  | _, .array es ws => es.wf && ws.all isJsonWS
  | _, .emptyObject ws => ws.all isJsonWS
  | _, .object ms ws => ms.wf && ws.all isJsonWS
  | _, .element ws1 v => ws1.all isJsonWS && v.wf
  | _, .elements ws1 v ws2 rest => ws1.all isJsonWS && v.wf && ws2.all isJsonWS && rest.wf
  | _, .member ws1 key ws2 ws3 v =>
    ws1.all isJsonWS && itemsOk key && ws2.all isJsonWS && ws3.all isJsonWS && v.wf
  | _, .members ws1 key ws2 ws3 v ws4 rest =>
    ws1.all isJsonWS && itemsOk key && ws2.all isJsonWS && ws3.all isJsonWS && v.wf &&
      ws4.all isJsonWS && rest.wf

/-- The number of tokens of the tree. -/
def JSyn.tokens : {k : JKind} → JSyn k → Nat
  | _, .literal _ => 1
  | _, .number _ => 1
  | _, .string _ => 1
  | _, .emptyArray _ => 2
  | _, .array es _ => es.tokens + 2
  | _, .emptyObject _ => 2
  | _, .object ms _ => ms.tokens + 2
  | _, .element _ v => v.tokens
  | _, .elements _ v _ rest => v.tokens + 1 + rest.tokens
  | _, .member _ _ _ _ v => v.tokens + 2
  | _, .members _ _ _ _ v _ rest => v.tokens + 3 + rest.tokens

/-- The value is an array or an object. -/
def JSyn.isContainer : JSyn .value → Bool
  | .emptyArray _ => true
  | .array _ _ => true
  | .emptyObject _ => true
  | .object _ _ => true
  | _ => false

/-- The bytes start with one that can follow a value inside an array or an object:
whitespace, a comma, or a closing bracket or brace. -/
def delimHead : List Nat → Bool
  | [] => false
  | d :: _ => isWS d || d == 44 || d == 93 || d == 125

/-! ## The value scanners (lexer.go) -/

/-- The bytes `true_bytes`. -/
def true_bytes : List Nat := [116, 114, 117, 101]
/-- The bytes `false_bytes`. -/
def false_bytes : List Nat := [102, 97, 108, 115, 101]

/-- Modelled from the spec: `ParseInt` is not under src/ ("integer/unsigned parsing with
explicit base and bit-width").  An optional sign `+` or `-`, then the digits as `ParseUint`
reads them; an error when the value does not fit a signed integer of `bitSize` bits. -/
def ParseInt (s : List Nat) (base bitSize : Nat) : Except GoError Int :=
  match s with
  | [] => .error .parse_error
  | c :: rest =>
    match ParseUint (if c = 43 ∨ c = 45 then rest else s) base 64 with
    | .error e => .error e
    | .ok un =>
      if c ≠ 45 ∧ un ≥ 2 ^ (bitSize - 1) then .error .parse_error
      else if c = 45 ∧ un > 2 ^ (bitSize - 1) then .error .parse_error
      else .ok (if c = 45 then -(un : Int) else (un : Int))

/-- The method `FFLexer.ScanIntValue`: the value or the error (`.error err` is the return
`0, err`). -/
def FFLexer.ScanIntValue (WriteJson : List Nat → List Nat) (bitSize : Nat) (ffl : FFLexer) :
    Option (Except GoError Int × FFLexer) :=
  match ffl.Scan WriteJson false with
  | none => none
  | some ((_, some err), ffl) => some (.error err, ffl)
  | some ((tok, none), ffl) =>
    if tok ≠ .FFTok_colon then
      some (.error (.wanted_token .FFTok_colon tok ffl.outputbuf), ffl)
    else
      match ffl.Scan WriteJson false with
      | none => none
      | some ((_, some err), ffl) => some (.error err, ffl)
      | some ((tok, none), ffl) =>
        if tok ≠ .FFTok_integer then some (.error (.wanted_value .FFTok_integer tok), ffl)
        else some (ParseInt ffl.outputbuf 10 bitSize, ffl)

/-- The method `FFLexer.ScanUintValue`: the value or the error (`.error err` is the return
`0, err`). -/
def FFLexer.ScanUintValue (WriteJson : List Nat → List Nat) (bitSize : Nat) (ffl : FFLexer) :
    Option (Except GoError Nat × FFLexer) :=
  match ffl.Scan WriteJson false with
  | none => none
  | some ((_, some err), ffl) => some (.error err, ffl)
  | some ((tok, none), ffl) =>
    if tok ≠ .FFTok_colon then
      some (.error (.wanted_token .FFTok_colon tok ffl.outputbuf), ffl)
    else
      match ffl.Scan WriteJson false with
      | none => none
      | some ((_, some err), ffl) => some (.error err, ffl)
      | some ((tok, none), ffl) =>
        if tok ≠ .FFTok_integer then some (.error (.wanted_value .FFTok_integer tok), ffl)
        else some (ParseUint ffl.outputbuf 10 bitSize, ffl)

/-- The method `FFLexer.ScanBoolValue`: the value or the error (`.error err` is the return
`false, err`). -/
def FFLexer.ScanBoolValue (WriteJson : List Nat → List Nat) (_bitSize : Nat) (ffl : FFLexer) :
    Option (Except GoError Bool × FFLexer) :=
  match ffl.Scan WriteJson false with
  | none => none
  | some ((_, some err), ffl) => some (.error err, ffl)
  | some ((tok, none), ffl) =>
    if tok ≠ .FFTok_colon then
      some (.error (.wanted_token .FFTok_colon tok ffl.outputbuf), ffl)
    else
      match ffl.Scan WriteJson false with
      | none => none
      | some ((_, some err), ffl) => some (.error err, ffl)
      | some ((tok, none), ffl) =>
        if tok ≠ .FFTok_bool then some (.error (.wanted_value .FFTok_bool tok), ffl)
        else if true_bytes = ffl.outputbuf then some (.ok true, ffl)
        else if false_bytes = ffl.outputbuf then some (.ok false, ffl)
        else some (.error .unknow_bool_value, ffl)

/-- The method `FFLexer.ScanFloatValue`: the value or the error (`.error err` is the
return `0, err`).  `ParseFloat` is not under src/ and a `float64` has no counterpart here:
the parameter `ParseFloat` gives what the call `ParseFloat(bytes, bitSize)` returns, in a
type `F` of values. -/
def FFLexer.ScanFloatValue {F : Type} (ParseFloat : List Nat → Nat → Except GoError F)
    (WriteJson : List Nat → List Nat) (ffl : FFLexer) : Option (Except GoError F × FFLexer) :=
  match ffl.Scan WriteJson false with
  | none => none
  | some ((_, some err), ffl) => some (.error err, ffl)
  | some ((tok, none), ffl) =>
    if tok ≠ .FFTok_colon then
      some (.error (.wanted_token .FFTok_colon tok ffl.outputbuf), ffl)
    else
      match ffl.Scan WriteJson false with
      | none => none
      | some ((_, some err), ffl) => some (.error err, ffl)
      | some ((tok, none), ffl) =>
        if tok ≠ .FFTok_double then some (.error (.wanted_value .FFTok_double tok), ffl)
        else some (ParseFloat ffl.outputbuf 64, ffl)

/-- The method `FFLexer.ScanToValue`: the token and the error. -/
def FFLexer.ScanToValue (WriteJson : List Nat → List Nat) (ffl : FFLexer) :
    Option (TokErr × FFLexer) :=
  match ffl.Scan WriteJson false with
  | none => none
  | some ((tok, some err), ffl) => some ((tok, some err), ffl)
  | some ((tok, none), ffl) =>
    if tok ≠ .FFTok_colon then
      some ((tok, some (.wanted_token .FFTok_colon tok ffl.outputbuf)), ffl)
    else
      match ffl.Scan WriteJson false with
      | none => none
      | some ((tok, some err), ffl) => some ((tok, some err), ffl)
      | some ((tok, none), ffl) =>
        if tok = .FFTok_left_brace ∨ tok = .FFTok_left_bracket ∨ tok = .FFTok_integer ∨
            tok = .FFTok_double ∨ tok = .FFTok_string ∨ tok = .FFTok_bool ∨ tok = .FFTok_null then
          some ((tok, none), ffl)
        else some ((tok, some (.wanted_value_token tok)), ffl)

/-- The error is one that Scan returns: an `*FFError`, `io.EOF` or an error of the string
reader, and none of the errors that the value scanners, captureField and SkipField make
themselves. -/
def GoError.fromLexing : GoError → Bool
  | .FFError _ => true
  | .EOF => true
  | .lex_string_invalid_hex_char _ => true
  | .lex_string_invalid_unicode_surrogate _ _ => true
  | .lex_string_invalid_escaped_char _ => true
  | .lex_string_invalid_json_char _ => true
  | .parse_error => true
  | _ => false

/-- A lexing step `f` run on any lexer over the input `a ++ b` with the cursor after `a`,
whatever its buffers and its last token: it returns the token and error `te`, and when the
error is nil the cursor is after `a2` in the same input `a2 ++ b2`. -/
def StepsTo (f : FFLexer → Option (TokErr × FFLexer)) (a b : List Nat) (k : Nat) (te : TokErr)
    (a2 b2 : List Nat) : Prop :=
  ∀ (out : List Nat) (T : FFTok) (bf : List Nat), ∃ r2 out2 T2 bf2,
    f (FFLexer.mk (rd a b) out T k bf) = some (te, FFLexer.mk r2 out2 T2 k bf2) ∧
    (te.2 = none → r2 = rd a2 b2)

/-- A lexing step `f` (in either mode) is uniform on the input `a ++ b` with the cursor
after `a`: it always returns, the token and error are the same in both modes and for all
buffers, an error is one of the lexing errors, and with a nil error the cursor is left at
an index that is at least `lo` of the same input. -/
def Lexed (f : Bool → FFLexer → Option (TokErr × FFLexer)) (a b : List Nat) (k lo : Nat) :
    Prop :=
  ∃ te a2 b2, a2 ++ b2 = a ++ b ∧ (te.2 = none → lo ≤ a2.length) ∧
    (∀ e, te.2 = some e → e.fromLexing = true) ∧
    ∀ captureall, StepsTo (f captureall) a b k te a2 b2

/-- Successive calls of Scan: the tokens that `n` calls return, each with a nil error,
and the lexer after them; `none` when one of the calls returns an error. -/
def FFLexer.scans (WriteJson : List Nat → List Nat) (captureall : Bool) :
    Nat → FFLexer → Option (List FFTok × FFLexer)
  | 0, ffl => some ([], ffl)
  | n + 1, ffl =>
    match ffl.Scan WriteJson captureall with
    | some ((tok, none), ffl) =>
      match FFLexer.scans WriteJson captureall n ffl with
      | some (toks, ffl) => some (tok :: toks, ffl)
      | none => none
    | _ => none

/-! ## The values that JSON text denotes -/

/-- A JSON value as data: a literal or a number by its text, a string by its content, an
array by its items and an object by its members, each a key (by its content) and a
value. -/
inductive JVal where
  | literal (text : List Nat)
  | number (text : List Nat)
  | string (content : List Nat)
  | array (items : List JVal)
  | object (members : List (List Nat × JVal))

/-- The values that a syntax tree denotes, in order, each with the content of its key when
it is the value of a member: one value for a tree of kind value, the items for elements,
the members for members.  Whitespace denotes nothing. -/
def JSyn.denote : {k : JKind} → JSyn k → List (Option (List Nat) × JVal)
  | _, .literal which => [(none, .literal (literalText which))]
  | _, .number n => [(none, .number n.render)]
  | _, .string s => [(none, .string (decodeItems s))]
  | _, .emptyArray _ => [(none, .array [])]
  | _, .array es _ => [(none, .array (es.denote.map (fun p => p.2)))]
  | _, .emptyObject _ => [(none, .object [])]
  | _, .object ms _ => [(none, .object (ms.denote.map (fun p => (p.1.getD [], p.2))))]
  | _, .element _ v => v.denote
  | _, .elements _ v _ rest => v.denote ++ rest.denote
  | _, .member _ key _ _ v => v.denote.map (fun p => (some (decodeItems key), p.2))
  | _, .members _ key _ _ v _ rest =>
    v.denote.map (fun p => (some (decodeItems key), p.2)) ++ rest.denote

/-- The syntax tree with every string, keys included, written anew from its content by
`q`; whitespace, literals and numbers are kept. -/
def JSyn.requote (q : List Nat → List JStrItem) : {k : JKind} → JSyn k → JSyn k
  | _, .literal which => .literal which
  | _, .number n => .number n
  | _, .string s => .string (q (decodeItems s))
  | _, .emptyArray ws => .emptyArray ws
  | _, .array es ws => .array (es.requote q) ws
  | _, .emptyObject ws => .emptyObject ws
  | _, .object ms ws => .object (ms.requote q) ws
  | _, .element ws1 v => .element ws1 (v.requote q)
  | _, .elements ws1 v ws2 rest => .elements ws1 (v.requote q) ws2 (rest.requote q)
  | _, .member ws1 key ws2 ws3 v => .member ws1 (q (decodeItems key)) ws2 ws3 (v.requote q)
  | _, .members ws1 key ws2 ws3 v ws4 rest =>
    .members ws1 (q (decodeItems key)) ws2 ws3 (v.requote q) ws4 (rest.requote q)

/-- The hex digit (lower case) of a number below 16. -/
def hexDigit (d : Nat) : Nat := if d < 10 then 48 + d else 87 + d

/-- A way to write one byte of a string: itself when it is plain, the escapes `\"` and
`\\` for a quote and a backslash, and the escape `\u00XX` for a control byte. -/
def quoteItem (c : Nat) : JStrItem :=
  if isPlain c then .raw c
  else if c = 34 then .esc 34
  else if c = 92 then .esc 92
  else .u4 48 48 (hexDigit (c / 16)) (hexDigit (c % 16))

/-- A writer of JSON strings that emits a valid string literal which decodes to its
argument: the quoted items of `quoteItem`. -/
def quoteJson (s : List Nat) : List Nat := 34 :: (renderItems (s.map quoteItem) ++ [34])

/-! ## Positions (reader.go, lexer.go) -/

/-- The loop `for i := 0; i < r.i; i++` of `PosWithLine` with `n` passes left, at the index
`i`: a panic (`none`) when the index is outside the input. -/
def ffReader.PosWithLine_loop (r : ffReader) : Nat → Nat → Nat → Nat → Option (Nat × Nat)
  | 0, _, currentLine, currentChar => some (currentLine, currentChar)
  | n + 1, i, currentLine, currentChar =>
    match r.s[i]? with
    | none => none
    | some c =>
      if c = 10 then ffReader.PosWithLine_loop r n (i + 1) (currentLine + 1) 0
      else ffReader.PosWithLine_loop r n (i + 1) currentLine (currentChar + 1)

/-- The method `ffReader.PosWithLine`: the line and the offset in the line. -/
def ffReader.PosWithLine (r : ffReader) : Option (Nat × Nat) :=
  r.PosWithLine_loop r.i 0 1 0

/-- The type `LexerError`. -/
structure LexerError where
  offset : Nat
  line : Nat
  char : Nat
  err : GoError
  deriving DecidableEq, Repr

/-- The method `FFLexer.WrapErr`. -/
def FFLexer.WrapErr (ffl : FFLexer) (err : GoError) : Option LexerError :=
  match ffl.reader.PosWithLine with
  | none => none
  | some (line, char) => some { offset := ffl.reader.Pos, line := line, char := char, err := err }

/-! ## Sequences of reader operations -/

/-- The operations of the reader that move the cursor; `SliceString` comes with the
contents of the buffer it is given. -/
inductive ReaderOp where
  | ReadByte
  | ReadByteNoWS
  | UnreadByte
  | SliceString (out : List Nat)
  | Reset (d : List Nat)
  deriving DecidableEq, Repr

/-- One reader operation: the reader after it, `none` for a panic. -/
def ReaderOp.run : ReaderOp → ffReader → Option ffReader
  | .ReadByte, r => r.ReadByte.map (fun p => p.2)
  | .ReadByteNoWS, r => r.ReadByteNoWS.map (fun p => p.2)
  | .UnreadByte, r => r.UnreadByte
  | .SliceString out, r => (r.SliceString out).map (fun p => p.2.1)
  | .Reset d, r => some (r.Reset d)

/-- The readers after each of the operations of a sequence, up to the first panic. -/
def ffReader.after : List ReaderOp → ffReader → List ffReader
  | [], _ => []
  | op :: ops, r =>
    match op.run r with
    | none => []
    | some r2 => r2 :: ffReader.after ops r2

/-! ## Formatting numbers into a buffer (buffer_encoding.go) -/

/-- The character of the digit `d` in the alphabet `0`-`9`, `a`-`z`. -/
def formatDigit (d : Nat) : Nat := if d < 10 then 48 + d else 87 + d

/-- The digit loop of `formatBits2`: the digits of `u` in the base, the lowest first, each
put in front of `a`. -/
def formatBits2_loop (base : Nat) : Nat → Nat → List Nat → List Nat
  | 0, _, a => a
  | fuel + 1, u, a =>
    if u ≥ base then formatBits2_loop base fuel (u / base) (formatDigit (u % base) :: a)
    else formatDigit u :: a

/-- Modelled from the spec: `formatBits2` is not under src/ ("integer formatting into a
Buffer", "format in an arbitrary base (2-36) without intermediate string allocation").  It
appends to the buffer the digits of the 64-bit value `u` in the base, after a `-` and for
the value `-u` (in 64 bits) when `neg` is set; a base outside 2-36 is a panic.  The array
of the digits has room for 64 digits and the sign. -/
def formatBits2 (buf : List Nat) (u : Nat) (base : Nat) (neg : Bool) : Option (List Nat) :=
  if base < 2 ∨ base > 36 then none
  else
    let u := if neg then (2 ^ 64 - u) % 2 ^ 64 else u
    let a := formatBits2_loop base 65 u []
    some (buf ++ (if neg then 45 :: a else a))

/-- The method `Buffer.AppendInt`, for an `int64` `n`: `uint64(n)` is `n` modulo `2^64`. -/
def Buffer_AppendInt (buf : List Nat) (n : Int) (base : Nat) : Option (List Nat) :=
  formatBits2 buf (n % 2 ^ 64).toNat base (decide (n < 0))

/-- The method `Buffer.AppendUint`, for a `uint64` `u`. -/
def Buffer_AppendUint (buf : List Nat) (u : Nat) (base : Nat) : Option (List Nat) :=
  formatBits2 buf u base false

/-- Modelled from the spec: the type `Buffer` is not under src/; `Reset` leaves the buffer
with the length 0 ("length = 0, capacity retained"). -/
def Buffer_Reset (_buf : List Nat) : List Nat := []

/-- The number that a text of decimal digits writes. -/
def decimalValue (ds : List Nat) : Nat := ds.foldl (fun acc d => acc * 10 + (d - 48)) 0

/-- The decimal text of a natural number: its digits, the highest first, with no leading
zero; the text of 0 is `0`. -/
def decimalText (u : Nat) : List Nat :=
  if u = 0 then [48] else (Nat.digits 10 u).reverse.map (fun d => 48 + d)

/-! ## The errors by their origin -/

/-- The kinds of the errors that the lexer makes with `NewFFError`: the seven kinds that
occur in a call `NewFFError(kind)` of lexer.go. -/
def FFErrKind.ofScan : FFErrKind → Bool
  | .FFErr_io => true
  | .FFErr_invalid_char => true
  | .FFErr_invalid_string => true
  | .FFErr_missing_integer_after_decimal => true
  | .FFErr_missing_integer_after_exponent => true
  | .FFErr_missing_integer_after_minus => true
  | .FFErr_incomplete_comment => true
  | _ => false

/-- The error is an `*FFError` of one of the kinds that the lexer uses. -/
def GoError.kinded : GoError → Bool
  | .FFError k => k.ofScan
  | _ => false

/-- The error is one that `SliceString` returns for a string body: `io.EOF`, one of the
`fmt.Errorf` errors of reader.go, or the error of `ParseUint`. -/
def GoError.fromStringBody : GoError → Bool
  | .EOF => true
  | .lex_string_invalid_hex_char _ => true
  | .lex_string_invalid_unicode_surrogate _ _ => true
  | .lex_string_invalid_escaped_char _ => true
  | .lex_string_invalid_json_char _ => true
  | .parse_error => true
  | _ => false

/-- The lexer `y` has come from the lexer `x` by reading: its reader is well formed, over
the same input, with the cursor at `lo` or after it. -/
def FFLexer.Advanced (x y : FFLexer) (lo : Nat) : Prop :=
  y.reader.wf ∧ y.reader.s = x.reader.s ∧ lo ≤ y.reader.i

/-- The error of a result of Scan, when there is one, is `io.EOF` returned with the token
FFTok_eof, or is returned with the token FFTok_error and is an `*FFError` of one of the
kinds of the lexer or an error of a string body. -/
def scanErrorClass (te : TokErr) : Prop :=
  ∀ e, te.2 = some e →
    (te.1 = .FFTok_eof ∧ e = .EOF) ∨
    (te.1 = .FFTok_error ∧ (e.kinded = true ∨ e.fromStringBody = true))

/-- The errors that the value scanners, captureField and SkipField make themselves, with
`fmt.Errorf` or `errors.New`, and the error of the number parsers: none carries a kind. -/
def GoError.ofHelper : GoError → Bool
  | .unexpected_EOF => true
  | .invalid_capture_type _ => true
  | .wanted_token _ _ _ => true
  | .wanted_value _ _ => true
  | .unknow_bool_value => true
  | .wanted_value_token _ => true
  | .parse_error => true
  | _ => false

/-! ## Sequences of lexer operations -/

/-- The operations of the lexer that a caller applies to an input. -/
inductive LexOp where
  | Scan (captureall : Bool)
  | ScanIntValue (bitSize : Nat)
  | ScanUintValue (bitSize : Nat)
  | ScanStringValue
  | ScanBoolValue (bitSize : Nat)
  | ScanFloatValue
  | ScanToValue
  | CaptureField (start : FFTok)
  | SkipField (start : FFTok)
  deriving DecidableEq, Repr

/-- What an operation of the lexer returns: a token and an error, a value or an error,
the captured bytes or an error, or an error alone. -/
inductive LexResult (F : Type) where
  | token (te : TokErr)
  | int (v : Except GoError Int)
  | uint (v : Except GoError Nat)
  | string (v : Except GoError (List Nat))
  | bool (v : Except GoError Bool)
  | float (v : Except GoError F)
  | bytes (v : Except GoError (List Nat))
  | error (e : Option GoError)

/-- The error of an `Except`, `none` for a value. -/
def exceptErr {α : Type} : Except GoError α → Option GoError
  | .ok _ => none
  | .error e => some e

/-- The error that an operation has returned, `none` for nil. -/
def LexResult.err {F : Type} : LexResult F → Option GoError
  | .token te => te.2
  | .int v => exceptErr v
  | .uint v => exceptErr v
  | .string v => exceptErr v
  | .bool v => exceptErr v
  | .float v => exceptErr v
  | .bytes v => exceptErr v
  | .error e => e

/-- One operation on a lexer: what it returns and the lexer after it, `none` for a panic. -/
def LexOp.run {F : Type} (ParseFloat : List Nat → Nat → Except GoError F)
    (WriteJson : List Nat → List Nat) : LexOp → FFLexer → Option (LexResult F × FFLexer)
  | .Scan captureall, ffl => (ffl.Scan WriteJson captureall).map (fun p => (.token p.1, p.2))
  | .ScanIntValue bitSize, ffl =>
    (ffl.ScanIntValue WriteJson bitSize).map (fun p => (.int p.1, p.2))
  | .ScanUintValue bitSize, ffl =>
    (ffl.ScanUintValue WriteJson bitSize).map (fun p => (.uint p.1, p.2))
  | .ScanStringValue, ffl => (ffl.ScanStringValue WriteJson).map (fun p => (.string p.1, p.2))
  | .ScanBoolValue bitSize, ffl =>
    (ffl.ScanBoolValue WriteJson bitSize).map (fun p => (.bool p.1, p.2))
  | .ScanFloatValue, ffl =>
    (ffl.ScanFloatValue ParseFloat WriteJson).map (fun p => (.float p.1, p.2))
  | .ScanToValue, ffl => (ffl.ScanToValue WriteJson).map (fun p => (.token p.1, p.2))
  | .CaptureField start, ffl => (ffl.CaptureField WriteJson start).map (fun p => (.bytes p.1, p.2))
  | .SkipField start, ffl => (ffl.SkipField WriteJson start).map (fun p => (.error p.1, p.2))

/-- What a caller sees of a lexer: the reader with its input and cursor, the output buffer
and the last token.  (The scratch buffer `buf` and `lastCurrentChar` are not exported.) -/
structure LexView where
  reader : ffReader
  Output : List Nat
  Token : FFTok
  deriving DecidableEq, Repr

/-- The view of a lexer. -/
def FFLexer.view (ffl : FFLexer) : LexView :=
  { reader := ffl.reader, Output := ffl.outputbuf, Token := ffl.Token }

/-- The trace of a sequence of operations on a lexer: for each operation what it returns
and the view of the lexer after it; the trace ends with `none` at a panic. -/
def FFLexer.trace {F : Type} (ParseFloat : List Nat → Nat → Except GoError F)
    (WriteJson : List Nat → List Nat) : List LexOp → FFLexer → List (Option (LexResult F × LexView))
  | [], _ => []
  | op :: ops, ffl =>
    match op.run ParseFloat WriteJson ffl with
    | none => [none]
    | some (res, ffl2) => some (res, ffl2.view) :: FFLexer.trace ParseFloat WriteJson ops ffl2

/-- The lexer with the contents `b` in its scratch buffer `buf`. -/
def FFLexer.setBuf (ffl : FFLexer) (b : List Nat) : FFLexer := { ffl with buf := b }

/-- The function `f` of the lexer does not depend on the contents of the scratch buffer:
on a lexer with other contents `b` in `buf` it returns the same, and leaves the same
lexer but for the contents of `buf`. -/
def BufFree {α : Type} (f : FFLexer → Option (α × FFLexer)) : Prop :=
  ∀ (x : FFLexer) (b : List Nat), ∃ b2,
    f (x.setBuf b) = (f x).map (fun p => (p.1, p.2.setBuf b2))

/-! ## The origin of the errors -/

/-- The bytes of the input that the reader has not consumed yet: `s[i:]`. -/
def ffReader.pending (r : ffReader) : List Nat := r.s.drop r.i

/-- The origin of a non-nil error `err` that Scan returns with the token `tok`, by the
bytes `rest` of the input that were still to read at the call: the input ends before a
token (only whitespace is left) and the error is `io.EOF` with the token FFTok_eof; or the
token is FFTok_error and the error is an `*FFError` of one of the kinds of the lexer; or
the token is FFTok_error and the token under the cursor is a string: the first byte after
the whitespace is the quote (the byte 34), so that the error comes from its body (of that
error nothing is said). -/
def scanErrorOrigin (rest : List Nat) (tok : FFTok) (err : GoError) : Prop :=
  (tok = .FFTok_eof ∧ err = .EOF ∧ rest.all isWS = true) ∨
  (tok = .FFTok_error ∧ ∃ k, err = .FFError k ∧ k.ofScan = true) ∨
  (tok = .FFTok_error ∧ ∃ ws body, rest = ws ++ 34 :: body ∧ ws.all isWS = true)

/-- The error `wanted token` of a value scanner or of ScanToValue: the colon was wanted and
the token `got` that came is not the colon. -/
def GoError.isWantedColon : GoError → Bool
  | .wanted_token .FFTok_colon got _ => got != .FFTok_colon
  | _ => false

/-- The error `wanted ... value` of the value scanner for the token `want`: the token `got`
that came is not `want`. -/
def GoError.isWantedValue (want : FFTok) : GoError → Bool
  | .wanted_value w got => w == want && got != want
  | _ => false

/-- The error `wanted value token` of ScanToValue: the token `got` begins no value. -/
def GoError.isWantedValueToken : GoError → Bool
  | .wanted_value_token got =>
    !(got == .FFTok_left_brace || got == .FFTok_left_bracket || got == .FFTok_integer ||
      got == .FFTok_double || got == .FFTok_string || got == .FFTok_bool || got == .FFTok_null)
  | _ => false

/-- The errors that an operation makes itself, with `fmt.Errorf` or `errors.New`, or takes
from ParseInt or ParseUint; Scan makes none.  None of them is an `*FFError`. -/
def LexOp.ownError : LexOp → GoError → Bool
  | .Scan _, _ => false
  | .ScanIntValue _, e =>
    e.isWantedColon || e.isWantedValue .FFTok_integer || e == .parse_error
  | .ScanUintValue _, e =>
    e.isWantedColon || e.isWantedValue .FFTok_integer || e == .parse_error
  | .ScanStringValue, e => e.isWantedColon || e.isWantedValue .FFTok_string
  | .ScanBoolValue _, e =>
    e.isWantedColon || e.isWantedValue .FFTok_bool || e == .unknow_bool_value
  | .ScanFloatValue, e => e.isWantedColon || e.isWantedValue .FFTok_double
  | .ScanToValue, e => e.isWantedColon || e.isWantedValueToken
  | .CaptureField start, e => e == .unexpected_EOF || e == .invalid_capture_type start
  | .SkipField start, e => e == .unexpected_EOF || e == .invalid_capture_type start

/-- The error `err` of an operation on the lexer `x` that leaves the lexer `y` is one that
a call of Scan has returned: on a lexer `z` over the input of `x`, with the cursor at that
of `x` or after it, Scan returns `err` and leaves `y`, and `err` has one of the origins of
`scanErrorOrigin` there. -/
def FFLexer.scanned (WriteJson : List Nat → List Nat) (x : FFLexer) (err : GoError)
    (y : FFLexer) : Prop :=
  ∃ (z : FFLexer) (captureall : Bool) (tok : FFTok), z.reader.wf ∧
    z.reader.s = x.reader.s ∧ x.reader.i ≤ z.reader.i ∧
    z.Scan WriteJson captureall = some ((tok, some err), y) ∧
    scanErrorOrigin z.reader.pending tok err

/-! ## The lookup tables -/

set_option maxRecDepth 100000 in
theorem whitespaceLookupTableEntries_length : whitespaceLookupTableEntries.length = 256 := by
  decide

set_option maxRecDepth 100000 in
theorem byteLookupTableEntries_length : byteLookupTableEntries.length = 256 := by
  decide

set_option maxRecDepth 100000 in
theorem whitespaceLookupTable_lt : ∀ c < 256, whitespaceLookupTable c = isWS c := by
  decide

theorem whitespaceLookupTable_eq (c : Nat) : whitespaceLookupTable c = isWS c := by
  by_cases h : c < 256
  · exact whitespaceLookupTable_lt c h
  · have h1 : whitespaceLookupTableEntries.length ≤ c := by
      rw [whitespaceLookupTableEntries_length]
      omega
    have h2 : whitespaceLookupTable c = false := by
      unfold whitespaceLookupTable
      exact List.getD_eq_default _ _ h1
    rw [h2]
    simp [isWS]
    omega

theorem byteLookupTable_ge (c : Nat) (h : 256 ≤ c) : byteLookupTable c = 0 := by
  unfold byteLookupTable
  apply List.getD_eq_default
  rw [byteLookupTableEntries_length]
  exact h

set_option maxRecDepth 1000000 in
theorem byteLookupTable_lt : ∀ c < 256,
    (decide (byteLookupTable c &&& sliceStringMask = 0) = isPlain c) ∧
    (decide (byteLookupTable c &&& cIJC = 0) = isPlain c) ∧
    (decide (byteLookupTable c &&& cVEC = 0) = (escapeByte c).isNone) ∧
    (decide (byteLookupTable c &&& cVHC = 0) = !isHexDigit c) := by
  decide

theorem byteLookupTable_facts (c : Nat) :
    (decide (byteLookupTable c &&& sliceStringMask = 0) = isPlain c) ∧
    (decide (byteLookupTable c &&& cIJC = 0) = isPlain c) ∧
    (decide (byteLookupTable c &&& cVEC = 0) = (escapeByte c).isNone) ∧
    (decide (byteLookupTable c &&& cVHC = 0) = !isHexDigit c) := by
  by_cases h : c < 256
  · exact byteLookupTable_lt c h
  · have h0 := byteLookupTable_ge c (by omega)
    have e1 : isPlain c = true := by
      simp only [isPlain, Bool.and_eq_true, decide_eq_true_eq, bne_iff_ne]
      omega
    have e2 : (escapeByte c).isNone = true := by
      have : ¬ c = 34 ∧ ¬ c = 92 ∧ ¬ c = 47 ∧ ¬ c = 98 ∧ ¬ c = 102 ∧ ¬ c = 110 ∧ ¬ c = 114 ∧
          ¬ c = 116 := by omega
      simp [escapeByte, this]
    have e3 : isHexDigit c = false := by
      simp only [isHexDigit, Bool.or_eq_false_iff, Bool.and_eq_false_iff, decide_eq_false_iff_not]
      omega
    simp [h0, e1, e2, e3]

theorem mask_zero_iff (c : Nat) : byteLookupTable c &&& sliceStringMask = 0 ↔ isPlain c = true := by
  have := (byteLookupTable_facts c).1
  rw [← this]
  simp

theorem cIJC_zero_iff (c : Nat) : byteLookupTable c &&& cIJC = 0 ↔ isPlain c = true := by
  have := (byteLookupTable_facts c).2.1
  rw [← this]
  simp

theorem cVEC_zero_iff (c : Nat) : byteLookupTable c &&& cVEC = 0 ↔ escapeByte c = none := by
  have := (byteLookupTable_facts c).2.2.1
  rw [← Option.isNone_iff_eq_none, ← this]
  simp

theorem cVHC_ne_zero_iff (c : Nat) : byteLookupTable c &&& cVHC ≠ 0 ↔ isHexDigit c = true := by
  have := (byteLookupTable_facts c).2.2.2
  constructor
  · intro h
    have h2 : decide (byteLookupTable c &&& cVHC = 0) = false := by simpa using h
    rw [this] at h2
    simpa using h2
  · intro h h0
    have h2 : decide (byteLookupTable c &&& cVHC = 0) = true := by simpa using h0
    rw [this, h] at h2
    simp at h2


/-! ## The reader on a split input -/

theorem rd_wf (a b : List Nat) : (rd a b).wf := by
  simp [rd, ffReader.wf]

theorem wf_eq_rd (r : ffReader) (h : r.wf) : r = rd (r.s.take r.i) (r.s.drop r.i) := by
  obtain ⟨h1, h2⟩ := h
  cases r with
  | mk s i l =>
    simp only [rd, List.take_append_drop] at *
    subst h1
    simp [List.length_take, h2]

theorem rd_snoc (a b : List Nat) (c : Nat) : rd (a ++ [c]) b = { rd a (c :: b) with i := a.length + 1 } := by
  simp [rd]

theorem getElem?_split (a b : List Nat) (c : Nat) : (a ++ c :: b)[a.length]? = some c := by
  rw [List.getElem?_append_right (Nat.le_refl _)]
  simp

theorem ReadByte_rd_cons (a b : List Nat) (c : Nat) :
    (rd a (c :: b)).ReadByte = some (.ok c, rd (a ++ [c]) b) := by
  have h : ¬ (a.length ≥ (a ++ c :: b).length) := by simp
  simp only [ffReader.ReadByte, rd, h, if_false, getElem?_split]
  simp

theorem ReadByte_rd_nil (a : List Nat) :
    (rd a []).ReadByte = some (.error .EOF, rd a []) := by
  simp [ffReader.ReadByte, rd]

theorem UnreadByte_rd (a b : List Nat) (c : Nat) :
    (rd (a ++ [c]) b).UnreadByte = some (rd a (c :: b)) := by
  simp [ffReader.UnreadByte, rd]

/-! ## Number lexing -/

theorem readByte_cons (a b : List Nat) (c : Nat) (out : List Nat) (T : FFTok) (k : Nat) (bf : List Nat) :
    (FFLexer.mk (rd a (c :: b)) out T k bf).readByte
      = some (.ok c, FFLexer.mk (rd (a ++ [c]) b) out T k bf) := by
  simp [FFLexer.readByte, ReadByte_rd_cons]

theorem readByte_nil (a : List Nat) (out : List Nat) (T : FFTok) (k : Nat) (bf : List Nat) :
    (FFLexer.mk (rd a []) out T k bf).readByte
      = some (.error (.FFError .FFErr_io), FFLexer.mk (rd a []) out T k bf) := by
  simp [FFLexer.readByte, ReadByte_rd_nil]

theorem unreadByte_snoc (a b : List Nat) (c : Nat) (out : List Nat) (T : FFTok) (k : Nat) (bf : List Nat) :
    (FFLexer.mk (rd (a ++ [c]) b) out T k bf).unreadByte
      = some (FFLexer.mk (rd a (c :: b)) out T k bf) := by
  simp [FFLexer.unreadByte, UnreadByte_rd]

theorem WriteByte_mk (r : ffReader) (c : Nat) (out : List Nat) (T : FFTok) (k : Nat) (bf : List Nat) :
    (FFLexer.mk r out T k bf).WriteByte c = FFLexer.mk r (out ++ [c]) T k bf := rfl

theorem lexNumber_digits_stop (fuel c numRead : Nat) (ffl : FFLexer) (hc : isDigit c = false) :
    FFLexer.lexNumber_digits (fuel + 1) c numRead ffl = some (.ok (c, numRead), ffl) := by
  have : ¬ (48 ≤ c ∧ c ≤ 57) := by
    simpa [isDigit] using hc
  simp [FFLexer.lexNumber_digits, this]

theorem lexNumber_digits_step (fuel c numRead : Nat) (ffl : FFLexer) (hc : isDigit c = true) :
    FFLexer.lexNumber_digits (fuel + 1) c numRead ffl
      = match (ffl.WriteByte c).readByte with
        | none => none
        | some (.error err, ffl) => some (.error err, ffl)
        | some (.ok c, ffl) => FFLexer.lexNumber_digits fuel c (numRead + 1) ffl := by
  have hc' : 48 ≤ c ∧ c ≤ 57 := by simpa [isDigit] using hc
  rw [FFLexer.lexNumber_digits]
  simp only [hc', and_self, if_true]

theorem lexNumber_digits_run (ds : List Nat) (hds : ds.all isDigit = true) :
    ∀ (fuel c numRead : Nat) (p tail out : List Nat) (T : FFTok) (k : Nat) (bf : List Nat),
      isDigit c = true → ds.length + tail.length + 1 ≤ fuel → headOk (fun d => !isDigit d) tail = true →
      FFLexer.lexNumber_digits fuel c numRead (FFLexer.mk (rd p (ds ++ tail)) out T k bf)
        = some (match tail with
                | [] => .error (.FFError .FFErr_io)
                | d :: _ => .ok (d, numRead + 1 + ds.length),
                FFLexer.mk (rd (p ++ ds ++ tail.take 1) (tail.drop 1)) (out ++ c :: ds) T k bf) := by
  induction ds with
  | nil =>
    intro fuel c numRead p tail out T k bf hc hf ht
    obtain ⟨f, rfl⟩ : ∃ f, fuel = f + 1 := ⟨fuel - 1, by omega⟩
    rw [lexNumber_digits_step _ _ _ _ hc]
    cases tail with
    | nil =>
      simp [WriteByte_mk, readByte_nil]
    | cons d rest =>
      obtain ⟨f, rfl⟩ : ∃ g, f = g + 1 := ⟨f - 1, by simp at hf; omega⟩
      have hd : isDigit d = false := by simpa [headOk] using ht
      simp only [WriteByte_mk, List.nil_append, readByte_cons]
      simp [lexNumber_digits_stop _ _ _ _ hd]
  | cons x ds ih =>
    intro fuel c numRead p tail out T k bf hc hf ht
    obtain ⟨f, rfl⟩ : ∃ f, fuel = f + 1 := ⟨fuel - 1, by omega⟩
    simp only [List.all_cons, Bool.and_eq_true] at hds
    rw [lexNumber_digits_step _ _ _ _ hc]
    simp only [WriteByte_mk, List.cons_append, readByte_cons]
    rw [ih hds.2 f x (numRead + 1) (p ++ [x]) tail (out ++ [c]) T k bf hds.1 (by simp at hf; omega) ht]
    cases tail <;> simp
    omega

theorem rd_fuel (a b : List Nat) : (rd a b).l - (rd a b).i = b.length := by
  simp [rd]

theorem unreadByte_of (q a b : List Nat) (c : Nat) (out : List Nat) (T : FFTok) (k : Nat)
    (bf : List Nat) (h : q = a ++ [c]) :
    (FFLexer.mk (rd q b) out T k bf).unreadByte = some (FFLexer.mk (rd a (c :: b)) out T k bf) := by
  subst h
  exact unreadByte_snoc a b c out T k bf

theorem lexNumber_exponent_run (exp : Option (Nat × Option Nat × List Nat)) (hexp : expOk exp = true)
    (tail p out b : List Nat) (c : Nat) (tok T : FFTok) (k : Nat) (bf : List Nat)
    (hcb : c :: b = renderExp exp ++ tail) (ht : headOk (expStoppedBy exp) tail = true) :
    FFLexer.lexNumber_exponent c tok (FFLexer.mk (rd (p ++ [c]) b) out T k bf)
      = some (numberResult (if exp.isSome then .FFTok_double else tok) tail,
          FFLexer.mk (rd (p ++ renderExp exp) tail) (out ++ renderExp exp) T k bf) := by
  cases exp with
  | none =>
    simp only [renderExp, List.nil_append] at hcb
    subst hcb
    have hc : ¬ (c = 101 ∨ c = 69) := by
      simpa [headOk, expStoppedBy] using ht
    simp [FFLexer.lexNumber_exponent, hc, unreadByte_snoc, numberResult, renderExp]
  | some x =>
    obtain ⟨e, sign, ds⟩ := x
    simp only [expOk, Bool.and_eq_true, Bool.or_eq_true, beq_iff_eq, bne_iff_ne] at hexp
    obtain ⟨⟨⟨he, hs⟩, hne⟩, hds⟩ := hexp
    cases ds with
    | nil => exact absurd rfl hne
    | cons x ds =>
      simp only [List.all_cons, Bool.and_eq_true] at hds
      have hx : ¬ (x = 43 ∨ x = 45) := by
        have := hds.1
        simp only [isDigit, Bool.and_eq_true, decide_eq_true_eq] at this
        omega
      have hT : headOk (fun d => !isDigit d) tail = true := by
        cases tail with
        | nil => rfl
        | cons d rest => simpa [headOk, expStoppedBy] using ht
      cases sign with
      | none =>
        simp only [renderExp, List.cons_append, List.cons.injEq] at hcb
        obtain ⟨rfl, rfl⟩ := hcb
        simp only [FFLexer.lexNumber_exponent, he, if_true, WriteByte_mk, readByte_cons, hx, if_false, rd_fuel]
        rw [lexNumber_digits_run ds hds.2 _ x 0 _ tail _ T k bf hds.1 (by simp) hT]
        cases tail with
        | nil => simp [numberResult, renderExp]
        | cons d rest =>
          simp only [numberResult, renderExp, List.take_succ_cons, List.take_zero,
            List.drop_succ_cons, List.drop_zero, Option.isSome_some, if_true]
          have h0 : ¬ (0 + 1 + ds.length = 0) := by omega
          simp only [h0, if_false]
          rw [unreadByte_of _ (p ++ c :: x :: ds) rest d _ T k bf (by simp)]
          simp
      | some sg =>
        have hsg : sg = 43 ∨ sg = 45 := by
          rcases hs with (h | h) | h
          · cases h
          · left; simpa using h
          · right; simpa using h
        simp only [renderExp, List.cons_append, List.cons.injEq] at hcb
        obtain ⟨rfl, rfl⟩ := hcb
        simp only [FFLexer.lexNumber_exponent, he, if_true, WriteByte_mk, readByte_cons, hsg, rd_fuel]
        rw [lexNumber_digits_run ds hds.2 _ x 0 _ tail _ T k bf hds.1 (by simp) hT]
        cases tail with
        | nil => simp [numberResult, renderExp]
        | cons d rest =>
          simp only [numberResult, renderExp, List.take_succ_cons, List.take_zero,
            List.drop_succ_cons, List.drop_zero, Option.isSome_some, if_true]
          have h0 : ¬ (0 + 1 + ds.length = 0) := by omega
          simp only [h0, if_false]
          rw [unreadByte_of _ (p ++ c :: sg :: x :: ds) rest d _ T k bf (by simp)]
          simp


theorem expOk_head (exp : Option (Nat × Option Nat × List Nat)) (hexp : expOk exp = true)
    (c : Nat) (b tail : List Nat) (h : c :: b = renderExp exp ++ tail) (hs : exp.isSome = true) :
    c = 101 ∨ c = 69 := by
  cases exp with
  | none => simp at hs
  | some x =>
    obtain ⟨e, sign, ds⟩ := x
    simp only [expOk, Bool.and_eq_true, Bool.or_eq_true, beq_iff_eq] at hexp
    cases sign <;> simp only [renderExp, List.cons_append, List.cons.injEq] at h <;>
      (obtain ⟨rfl, _⟩ := h; exact hexp.1.1.1)

theorem lexNumber_fraction_run (frac : Option (List Nat))
    (exp : Option (Nat × Option Nat × List Nat))
    (hfrac : fracOk frac = true) (hexp : expOk exp = true)
    (tail p out b : List Nat) (c : Nat) (T : FFTok) (k : Nat) (bf : List Nat)
    (hcb : c :: b = renderFrac frac ++ (renderExp exp ++ tail))
    (ht : headOk (fracStoppedBy frac exp) tail = true) :
    FFLexer.lexNumber_fraction c (FFLexer.mk (rd (p ++ [c]) b) out T k bf)
      = some (numberResult (if frac.isNone && exp.isNone then .FFTok_integer else .FFTok_double) tail,
          FFLexer.mk (rd (p ++ renderFrac frac ++ renderExp exp) tail)
            (out ++ renderFrac frac ++ renderExp exp) T k bf) := by
  have htE : headOk (expStoppedBy exp) tail = true := by
    cases tail with
    | nil => rfl
    | cons d rest =>
      simp only [headOk, fracStoppedBy, Bool.and_eq_true] at ht
      exact ht.1
  cases frac with
  | none =>
    simp only [renderFrac, List.nil_append] at hcb
    have hc : ¬ (c = 46) := by
      cases hE : exp.isSome with
      | true =>
        have := expOk_head exp hexp c b tail hcb hE
        omega
      | false =>
        have hnone : exp = none := by simpa using hE
        subst hnone
        simp only [renderExp, List.nil_append] at hcb
        subst hcb
        have := ht
        simp only [headOk, fracStoppedBy, Bool.and_eq_true, bne_iff_ne] at this
        exact this.2
    simp only [FFLexer.lexNumber_fraction, hc, if_false]
    rw [lexNumber_exponent_run exp hexp tail p out b c .FFTok_integer T k bf hcb htE]
    cases exp <;> simp [renderFrac]
  | some ds =>
    cases ds with
    | nil => simp [fracOk] at hfrac
    | cons x ds =>
      simp only [fracOk, List.all_cons, Bool.and_eq_true, bne_iff_ne] at hfrac
      obtain ⟨_, hx, hds⟩ := hfrac
      simp only [renderFrac, List.cons_append, List.cons.injEq] at hcb
      obtain ⟨rfl, rfl⟩ := hcb
      have hT : headOk (fun d => !isDigit d) (renderExp exp ++ tail) = true := by
        cases hE : exp.isSome with
        | true =>
          cases hr : renderExp exp ++ tail with
          | nil => rfl
          | cons d rest =>
            have := expOk_head exp hexp d rest tail hr.symm hE
            simp only [headOk, isDigit, Bool.not_eq_true', Bool.and_eq_false_iff, decide_eq_false_iff_not]
            omega
        | false =>
          have hnone : exp = none := by simpa using hE
          subst hnone
          simp only [renderExp, List.nil_append]
          cases tail with
          | nil => rfl
          | cons d rest =>
            simp only [headOk, fracStoppedBy, Bool.and_eq_true] at ht
            exact ht.2
      simp only [FFLexer.lexNumber_fraction, if_true, WriteByte_mk, readByte_cons, rd_fuel]
      rw [lexNumber_digits_run ds hds _ x 0 _ (renderExp exp ++ tail) _ T k bf hx (by simp) hT]
      cases hr : renderExp exp ++ tail with
      | nil =>
        have h1 : renderExp exp = [] := (List.append_eq_nil.mp hr).1
        have h2 : tail = [] := (List.append_eq_nil.mp hr).2
        subst h2
        simp [numberResult, renderFrac, h1]
      | cons d rest =>
        have h0 : ¬ (0 + 1 + ds.length = 0) := by omega
        simp only [h0, if_false, List.take_succ_cons, List.take_zero, List.drop_succ_cons,
          List.drop_zero]
        have hp : p ++ [46] ++ [x] ++ ds ++ [d] = (p ++ 46 :: x :: ds) ++ [d] := by simp
        rw [hp, lexNumber_exponent_run exp hexp tail (p ++ 46 :: x :: ds) _ rest d .FFTok_double T k
          bf hr.symm htE]
        simp [renderFrac]


theorem fracOk_head (frac : Option (List Nat)) (exp : Option (Nat × Option Nat × List Nat))
    (hexp : expOk exp = true) (d : Nat) (rest tail : List Nat)
    (h : d :: rest = renderFrac frac ++ (renderExp exp ++ tail))
    (hs : (frac.isNone && exp.isNone) = false) : isDigit d = false := by
  cases frac with
  | some ds =>
    simp only [renderFrac, List.cons_append, List.cons.injEq] at h
    rw [h.1]
    rfl
  | none =>
    simp only [renderFrac, List.nil_append] at h
    have hE : exp.isSome = true := by
      cases exp <;> simp at hs ⊢
    have := expOk_head exp hexp d rest tail h hE
    simp only [isDigit, Bool.and_eq_false_iff, decide_eq_false_iff_not]
    omega

theorem lexNumber_integer_run (n : JNumber) (hn : n.wf = true)
    (tail p out b : List Nat) (c : Nat) (T : FFTok) (k : Nat) (bf : List Nat)
    (hcb : c :: b = n.int ++ (renderFrac n.frac ++ (renderExp n.exp ++ tail)))
    (ht : headOk n.stoppedBy tail = true) :
    FFLexer.lexNumber_integer c (FFLexer.mk (rd (p ++ [c]) b) out T k bf)
      = some (numberResult n.kind tail,
          FFLexer.mk (rd (p ++ (n.int ++ (renderFrac n.frac ++ renderExp n.exp))) tail)
            (out ++ (n.int ++ (renderFrac n.frac ++ renderExp n.exp))) T k bf) := by
  obtain ⟨minus, int, frac, exp⟩ := n
  simp only [JNumber.wf, Bool.and_eq_true] at hn
  obtain ⟨⟨hint, hfrac⟩, hexp⟩ := hn
  simp only [JNumber.kind] at *
  have htF : headOk (fracStoppedBy frac exp) tail = true := by
    cases tail with
    | nil => rfl
    | cons d rest =>
      simp only [headOk, JNumber.stoppedBy, Bool.and_eq_true] at ht
      exact ht.1
  cases int with
  | nil => simp [intPartOk] at hint
  | cons c0 ds0 =>
    simp only [List.cons_append, List.cons.injEq] at hcb
    obtain ⟨rfl, rfl⟩ := hcb
    simp only [intPartOk, Bool.or_eq_true, Bool.and_eq_true, beq_iff_eq, decide_eq_true_eq] at hint
    rcases hint with ⟨rfl, rfl⟩ | ⟨⟨h1, h2⟩, hds⟩
    · simp only [FFLexer.lexNumber_integer, if_true, WriteByte_mk, List.nil_append]
      cases hb : renderFrac frac ++ (renderExp exp ++ tail) with
      | nil =>
        have h1 : renderFrac frac = [] := (List.append_eq_nil.mp hb).1
        have h2 : renderExp exp = [] := (List.append_eq_nil.mp (List.append_eq_nil.mp hb).2).1
        have h3 : tail = [] := (List.append_eq_nil.mp (List.append_eq_nil.mp hb).2).2
        subst h3
        simp [readByte_nil, numberResult, h1, h2]
      | cons d rest =>
        simp only [readByte_cons]
        rw [lexNumber_fraction_run frac exp hfrac hexp tail (p ++ [48]) _ rest d T k bf hb.symm htF]
        simp
    · have hc0 : ¬ (c = 48) := by omega
      have hc1 : 49 ≤ c ∧ c ≤ 57 := ⟨h1, h2⟩
      have hcd : isDigit c = true := by
        simp only [isDigit, Bool.and_eq_true, decide_eq_true_eq]
        omega
      have hT : headOk (fun d => !isDigit d) (renderFrac frac ++ (renderExp exp ++ tail)) = true := by
        cases hb : renderFrac frac ++ (renderExp exp ++ tail) with
        | nil => rfl
        | cons d rest =>
          cases hs : (frac.isNone && exp.isNone) with
          | false =>
            simp only [headOk, Bool.not_eq_true']
            exact fracOk_head frac exp hexp d rest tail hb.symm hs
          | true =>
            simp only [Bool.and_eq_true, Option.isNone_iff_eq_none] at hs
            obtain ⟨rfl, rfl⟩ := hs
            simp only [renderFrac, renderExp, List.nil_append] at hb
            subst hb
            simp only [headOk, JNumber.stoppedBy, Bool.and_eq_true, Bool.or_eq_true, beq_iff_eq,
              List.cons.injEq] at ht
            rcases ht.2 with h | h
            · exact absurd h.1 hc0
            · simpa [headOk] using h
      simp only [FFLexer.lexNumber_integer, hc0, if_false, hc1, and_self, if_true, rd_fuel]
      rw [lexNumber_digits_run ds0 hds _ c 0 _ _ _ T k bf hcd (by simp) hT]
      cases hb : renderFrac frac ++ (renderExp exp ++ tail) with
      | nil =>
        have h1 : renderFrac frac = [] := (List.append_eq_nil.mp hb).1
        have h2 : renderExp exp = [] := (List.append_eq_nil.mp (List.append_eq_nil.mp hb).2).1
        have h3 : tail = [] := (List.append_eq_nil.mp (List.append_eq_nil.mp hb).2).2
        subst h3
        simp [numberResult, h1, h2]
      | cons d rest =>
        simp only [List.take_succ_cons, List.take_zero, List.drop_succ_cons, List.drop_zero]
        have hp : p ++ [c] ++ ds0 ++ [d] = (p ++ c :: ds0) ++ [d] := by simp
        rw [hp, lexNumber_fraction_run frac exp hfrac hexp tail (p ++ c :: ds0) _ rest d T k bf
          hb.symm htF]
        simp

theorem lexNumber_run (n : JNumber) (hn : n.wf = true)
    (tail p out : List Nat) (T : FFTok) (k : Nat) (bf : List Nat)
    (ht : headOk n.stoppedBy tail = true) :
    FFLexer.lexNumber (FFLexer.mk (rd p (n.render ++ tail)) out T k bf)
      = some (numberResult n.kind tail,
          FFLexer.mk (rd (p ++ n.render) tail) (out ++ n.render) T k bf) := by
  have hint : ∃ c0 ds0, n.int = c0 :: ds0 ∧ isDigit c0 = true := by
    have h := hn
    simp only [JNumber.wf, Bool.and_eq_true] at h
    cases hi : n.int with
    | nil => rw [hi] at h; simp [intPartOk] at h
    | cons c0 ds0 =>
      refine ⟨c0, ds0, rfl, ?_⟩
      have h1 := h.1.1
      rw [hi] at h1
      simp only [intPartOk, Bool.or_eq_true, Bool.and_eq_true, beq_iff_eq, decide_eq_true_eq] at h1
      simp only [isDigit, Bool.and_eq_true, decide_eq_true_eq]
      omega
  obtain ⟨c0, ds0, hi, hc0⟩ := hint
  have hc45 : ¬ (c0 = 45) := by
    simp only [isDigit, Bool.and_eq_true, decide_eq_true_eq] at hc0
    omega
  have hcb : c0 :: (ds0 ++ (renderFrac n.frac ++ (renderExp n.exp ++ tail)))
      = n.int ++ (renderFrac n.frac ++ (renderExp n.exp ++ tail)) := by
    rw [hi]; rfl
  cases hm : n.minus with
  | true =>
    have hr : n.render ++ tail = 45 :: c0 :: (ds0 ++ (renderFrac n.frac ++ (renderExp n.exp ++ tail))) := by
      simp [JNumber.render, hm, hi]
    have hr2 : n.render = 45 :: (n.int ++ (renderFrac n.frac ++ renderExp n.exp)) := by
      simp [JNumber.render, hm]
    rw [hr]
    simp only [FFLexer.lexNumber, readByte_cons, if_true, WriteByte_mk]
    rw [lexNumber_integer_run n hn tail (p ++ [45]) _ _ c0 T k bf hcb ht, hr2]
    simp
  | false =>
    have hr : n.render ++ tail = c0 :: (ds0 ++ (renderFrac n.frac ++ (renderExp n.exp ++ tail))) := by
      simp [JNumber.render, hm, hi]
    have hr2 : n.render = n.int ++ (renderFrac n.frac ++ renderExp n.exp) := by
      simp [JNumber.render, hm]
    rw [hr]
    simp only [FFLexer.lexNumber, readByte_cons, hc45, if_false]
    rw [lexNumber_integer_run n hn tail p _ _ c0 T k bf hcb ht, hr2]

theorem ReadByteNoWS_loop_run (ws : List Nat) (hws : ws.all isWS = true) :
    ∀ (pre : List Nat) (r : ffReader) (fuel c : Nat) (b : List Nat),
      r.s = pre ++ (ws ++ c :: b) → r.l = r.s.length → isWS c = false → ws.length + 1 ≤ fuel →
      r.ReadByteNoWS_loop fuel pre.length
        = some (.ok c, { r with i := pre.length + ws.length + 1 }) := by
  induction ws with
  | nil =>
    intro pre r fuel c b hs hl hc hf
    obtain ⟨f, rfl⟩ : ∃ f, fuel = f + 1 := ⟨fuel - 1, by simp at hf; omega⟩
    have hget : r.s[pre.length]? = some c := by
      rw [hs]; exact getElem?_split pre b c
    simp [ffReader.ReadByteNoWS_loop, hget, whitespaceLookupTable_eq, hc]
  | cons w ws ih =>
    intro pre r fuel c b hs hl hc hf
    obtain ⟨f, rfl⟩ : ∃ f, fuel = f + 1 := ⟨fuel - 1, by simp at hf; omega⟩
    simp only [List.all_cons, Bool.and_eq_true] at hws
    have hget : r.s[pre.length]? = some w := by
      rw [hs]; exact getElem?_split pre _ w
    have hlen : ¬ (pre.length + 1 ≥ r.l) := by
      rw [hl, hs]; simp
    have hs2 : r.s = (pre ++ [w]) ++ (ws ++ c :: b) := by
      rw [hs]; simp
    have := ih hws.2 (pre ++ [w]) r f c b hs2 hl hc (by simp at hf; omega)
    simp only [List.length_append, List.length_singleton] at this
    rw [ffReader.ReadByteNoWS_loop]
    simp only [hget, whitespaceLookupTable_eq, hws.1, hlen, if_false, this]
    simp
    omega

theorem ReadByteNoWS_rd (a ws b : List Nat) (c : Nat) (hws : ws.all isWS = true)
    (hc : isWS c = false) :
    (rd a (ws ++ c :: b)).ReadByteNoWS = some (.ok c, rd (a ++ ws ++ [c]) b) := by
  have h : ¬ ((rd a (ws ++ c :: b)).i ≥ (rd a (ws ++ c :: b)).l) := by simp [rd]
  rw [ffReader.ReadByteNoWS, if_neg h]
  have := ReadByteNoWS_loop_run ws hws a (rd a (ws ++ c :: b)) ((rd a (ws ++ c :: b)).l
    - (rd a (ws ++ c :: b)).i + 1) c b rfl (by simp [rd]) hc (by simp [rd])
  have hi : (rd a (ws ++ c :: b)).i = a.length := rfl
  rw [hi] at this ⊢
  rw [this]
  simp [rd]
  omega

theorem ReadByteNoWS_loop_eof (ws : List Nat) (hws : ws.all isWS = true) :
    ∀ (pre : List Nat) (r : ffReader) (fuel : Nat),
      r.s = pre ++ ws → r.l = r.s.length → ws ≠ [] → ws.length ≤ fuel →
      r.ReadByteNoWS_loop fuel pre.length = some (.error .EOF, r) := by
  induction ws with
  | nil => intro pre r fuel hs hl hne; exact absurd rfl hne
  | cons w ws ih =>
    intro pre r fuel hs hl _ hf
    obtain ⟨f, rfl⟩ : ∃ f, fuel = f + 1 := ⟨fuel - 1, by simp at hf; omega⟩
    simp only [List.all_cons, Bool.and_eq_true] at hws
    have hget : r.s[pre.length]? = some w := by
      rw [hs]; exact getElem?_split pre _ w
    rw [ffReader.ReadByteNoWS_loop]
    simp only [hget, whitespaceLookupTable_eq, hws.1]
    cases ws with
    | nil =>
      have hlen : pre.length + 1 ≥ r.l := by rw [hl, hs]; simp
      simp [hlen]
    | cons w2 ws2 =>
      have hlen : ¬ (pre.length + 1 ≥ r.l) := by rw [hl, hs]; simp
      have hs2 : r.s = (pre ++ [w]) ++ (w2 :: ws2) := by rw [hs]; simp
      have := ih hws.2 (pre ++ [w]) r f hs2 hl (by simp) (by simp at hf ⊢; omega)
      simp only [List.length_append, List.length_singleton] at this
      simp [hlen, this]

theorem ReadByteNoWS_rd_eof (a ws : List Nat) (hws : ws.all isWS = true) :
    (rd a ws).ReadByteNoWS = some (.error .EOF, rd a ws) := by
  cases ws with
  | nil => simp [ffReader.ReadByteNoWS, rd]
  | cons w ws =>
    have h : ¬ ((rd a (w :: ws)).i ≥ (rd a (w :: ws)).l) := by simp [rd]
    rw [ffReader.ReadByteNoWS, if_neg h]
    exact ReadByteNoWS_loop_eof (w :: ws) hws a (rd a (w :: ws)) _ rfl (by simp [rd]) (by simp)
      (by simp [rd])


theorem render_head (n : JNumber) (hn : n.wf = true) :
    ∃ c rest, n.render = c :: rest ∧ (c = 45 ∨ isDigit c = true) := by
  obtain ⟨minus, int, frac, exp⟩ := n
  simp only [JNumber.wf, Bool.and_eq_true] at hn
  cases minus with
  | true =>
    exact ⟨45, int ++ renderFrac frac ++ renderExp exp, by simp [JNumber.render], Or.inl rfl⟩
  | false =>
    cases int with
    | nil => simp [intPartOk] at hn
    | cons c0 ds0 =>
      refine ⟨c0, ds0 ++ renderFrac frac ++ renderExp exp, by simp [JNumber.render], Or.inr ?_⟩
      have h1 := hn.1.1
      simp only [intPartOk, Bool.or_eq_true, Bool.and_eq_true, beq_iff_eq, decide_eq_true_eq] at h1
      simp only [isDigit, Bool.and_eq_true, decide_eq_true_eq]
      omega

theorem afterLex_numberResult (tok : FFTok) (tail : List Nat) (r : ffReader) (out : List Nat)
    (k : Nat) (bf : List Nat) :
    FFLexer.afterLex (some (numberResult tok tail, FFLexer.mk r out .FFTok_init k bf))
      = some (numberResult tok tail,
          FFLexer.mk r out (match tail with | [] => .FFTok_init | _ :: _ => tok) k bf) := by
  cases tail <;> simp [numberResult, FFLexer.afterLex, FFLexer.lexed]

theorem Scan_number (WriteJson : List Nat → List Nat) (n : JNumber) (hn : n.wf = true)
    (a ws tail out : List Nat) (T : FFTok) (k : Nat) (bf : List Nat)
    (hws : ws.all isWS = true) (ht : headOk n.stoppedBy tail = true) :
    FFLexer.Scan WriteJson false (FFLexer.mk (rd a (ws ++ (n.render ++ tail))) out T k bf)
      = some (numberResult n.kind tail,
          FFLexer.mk (rd (a ++ ws ++ n.render) tail) n.render
            (match tail with | [] => .FFTok_init | _ :: _ => n.kind) k bf) := by
  obtain ⟨c, rest, hr, hc⟩ := render_head n hn
  have hcw : isWS c = false := by
    rcases hc with rfl | hc
    · rfl
    · simp only [isDigit, Bool.and_eq_true, decide_eq_true_eq] at hc
      simp only [isWS, Bool.or_eq_false_iff, beq_eq_false_iff_ne]
      omega
  have hnum : c = 45 ∨ (48 ≤ c ∧ c ≤ 57) := by
    rcases hc with rfl | hc
    · exact Or.inl rfl
    · right; simpa [isDigit] using hc
  have e1 : ¬ c = 123 := by omega
  have e2 : ¬ c = 125 := by omega
  have e3 : ¬ c = 91 := by omega
  have e4 : ¬ c = 93 := by omega
  have e5 : ¬ c = 44 := by omega
  have e6 : ¬ c = 58 := by omega
  have e7 : ¬ (c = 9 ∨ c = 10 ∨ c = 11 ∨ c = 12 ∨ c = 13 ∨ c = 32) := by omega
  have e8 : ¬ c = 116 := by omega
  have e9 : ¬ c = 102 := by omega
  have e10 : ¬ c = 110 := by omega
  have e11 : ¬ c = 34 := by omega
  have hin : ws ++ (n.render ++ tail) = ws ++ c :: (rest ++ tail) := by rw [hr]; rfl
  have hlex := lexNumber_run n hn tail (a ++ ws) [] .FFTok_init k bf ht
  rw [hr] at hlex
  simp only [List.cons_append] at hlex
  simp only [FFLexer.Scan, Bool.false_eq_true, if_false, rd_fuel, FFLexer.Scan_loop, hin,
    ReadByteNoWS_rd a ws _ c hws hcw, FFLexer.Scan_switch, e1, e2, e3, e4, e5, e6, e7, e8, e9, e10,
    e11, hnum, if_true, unreadByte_snoc, hlex, List.nil_append]
  rw [afterLex_numberResult]
  simp only [hr]
  cases tail <;> rfl

theorem all_isDigit_snoc (ds : List Nat) (d : Nat) (h : ds.all isDigit = true) (hd : isDigit d = true) :
    (ds ++ [d]).all isDigit = true := by
  simp only [List.all_append, List.all_cons, List.all_nil, Bool.and_true, Bool.and_eq_true]
  exact ⟨h, hd⟩

theorem stoppedBy_of_no_longer_number (n : JNumber) (hn : n.wf = true) (d : Nat)
    (h : ∀ (m : JNumber) (t : List Nat), m.wf = true → m.render ≠ n.render ++ d :: t) :
    n.stoppedBy d = true := by
  obtain ⟨minus, int, frac, exp⟩ := n
  simp only [JNumber.wf, Bool.and_eq_true] at hn
  obtain ⟨⟨hint, hfrac⟩, hexp⟩ := hn
  -- an exponent may start here
  have hE : exp = none → ¬ (d = 101 ∨ d = 69) := by
    rintro rfl hd
    refine h ⟨minus, int, frac, some (d, none, [48])⟩ [48] ?_ ?_
    · simp only [JNumber.wf, Bool.and_eq_true]
      refine ⟨⟨hint, hfrac⟩, ?_⟩
      rcases hd with rfl | rfl <;> decide
    · simp [JNumber.render, renderExp]
  by_contra hs
  cases exp with
  | some x =>
    obtain ⟨e, sign, ds⟩ := x
    have hd : isDigit d = true := by
      cases frac <;> simpa [JNumber.stoppedBy, fracStoppedBy, expStoppedBy] using hs
    refine h ⟨minus, int, frac, some (e, sign, ds ++ [d])⟩ [] ?_ ?_
    · simp only [JNumber.wf, Bool.and_eq_true]
      refine ⟨⟨hint, hfrac⟩, ?_⟩
      simp only [expOk, Bool.and_eq_true, bne_iff_ne] at hexp ⊢
      exact ⟨⟨hexp.1.1, by simp⟩, all_isDigit_snoc ds d hexp.2 hd⟩
    · cases sign <;> simp [JNumber.render, renderExp]
  | none =>
    have hE' := hE rfl
    cases frac with
    | some fs =>
      have hd : isDigit d = true := by
        simp only [JNumber.stoppedBy, fracStoppedBy, expStoppedBy, Bool.and_eq_true, bne_iff_ne,
          Bool.not_eq_true', Bool.and_true, not_and, Bool.not_eq_false] at hs
        apply hs
        omega
      refine h ⟨minus, int, some (fs ++ [d]), none⟩ [] ?_ ?_
      · simp only [JNumber.wf, Bool.and_eq_true]
        refine ⟨⟨hint, ?_⟩, rfl⟩
        simp only [fracOk, Bool.and_eq_true, bne_iff_ne] at hfrac ⊢
        exact ⟨by simp, all_isDigit_snoc fs d hfrac.2 hd⟩
      · simp [JNumber.render, renderExp, renderFrac]
    | none =>
      by_cases h46 : d = 46
      · subst h46
        refine h ⟨minus, int, some [48], none⟩ [48] ?_ ?_
        · simp only [JNumber.wf, Bool.and_eq_true]
          exact ⟨⟨hint, by decide⟩, rfl⟩
        · simp [JNumber.render, renderExp, renderFrac]
      · have hd : int ≠ [48] ∧ isDigit d = true := by
          simp only [JNumber.stoppedBy, fracStoppedBy, expStoppedBy, Bool.and_eq_true, bne_iff_ne,
            Bool.or_eq_true, beq_iff_eq, Bool.not_eq_true', not_and, not_or, Bool.not_eq_false] at hs
          apply hs
          exact ⟨⟨by omega, by omega⟩, h46⟩
        refine h ⟨minus, int ++ [d], none, none⟩ [] ?_ ?_
        · simp only [JNumber.wf, Bool.and_eq_true]
          refine ⟨⟨?_, rfl⟩, rfl⟩
          cases int with
          | nil => simp [intPartOk] at hint
          | cons c0 ds0 =>
            simp only [intPartOk, Bool.or_eq_true, Bool.and_eq_true, beq_iff_eq,
              decide_eq_true_eq, List.cons_append] at hint ⊢
            rcases hint with ⟨rfl, rfl⟩ | ⟨hc, hds⟩
            · exact absurd rfl hd.1
            · right
              exact ⟨hc, all_isDigit_snoc ds0 d hds hd.2⟩
        · simp [JNumber.render, renderExp, renderFrac]

theorem split_run (q : Nat → Bool) (b : List Nat) :
    ∃ ds tail, b = ds ++ tail ∧ ds.all q = true ∧ headOk (fun d => !q d) tail = true := by
  induction b with
  | nil => exact ⟨[], [], rfl, rfl, rfl⟩
  | cons x b ih =>
    obtain ⟨ds, tail, h1, h2, h3⟩ := ih
    cases hx : q x with
    | true => exact ⟨x :: ds, tail, by simp [h1], by simp [hx, h2], h3⟩
    | false => exact ⟨[], x :: b, rfl, rfl, by simp [headOk, hx]⟩

theorem lexNumber_exponent_ok (c : Nat) (tok T : FFTok) (p b out : List Nat) (k : Nat)
    (bf : List Nat) (t : FFTok) (ffl' : FFLexer)
    (h : FFLexer.lexNumber_exponent c tok (FFLexer.mk (rd (p ++ [c]) b) out T k bf)
      = some ((t, none), ffl')) :
    ∃ exp tail, expOk exp = true ∧ c :: b = renderExp exp ++ tail ∧
      t = (if exp.isSome then .FFTok_double else tok) ∧
      ffl' = FFLexer.mk (rd (p ++ renderExp exp) tail) (out ++ renderExp exp) T k bf := by
  by_cases hc : c = 101 ∨ c = 69
  · have hce : (c == 101 || c == 69) = true := by simpa using hc
    cases b with
    | nil => simp [FFLexer.lexNumber_exponent, hc, WriteByte_mk, readByte_nil] at h
    | cons x b2 =>
      -- the digits of the exponent, entered with the byte `y` after the bytes `sg`
      have key : ∀ (sg : List Nat) (y : Nat) (b3 : List Nat),
          (match FFLexer.lexNumber_digits (b3.length + 1) y 0
              (FFLexer.mk (rd (p ++ c :: sg ++ [y]) b3) (out ++ c :: sg) T k bf) with
            | none => none
            | some (.error err, ffl) => some ((FFTok.FFTok_error, some err), ffl)
            | some (.ok (_, numRead), ffl) =>
              if numRead = 0 then
                some ((FFTok.FFTok_error,
                  some (GoError.FFError FFErrKind.FFErr_missing_integer_after_exponent)), ffl)
              else
                match ffl.unreadByte with
                | none => none
                | some ffl => some ((FFTok.FFTok_double, none), ffl)) = some ((t, none), ffl') →
          ∃ ds tail, isDigit y = true ∧ ds.all isDigit = true ∧ b3 = ds ++ tail ∧
            t = .FFTok_double ∧
            ffl' = FFLexer.mk (rd (p ++ c :: sg ++ y :: ds) tail) (out ++ c :: sg ++ y :: ds) T k bf := by
        intro sg y b3 h
        cases hy : isDigit y with
        | false =>
          rw [lexNumber_digits_stop _ _ _ _ hy] at h
          simp at h
        | true =>
          obtain ⟨ds, tail, rfl, hds, htl⟩ := split_run isDigit b3
          rw [lexNumber_digits_run ds hds _ y 0 _ tail _ T k bf hy (by simp) htl] at h
          cases tail with
          | nil => simp at h
          | cons d rest =>
            have h0 : ¬ (0 + 1 + ds.length = 0) := by omega
            simp only [h0, if_false, List.take_succ_cons, List.take_zero, List.drop_succ_cons,
              List.drop_zero] at h
            rw [unreadByte_of _ (p ++ c :: sg ++ y :: ds) rest d _ T k bf (by simp)] at h
            simp only [Option.some.injEq, Prod.mk.injEq, and_true] at h
            refine ⟨ds, d :: rest, rfl, hds, rfl, h.1.symm, ?_⟩
            rw [← h.2]
      by_cases hx : x = 43 ∨ x = 45
      · cases b2 with
        | nil => simp [FFLexer.lexNumber_exponent, hc, hx, WriteByte_mk, readByte_cons, readByte_nil] at h
        | cons y b3 =>
          simp only [FFLexer.lexNumber_exponent, hc, hx, if_true, WriteByte_mk, readByte_cons,
            rd_fuel] at h
          have hk := key [x] y b3 (by simpa using h)
          obtain ⟨ds, tail, hy, hds, rfl, rfl, rfl⟩ := hk
          refine ⟨some (c, some x, y :: ds), tail, ?_, by simp [renderExp], rfl, by simp [renderExp]⟩
          have hxs : (some x == some 43 || some x == some 45) = true := by
            rcases hx with rfl | rfl <;> rfl
          simp only [expOk, hce, Bool.true_and, Bool.and_eq_true, Bool.or_eq_true, bne_iff_ne,
            List.all_cons]
          simp only [Bool.or_eq_true] at hxs
          exact ⟨⟨by rcases hxs with h | h <;> simp [h], by simp⟩, hy, hds⟩
      · simp only [FFLexer.lexNumber_exponent, hc, hx, if_true, if_false, WriteByte_mk, readByte_cons,
          rd_fuel] at h
        have hk := key [] x b2 (by simpa using h)
        obtain ⟨ds, tail, hy, hds, rfl, rfl, rfl⟩ := hk
        refine ⟨some (c, none, x :: ds), tail, ?_, by simp [renderExp], rfl, by simp [renderExp]⟩
        simp only [expOk, hce, Bool.true_and, Bool.and_eq_true, bne_iff_ne, List.all_cons]
        exact ⟨⟨by simp, by simp⟩, hy, hds⟩
  · simp only [FFLexer.lexNumber_exponent, hc, if_false, unreadByte_snoc, Option.some.injEq,
      Prod.mk.injEq, and_true] at h
    exact ⟨none, c :: b, rfl, rfl, by simp [h.1], by simp [renderExp, h.2]⟩


theorem lexNumber_fraction_ok (c : Nat) (T : FFTok) (p b out : List Nat) (k : Nat)
    (bf : List Nat) (t : FFTok) (ffl' : FFLexer)
    (h : FFLexer.lexNumber_fraction c (FFLexer.mk (rd (p ++ [c]) b) out T k bf)
      = some ((t, none), ffl')) :
    ∃ frac exp tail, fracOk frac = true ∧ expOk exp = true ∧
      c :: b = renderFrac frac ++ (renderExp exp ++ tail) ∧
      t = (if frac.isNone && exp.isNone then .FFTok_integer else .FFTok_double) ∧
      ffl' = FFLexer.mk (rd (p ++ (renderFrac frac ++ renderExp exp)) tail)
        (out ++ (renderFrac frac ++ renderExp exp)) T k bf := by
  by_cases hc : c = 46
  · subst hc
    cases b with
    | nil => simp [FFLexer.lexNumber_fraction, WriteByte_mk, readByte_nil] at h
    | cons x b2 =>
      simp only [FFLexer.lexNumber_fraction, if_true, WriteByte_mk, readByte_cons, rd_fuel] at h
      cases hx : isDigit x with
      | false =>
        rw [lexNumber_digits_stop _ _ _ _ hx] at h
        simp only [if_true] at h
        rw [unreadByte_of _ (p ++ [46]) b2 x _ T k bf (by simp)] at h
        simp at h
      | true =>
        obtain ⟨ds, tail, rfl, hds, htl⟩ := split_run isDigit b2
        rw [lexNumber_digits_run ds hds _ x 0 _ tail _ T k bf hx (by simp) htl] at h
        cases tail with
        | nil => simp at h
        | cons d rest =>
          have h0 : ¬ (0 + 1 + ds.length = 0) := by omega
          simp only [h0, if_false, List.take_succ_cons, List.take_zero, List.drop_succ_cons,
            List.drop_zero] at h
          have hp : p ++ [46] ++ [x] ++ ds ++ [d] = (p ++ 46 :: x :: ds) ++ [d] := by simp
          rw [hp] at h
          obtain ⟨exp, tail, hexp, hcb, rfl, rfl⟩ := lexNumber_exponent_ok d _ T _ rest _ k bf t ffl' h
          refine ⟨some (x :: ds), exp, tail, ?_, hexp, by simp [renderFrac, hcb], by simp,
            by simp [renderFrac]⟩
          simp only [fracOk, Bool.and_eq_true, bne_iff_ne, List.all_cons]
          exact ⟨by simp, hx, hds⟩
  · simp only [FFLexer.lexNumber_fraction, hc, if_false] at h
    obtain ⟨exp, tail, hexp, hcb, rfl, rfl⟩ := lexNumber_exponent_ok c _ T p b out k bf t ffl' h
    exact ⟨none, exp, tail, rfl, hexp, by simp [renderFrac, hcb], by cases exp <;> simp,
      by simp [renderFrac]⟩

theorem lexNumber_integer_ok (c : Nat) (T : FFTok) (p b out : List Nat) (k : Nat)
    (bf : List Nat) (t : FFTok) (ffl' : FFLexer)
    (h : FFLexer.lexNumber_integer c (FFLexer.mk (rd (p ++ [c]) b) out T k bf)
      = some ((t, none), ffl')) :
    ∃ int frac exp tail, intPartOk int = true ∧ fracOk frac = true ∧ expOk exp = true ∧
      c :: b = int ++ (renderFrac frac ++ (renderExp exp ++ tail)) ∧
      t = (if frac.isNone && exp.isNone then .FFTok_integer else .FFTok_double) ∧
      ffl' = FFLexer.mk (rd (p ++ (int ++ (renderFrac frac ++ renderExp exp))) tail)
        (out ++ (int ++ (renderFrac frac ++ renderExp exp))) T k bf := by
  by_cases hc : c = 48
  · subst hc
    cases b with
    | nil => simp [FFLexer.lexNumber_integer, WriteByte_mk, readByte_nil] at h
    | cons x b2 =>
      simp only [FFLexer.lexNumber_integer, if_true, WriteByte_mk, readByte_cons] at h
      obtain ⟨frac, exp, tail, hfrac, hexp, hcb, rfl, rfl⟩ :=
        lexNumber_fraction_ok x T _ b2 _ k bf t ffl' h
      exact ⟨[48], frac, exp, tail, rfl, hfrac, hexp, by simp [hcb], rfl, by simp⟩
  · by_cases hc1 : 49 ≤ c ∧ c ≤ 57
    · have hcd : isDigit c = true := by
        simp only [isDigit, Bool.and_eq_true, decide_eq_true_eq]
        omega
      simp only [FFLexer.lexNumber_integer, hc, if_false, hc1, and_self, if_true, rd_fuel] at h
      obtain ⟨ds, tail, rfl, hds, htl⟩ := split_run isDigit b
      rw [lexNumber_digits_run ds hds _ c 0 _ tail _ T k bf hcd (by simp) htl] at h
      cases tail with
      | nil => simp at h
      | cons d rest =>
        simp only [List.take_succ_cons, List.take_zero, List.drop_succ_cons, List.drop_zero] at h
        have hp : p ++ [c] ++ ds ++ [d] = (p ++ c :: ds) ++ [d] := by simp
        rw [hp] at h
        obtain ⟨frac, exp, tail, hfrac, hexp, hcb, rfl, rfl⟩ :=
          lexNumber_fraction_ok d T _ rest _ k bf t ffl' h
        refine ⟨c :: ds, frac, exp, tail, ?_, hfrac, hexp, by simp [hcb], rfl, by simp⟩
        simp only [intPartOk, Bool.or_eq_true, Bool.and_eq_true, beq_iff_eq, decide_eq_true_eq]
        exact Or.inr ⟨hc1, hds⟩
    · simp only [FFLexer.lexNumber_integer, hc, if_false, hc1] at h
      rw [unreadByte_snoc] at h
      simp at h

theorem lexNumber_ok (T : FFTok) (p b out : List Nat) (k : Nat)
    (bf : List Nat) (t : FFTok) (ffl' : FFLexer)
    (h : FFLexer.lexNumber (FFLexer.mk (rd p b) out T k bf) = some ((t, none), ffl')) :
    ∃ (n : JNumber) (tail : List Nat), n.wf = true ∧ b = n.render ++ tail ∧ t = n.kind ∧
      ffl' = FFLexer.mk (rd (p ++ n.render) tail) (out ++ n.render) T k bf := by
  cases b with
  | nil => simp [FFLexer.lexNumber, readByte_nil] at h
  | cons c b1 =>
    by_cases hc : c = 45
    · subst hc
      cases b1 with
      | nil => simp [FFLexer.lexNumber, readByte_cons, WriteByte_mk, readByte_nil] at h
      | cons c1 b2 =>
        simp only [FFLexer.lexNumber, readByte_cons, if_true, WriteByte_mk] at h
        obtain ⟨int, frac, exp, tail, hint, hfrac, hexp, hcb, rfl, rfl⟩ :=
          lexNumber_integer_ok c1 T _ b2 _ k bf t ffl' h
        refine ⟨⟨true, int, frac, exp⟩, tail, ?_, by simp [JNumber.render, hcb], rfl,
          by simp [JNumber.render]⟩
        simp [JNumber.wf, hint, hfrac, hexp]
    · simp only [FFLexer.lexNumber, readByte_cons, hc, if_false] at h
      obtain ⟨int, frac, exp, tail, hint, hfrac, hexp, hcb, rfl, rfl⟩ :=
        lexNumber_integer_ok c T _ b1 _ k bf t ffl' h
      refine ⟨⟨false, int, frac, exp⟩, tail, ?_, by simp [JNumber.render, hcb], rfl,
        by simp [JNumber.render]⟩
      simp [JNumber.wf, hint, hfrac, hexp]


theorem wantBytes_tok (want : List Nat) (iftrue : FFTok) :
    ∀ (ffl : FFLexer) (t : FFTok) (ffl' : FFLexer),
      FFLexer.wantBytes want iftrue ffl = some ((t, none), ffl') → t = iftrue := by
  induction want with
  | nil =>
    intro ffl t ffl' h
    simp only [FFLexer.wantBytes, Option.some.injEq, Prod.mk.injEq, and_true] at h
    exact h.1.symm
  | cons b want ih =>
    intro ffl t ffl' h
    rw [FFLexer.wantBytes] at h
    split at h
    · simp at h
    · simp at h
    · split at h
      · split at h <;> simp at h
      · exact ih _ _ _ h

theorem lexString_tok (WriteJson : List Nat → List Nat) (captureall : Bool) (ffl : FFLexer)
    (t : FFTok) (ffl' : FFLexer)
    (h : ffl.lexString WriteJson captureall = some ((t, none), ffl')) : t = .FFTok_string := by
  unfold FFLexer.lexString at h
  split at h
  · split at h <;> simp at h
    exact h.1.symm
  · split at h <;> simp at h
    exact h.1.symm

theorem lexComment_line_tok : ∀ (fuel : Nat) (ffl : FFLexer) (t : FFTok) (ffl' : FFLexer),
    FFLexer.lexComment_line fuel ffl = some ((t, none), ffl') → t = .FFTok_comment := by
  intro fuel
  induction fuel with
  | zero => intro ffl t ffl' h; simp [FFLexer.lexComment_line] at h
  | succ f ih =>
    intro ffl t ffl' h
    rw [FFLexer.lexComment_line] at h
    split at h
    · simp at h
    · simp at h
    · split at h
      · simp at h
        exact h.1.symm
      · exact ih _ _ _ h

theorem lexComment_block_tok : ∀ (fuel : Nat) (ffl : FFLexer) (t : FFTok) (ffl' : FFLexer),
    FFLexer.lexComment_block fuel ffl = some ((t, none), ffl') → t = .FFTok_comment := by
  intro fuel
  induction fuel with
  | zero => intro ffl t ffl' h; simp [FFLexer.lexComment_block] at h
  | succ f ih =>
    intro ffl t ffl' h
    rw [FFLexer.lexComment_block] at h
    split at h
    · simp at h
    · simp at h
    · split at h
      · split at h
        · simp at h
        · simp at h
        · split at h <;> simp at h
          exact h.1.symm
      · exact ih _ _ _ h

theorem lexComment_tok (ffl : FFLexer) (t : FFTok) (ffl' : FFLexer)
    (h : ffl.lexComment = some ((t, none), ffl')) : t = .FFTok_comment := by
  unfold FFLexer.lexComment at h
  split at h
  · simp at h
  · simp at h
  · split at h
    · exact lexComment_line_tok _ _ _ _ h
    · split at h
      · exact lexComment_block_tok _ _ _ _ h
      · simp at h

theorem afterLex_ok (x : Option (TokErr × FFLexer)) (t : FFTok) (ffl' : FFLexer)
    (h : FFLexer.afterLex x = some ((t, none), ffl')) :
    ∃ ffl'', x = some ((t, none), ffl'') ∧ ffl' = { ffl'' with Token := t } := by
  unfold FFLexer.afterLex at h
  split at h
  · simp at h
  · simp only [FFLexer.lexed, Option.some.injEq, Prod.mk.injEq, and_true] at h
    obtain ⟨rfl, rfl⟩ := h
    exact ⟨_, rfl, rfl⟩
  · simp at h

theorem single_tok (captureall : Bool) (tok : FFTok) (c : Nat) (ffl : FFLexer) (t : FFTok)
    (ffl' : FFLexer) (h : ffl.single captureall tok c = some ((t, none), ffl')) : t = tok := by
  simp only [FFLexer.single, FFLexer.lexed, Option.some.injEq, Prod.mk.injEq, and_true] at h
  exact h.1.symm

theorem Scan_false_mk (WriteJson : List Nat → List Nat) (a b out : List Nat) (T : FFTok)
    (k : Nat) (bf : List Nat) :
    FFLexer.Scan WriteJson false (FFLexer.mk (rd a b) out T k bf)
      = match (rd a b).ReadByteNoWS with
        | none => none
        | some (.error err, r) =>
          if err = .EOF then some ((.FFTok_eof, some err), FFLexer.mk r [] .FFTok_init k bf)
          else some ((.FFTok_error, some err), FFLexer.mk r [] .FFTok_init k bf)
        | some (.ok c, r) =>
          FFLexer.Scan_switch WriteJson false (FFLexer.Scan_loop WriteJson false b.length) c
            (FFLexer.mk r [] .FFTok_init k bf) := by
  simp only [FFLexer.Scan, Bool.false_eq_true, if_false, rd_fuel]
  rw [FFLexer.Scan_loop]
  rfl

theorem Scan_number_ok (WriteJson : List Nat → List Nat) (a b out : List Nat) (T : FFTok)
    (k : Nat) (bf : List Nat) (t : FFTok) (ffl' : FFLexer)
    (h : FFLexer.Scan WriteJson false (FFLexer.mk (rd a b) out T k bf) = some ((t, none), ffl'))
    (ht : t = .FFTok_integer ∨ t = .FFTok_double) :
    ∃ (n : JNumber) (ws tail : List Nat), n.wf = true ∧ ws.all isWS = true ∧
      b = ws ++ (n.render ++ tail) ∧ t = n.kind ∧
      ffl' = FFLexer.mk (rd (a ++ ws ++ n.render) tail) n.render n.kind k bf := by
  obtain ⟨ws, rest, rfl, hws, hrest⟩ := split_run isWS b
  rw [Scan_false_mk] at h
  cases rest with
  | nil =>
    rw [ReadByteNoWS_rd_eof a _ (by simpa using hws)] at h
    simp at h
  | cons c b' =>
    have hcw : isWS c = false := by simpa [headOk] using hrest
    rw [ReadByteNoWS_rd a ws b' c hws hcw] at h
    simp only at h
    have hne : ∀ tok, t = tok → tok ≠ .FFTok_integer → tok ≠ .FFTok_double → False := by
      intro tok h1 h2 h3
      subst h1
      rcases ht with h | h
      · exact h2 h
      · exact h3 h
    unfold FFLexer.Scan_switch at h
    by_cases c1 : c = 123
    · rw [if_pos c1] at h
      exact (hne _ (single_tok _ _ _ _ _ _ h) (by decide) (by decide)).elim
    rw [if_neg c1] at h
    by_cases c2 : c = 125
    · rw [if_pos c2] at h
      exact (hne _ (single_tok _ _ _ _ _ _ h) (by decide) (by decide)).elim
    rw [if_neg c2] at h
    by_cases c3 : c = 91
    · rw [if_pos c3] at h
      exact (hne _ (single_tok _ _ _ _ _ _ h) (by decide) (by decide)).elim
    rw [if_neg c3] at h
    by_cases c4 : c = 93
    · rw [if_pos c4] at h
      exact (hne _ (single_tok _ _ _ _ _ _ h) (by decide) (by decide)).elim
    rw [if_neg c4] at h
    by_cases c5 : c = 44
    · rw [if_pos c5] at h
      exact (hne _ (single_tok _ _ _ _ _ _ h) (by decide) (by decide)).elim
    rw [if_neg c5] at h
    by_cases c6 : c = 58
    · rw [if_pos c6] at h
      exact (hne _ (single_tok _ _ _ _ _ _ h) (by decide) (by decide)).elim
    rw [if_neg c6] at h
    have c7 : ¬ (c = 9 ∨ c = 10 ∨ c = 11 ∨ c = 12 ∨ c = 13 ∨ c = 32) := by
      simp only [isWS, Bool.or_eq_false_iff, beq_eq_false_iff_ne] at hcw
      omega
    rw [if_neg c7] at h
    by_cases c8 : c = 116
    · rw [if_pos c8] at h
      obtain ⟨_, h1, _⟩ := afterLex_ok _ _ _ h
      exact (hne _ (wantBytes_tok _ _ _ _ _ h1) (by decide) (by decide)).elim
    rw [if_neg c8] at h
    by_cases c9 : c = 102
    · rw [if_pos c9] at h
      obtain ⟨_, h1, _⟩ := afterLex_ok _ _ _ h
      exact (hne _ (wantBytes_tok _ _ _ _ _ h1) (by decide) (by decide)).elim
    rw [if_neg c9] at h
    by_cases c10 : c = 110
    · rw [if_pos c10] at h
      obtain ⟨_, h1, _⟩ := afterLex_ok _ _ _ h
      exact (hne _ (wantBytes_tok _ _ _ _ _ h1) (by decide) (by decide)).elim
    rw [if_neg c10] at h
    by_cases c11 : c = 34
    · rw [if_pos c11] at h
      obtain ⟨_, h1, _⟩ := afterLex_ok _ _ _ h
      exact (hne _ (lexString_tok _ _ _ _ _ h1) (by decide) (by decide)).elim
    rw [if_neg c11] at h
    by_cases c12 : c = 45 ∨ (48 ≤ c ∧ c ≤ 57)
    · rw [if_pos c12, unreadByte_snoc] at h
      obtain ⟨ffl'', h1, rfl⟩ := afterLex_ok _ _ _ h
      obtain ⟨n, tail, hn, hb, rfl, rfl⟩ := lexNumber_ok _ _ _ _ _ _ _ _ h1
      exact ⟨n, ws, tail, hn, hws, by rw [hb], rfl, by simp⟩
    rw [if_neg c12] at h
    by_cases c13 : c = 47
    · rw [if_pos c13] at h
      obtain ⟨_, h1, _⟩ := afterLex_ok _ _ _ h
      exact (hne _ (lexComment_tok _ _ _ h1) (by decide) (by decide)).elim
    rw [if_neg c13] at h
    simp at h


theorem not_mem_of_all_isDigit (ds : List Nat) (h : ds.all isDigit = true) (c : Nat)
    (hc : isDigit c = false) : c ∉ ds := by
  intro hm
  have := List.all_eq_true.mp h c hm
  rw [hc] at this
  exact Bool.noConfusion this

theorem intPartOk_all_isDigit (int : List Nat) (h : intPartOk int = true) :
    int.all isDigit = true := by
  cases int with
  | nil => simp [intPartOk] at h
  | cons c ds =>
    simp only [intPartOk, Bool.or_eq_true, Bool.and_eq_true, beq_iff_eq, decide_eq_true_eq] at h
    rcases h with ⟨rfl, rfl⟩ | ⟨hc, hds⟩
    · rfl
    · simp only [List.all_cons, Bool.and_eq_true, hds, and_true, isDigit, decide_eq_true_eq]
      omega

theorem kind_integer_iff (n : JNumber) (hn : n.wf = true) :
    n.kind = .FFTok_integer ↔ (46 ∉ n.render ∧ 101 ∉ n.render ∧ 69 ∉ n.render) := by
  obtain ⟨minus, int, frac, exp⟩ := n
  simp only [JNumber.wf, Bool.and_eq_true] at hn
  obtain ⟨⟨hint, hfrac⟩, hexp⟩ := hn
  have hid := intPartOk_all_isDigit int hint
  cases frac with
  | some fs =>
    simp [JNumber.kind, JNumber.render, renderFrac]
  | none =>
    cases exp with
    | some x =>
      obtain ⟨e, sign, ds⟩ := x
      simp only [expOk, Bool.and_eq_true, Bool.or_eq_true, beq_iff_eq] at hexp
      have he := hexp.1.1.1
      have hmem : e ∈ JNumber.render ⟨minus, int, none, some (e, sign, ds)⟩ := by
        cases sign <;> simp [JNumber.render, renderFrac, renderExp]
      simp only [JNumber.kind, Option.isNone_none, Option.isNone_some, Bool.and_false,
        Bool.false_eq_true, if_false]
      constructor
      · intro h
        cases h
      · rintro ⟨_, h101, h69⟩
        rcases he with rfl | rfl
        · exact absurd hmem h101
        · exact absurd hmem h69
    | none =>
      have h1 := not_mem_of_all_isDigit int hid 46 rfl
      have h2 := not_mem_of_all_isDigit int hid 101 rfl
      have h3 := not_mem_of_all_isDigit int hid 69 rfl
      cases minus <;> simp [JNumber.kind, JNumber.render, renderFrac, renderExp, h1, h2, h3]

theorem stoppedBy_space (n : JNumber) : n.stoppedBy 32 = true := by
  obtain ⟨minus, int, frac, exp⟩ := n
  cases frac <;> cases exp <;> simp [JNumber.stoppedBy, fracStoppedBy, expStoppedBy, isDigit]

theorem render_ne_of_lexNumber_error (n : JNumber) (hn : n.wf = true) (txt : List Nat)
    (h : (FFLexer.lexNumber (FFLexer.mk (rd [] (txt ++ [32])) [] .FFTok_init 0 [])).map
      (fun x => x.1.2.isSome) = some true) : n.render ≠ txt := by
  intro he
  subst he
  rw [lexNumber_run n hn [32] [] [] .FFTok_init 0 [] (stoppedBy_space n)] at h
  simp [numberResult] at h

theorem render_not_incomplete (n : JNumber) (hn : n.wf = true) :
    n.render ∉ [[45], [49, 46], [49, 101], [49, 101, 43], [45, 46, 53]] := by
  have h1 := render_ne_of_lexNumber_error n hn [45] (by decide)
  have h2 := render_ne_of_lexNumber_error n hn [49, 46] (by decide)
  have h3 := render_ne_of_lexNumber_error n hn [49, 101] (by decide)
  have h4 := render_ne_of_lexNumber_error n hn [49, 101, 43] (by decide)
  have h5 := render_ne_of_lexNumber_error n hn [45, 46, 53] (by decide)
  simp [h1, h2, h3, h4, h5]

/-! ## String scanning -/

theorem or_128 : ∀ y < 64, 128 ||| y = 128 + y := by decide
theorem or_192 : ∀ y < 32, 192 ||| y = 192 + y := by decide
theorem or_224 : ∀ y < 16, 224 ||| y = 224 + y := by decide
theorem or_240 : ∀ y < 8, 240 ||| y = 240 + y := by decide

theorem and_63 (x : Nat) : x &&& 63 = x % 64 := Nat.and_pow_two_sub_one_eq_mod x 6

theorem Buffer_WriteRune_eq_utf8 (out : List Nat) (r : Nat) (h1 : r ≤ 0x10FFFF)
    (h2 : ¬ (0xD800 ≤ r ∧ r ≤ 0xDFFF)) : Buffer_WriteRune out r = out ++ utf8 r := by
  unfold Buffer_WriteRune utf8 utf8_EncodeRune
  simp only [Nat.shiftRight_eq_div_pow, and_63]
  by_cases c1 : r < 0x80
  · simp [c1]
  · have c1' : ¬ r ≤ 0x7F := by omega
    rw [if_neg c1, if_neg c1', if_neg c1]
    by_cases c2 : r < 0x800
    · have c2' : r ≤ 0x7FF := by omega
      rw [if_pos c2', if_pos c2]
      rw [or_192 _ (by omega), or_128 _ (Nat.mod_lt _ (by omega))]
    · have c2' : ¬ r ≤ 0x7FF := by omega
      have c3 : ¬ (r > 0x10FFFF ∨ (0xD800 ≤ r ∧ r ≤ 0xDFFF)) := by omega
      rw [if_neg c2', if_neg c2, if_neg c3]
      by_cases c4 : r < 0x10000
      · have c4' : r ≤ 0xFFFF := by omega
        rw [if_pos c4', if_pos c4]
        rw [or_224 _ (by omega), or_128 _ (Nat.mod_lt _ (by omega)),
          or_128 _ (Nat.mod_lt _ (by omega))]
      · have c4' : ¬ r ≤ 0xFFFF := by omega
        rw [if_neg c4', if_neg c4]
        rw [or_240 _ (by omega), or_128 _ (Nat.mod_lt _ (by omega)),
          or_128 _ (Nat.mod_lt _ (by omega)), or_128 _ (Nat.mod_lt _ (by omega))]

theorem utf16_DecodeRune_pair (hi lo : Nat) (h1 : 0xD800 ≤ hi ∧ hi ≤ 0xDBFF)
    (h2 : 0xDC00 ≤ lo ∧ lo ≤ 0xDFFF) : utf16_DecodeRune hi lo = pairValue hi lo := by
  have c : 0xd800 ≤ hi ∧ hi < 0xdc00 ∧ 0xdc00 ≤ lo ∧ lo < 0xe000 := by omega
  unfold utf16_DecodeRune pairValue
  rw [if_pos c]
  have h := Nat.mul_add_lt_is_or (i := 10) (b := lo - 0xdc00) (by omega) (hi - 0xd800)
  rw [Nat.shiftLeft_eq, Nat.mul_comm _ (2 ^ 10), ← h]
  omega


theorem drop_split (a b : List Nat) (j : Nat) (h1 : a.length ≤ j) :
    (a ++ b).drop j = b.drop (j - a.length) := by
  rw [List.drop_append_eq_append_drop]
  simp [List.drop_eq_nil_of_le h1]

theorem aScanString_from_plain (ps : List Nat) (hps : ps.all isPlain = true) (x : Nat)
    (rest : List Nat) (hx : isPlain x = false) :
    ∀ j, aScanString_from (ps ++ x :: rest) j = (j + ps.length + 1, x) := by
  induction ps with
  | nil =>
    intro j
    have : ¬ (byteLookupTable x &&& sliceStringMask = 0) := by
      rw [mask_zero_iff, hx]
      simp
    simp [aScanString_from, this]
  | cons p ps ih =>
    intro j
    simp only [List.all_cons, Bool.and_eq_true] at hps
    have : byteLookupTable p &&& sliceStringMask = 0 := (mask_zero_iff p).mpr hps.1
    rw [List.cons_append, aScanString_from, if_pos this, ih hps.2]
    simp only [List.length_cons, Prod.mk.injEq, and_true]
    omega

theorem aScanString_from_end (ps : List Nat) (hps : ps.all isPlain = true) :
    ∀ j, aScanString_from ps j = (j + ps.length, 0) := by
  induction ps with
  | nil => intro j; rfl
  | cons p ps ih =>
    intro j
    simp only [List.all_cons, Bool.and_eq_true] at hps
    have : byteLookupTable p &&& sliceStringMask = 0 := (mask_zero_iff p).mpr hps.1
    rw [aScanString_from, if_pos this, ih hps.2]
    simp only [List.length_cons, Prod.mk.injEq, and_true]
    omega

theorem all_drop (q : Nat → Bool) (ps : List Nat) (h : ps.all q = true) (n : Nat) :
    (ps.drop n).all q = true := by
  rw [List.all_eq_true] at h ⊢
  intro x hx
  exact h x (List.mem_of_mem_drop hx)

theorem aScanString_pending (a pending rest : List Nat) (x j : Nat)
    (hp : pending.all isPlain = true) (hx : isPlain x = false)
    (h1 : a.length ≤ j) (h2 : j ≤ a.length + pending.length) :
    aScanString (a ++ (pending ++ x :: rest)) j = (a.length + pending.length + 1, x) := by
  unfold aScanString
  rw [drop_split a _ j h1, List.drop_append_of_le_length (by omega)]
  rw [aScanString_from_plain _ (all_drop _ _ hp _) x rest hx]
  simp only [List.length_drop, Prod.mk.injEq, and_true]
  omega

theorem goSlice_pending (a p q : List Nat) :
    goSlice (a ++ (p ++ q)) a.length (a.length + p.length) = some p := by
  unfold goSlice
  have h : a.length ≤ a.length + p.length ∧ a.length + p.length ≤ (a ++ (p ++ q)).length := by
    simp
  rw [if_pos h]
  simp

theorem getElem?_pending (a p : List Nat) (c : Nat) (q : List Nat) :
    (a ++ (p ++ c :: q))[a.length + p.length]? = some c := by
  rw [← List.append_assoc, ← List.length_append]
  exact getElem?_split (a ++ p) q c


theorem getElem?_append_add (pre post : List Nat) (k : Nat) :
    (pre ++ post)[pre.length + k]? = post[k]? := by
  rw [List.getElem?_append_right (by omega)]
  simp

theorem digitVal_hex (c : Nat) (h : isHexDigit c = true) :
    digitVal c = some (hexDigitValue c) ∧ hexDigitValue c < 16 := by
  simp only [isHexDigit, Bool.or_eq_true, Bool.and_eq_true, decide_eq_true_eq] at h
  unfold digitVal hexDigitValue
  rcases h with (h | h) | h
  · have h2 : c ≤ 57 := h.2
    rw [if_pos h, if_pos h2]
    exact ⟨rfl, by omega⟩
  · have h1 : ¬ (48 ≤ c ∧ c ≤ 57) := by omega
    have h2 : 97 ≤ c ∧ c ≤ 122 := by omega
    have h3 : ¬ c ≤ 57 := by omega
    have h4 : ¬ c ≤ 70 := by omega
    have e : c - 97 + 10 = c - 87 := by omega
    rw [if_neg h1, if_pos h2, if_neg h3, if_neg h4, e]
    exact ⟨rfl, by omega⟩
  · have h1 : ¬ (48 ≤ c ∧ c ≤ 57) := by omega
    have h2 : ¬ (97 ≤ c ∧ c ≤ 122) := by omega
    have h3 : 65 ≤ c ∧ c ≤ 90 := by omega
    have h4 : ¬ c ≤ 57 := by omega
    have h5 : c ≤ 70 := by omega
    have e : c - 65 + 10 = c - 55 := by omega
    rw [if_neg h1, if_neg h2, if_pos h3, if_neg h4, if_pos h5, e]
    exact ⟨rfl, by omega⟩

theorem ParseUint_hex4 (h1 h2 h3 h4 : Nat) (x1 : isHexDigit h1 = true) (x2 : isHexDigit h2 = true)
    (x3 : isHexDigit h3 = true) (x4 : isHexDigit h4 = true) :
    ParseUint [h1, h2, h3, h4] 16 64 = .ok (hex4 h1 h2 h3 h4) := by
  obtain ⟨d1, b1⟩ := digitVal_hex h1 x1
  obtain ⟨d2, b2⟩ := digitVal_hex h2 x2
  obtain ⟨d3, b3⟩ := digitVal_hex h3 x3
  obtain ⟨d4, b4⟩ := digitVal_hex h4 x4
  have n1 : ¬ (hexDigitValue h1 ≥ 16) := by omega
  have n2 : ¬ (hexDigitValue h2 ≥ 16) := by omega
  have n3 : ¬ (hexDigitValue h3 ≥ 16) := by omega
  have n4 : ¬ (hexDigitValue h4 ≥ 16) := by omega
  have p : (2 : Nat) ^ 64 = 18446744073709551616 := by norm_num
  have o1 : ¬ (0 * 16 + hexDigitValue h1 ≥ 2 ^ 64) := by rw [p]; omega
  have o2 : ¬ ((0 * 16 + hexDigitValue h1) * 16 + hexDigitValue h2 ≥ 2 ^ 64) := by rw [p]; omega
  have o3 : ¬ (((0 * 16 + hexDigitValue h1) * 16 + hexDigitValue h2) * 16 + hexDigitValue h3
      ≥ 2 ^ 64) := by rw [p]; omega
  have o4 : ¬ ((((0 * 16 + hexDigitValue h1) * 16 + hexDigitValue h2) * 16 + hexDigitValue h3) * 16
      + hexDigitValue h4 ≥ 2 ^ 64) := by rw [p]; omega
  unfold ParseUint
  rw [if_neg (by simp)]
  simp only [ParseUint_loop, d1, d2, d3, d4, n1, n2, n3, n4, o1, o2, o3, o4, if_false]
  congr 1
  unfold hex4
  omega

theorem readU4_hex (r : ffReader) (pre post : List Nat) (h1 h2 h3 h4 : Nat)
    (hs : r.s = pre ++ h1 :: h2 :: h3 :: h4 :: post) (hl : r.l = r.s.length)
    (x1 : isHexDigit h1 = true) (x2 : isHexDigit h2 = true)
    (x3 : isHexDigit h3 = true) (x4 : isHexDigit h4 = true) :
    r.readU4 pre.length = some (.ok (hex4 h1 h2 h3 h4)) := by
  have g0 : r.s[pre.length]? = some h1 := by
    rw [hs]; exact getElem?_append_add pre (h1 :: h2 :: h3 :: h4 :: post) 0
  have g1 : r.s[pre.length + 1]? = some h2 := by
    rw [hs]; exact getElem?_append_add pre (h1 :: h2 :: h3 :: h4 :: post) 1
  have g2 : r.s[pre.length + 1 + 1]? = some h3 := by
    rw [hs]; exact getElem?_append_add pre (h1 :: h2 :: h3 :: h4 :: post) 2
  have g3 : r.s[pre.length + 1 + 1 + 1]? = some h4 := by
    rw [hs]
    have e : pre.length + 1 + 1 + 1 = pre.length + 3 := rfl
    rw [e, getElem?_append_add pre (h1 :: h2 :: h3 :: h4 :: post) 3]
    simp
  have hlen : r.l = pre.length + post.length + 4 := by
    rw [hl, hs]
    simp only [List.length_append, List.length_cons]
    omega
  have l0 : ¬ (pre.length ≥ r.l) := by omega
  have l1 : ¬ (pre.length + 1 ≥ r.l) := by omega
  have l2 : ¬ (pre.length + 1 + 1 ≥ r.l) := by omega
  have l3 : ¬ (pre.length + 1 + 1 + 1 ≥ r.l) := by omega
  have v1 := (cVHC_ne_zero_iff h1).mpr x1
  have v2 := (cVHC_ne_zero_iff h2).mpr x2
  have v3 := (cVHC_ne_zero_iff h3).mpr x3
  have v4 := (cVHC_ne_zero_iff h4).mpr x4
  unfold ffReader.readU4
  simp only [ffReader.readU4_loop, l0, l1, l2, l3, if_false, g0, g1, g2, g3, v1, v2, v3, v4,
    ne_eq, not_false_eq_true, if_true, List.nil_append, List.cons_append,
    ParseUint_hex4 h1 h2 h3 h4 x1 x2 x3 x4]


theorem rd_with_i (a u a' u' : List Nat) (n : Nat) (h : a ++ u = a' ++ u') (hn : n = a'.length) :
    { rd a u with i := n } = rd a' u' := by
  simp [rd, h, hn]

theorem escapedByte_eq (out : List Nat) (c b : Nat) (h : escapeByte c = some b) :
    escapedByte out c = out ++ [b] := by
  unfold escapeByte at h
  unfold escapedByte
  split_ifs at h ⊢ <;> simp_all

theorem escapeByte_ne_u (c b : Nat) (h : escapeByte c = some b) : c ≠ 117 := by
  rintro rfl
  simp [escapeByte] at h

theorem handleEscaped_esc (a pending rest out : List Nat) (c b x : Nat)
    (h : escapeByte c = some b) :
    (rd a (pending ++ 92 :: c :: rest)).handleEscaped x (a.length + pending.length + 1) out
      = some (.ok (a.length + pending.length + 2), rd (a ++ (pending ++ [92, c])) rest,
          out ++ pending ++ [b]) := by
  have hl : ¬ (a.length + pending.length + 1 ≥ (rd a (pending ++ 92 :: c :: rest)).l) := by
    simp only [rd, List.length_append, List.length_cons]
    omega
  have hg : (rd a (pending ++ 92 :: c :: rest)).s[a.length + pending.length + 1]? = some c := by
    have := getElem?_split (a ++ (pending ++ [92])) rest c
    simpa [rd, Nat.add_assoc] using this
  have hu : ¬ c = 117 := escapeByte_ne_u c b h
  have hv : ¬ (byteLookupTable c &&& cVEC = 0) := by
    rw [cVEC_zero_iff, h]
    simp
  have hsl : goSlice (rd a (pending ++ 92 :: c :: rest)).s (rd a (pending ++ 92 :: c :: rest)).i
      (a.length + pending.length + 1 + 1 - 2) = some pending := by
    have := goSlice_pending a pending (92 :: c :: rest)
    simpa [rd] using this
  unfold ffReader.handleEscaped
  simp only [hl, if_false, hg, hu, hv, hsl, escapedByte_eq _ c b h]
  rw [rd_with_i a _ (a ++ (pending ++ [92, c])) rest _ (by simp) (by simp; omega)]

theorem handleEscaped_u4 (a pending rest out : List Nat) (h1 h2 h3 h4 x : Nat)
    (x1 : isHexDigit h1 = true) (x2 : isHexDigit h2 = true)
    (x3 : isHexDigit h3 = true) (x4 : isHexDigit h4 = true)
    (hns : ¬ (0xD800 ≤ hex4 h1 h2 h3 h4 ∧ hex4 h1 h2 h3 h4 ≤ 0xDFFF)) :
    (rd a (pending ++ 92 :: 117 :: h1 :: h2 :: h3 :: h4 :: rest)).handleEscaped x
        (a.length + pending.length + 1) out
      = some (.ok (a.length + pending.length + 6),
          rd (a ++ (pending ++ [92, 117, h1, h2, h3, h4])) rest,
          out ++ pending ++ utf8 (hex4 h1 h2 h3 h4)) := by
  have hl : ¬ (a.length + pending.length + 1
      ≥ (rd a (pending ++ 92 :: 117 :: h1 :: h2 :: h3 :: h4 :: rest)).l) := by
    simp only [rd, List.length_append, List.length_cons]
    omega
  have hg : (rd a (pending ++ 92 :: 117 :: h1 :: h2 :: h3 :: h4 :: rest)).s[
      a.length + pending.length + 1]? = some 117 := by
    have := getElem?_split (a ++ (pending ++ [92])) (h1 :: h2 :: h3 :: h4 :: rest) 117
    simpa [rd, Nat.add_assoc] using this
  have hr : (rd a (pending ++ 92 :: 117 :: h1 :: h2 :: h3 :: h4 :: rest)).readU4
      (a.length + pending.length + 1 + 1) = some (.ok (hex4 h1 h2 h3 h4)) := by
    have := readU4_hex (rd a (pending ++ 92 :: 117 :: h1 :: h2 :: h3 :: h4 :: rest))
      (a ++ (pending ++ [92, 117])) rest h1 h2 h3 h4 (by simp [rd]) (by simp [rd]) x1 x2 x3 x4
    simpa [Nat.add_assoc] using this
  have hsur : utf16_IsSurrogate (hex4 h1 h2 h3 h4) = false := by
    simp only [utf16_IsSurrogate, Bool.and_eq_false_iff, decide_eq_false_iff_not]
    omega
  have hsl : goSlice (rd a (pending ++ 92 :: 117 :: h1 :: h2 :: h3 :: h4 :: rest)).s
      (rd a (pending ++ 92 :: 117 :: h1 :: h2 :: h3 :: h4 :: rest)).i
      (a.length + pending.length + 1 + 1 - 2) = some pending := by
    have := goSlice_pending a pending (92 :: 117 :: h1 :: h2 :: h3 :: h4 :: rest)
    simpa [rd] using this
  have hlt : hex4 h1 h2 h3 h4 ≤ 0x10FFFF := by
    have b1 := (digitVal_hex h1 x1).2
    have b2 := (digitVal_hex h2 x2).2
    have b3 := (digitVal_hex h3 x3).2
    have b4 := (digitVal_hex h4 x4).2
    unfold hex4
    omega
  unfold ffReader.handleEscaped
  simp only [hl, if_false, hg, if_true, hr, hsur, Bool.false_eq_true, hsl,
    Buffer_WriteRune_eq_utf8 _ _ hlt hns]
  rw [rd_with_i a _ (a ++ (pending ++ [92, 117, h1, h2, h3, h4])) rest _ (by simp)
    (by simp; omega)]

theorem hex4_lt (h1 h2 h3 h4 : Nat) (x1 : isHexDigit h1 = true) (x2 : isHexDigit h2 = true)
    (x3 : isHexDigit h3 = true) (x4 : isHexDigit h4 = true) : hex4 h1 h2 h3 h4 < 65536 := by
  have b1 := (digitVal_hex h1 x1).2
  have b2 := (digitVal_hex h2 x2).2
  have b3 := (digitVal_hex h3 x3).2
  have b4 := (digitVal_hex h4 x4).2
  unfold hex4
  omega

/-- The two bytes `y1 y2` between the escape of the high surrogate and the four hex digits
of the low one are not looked at. -/
theorem handleEscaped_pair (a pending rest out : List Nat) (h1 h2 h3 h4 y1 y2 l1 l2 l3 l4 x : Nat)
    (x1 : isHexDigit h1 = true) (x2 : isHexDigit h2 = true)
    (x3 : isHexDigit h3 = true) (x4 : isHexDigit h4 = true)
    (z1 : isHexDigit l1 = true) (z2 : isHexDigit l2 = true)
    (z3 : isHexDigit l3 = true) (z4 : isHexDigit l4 = true)
    (hhi : 0xD800 ≤ hex4 h1 h2 h3 h4 ∧ hex4 h1 h2 h3 h4 ≤ 0xDBFF)
    (hlo : 0xDC00 ≤ hex4 l1 l2 l3 l4 ∧ hex4 l1 l2 l3 l4 ≤ 0xDFFF) :
    (rd a (pending ++ 92 :: 117 :: h1 :: h2 :: h3 :: h4 :: y1 :: y2 :: l1 :: l2 :: l3 :: l4 ::
        rest)).handleEscaped x (a.length + pending.length + 1) out
      = some (.ok (a.length + pending.length + 12),
          rd (a ++ (pending ++ [92, 117, h1, h2, h3, h4, y1, y2, l1, l2, l3, l4])) rest,
          out ++ pending ++ utf8 (pairValue (hex4 h1 h2 h3 h4) (hex4 l1 l2 l3 l4))) := by
  have hl : ¬ (a.length + pending.length + 1 ≥ (rd a (pending ++ 92 :: 117 :: h1 :: h2 :: h3 ::
      h4 :: y1 :: y2 :: l1 :: l2 :: l3 :: l4 :: rest)).l) := by
    simp only [rd, List.length_append, List.length_cons]
    omega
  have hg : (rd a (pending ++ 92 :: 117 :: h1 :: h2 :: h3 :: h4 :: y1 :: y2 :: l1 :: l2 :: l3 ::
      l4 :: rest)).s[a.length + pending.length + 1]? = some 117 := by
    have := getElem?_split (a ++ (pending ++ [92]))
      (h1 :: h2 :: h3 :: h4 :: y1 :: y2 :: l1 :: l2 :: l3 :: l4 :: rest) 117
    simpa [rd, Nat.add_assoc] using this
  have hr : (rd a (pending ++ 92 :: 117 :: h1 :: h2 :: h3 :: h4 :: y1 :: y2 :: l1 :: l2 :: l3 ::
      l4 :: rest)).readU4 (a.length + pending.length + 1 + 1) = some (.ok (hex4 h1 h2 h3 h4)) := by
    have := readU4_hex (rd a (pending ++ 92 :: 117 :: h1 :: h2 :: h3 :: h4 :: y1 :: y2 :: l1 ::
      l2 :: l3 :: l4 :: rest)) (a ++ (pending ++ [92, 117])) (y1 :: y2 :: l1 :: l2 :: l3 :: l4 ::
      rest) h1 h2 h3 h4 (by simp [rd]) (by simp [rd]) x1 x2 x3 x4
    simpa [Nat.add_assoc] using this
  have hr2 : (rd a (pending ++ 92 :: 117 :: h1 :: h2 :: h3 :: h4 :: y1 :: y2 :: l1 :: l2 :: l3 ::
      l4 :: rest)).readU4 (a.length + pending.length + 1 + 1 + 6)
      = some (.ok (hex4 l1 l2 l3 l4)) := by
    have := readU4_hex (rd a (pending ++ 92 :: 117 :: h1 :: h2 :: h3 :: h4 :: y1 :: y2 :: l1 ::
      l2 :: l3 :: l4 :: rest)) (a ++ (pending ++ [92, 117, h1, h2, h3, h4, y1, y2])) rest
      l1 l2 l3 l4 (by simp [rd]) (by simp [rd]) z1 z2 z3 z4
    simpa [Nat.add_assoc] using this
  have hsur : utf16_IsSurrogate (hex4 h1 h2 h3 h4) = true := by
    simp only [utf16_IsSurrogate, Bool.and_eq_true, decide_eq_true_eq]
    omega
  have hsl : goSlice (rd a (pending ++ 92 :: 117 :: h1 :: h2 :: h3 :: h4 :: y1 :: y2 :: l1 :: l2 ::
      l3 :: l4 :: rest)).s (rd a (pending ++ 92 :: 117 :: h1 :: h2 :: h3 :: h4 :: y1 :: y2 :: l1 ::
      l2 :: l3 :: l4 :: rest)).i (a.length + pending.length + 1 + 1 - 2) = some pending := by
    have := goSlice_pending a pending
      (92 :: 117 :: h1 :: h2 :: h3 :: h4 :: y1 :: y2 :: l1 :: l2 :: l3 :: l4 :: rest)
    simpa [rd] using this
  have hdec := utf16_DecodeRune_pair _ _ hhi hlo
  have hb1 := hex4_lt h1 h2 h3 h4 x1 x2 x3 x4
  have hb2 := hex4_lt l1 l2 l3 l4 z1 z2 z3 z4
  have hne : pairValue (hex4 h1 h2 h3 h4) (hex4 l1 l2 l3 l4) ≠ unicode_ReplacementChar := by
    unfold pairValue unicode_ReplacementChar
    omega
  have hle : pairValue (hex4 h1 h2 h3 h4) (hex4 l1 l2 l3 l4) ≤ 0x10FFFF := by
    unfold pairValue
    omega
  have hns : ¬ (0xD800 ≤ pairValue (hex4 h1 h2 h3 h4) (hex4 l1 l2 l3 l4) ∧
      pairValue (hex4 h1 h2 h3 h4) (hex4 l1 l2 l3 l4) ≤ 0xDFFF) := by
    unfold pairValue
    omega
  unfold ffReader.handleEscaped
  simp only [hl, if_false, hg, if_true, hr, hr2, hsur, hsl, hdec, hne, ne_eq, not_false_eq_true,
    Buffer_WriteRune_eq_utf8 _ _ hle hns]
  rw [rd_with_i a _ (a ++ (pending ++ [92, 117, h1, h2, h3, h4, y1, y2, l1, l2, l3, l4])) rest _
    (by simp) (by simp; omega)]


theorem isPlain_quote : isPlain 34 = false := rfl
theorem isPlain_backslash : isPlain 92 = false := rfl

theorem SliceString_loop_step (fuel : Nat) (r : ffReader) (j : Nat) (out : List Nat)
    (hj : ¬ (j ≥ r.l)) :
    ffReader.SliceString_loop (fuel + 1) r j out
      = if (aScanString r.s j).2 = 34 then
          if (aScanString r.s j).1 ≠ r.i then
            match goSlice r.s r.i ((aScanString r.s j).1 - 1) with
            | none => none
            | some b => some (none, { r with i := (aScanString r.s j).1 }, out ++ b)
          else some (none, r, out)
        else if (aScanString r.s j).2 = 92 then
          match r.handleEscaped (aScanString r.s j).2 (aScanString r.s j).1 out with
          | none => none
          | some (.error e, r, out) => some (some e, r, out)
          | some (.ok j, r, out) => ffReader.SliceString_loop fuel r j out
        else if byteLookupTable (aScanString r.s j).2 &&& cIJC ≠ 0 then
          some (some (.lex_string_invalid_json_char (aScanString r.s j).2), r, out)
        else ffReader.SliceString_loop fuel r (aScanString r.s j).1 out := by
  rw [ffReader.SliceString_loop, if_neg hj]

theorem SliceString_loop_items (items : List JStrItem) (hok : itemsOk items = true) :
    ∀ (fuel : Nat) (a pending rest out : List Nat) (j : Nat),
      pending.all isPlain = true → a.length ≤ j → j ≤ a.length + pending.length →
      items.length + 1 ≤ fuel →
      ffReader.SliceString_loop fuel (rd a (pending ++ (renderItems items ++ 34 :: rest))) j out
        = some (none, rd (a ++ (pending ++ (renderItems items ++ [34]))) rest,
            out ++ pending ++ decodeItems items) := by
  induction items with
  | nil =>
    intro fuel a pending rest out j hp h1 h2 hf
    obtain ⟨f, rfl⟩ : ∃ f, fuel = f + 1 := ⟨fuel - 1, by simp at hf; omega⟩
    have hj : ¬ (j ≥ (rd a (pending ++ (renderItems [] ++ 34 :: rest))).l) := by
      simp only [rd, renderItems, List.length_append, List.length_cons, List.nil_append]
      omega
    rw [SliceString_loop_step _ _ _ _ hj]
    simp only [renderItems, List.nil_append, decodeItems, List.append_nil]
    have hs : aScanString (rd a (pending ++ 34 :: rest)).s j
        = (a.length + pending.length + 1, 34) :=
      aScanString_pending a pending rest 34 j hp isPlain_quote h1 h2
    have hne : a.length + pending.length + 1 ≠ (rd a (pending ++ 34 :: rest)).i := by
      simp only [rd]
      omega
    have hsl : goSlice (rd a (pending ++ 34 :: rest)).s (rd a (pending ++ 34 :: rest)).i
        (a.length + pending.length + 1 - 1) = some pending := by
      have := goSlice_pending a pending (34 :: rest)
      simpa [rd] using this
    simp only [hs, if_true, hne, ne_eq, not_false_eq_true, hsl]
    rw [rd_with_i a _ (a ++ (pending ++ [34])) rest _ (by simp) (by simp; omega)]
  | cons it items ih =>
    intro fuel a pending rest out j hp h1 h2 hf
    simp only [itemsOk, Bool.and_eq_true] at hok
    obtain ⟨hit, hrest⟩ := hok
    cases it with
    | raw c =>
      have hc : isPlain c = true := hit
      have := ih hrest fuel a (pending ++ [c]) rest out j
        (by simp [List.all_append, hp, hc]) h1 (by simp; omega) (by simp at hf ⊢; omega)
      simp only [renderItems, JStrItem.render, decodeItems, JStrItem.decode]
      simp only [List.append_assoc, List.singleton_append, List.cons_append, List.nil_append]
        at this ⊢
      exact this
    | esc c =>
      obtain ⟨f, rfl⟩ : ∃ f, fuel = f + 1 := ⟨fuel - 1, by simp at hf; omega⟩
      obtain ⟨b, hb⟩ : ∃ b, escapeByte c = some b := by
        have : (escapeByte c).isSome = true := hit
        exact Option.isSome_iff_exists.mp this
      simp only [renderItems, JStrItem.render, decodeItems, JStrItem.decode, List.cons_append,
        List.nil_append, hb, Option.toList_some]
      have hj : ¬ (j ≥ (rd a (pending ++ 92 :: c :: (renderItems items ++ 34 :: rest))).l) := by
        simp only [rd, List.length_append, List.length_cons]
        omega
      rw [SliceString_loop_step _ _ _ _ hj]
      have hs : aScanString (rd a (pending ++ 92 :: c :: (renderItems items ++ 34 :: rest))).s j
          = (a.length + pending.length + 1, 92) :=
        aScanString_pending a pending _ 92 j hp isPlain_backslash h1 h2
      have hne : ¬ ((92 : Nat) = 34) := by decide
      simp only [hs, hne, if_false, if_true, handleEscaped_esc a pending _ out c b 92 hb]
      have := ih hrest f (a ++ (pending ++ [92, c])) [] rest (out ++ pending ++ [b])
        (a.length + pending.length + 2) rfl (by simp; omega) (by simp; omega)
        (by simp at hf; omega)
      simp only [List.nil_append, List.append_nil] at this
      rw [this]
      simp
    | u4 h1' h2' h3' h4' =>
      obtain ⟨f, rfl⟩ : ∃ f, fuel = f + 1 := ⟨fuel - 1, by simp at hf; omega⟩
      simp only [JStrItem.wf, Bool.and_eq_true, Bool.not_eq_true', Bool.and_eq_false_iff,
        decide_eq_true_eq, decide_eq_false_iff_not] at hit
      obtain ⟨⟨⟨⟨x1, x2⟩, x3⟩, x4⟩, hns⟩ := hit
      have hns' : ¬ (0xD800 ≤ hex4 h1' h2' h3' h4' ∧ hex4 h1' h2' h3' h4' ≤ 0xDFFF) := by omega
      simp only [renderItems, JStrItem.render, decodeItems, JStrItem.decode, List.cons_append,
        List.nil_append]
      have hj : ¬ (j ≥ (rd a (pending ++ 92 :: 117 :: h1' :: h2' :: h3' :: h4' ::
          (renderItems items ++ 34 :: rest))).l) := by
        simp only [rd, List.length_append, List.length_cons]
        omega
      rw [SliceString_loop_step _ _ _ _ hj]
      have hs : aScanString (rd a (pending ++ 92 :: 117 :: h1' :: h2' :: h3' :: h4' ::
          (renderItems items ++ 34 :: rest))).s j = (a.length + pending.length + 1, 92) :=
        aScanString_pending a pending _ 92 j hp isPlain_backslash h1 h2
      have hne : ¬ ((92 : Nat) = 34) := by decide
      simp only [hs, hne, if_false, if_true,
        handleEscaped_u4 a pending _ out h1' h2' h3' h4' 92 x1 x2 x3 x4 hns']
      have := ih hrest f (a ++ (pending ++ [92, 117, h1', h2', h3', h4'])) [] rest
        (out ++ pending ++ utf8 (hex4 h1' h2' h3' h4'))
        (a.length + pending.length + 6) rfl (by simp; omega) (by simp; omega)
        (by simp at hf; omega)
      simp only [List.nil_append, List.append_nil] at this
      rw [this]
      simp
    | pair h1' h2' h3' h4' l1 l2 l3 l4 =>
      obtain ⟨f, rfl⟩ : ∃ f, fuel = f + 1 := ⟨fuel - 1, by simp at hf; omega⟩
      simp only [JStrItem.wf, Bool.and_eq_true, decide_eq_true_eq] at hit
      obtain ⟨⟨⟨⟨⟨⟨⟨⟨⟨x1, x2⟩, x3⟩, x4⟩, z1⟩, z2⟩, z3⟩, z4⟩, hhi⟩, hlo⟩ := hit
      simp only [renderItems, JStrItem.render, decodeItems, JStrItem.decode, List.cons_append,
        List.nil_append]
      have hj : ¬ (j ≥ (rd a (pending ++ 92 :: 117 :: h1' :: h2' :: h3' :: h4' :: 92 :: 117 ::
          l1 :: l2 :: l3 :: l4 :: (renderItems items ++ 34 :: rest))).l) := by
        simp only [rd, List.length_append, List.length_cons]
        omega
      rw [SliceString_loop_step _ _ _ _ hj]
      have hs : aScanString (rd a (pending ++ 92 :: 117 :: h1' :: h2' :: h3' :: h4' :: 92 :: 117 ::
          l1 :: l2 :: l3 :: l4 :: (renderItems items ++ 34 :: rest))).s j
          = (a.length + pending.length + 1, 92) :=
        aScanString_pending a pending _ 92 j hp isPlain_backslash h1 h2
      have hne : ¬ ((92 : Nat) = 34) := by decide
      simp only [hs, hne, if_false, if_true,
        handleEscaped_pair a pending _ out h1' h2' h3' h4' 92 117 l1 l2 l3 l4 92 x1 x2 x3 x4
          z1 z2 z3 z4 hhi hlo]
      have := ih hrest f (a ++ (pending ++ [92, 117, h1', h2', h3', h4', 92, 117, l1, l2, l3, l4]))
        [] rest (out ++ pending ++ utf8 (pairValue (hex4 h1' h2' h3' h4') (hex4 l1 l2 l3 l4)))
        (a.length + pending.length + 12) rfl (by simp; omega) (by simp; omega)
        (by simp at hf; omega)
      simp only [List.nil_append, List.append_nil] at this
      rw [this]
      simp

theorem length_le_renderItems (items : List JStrItem) : items.length ≤ (renderItems items).length := by
  induction items with
  | nil => simp [renderItems]
  | cons it items ih =>
    cases it <;> simp [renderItems, JStrItem.render] <;> omega

theorem SliceString_items (items : List JStrItem) (hok : itemsOk items = true)
    (a rest out : List Nat) :
    (rd a (renderItems items ++ 34 :: rest)).SliceString out
      = some (none, rd (a ++ (renderItems items ++ [34])) rest, out ++ decodeItems items) := by
  have h := SliceString_loop_items items hok
    ((rd a (renderItems items ++ 34 :: rest)).l - (rd a (renderItems items ++ 34 :: rest)).i + 1)
    a [] rest out a.length rfl (Nat.le_refl _) (by simp)
    (by
      have := length_le_renderItems items
      simp [rd]
      omega)
  simp only [List.nil_append, List.append_nil] at h
  exact h


/-! ## The other tokens -/

theorem Scan_switch_single (WriteJson : List Nat → List Nat)
    (again : FFLexer → Option (TokErr × FFLexer)) (ffl : FFLexer) :
    FFLexer.Scan_switch WriteJson false again 123 ffl
        = some ((.FFTok_left_bracket, none), { ffl with Token := .FFTok_left_bracket }) ∧
    FFLexer.Scan_switch WriteJson false again 125 ffl
        = some ((.FFTok_right_bracket, none), { ffl with Token := .FFTok_right_bracket }) ∧
    FFLexer.Scan_switch WriteJson false again 91 ffl
        = some ((.FFTok_left_brace, none), { ffl with Token := .FFTok_left_brace }) ∧
    FFLexer.Scan_switch WriteJson false again 93 ffl
        = some ((.FFTok_right_brace, none), { ffl with Token := .FFTok_right_brace }) ∧
    FFLexer.Scan_switch WriteJson false again 44 ffl
        = some ((.FFTok_comma, none), { ffl with Token := .FFTok_comma }) ∧
    FFLexer.Scan_switch WriteJson false again 58 ffl
        = some ((.FFTok_colon, none), { ffl with Token := .FFTok_colon }) := by
  refine ⟨rfl, rfl, rfl, rfl, rfl, rfl⟩

theorem isSingle_not_WS (c : Nat) (h : isSingle c = true) : isWS c = false := by
  simp only [isSingle, Bool.or_eq_true, beq_iff_eq] at h
  simp only [isWS, Bool.or_eq_false_iff, beq_eq_false_iff_ne]
  omega

theorem Scan_single (WriteJson : List Nat → List Nat) (a ws b out : List Nat) (c : Nat)
    (T : FFTok) (k : Nat) (bf : List Nat) (hws : ws.all isWS = true) (hc : isSingle c = true) :
    FFLexer.Scan WriteJson false (FFLexer.mk (rd a (ws ++ c :: b)) out T k bf)
      = some ((singleTok c, none), FFLexer.mk (rd (a ++ ws ++ [c]) b) [] (singleTok c) k bf) := by
  rw [Scan_false_mk, ReadByteNoWS_rd a ws b c hws (isSingle_not_WS c hc)]
  simp only [isSingle, Bool.or_eq_true, beq_iff_eq] at hc
  rcases hc with ((((rfl | rfl) | rfl) | rfl) | rfl) | rfl <;> rfl

theorem Scan_string (WriteJson : List Nat → List Nat) (items : List JStrItem)
    (hok : itemsOk items = true) (a ws rest out : List Nat)
    (T : FFTok) (k : Nat) (bf : List Nat) (hws : ws.all isWS = true) :
    FFLexer.Scan WriteJson false
        (FFLexer.mk (rd a (ws ++ 34 :: (renderItems items ++ 34 :: rest))) out T k bf)
      = some ((.FFTok_string, none),
          FFLexer.mk (rd (a ++ ws ++ 34 :: (renderItems items ++ [34])) rest) (decodeItems items)
            .FFTok_string k bf) := by
  rw [Scan_false_mk, ReadByteNoWS_rd a ws _ 34 hws rfl]
  have h := SliceString_items items hok (a ++ ws ++ [34]) rest []
  simp only [FFLexer.Scan_switch, FFLexer.lexString, Bool.false_eq_true, if_false, h]
  simp [FFLexer.afterLex, FFLexer.lexed]

theorem wantBytes_run (want : List Nat) (iftrue : FFTok) :
    ∀ (a b out : List Nat) (T : FFTok) (k : Nat) (bf : List Nat),
      FFLexer.wantBytes want iftrue (FFLexer.mk (rd a (want ++ b)) out T k bf)
        = some ((iftrue, none), FFLexer.mk (rd (a ++ want) b) (out ++ want) T k bf) := by
  induction want with
  | nil => intro a b out T k bf; simp [FFLexer.wantBytes]
  | cons w want ih =>
    intro a b out T k bf
    rw [List.cons_append, FFLexer.wantBytes, readByte_cons]
    simp only [ne_eq, not_true_eq_false, if_false, WriteByte_mk]
    rw [ih]
    simp

theorem Scan_literal (WriteJson : List Nat → List Nat) (which : Nat) (a ws b out : List Nat)
    (T : FFTok) (k : Nat) (bf : List Nat) (hws : ws.all isWS = true) :
    FFLexer.Scan WriteJson false (FFLexer.mk (rd a (ws ++ (literalText which ++ b))) out T k bf)
      = some ((literalTok which, none),
          FFLexer.mk (rd (a ++ ws ++ literalText which) b) (literalText which)
            (literalTok which) k bf) := by
  by_cases h0 : which = 0
  · subst h0
    have e : literalText 0 ++ b = 110 :: (null_bytes ++ b) := rfl
    rw [e, Scan_false_mk, ReadByteNoWS_rd a ws _ 110 hws rfl]
    simp only [FFLexer.Scan_switch, WriteByte_mk]
    simp only [Nat.reduceEqDiff, if_false, if_true, Nat.reduceLeDiff, false_or, or_false,
      wantBytes_run, FFLexer.afterLex, FFLexer.lexed]
    simp [literalText, literalTok, null_bytes]
  · by_cases h1 : which = 1
    · subst h1
      have e : literalText 1 ++ b = 116 :: (true_bytes1 ++ b) := rfl
      rw [e, Scan_false_mk, ReadByteNoWS_rd a ws _ 116 hws rfl]
      simp only [FFLexer.Scan_switch, WriteByte_mk]
      simp only [Nat.reduceEqDiff, if_false, if_true, Nat.reduceLeDiff, false_or, or_false,
        wantBytes_run, FFLexer.afterLex, FFLexer.lexed]
      simp [literalText, literalTok, true_bytes1]
    · have e : literalText which ++ b = 102 :: (false_bytes1 ++ b) := by
        simp [literalText, h0, h1, false_bytes1]
      rw [e, Scan_false_mk, ReadByteNoWS_rd a ws _ 102 hws rfl]
      simp only [FFLexer.Scan_switch, WriteByte_mk]
      simp only [Nat.reduceEqDiff, if_false, if_true, Nat.reduceLeDiff, false_or, or_false,
        wantBytes_run, FFLexer.afterLex, FFLexer.lexed]
      simp [literalText, literalTok, h0, h1, false_bytes1]


theorem renderItems_raw (s : List Nat) : renderItems (s.map JStrItem.raw) = s := by
  induction s with
  | nil => rfl
  | cons c s ih => simp [renderItems, JStrItem.render, ih]

theorem decodeItems_raw (s : List Nat) : decodeItems (s.map JStrItem.raw) = s := by
  induction s with
  | nil => rfl
  | cons c s ih => simp [decodeItems, JStrItem.decode, ih]

theorem itemsOk_raw (s : List Nat) (h : s.all isPlain = true) :
    itemsOk (s.map JStrItem.raw) = true := by
  induction s with
  | nil => rfl
  | cons c s ih =>
    simp only [List.all_cons, Bool.and_eq_true] at h
    simp [itemsOk, JStrItem.wf, h.1, ih h.2]

theorem renderItems_append (xs ys : List JStrItem) :
    renderItems (xs ++ ys) = renderItems xs ++ renderItems ys := by
  induction xs with
  | nil => rfl
  | cons x xs ih => simp [renderItems, ih]

theorem decodeItems_append (xs ys : List JStrItem) :
    decodeItems (xs ++ ys) = decodeItems xs ++ decodeItems ys := by
  induction xs with
  | nil => rfl
  | cons x xs ih => simp [decodeItems, ih]

theorem itemsOk_append (xs ys : List JStrItem) (hx : itemsOk xs = true) (hy : itemsOk ys = true) :
    itemsOk (xs ++ ys) = true := by
  induction xs with
  | nil => exact hy
  | cons x xs ih =>
    simp only [itemsOk, Bool.and_eq_true] at hx
    simp [itemsOk, hx.1, ih hx.2]

theorem handleEscaped_bad (a pending rest out : List Nat) (c x : Nat)
    (hu : c ≠ 117) (h : escapeByte c = none) :
    (rd a (pending ++ 92 :: c :: rest)).handleEscaped x (a.length + pending.length + 1) out
      = some (.error (.lex_string_invalid_escaped_char c), rd a (pending ++ 92 :: c :: rest),
          out) := by
  have hl : ¬ (a.length + pending.length + 1 ≥ (rd a (pending ++ 92 :: c :: rest)).l) := by
    simp only [rd, List.length_append, List.length_cons]
    omega
  have hg : (rd a (pending ++ 92 :: c :: rest)).s[a.length + pending.length + 1]? = some c := by
    have := getElem?_split (a ++ (pending ++ [92])) rest c
    simpa [rd, Nat.add_assoc] using this
  have hv : byteLookupTable c &&& cVEC = 0 := (cVEC_zero_iff c).mpr h
  unfold ffReader.handleEscaped
  simp only [hl, if_false, hg, hu, hv, if_true]

theorem SliceString_bad_escape (a pre tail out : List Nat) (c : Nat)
    (hpre : pre.all isPlain = true) (hu : c ≠ 117) (h : escapeByte c = none) :
    (rd a (pre ++ 92 :: c :: tail)).SliceString out
      = some (some (.lex_string_invalid_escaped_char c), rd a (pre ++ 92 :: c :: tail), out) := by
  unfold ffReader.SliceString
  have hj : ¬ ((rd a (pre ++ 92 :: c :: tail)).i ≥ (rd a (pre ++ 92 :: c :: tail)).l) := by
    simp [rd]
  rw [SliceString_loop_step _ _ _ _ hj]
  have hs : aScanString (rd a (pre ++ 92 :: c :: tail)).s (rd a (pre ++ 92 :: c :: tail)).i
      = (a.length + pre.length + 1, 92) :=
    aScanString_pending a pre _ 92 a.length hpre isPlain_backslash (Nat.le_refl _) (by omega)
  have hne : ¬ ((92 : Nat) = 34) := by decide
  simp only [hs, hne, if_false, if_true, handleEscaped_bad a pre tail out c 92 hu h]

theorem escapeByte_none_iff (c : Nat) :
    escapeByte c = none ↔ c ∉ [34, 92, 47, 98, 102, 110, 114, 116] := by
  unfold escapeByte
  simp only [List.mem_cons, List.mem_singleton, List.not_mem_nil, or_false, not_or]
  split_ifs <;> simp_all

theorem SliceString_with_item (it : JStrItem) (hit : it.wf = true) (a pre rest out : List Nat)
    (post : List JStrItem) (hpre : pre.all isPlain = true) (hpost : itemsOk post = true) :
    (rd a (pre ++ (it.render ++ (renderItems post ++ 34 :: rest)))).SliceString out
      = some (none, rd (a ++ (pre ++ (it.render ++ (renderItems post ++ [34])))) rest,
          out ++ pre ++ it.decode ++ decodeItems post) := by
  have hok : itemsOk (pre.map JStrItem.raw ++ it :: post) = true :=
    itemsOk_append _ _ (itemsOk_raw pre hpre) (by simp [itemsOk, hit, hpost])
  have := SliceString_items _ hok a rest out
  simp only [renderItems_append, decodeItems_append, renderItems_raw, decodeItems_raw,
    renderItems, decodeItems, List.append_assoc] at this
  simp only [List.append_assoc]
  exact this


theorem hasClosingQuote_quote (t : List Nat) : hasClosingQuote (34 :: t) = true := by
  cases t <;> simp [hasClosingQuote]

theorem hasClosingQuote_escape (d : Nat) (t : List Nat) :
    hasClosingQuote (92 :: d :: t) = hasClosingQuote t := by
  simp [hasClosingQuote]

theorem hasClosingQuote_other (c : Nat) (t : List Nat) (h1 : c ≠ 34) (h2 : c ≠ 92) :
    hasClosingQuote (c :: t) = hasClosingQuote t := by
  cases t with
  | nil => simp [hasClosingQuote, h1]
  | cons d t => simp [hasClosingQuote, h1, h2]

theorem isPlain_ne (c : Nat) (h : isPlain c = true) : c ≠ 34 ∧ c ≠ 92 := by
  simp only [isPlain, Bool.and_eq_true, decide_eq_true_eq, bne_iff_ne] at h
  exact ⟨h.1.2, h.2⟩

theorem hasClosingQuote_plain (ps : List Nat) (hps : ps.all isPlain = true) (t : List Nat) :
    hasClosingQuote (ps ++ t) = hasClosingQuote t := by
  induction ps with
  | nil => rfl
  | cons p ps ih =>
    simp only [List.all_cons, Bool.and_eq_true] at hps
    have := isPlain_ne p hps.1
    rw [List.cons_append, hasClosingQuote_other _ _ this.1 this.2, ih hps.2]

theorem isHexDigit_plain (c : Nat) (h : isHexDigit c = true) : isPlain c = true := by
  simp only [isHexDigit, Bool.or_eq_true, Bool.and_eq_true, decide_eq_true_eq] at h
  simp only [isPlain, Bool.and_eq_true, decide_eq_true_eq, bne_iff_ne]
  omega

/-- What `readU4` does at the index `pre.length` of the input `pre ++ post`: an error, or
the value of the four hex digits that `post` starts with. -/
theorem readU4_cases (r : ffReader) (pre post : List Nat) (hs : r.s = pre ++ post)
    (hl : r.l = r.s.length) :
    (∃ e, r.readU4 pre.length = some (.error e)) ∨
    (∃ h1 h2 h3 h4 post', post = h1 :: h2 :: h3 :: h4 :: post' ∧ isHexDigit h1 = true ∧
      isHexDigit h2 = true ∧ isHexDigit h3 = true ∧ isHexDigit h4 = true ∧
      r.readU4 pre.length = some (.ok (hex4 h1 h2 h3 h4))) := by
  have hlen : r.l = pre.length + post.length := by rw [hl, hs]; simp
  have key : ∀ k : Nat, r.s[pre.length + k]? = post[k]? := by
    intro k; rw [hs]; exact getElem?_append_add pre post k
  have k0 : r.s[pre.length]? = post[0]? := key 0
  have k1 : r.s[pre.length + 1]? = post[1]? := key 1
  have k2 : r.s[pre.length + 1 + 1]? = post[2]? := key 2
  have k3 : r.s[pre.length + 1 + 1 + 1]? = post[3]? := key 3
  rcases post with _ | ⟨h1, post⟩
  · left
    have : pre.length ≥ r.l := by simp at hlen; omega
    exact ⟨.EOF, by simp [ffReader.readU4, ffReader.readU4_loop, this]⟩
  have l0 : ¬ (pre.length ≥ r.l) := by simp at hlen; omega
  by_cases x1 : isHexDigit h1 = true
  swap
  · left
    have v : ¬ (byteLookupTable h1 &&& cVHC ≠ 0) := by rw [cVHC_ne_zero_iff]; exact x1
    simp only [ne_eq, not_not] at v
    exact ⟨.lex_string_invalid_hex_char h1, by
      simp [ffReader.readU4, ffReader.readU4_loop, l0, k0, v]⟩
  have v1 := (cVHC_ne_zero_iff h1).mpr x1
  rcases post with _ | ⟨h2, post⟩
  · left
    have : pre.length + 1 ≥ r.l := by simp at hlen; omega
    exact ⟨.EOF, by simp [ffReader.readU4, ffReader.readU4_loop, l0, k0, v1, this]⟩
  have l1 : ¬ (pre.length + 1 ≥ r.l) := by simp at hlen; omega
  by_cases x2 : isHexDigit h2 = true
  swap
  · left
    have v : ¬ (byteLookupTable h2 &&& cVHC ≠ 0) := by rw [cVHC_ne_zero_iff]; exact x2
    simp only [ne_eq, not_not] at v
    exact ⟨.lex_string_invalid_hex_char h2, by
      simp [ffReader.readU4, ffReader.readU4_loop, l0, k0, v1, l1, k1, v]⟩
  have v2 := (cVHC_ne_zero_iff h2).mpr x2
  rcases post with _ | ⟨h3, post⟩
  · left
    have : pre.length + 1 + 1 ≥ r.l := by simp at hlen; omega
    exact ⟨.EOF, by simp [ffReader.readU4, ffReader.readU4_loop, l0, k0, v1, l1, k1, v2, this]⟩
  have l2 : ¬ (pre.length + 1 + 1 ≥ r.l) := by simp at hlen; omega
  by_cases x3 : isHexDigit h3 = true
  swap
  · left
    have v : ¬ (byteLookupTable h3 &&& cVHC ≠ 0) := by rw [cVHC_ne_zero_iff]; exact x3
    simp only [ne_eq, not_not] at v
    exact ⟨.lex_string_invalid_hex_char h3, by
      simp [ffReader.readU4, ffReader.readU4_loop, l0, k0, v1, l1, k1, v2, l2, k2, v]⟩
  have v3 := (cVHC_ne_zero_iff h3).mpr x3
  rcases post with _ | ⟨h4, post⟩
  · left
    have : pre.length + 1 + 1 + 1 ≥ r.l := by simp at hlen; omega
    exact ⟨.EOF, by
      simp [ffReader.readU4, ffReader.readU4_loop, l0, k0, v1, l1, k1, v2, l2, k2, v3, this]⟩
  have l3 : ¬ (pre.length + 1 + 1 + 1 ≥ r.l) := by simp at hlen; omega
  by_cases x4 : isHexDigit h4 = true
  swap
  · left
    have v : ¬ (byteLookupTable h4 &&& cVHC ≠ 0) := by rw [cVHC_ne_zero_iff]; exact x4
    simp only [ne_eq, not_not] at v
    exact ⟨.lex_string_invalid_hex_char h4, by
      simp [ffReader.readU4, ffReader.readU4_loop, l0, k0, v1, l1, k1, v2, l2, k2, v3, l3, k3, v]⟩
  right
  exact ⟨h1, h2, h3, h4, post, rfl, x1, x2, x3, x4, readU4_hex r pre post h1 h2 h3 h4 hs hl x1 x2 x3 x4⟩


theorem readU4_eof (r : ffReader) (j : Nat) (h : j ≥ r.l) : r.readU4 j = some (.error .EOF) := by
  simp [ffReader.readU4, ffReader.readU4_loop, h]

theorem handleEscaped_u_unfold (a pending rest out : List Nat) (x : Nat) :
    (rd a (pending ++ 92 :: 117 :: rest)).handleEscaped x (a.length + pending.length + 1) out
      = match (rd a (pending ++ 92 :: 117 :: rest)).readU4 (a.length + pending.length + 2) with
        | none => none
        | some (.error e) => some (.error e, rd a (pending ++ 92 :: 117 :: rest), out)
        | some (.ok ru) =>
          if utf16_IsSurrogate ru then
            match (rd a (pending ++ 92 :: 117 :: rest)).readU4 (a.length + pending.length + 8) with
            | none => none
            | some (.error e) => some (.error e, rd a (pending ++ 92 :: 117 :: rest), out)
            | some (.ok ru2) =>
              if utf16_DecodeRune ru ru2 ≠ unicode_ReplacementChar then
                some (.ok (a.length + pending.length + 12),
                  { rd a (pending ++ 92 :: 117 :: rest) with i := a.length + pending.length + 12 },
                  Buffer_WriteRune (out ++ pending) (utf16_DecodeRune ru ru2))
              else
                some (.error (.lex_string_invalid_unicode_surrogate ru ru2),
                  { rd a (pending ++ 92 :: 117 :: rest) with i := a.length + pending.length + 12 },
                  out ++ pending)
          else
            some (.ok (a.length + pending.length + 6),
              { rd a (pending ++ 92 :: 117 :: rest) with i := a.length + pending.length + 6 },
              Buffer_WriteRune (out ++ pending) ru) := by
  have hl : ¬ (a.length + pending.length + 1 ≥ (rd a (pending ++ 92 :: 117 :: rest)).l) := by
    simp only [rd, List.length_append, List.length_cons]
    omega
  have hg : (rd a (pending ++ 92 :: 117 :: rest)).s[a.length + pending.length + 1]? = some 117 := by
    have := getElem?_split (a ++ (pending ++ [92])) rest 117
    simpa [rd, Nat.add_assoc] using this
  have hsl : goSlice (rd a (pending ++ 92 :: 117 :: rest)).s (rd a (pending ++ 92 :: 117 :: rest)).i
      (a.length + pending.length + 1 + 1 - 2) = some pending := by
    have := goSlice_pending a pending (92 :: 117 :: rest)
    simpa [rd] using this
  unfold ffReader.handleEscaped
  simp only [hl, if_false, hg, if_true, hsl]


theorem hex4_plain_skip (h1 h2 h3 h4 : Nat) (t : List Nat) (x1 : isHexDigit h1 = true)
    (x2 : isHexDigit h2 = true) (x3 : isHexDigit h3 = true) (x4 : isHexDigit h4 = true) :
    hasClosingQuote (h1 :: h2 :: h3 :: h4 :: t) = hasClosingQuote t := by
  have := hasClosingQuote_plain [h1, h2, h3, h4]
    (by simp [isHexDigit_plain _ x1, isHexDigit_plain _ x2, isHexDigit_plain _ x3,
      isHexDigit_plain _ x4]) t
  simpa using this

/-- One escape inside a string whose rest holds no closing quote: `handleEscaped` returns
an error, or it returns the index after the bytes `esc` of the escape, with the cursor
there, and what follows holds no closing quote either. -/
theorem handleEscaped_progress (a pending rest out : List Nat) (x : Nat)
    (h : hasClosingQuote (92 :: rest) = false) :
    (∃ e r' out', (rd a (pending ++ 92 :: rest)).handleEscaped x (a.length + pending.length + 1) out
      = some (.error e, r', out')) ∨
    (∃ esc rest2 out', rest = esc ++ rest2 ∧ hasClosingQuote rest2 = false ∧
      (rd a (pending ++ 92 :: rest)).handleEscaped x (a.length + pending.length + 1) out
        = some (.ok (a ++ (pending ++ 92 :: esc)).length, rd (a ++ (pending ++ 92 :: esc)) rest2,
            out')) := by
  rcases rest with _ | ⟨c, rest⟩
  · left
    have : a.length + pending.length + 1 ≥ (rd a (pending ++ [92])).l := by
      simp only [rd, List.length_append, List.length_cons, List.length_nil]
      omega
    exact ⟨.EOF, rd a (pending ++ [92]), out, by simp [ffReader.handleEscaped, this]⟩
  rw [hasClosingQuote_escape] at h
  by_cases hu : c = 117
  swap
  · cases hb : escapeByte c with
    | none => exact Or.inl ⟨_, _, _, handleEscaped_bad a pending rest out c x hu hb⟩
    | some b =>
      right
      refine ⟨[c], rest, out ++ pending ++ [b], rfl, h, ?_⟩
      rw [handleEscaped_esc a pending rest out c b x hb]
      simp
      omega
  subst hu
  rw [handleEscaped_u_unfold]
  have hplain : hasClosingQuote (117 :: rest) = hasClosingQuote rest :=
    hasClosingQuote_other 117 rest (by decide) (by decide)
  have e2 : a.length + pending.length + 2 = (a ++ (pending ++ [92, 117])).length := by
    simp only [List.length_append, List.length_cons, List.length_nil]
    omega
  rcases readU4_cases (rd a (pending ++ 92 :: 117 :: rest)) (a ++ (pending ++ [92, 117])) rest
    (by simp [rd]) (by simp [rd]) with ⟨e, he⟩ | ⟨h1, h2, h3, h4, post, rfl, x1, x2, x3, x4, hr⟩
  · left
    rw [e2, he]
    exact ⟨_, _, _, rfl⟩
  rw [e2, hr]
  rw [hex4_plain_skip h1 h2 h3 h4 post x1 x2 x3 x4] at h
  have hlt := hex4_lt h1 h2 h3 h4 x1 x2 x3 x4
  cases hsur : utf16_IsSurrogate (hex4 h1 h2 h3 h4) with
  | false =>
    right
    refine ⟨[117, h1, h2, h3, h4], post, Buffer_WriteRune (out ++ pending) (hex4 h1 h2 h3 h4),
      rfl, h, ?_⟩
    simp only [hsur, Bool.false_eq_true, if_false]
    rw [rd_with_i a _ (a ++ (pending ++ [92, 117, h1, h2, h3, h4])) post _ (by simp)
      (by simp; omega)]
    simp
    omega
  | true =>
    simp only [hsur, if_true]
    -- the two skipped bytes and the second code unit
    rcases post with _ | ⟨y1, post⟩
    · left
      rw [readU4_eof _ _ (by simp only [rd, List.length_append, List.length_cons, List.length_nil]; omega)]
      exact ⟨_, _, _, rfl⟩
    rcases post with _ | ⟨y2, post⟩
    · left
      rw [readU4_eof _ _ (by simp only [rd, List.length_append, List.length_cons, List.length_nil]; omega)]
      exact ⟨_, _, _, rfl⟩
    have e8 : a.length + pending.length + 8
        = (a ++ (pending ++ [92, 117, h1, h2, h3, h4, y1, y2])).length := by
      simp only [List.length_append, List.length_cons, List.length_nil]
      omega
    rcases readU4_cases (rd a (pending ++ 92 :: 117 :: h1 :: h2 :: h3 :: h4 :: y1 :: y2 :: post))
      (a ++ (pending ++ [92, 117, h1, h2, h3, h4, y1, y2])) post
      (by simp [rd]) (by simp [rd]) with ⟨e, he⟩ | ⟨l1, l2, l3, l4, post2, rfl, z1, z2, z3, z4, hr2⟩
    · left
      rw [e8, he]
      exact ⟨_, _, _, rfl⟩
    rw [e8, hr2]
    by_cases hdec : utf16_DecodeRune (hex4 h1 h2 h3 h4) (hex4 l1 l2 l3 l4)
        = unicode_ReplacementChar
    · left
      simp only [hdec, ne_eq, not_true_eq_false, if_false]
      exact ⟨_, _, _, rfl⟩
    simp only [hdec, ne_eq, not_false_eq_true, if_true]
    right
    refine ⟨[117, h1, h2, h3, h4, y1, y2, l1, l2, l3, l4], post2,
      Buffer_WriteRune (out ++ pending)
        (utf16_DecodeRune (hex4 h1 h2 h3 h4) (hex4 l1 l2 l3 l4)), rfl, ?_, ?_⟩
    · -- no closing quote after the escape
      have hl4 := hex4_plain_skip l1 l2 l3 l4 post2 z1 z2 z3 z4
      have p1 := isPlain_ne l1 (isHexDigit_plain l1 z1)
      have p2 := isPlain_ne l2 (isHexDigit_plain l2 z2)
      have p3 := isPlain_ne l3 (isHexDigit_plain l3 z3)
      have p4 := isPlain_ne l4 (isHexDigit_plain l4 z4)
      by_cases c1 : y1 = 34
      · subst c1
        rw [hasClosingQuote_quote] at h
        exact absurd h (by decide)
      by_cases c2 : y1 = 92
      · subst c2
        rw [hasClosingQuote_escape] at h
        rw [← hl4]
        exact h
      rw [hasClosingQuote_other y1 _ c1 c2] at h
      by_cases c3 : y2 = 34
      · subst c3
        rw [hasClosingQuote_quote] at h
        exact absurd h (by decide)
      by_cases c4 : y2 = 92
      · subst c4
        rw [hasClosingQuote_escape] at h
        rw [hasClosingQuote_other l2 _ p2.1 p2.2, hasClosingQuote_other l3 _ p3.1 p3.2,
          hasClosingQuote_other l4 _ p4.1 p4.2] at h
        exact h
      rw [hasClosingQuote_other y2 _ c3 c4, hl4] at h
      exact h
    · rw [rd_with_i a _ (a ++ (pending ++ [92, 117, h1, h2, h3, h4, y1, y2, l1, l2, l3, l4]))
        post2 _ (by simp) (by simp; omega)]
      simp
      omega


theorem isPlain_false_cIJC (x : Nat) (h : isPlain x = false) : byteLookupTable x &&& cIJC ≠ 0 := by
  intro h0
  rw [cIJC_zero_iff, h] at h0
  exact Bool.noConfusion h0

theorem SliceString_loop_unterminated :
    ∀ (fuel : Nat) (a tail out : List Nat), hasClosingQuote tail = false →
      tail.length + 1 ≤ fuel →
      ∃ e r' out', ffReader.SliceString_loop fuel (rd a tail) a.length out
        = some (some e, r', out') := by
  intro fuel
  induction fuel with
  | zero => intro a tail out _ hf; omega
  | succ f ih =>
    intro a tail out h hf
    by_cases hj : a.length ≥ (rd a tail).l
    · exact ⟨.EOF, rd a tail, out, by simp [ffReader.SliceString_loop, hj]⟩
    rw [SliceString_loop_step _ _ _ _ hj]
    obtain ⟨ps, t2, rfl, hps, ht2⟩ := split_run isPlain tail
    rw [hasClosingQuote_plain ps hps] at h
    rcases t2 with _ | ⟨x, rest⟩
    · -- the end of the input
      have hs : aScanString (rd a (ps ++ [])).s a.length = (a.length + ps.length, 0) := by
        unfold aScanString
        simp only [rd, List.append_nil]
        rw [drop_split a ps a.length (Nat.le_refl _), Nat.sub_self, List.drop_zero,
          aScanString_from_end ps hps]
      have c0 : byteLookupTable 0 &&& cIJC ≠ 0 := isPlain_false_cIJC 0 rfl
      have n1 : ¬ ((0 : Nat) = 34) := by decide
      have n2 : ¬ ((0 : Nat) = 92) := by decide
      simp only [hs, n1, n2, if_false, c0, ne_eq, not_false_eq_true, if_true]
      exact ⟨_, _, _, rfl⟩
    have hx : isPlain x = false := by simpa [headOk] using ht2
    have hs : aScanString (rd a (ps ++ x :: rest)).s a.length = (a.length + ps.length + 1, x) :=
      aScanString_pending a ps rest x a.length hps hx (Nat.le_refl _) (by omega)
    simp only [hs]
    by_cases c1 : x = 34
    · subst c1
      rw [hasClosingQuote_quote] at h
      exact absurd h (by decide)
    rw [if_neg c1]
    by_cases c2 : x = 92
    · subst c2
      rw [if_pos rfl]
      rcases handleEscaped_progress a ps rest out 92 h with ⟨e, r', out', he⟩ |
        ⟨esc, rest2, out', rfl, h2, he⟩
      · rw [he]
        exact ⟨_, _, _, rfl⟩
      · rw [he]
        simp only
        exact ih _ rest2 out' h2 (by simp at hf; omega)
    rw [if_neg c2, if_pos (isPlain_false_cIJC x hx)]
    exact ⟨_, _, _, rfl⟩

theorem SliceString_unterminated (a tail out : List Nat) (h : hasClosingQuote tail = false) :
    ∃ e r' out', (rd a tail).SliceString out = some (some e, r', out') := by
  unfold ffReader.SliceString
  exact SliceString_loop_unterminated _ a tail out h (by simp [rd])

theorem Scan_loop_true_ws (WriteJson : List Nat → List Nat) (ws : List Nat)
    (hws : ws.all isWS = true) :
    ∀ (fuel : Nat) (a b out : List Nat) (T : FFTok) (k : Nat) (bf : List Nat),
      FFLexer.Scan_loop WriteJson true (fuel + ws.length) (FFLexer.mk (rd a (ws ++ b)) out T k bf)
        = FFLexer.Scan_loop WriteJson true fuel (FFLexer.mk (rd (a ++ ws) b) (out ++ ws) T k bf) := by
  induction ws with
  | nil => intro fuel a b out T k bf; simp
  | cons w ws ih =>
    intro fuel a b out T k bf
    simp only [List.all_cons, Bool.and_eq_true] at hws
    have hw : w = 9 ∨ w = 10 ∨ w = 11 ∨ w = 12 ∨ w = 13 ∨ w = 32 := by
      have := hws.1
      simp only [isWS, Bool.or_eq_true, beq_iff_eq] at this
      omega
    have e1 : ¬ w = 123 := by omega
    have e2 : ¬ w = 125 := by omega
    have e3 : ¬ w = 91 := by omega
    have e4 : ¬ w = 93 := by omega
    have e5 : ¬ w = 44 := by omega
    have e6 : ¬ w = 58 := by omega
    have ef : fuel + (w :: ws).length = (fuel + ws.length) + 1 := by simp; omega
    rw [ef, FFLexer.Scan_loop]
    simp only [if_true, List.cons_append, ReadByte_rd_cons, FFLexer.Scan_switch, e1, e2, e3, e4,
      e5, e6, if_false, hw, WriteByte_mk]
    rw [ih hws.2]
    simp


/-! ## Skipping a value -/

theorem isJsonWS_isWS (ws : List Nat) (h : ws.all isJsonWS = true) : ws.all isWS = true := by
  rw [List.all_eq_true] at h ⊢
  intro x hx
  have := h x hx
  simp only [isJsonWS, Bool.or_eq_true, beq_iff_eq] at this
  simp only [isWS, Bool.or_eq_true, beq_iff_eq]
  omega

theorem all_isWS_append (a b : List Nat) (ha : a.all isWS = true) (hb : b.all isWS = true) :
    (a ++ b).all isWS = true := by
  simp [List.all_append, ha, hb]

theorem stoppedBy_of_delimHead (n : JNumber) (tail : List Nat) (h : delimHead tail = true) :
    headOk n.stoppedBy tail = true := by
  cases tail with
  | nil => rfl
  | cons d rest =>
    have hd : d = 9 ∨ d = 10 ∨ d = 11 ∨ d = 12 ∨ d = 13 ∨ d = 32 ∨ d = 44 ∨ d = 93 ∨ d = 125 := by
      simp only [delimHead, isWS, Bool.or_eq_true, beq_iff_eq] at h
      omega
    obtain ⟨minus, int, frac, exp⟩ := n
    have hdig : isDigit d = false := by
      simp only [isDigit, Bool.and_eq_false_iff, decide_eq_false_iff_not]
      omega
    have h1 : (d != 101) = true := by simp; omega
    have h2 : (d != 69) = true := by simp; omega
    have h3 : (d != 46) = true := by simp; omega
    cases frac <;> cases exp <;>
      simp [headOk, JNumber.stoppedBy, fracStoppedBy, expStoppedBy, hdig, h1, h2, h3]

theorem delimHead_ne_nil (tail : List Nat) (h : delimHead tail = true) : tail ≠ [] := by
  cases tail with
  | nil => simp [delimHead] at h
  | cons d rest => simp

/-- One pass of the loop of SkipField on a token that is neither the end of the input
nor the start or end token. -/
theorem SkipField_loop_other (WriteJson : List Nat → List Nat) (start tok : FFTok)
    (fuel depth : Nat) (ffl ffl' : FFLexer)
    (h : ffl.Scan WriteJson false = some ((tok, none), ffl'))
    (h1 : tok ≠ .FFTok_eof) (h2 : tok ≠ endTok start) (h3 : tok ≠ start) :
    FFLexer.SkipField_loop WriteJson start (fuel + 1) depth ffl
      = FFLexer.SkipField_loop WriteJson start fuel depth ffl' := by
  rw [FFLexer.SkipField_loop, h]
  simp only [h1, h2, h3, if_false]

theorem SkipField_loop_open (WriteJson : List Nat → List Nat) (start : FFTok)
    (fuel depth : Nat) (ffl ffl' : FFLexer)
    (h : ffl.Scan WriteJson false = some ((start, none), ffl'))
    (h1 : start ≠ .FFTok_eof) (h2 : start ≠ endTok start) :
    FFLexer.SkipField_loop WriteJson start (fuel + 1) depth ffl
      = FFLexer.SkipField_loop WriteJson start fuel (depth + 1) ffl' := by
  rw [FFLexer.SkipField_loop, h]
  simp only [h1, h2, if_false, if_true]

theorem SkipField_loop_close (WriteJson : List Nat → List Nat) (start : FFTok)
    (fuel depth : Nat) (ffl ffl' : FFLexer)
    (h : ffl.Scan WriteJson false = some ((endTok start, none), ffl'))
    (h1 : endTok start ≠ .FFTok_eof) :
    FFLexer.SkipField_loop WriteJson start (fuel + 1) (depth + 1) ffl
      = if depth = 0 then some (none, ffl')
        else FFLexer.SkipField_loop WriteJson start fuel depth ffl' := by
  rw [FFLexer.SkipField_loop, h]
  simp only [h1, if_false, if_true, Nat.add_sub_cancel]


theorem delimHead_ws_append (ws t : List Nat) (hws : ws.all isWS = true) (ht : delimHead t = true) :
    delimHead (ws ++ t) = true := by
  cases ws with
  | nil => exact ht
  | cons w ws =>
    simp only [List.all_cons, Bool.and_eq_true] at hws
    simp [delimHead, hws.1]

theorem skip_single (WriteJson : List Nat → List Nat) (start : FFTok) (c : Nat)
    (hc : isSingle c = true) (h2 : singleTok c ≠ endTok start) (h3 : singleTok c ≠ start)
    (a ws b out : List Nat) (T : FFTok) (kk : Nat) (bf : List Nat) (hws : ws.all isWS = true)
    (fuel depth : Nat) :
    FFLexer.SkipField_loop WriteJson start (fuel + 1) depth
        (FFLexer.mk (rd a (ws ++ c :: b)) out T kk bf)
      = FFLexer.SkipField_loop WriteJson start fuel depth
        (FFLexer.mk (rd (a ++ ws ++ [c]) b) [] (singleTok c) kk bf) := by
  refine SkipField_loop_other WriteJson start (singleTok c) fuel depth _ _
    (Scan_single WriteJson a ws b out c T kk bf hws hc) ?_ h2 h3
  unfold singleTok
  split_ifs <;> decide

theorem skip_literal (WriteJson : List Nat → List Nat) (start : FFTok)
    (hstart : start = .FFTok_left_brace ∨ start = .FFTok_left_bracket) (which : Nat)
    (a ws b out : List Nat) (T : FFTok) (kk : Nat) (bf : List Nat) (hws : ws.all isWS = true)
    (fuel depth : Nat) :
    FFLexer.SkipField_loop WriteJson start (fuel + 1) depth
        (FFLexer.mk (rd a (ws ++ (literalText which ++ b))) out T kk bf)
      = FFLexer.SkipField_loop WriteJson start fuel depth
        (FFLexer.mk (rd (a ++ ws ++ literalText which) b) (literalText which) (literalTok which)
          kk bf) := by
  refine SkipField_loop_other WriteJson start (literalTok which) fuel depth _ _
    (Scan_literal WriteJson which a ws b out T kk bf hws) ?_ ?_ ?_ <;>
  · unfold literalTok
    rcases hstart with rfl | rfl <;> split_ifs <;> decide

theorem skip_string (WriteJson : List Nat → List Nat) (start : FFTok)
    (hstart : start = .FFTok_left_brace ∨ start = .FFTok_left_bracket) (items : List JStrItem)
    (hok : itemsOk items = true)
    (a ws b out : List Nat) (T : FFTok) (kk : Nat) (bf : List Nat) (hws : ws.all isWS = true)
    (fuel depth : Nat) :
    FFLexer.SkipField_loop WriteJson start (fuel + 1) depth
        (FFLexer.mk (rd a (ws ++ 34 :: (renderItems items ++ 34 :: b))) out T kk bf)
      = FFLexer.SkipField_loop WriteJson start fuel depth
        (FFLexer.mk (rd (a ++ ws ++ 34 :: (renderItems items ++ [34])) b) (decodeItems items)
          .FFTok_string kk bf) := by
  refine SkipField_loop_other WriteJson start .FFTok_string fuel depth _ _
    (Scan_string WriteJson items hok a ws b out T kk bf hws) ?_ ?_ ?_ <;>
  · rcases hstart with rfl | rfl <;> decide

theorem skip_number (WriteJson : List Nat → List Nat) (start : FFTok)
    (hstart : start = .FFTok_left_brace ∨ start = .FFTok_left_bracket) (n : JNumber)
    (hn : n.wf = true)
    (a ws b out : List Nat) (T : FFTok) (kk : Nat) (bf : List Nat) (hws : ws.all isWS = true)
    (hb : delimHead b = true) (fuel depth : Nat) :
    FFLexer.SkipField_loop WriteJson start (fuel + 1) depth
        (FFLexer.mk (rd a (ws ++ (n.render ++ b))) out T kk bf)
      = FFLexer.SkipField_loop WriteJson start fuel depth
        (FFLexer.mk (rd (a ++ ws ++ n.render) b) n.render n.kind kk bf) := by
  have hs := Scan_number WriteJson n hn a ws b out T kk bf hws (stoppedBy_of_delimHead n b hb)
  obtain ⟨d, rest, rfl⟩ : ∃ d rest, b = d :: rest := by
    cases b with
    | nil => simp [delimHead] at hb
    | cons d rest => exact ⟨d, rest, rfl⟩
  simp only [numberResult] at hs
  refine SkipField_loop_other WriteJson start n.kind fuel depth _ _ hs ?_ ?_ ?_ <;>
  · unfold JNumber.kind
    rcases hstart with rfl | rfl <;> split_ifs <;> decide


/-- A bracket pair around a middle part `M` that the loop of SkipField passes at any
depth: the loop passes the whole at any depth above zero. -/
theorem skip_brackets (WriteJson : List Nat → List Nat) (start : FFTok)
    (hstart : start = .FFTok_left_brace ∨ start = .FFTok_left_bracket) (o c : Nat)
    (hoc : (o = 91 ∧ c = 93) ∨ (o = 123 ∧ c = 125))
    (a ws0 M wsC tail : List Nat) (N kk : Nat) (bf : List Nat)
    (hws0 : ws0.all isWS = true) (hwsC : wsC.all isWS = true)
    (mid : ∀ (depth : Nat) (out : List Nat) (T : FFTok), ∃ out' T', ∀ fuel,
      FFLexer.SkipField_loop WriteJson start (fuel + N) (depth + 1)
          (FFLexer.mk (rd (a ++ ws0 ++ [o]) (M ++ (wsC ++ c :: tail))) out T kk bf)
        = FFLexer.SkipField_loop WriteJson start fuel (depth + 1)
          (FFLexer.mk (rd (a ++ ws0 ++ [o] ++ M) (wsC ++ c :: tail)) out' T' kk bf))
    (depth : Nat) (out : List Nat) (T : FFTok) :
    ∃ out' T', ∀ fuel,
      FFLexer.SkipField_loop WriteJson start (fuel + (N + 2)) (depth + 1)
          (FFLexer.mk (rd a (ws0 ++ o :: (M ++ (wsC ++ c :: tail)))) out T kk bf)
        = FFLexer.SkipField_loop WriteJson start fuel (depth + 1)
          (FFLexer.mk (rd (a ++ (ws0 ++ o :: (M ++ (wsC ++ [c])))) tail) out' T' kk bf) := by
  have ho : isSingle o = true := by rcases hoc with ⟨rfl, _⟩ | ⟨rfl, _⟩ <;> rfl
  have hc : isSingle c = true := by rcases hoc with ⟨_, rfl⟩ | ⟨_, rfl⟩ <;> rfl
  have hfin : a ++ ws0 ++ [o] ++ M ++ wsC ++ [c] = a ++ (ws0 ++ o :: (M ++ (wsC ++ [c]))) := by
    simp
  by_cases hso : singleTok o = start
  · -- the pair is of the kind that SkipField counts
    have hsc : singleTok c = endTok start := by
      rcases hoc with ⟨rfl, rfl⟩ | ⟨rfl, rfl⟩ <;> (subst hso; rfl)
    have hne : start ≠ endTok start := by rcases hstart with rfl | rfl <;> decide
    have hne2 : start ≠ .FFTok_eof := by rcases hstart with rfl | rfl <;> decide
    have hne3 : endTok start ≠ .FFTok_eof := by rcases hstart with rfl | rfl <;> decide
    obtain ⟨out1, T1, hmid⟩ := mid (depth + 1) [] start
    refine ⟨[], endTok start, ?_⟩
    intro fuel
    have e1 : fuel + (N + 2) = (fuel + 1 + N) + 1 := by omega
    have s1 := Scan_single WriteJson a ws0 (M ++ (wsC ++ c :: tail)) out o T kk bf hws0 ho
    rw [hso] at s1
    rw [e1, SkipField_loop_open WriteJson start _ _ _ _ s1 hne2 hne, hmid (fuel + 1)]
    have s2 := Scan_single WriteJson (a ++ ws0 ++ [o] ++ M) wsC tail out1 c T1 kk bf hwsC hc
    rw [hsc] at s2
    rw [SkipField_loop_close WriteJson start _ _ _ _ s2 hne3, if_neg (by omega), hfin]
  · -- the pair is of the other kind
    have hso2 : singleTok o ≠ endTok start := by
      rcases hoc with ⟨rfl, rfl⟩ | ⟨rfl, rfl⟩ <;> rcases hstart with rfl | rfl <;> decide
    have hsc : singleTok c ≠ start := by
      rcases hoc with ⟨rfl, rfl⟩ | ⟨rfl, rfl⟩ <;> rcases hstart with rfl | rfl <;> decide
    have hsc2 : singleTok c ≠ endTok start := by
      rcases hoc with ⟨rfl, rfl⟩ | ⟨rfl, rfl⟩ <;> rcases hstart with rfl | rfl <;>
        first | decide | exact absurd rfl hso
    obtain ⟨out1, T1, hmid⟩ := mid depth [] (singleTok o)
    refine ⟨[], singleTok c, ?_⟩
    intro fuel
    have e1 : fuel + (N + 2) = (fuel + 1 + N) + 1 := by omega
    rw [e1, skip_single WriteJson start o ho hso2 hso a ws0 _ out T kk bf hws0, hmid (fuel + 1),
      skip_single WriteJson start c hc hsc2 hsc _ wsC tail out1 T1 kk bf hwsC, hfin]


/-- The loop of SkipField, at any depth above zero, passes over a well-formed syntax tree
that is followed by a delimiter: it takes one pass for each token and leaves the cursor
just after the tree. -/
theorem SkipField_loop_over (WriteJson : List Nat → List Nat) (start : FFTok)
    (hstart : start = .FFTok_left_brace ∨ start = .FFTok_left_bracket) (kk : Nat)
    (bf : List Nat) {k : JKind} (v : JSyn k) :
    v.wf = true → ∀ (a ws0 tail out : List Nat) (T : FFTok) (depth : Nat),
      ws0.all isWS = true → delimHead tail = true →
      ∃ out' T', ∀ fuel,
        FFLexer.SkipField_loop WriteJson start (fuel + v.tokens) (depth + 1)
            (FFLexer.mk (rd a (ws0 ++ (v.render ++ tail))) out T kk bf)
          = FFLexer.SkipField_loop WriteJson start fuel (depth + 1)
            (FFLexer.mk (rd (a ++ (ws0 ++ v.render)) tail) out' T' kk bf) := by
  induction v with
  | literal which =>
    intro _ a ws0 tail out T depth hws0 _
    refine ⟨literalText which, literalTok which, fun fuel => ?_⟩
    rw [JSyn.tokens, JSyn.render, skip_literal WriteJson start hstart which a ws0 tail out T kk bf
      hws0, List.append_assoc]
  | number n =>
    intro hwf a ws0 tail out T depth hws0 htail
    refine ⟨n.render, n.kind, fun fuel => ?_⟩
    rw [JSyn.tokens, JSyn.render, skip_number WriteJson start hstart n hwf a ws0 tail out T kk bf
      hws0 htail, List.append_assoc]
  | string items =>
    intro hwf a ws0 tail out T depth hws0 _
    refine ⟨decodeItems items, .FFTok_string, fun fuel => ?_⟩
    have e : ws0 ++ ((JSyn.string items).render ++ tail)
        = ws0 ++ 34 :: (renderItems items ++ 34 :: tail) := by simp [JSyn.render]
    rw [JSyn.tokens, e, skip_string WriteJson start hstart items hwf a ws0 tail out T kk bf hws0]
    simp [JSyn.render]
  | emptyArray ws =>
    intro hwf a ws0 tail out T depth hws0 _
    have hws := isJsonWS_isWS ws hwf
    have := skip_brackets WriteJson start hstart 91 93 (Or.inl ⟨rfl, rfl⟩) a ws0 [] ws tail 0 kk bf
      hws0 hws (fun depth out T => ⟨out, T, fun fuel => by simp⟩) depth out T
    simpa [JSyn.render, JSyn.tokens] using this
  | emptyObject ws =>
    intro hwf a ws0 tail out T depth hws0 _
    have hws := isJsonWS_isWS ws hwf
    have := skip_brackets WriteJson start hstart 123 125 (Or.inr ⟨rfl, rfl⟩) a ws0 [] ws tail 0 kk
      bf hws0 hws (fun depth out T => ⟨out, T, fun fuel => by simp⟩) depth out T
    simpa [JSyn.render, JSyn.tokens] using this
  | array es ws ih =>
    intro hwf a ws0 tail out T depth hws0 _
    simp only [JSyn.wf, Bool.and_eq_true] at hwf
    have hws := isJsonWS_isWS ws hwf.2
    have := skip_brackets WriteJson start hstart 91 93 (Or.inl ⟨rfl, rfl⟩) a ws0 es.render ws tail
      es.tokens kk bf hws0 hws
      (fun depth out T => by
        have := ih hwf.1 (a ++ ws0 ++ [91]) [] (ws ++ 93 :: tail) out T depth rfl
          (delimHead_ws_append ws _ hws rfl)
        simpa using this) depth out T
    simpa [JSyn.render, JSyn.tokens] using this
  | object ms ws ih =>
    intro hwf a ws0 tail out T depth hws0 _
    simp only [JSyn.wf, Bool.and_eq_true] at hwf
    have hws := isJsonWS_isWS ws hwf.2
    have := skip_brackets WriteJson start hstart 123 125 (Or.inr ⟨rfl, rfl⟩) a ws0 ms.render ws
      tail ms.tokens kk bf hws0 hws
      (fun depth out T => by
        have := ih hwf.1 (a ++ ws0 ++ [123]) [] (ws ++ 125 :: tail) out T depth rfl
          (delimHead_ws_append ws _ hws rfl)
        simpa using this) depth out T
    simpa [JSyn.render, JSyn.tokens] using this
  | element ws1 v ih =>
    intro hwf a ws0 tail out T depth hws0 htail
    simp only [JSyn.wf, Bool.and_eq_true] at hwf
    have hws1 := isJsonWS_isWS ws1 hwf.1
    have := ih hwf.2 a (ws0 ++ ws1) tail out T depth (all_isWS_append _ _ hws0 hws1) htail
    simpa [JSyn.render, JSyn.tokens] using this
  | elements ws1 v ws2 rest ihv ihr =>
    intro hwf a ws0 tail out T depth hws0 htail
    simp only [JSyn.wf, Bool.and_eq_true] at hwf
    obtain ⟨⟨⟨h1, hv⟩, h2⟩, hr⟩ := hwf
    have hws1 := isJsonWS_isWS ws1 h1
    have hws2 := isJsonWS_isWS ws2 h2
    obtain ⟨o1, T1, e1⟩ := ihv hv a (ws0 ++ ws1) (ws2 ++ 44 :: (rest.render ++ tail)) out T depth
      (all_isWS_append _ _ hws0 hws1) (delimHead_ws_append ws2 _ hws2 rfl)
    obtain ⟨o2, T2, e2⟩ := ihr hr (a ++ (ws0 ++ ws1 ++ v.render) ++ ws2 ++ [44]) [] tail []
      (singleTok 44) depth rfl htail
    refine ⟨o2, T2, fun fuel => ?_⟩
    have ef : fuel + (JSyn.elements ws1 v ws2 rest).tokens
        = (fuel + rest.tokens + 1) + v.tokens := by simp only [JSyn.tokens]; omega
    have er : ws0 ++ ((JSyn.elements ws1 v ws2 rest).render ++ tail)
        = (ws0 ++ ws1) ++ (v.render ++ (ws2 ++ 44 :: (rest.render ++ tail))) := by
      simp [JSyn.render]
    have hc2 : singleTok 44 ≠ endTok start := by rcases hstart with rfl | rfl <;> decide
    have hc3 : singleTok 44 ≠ start := by rcases hstart with rfl | rfl <;> decide
    rw [ef, er, e1, skip_single WriteJson start 44 rfl hc2 hc3 _ ws2 _ o1 T1 kk bf hws2]
    have e2' := e2 fuel
    simp only [List.nil_append] at e2'
    rw [e2']
    simp [JSyn.render]
  | member ws1 key ws2 ws3 v ihv =>
    intro hwf a ws0 tail out T depth hws0 htail
    simp only [JSyn.wf, Bool.and_eq_true] at hwf
    obtain ⟨⟨⟨⟨h1, hk⟩, h2⟩, h3⟩, hv⟩ := hwf
    have hws1 := isJsonWS_isWS ws1 h1
    have hws2 := isJsonWS_isWS ws2 h2
    have hws3 := isJsonWS_isWS ws3 h3
    obtain ⟨o1, T1, e1⟩ := ihv hv
      (a ++ (ws0 ++ ws1) ++ 34 :: (renderItems key ++ [34]) ++ ws2 ++ [58]) ws3 tail []
      (singleTok 58) depth hws3 htail
    refine ⟨o1, T1, fun fuel => ?_⟩
    have ef : fuel + (JSyn.member ws1 key ws2 ws3 v).tokens
        = (fuel + v.tokens + 1) + 1 := by simp only [JSyn.tokens]; omega
    have er : ws0 ++ ((JSyn.member ws1 key ws2 ws3 v).render ++ tail)
        = (ws0 ++ ws1) ++ 34 :: (renderItems key ++ 34 :: (ws2 ++ 58 :: (ws3 ++ (v.render ++ tail)))) := by
      simp [JSyn.render]
    have hc2 : singleTok 58 ≠ endTok start := by rcases hstart with rfl | rfl <;> decide
    have hc3 : singleTok 58 ≠ start := by rcases hstart with rfl | rfl <;> decide
    rw [ef, er, skip_string WriteJson start hstart key hk a (ws0 ++ ws1) _ out T kk bf
      (all_isWS_append _ _ hws0 hws1),
      skip_single WriteJson start 58 rfl hc2 hc3 _ ws2 _ _ _ kk bf hws2, e1]
    simp [JSyn.render]
  | members ws1 key ws2 ws3 v ws4 rest ihv ihr =>
    intro hwf a ws0 tail out T depth hws0 htail
    simp only [JSyn.wf, Bool.and_eq_true] at hwf
    obtain ⟨⟨⟨⟨⟨⟨h1, hk⟩, h2⟩, h3⟩, hv⟩, h4⟩, hr⟩ := hwf
    have hws1 := isJsonWS_isWS ws1 h1
    have hws2 := isJsonWS_isWS ws2 h2
    have hws3 := isJsonWS_isWS ws3 h3
    have hws4 := isJsonWS_isWS ws4 h4
    obtain ⟨o1, T1, e1⟩ := ihv hv
      (a ++ (ws0 ++ ws1) ++ 34 :: (renderItems key ++ [34]) ++ ws2 ++ [58]) ws3
      (ws4 ++ 44 :: (rest.render ++ tail)) [] (singleTok 58) depth hws3
      (delimHead_ws_append ws4 _ hws4 rfl)
    obtain ⟨o2, T2, e2⟩ := ihr hr
      (a ++ (ws0 ++ ws1) ++ 34 :: (renderItems key ++ [34]) ++ ws2 ++ [58] ++ (ws3 ++ v.render)
        ++ ws4 ++ [44]) [] tail [] (singleTok 44) depth rfl htail
    refine ⟨o2, T2, fun fuel => ?_⟩
    have ef : fuel + (JSyn.members ws1 key ws2 ws3 v ws4 rest).tokens
        = (fuel + rest.tokens + 1 + v.tokens + 1) + 1 := by simp only [JSyn.tokens]; omega
    have er : ws0 ++ ((JSyn.members ws1 key ws2 ws3 v ws4 rest).render ++ tail)
        = (ws0 ++ ws1) ++ 34 :: (renderItems key ++ 34 :: (ws2 ++ 58 :: (ws3 ++ (v.render ++
            (ws4 ++ 44 :: (rest.render ++ tail)))))) := by
      simp [JSyn.render]
    have hc2 : singleTok 58 ≠ endTok start := by rcases hstart with rfl | rfl <;> decide
    have hc3 : singleTok 58 ≠ start := by rcases hstart with rfl | rfl <;> decide
    have hd2 : singleTok 44 ≠ endTok start := by rcases hstart with rfl | rfl <;> decide
    have hd3 : singleTok 44 ≠ start := by rcases hstart with rfl | rfl <;> decide
    rw [ef, er, skip_string WriteJson start hstart key hk a (ws0 ++ ws1) _ out T kk bf
      (all_isWS_append _ _ hws0 hws1),
      skip_single WriteJson start 58 rfl hc2 hc3 _ ws2 _ _ _ kk bf hws2, e1,
      skip_single WriteJson start 44 rfl hd2 hd3 _ ws4 _ o1 T1 kk bf hws4]
    have e2' := e2 fuel
    simp only [List.nil_append] at e2'
    rw [e2']
    simp [JSyn.render]


theorem literalText_length_pos (which : Nat) : 1 ≤ (literalText which).length := by
  unfold literalText
  split_ifs <;> simp

theorem render_length_pos (n : JNumber) (hn : n.wf = true) : 1 ≤ n.render.length := by
  obtain ⟨c, rest, hr, _⟩ := render_head n hn
  rw [hr]
  simp

theorem tokens_le_length {k : JKind} (v : JSyn k) : v.wf = true → v.tokens ≤ v.render.length := by
  induction v with
  | literal which => intro _; exact literalText_length_pos which
  | number n => intro h; exact render_length_pos n h
  | string items => intro _; simp [JSyn.tokens, JSyn.render]
  | emptyArray ws => intro _; simp [JSyn.tokens, JSyn.render]
  | emptyObject ws => intro _; simp [JSyn.tokens, JSyn.render]
  | array es ws ih =>
    intro h
    simp only [JSyn.wf, Bool.and_eq_true] at h
    have := ih h.1
    simp only [JSyn.tokens, JSyn.render, List.length_cons, List.length_append, List.length_nil]
    omega
  | object ms ws ih =>
    intro h
    simp only [JSyn.wf, Bool.and_eq_true] at h
    have := ih h.1
    simp only [JSyn.tokens, JSyn.render, List.length_cons, List.length_append, List.length_nil]
    omega
  | element ws1 v ih =>
    intro h
    simp only [JSyn.wf, Bool.and_eq_true] at h
    have := ih h.2
    simp only [JSyn.tokens, JSyn.render, List.length_append]
    omega
  | elements ws1 v ws2 rest ihv ihr =>
    intro h
    simp only [JSyn.wf, Bool.and_eq_true] at h
    have := ihv h.1.1.2
    have := ihr h.2
    simp only [JSyn.tokens, JSyn.render, List.length_cons, List.length_append]
    omega
  | member ws1 key ws2 ws3 v ihv =>
    intro h
    simp only [JSyn.wf, Bool.and_eq_true] at h
    have := ihv h.2
    simp only [JSyn.tokens, JSyn.render, List.length_cons, List.length_append]
    omega
  | members ws1 key ws2 ws3 v ws4 rest ihv ihr =>
    intro h
    simp only [JSyn.wf, Bool.and_eq_true] at h
    have := ihv h.1.1.2
    have := ihr h.2
    simp only [JSyn.tokens, JSyn.render, List.length_cons, List.length_append]
    omega

/-- Scanning an opening bracket and skipping what it opens: the middle part `M` is one that
the loop of SkipField passes in `N` passes at depth 1. -/
theorem Scan_then_SkipField_brackets (WriteJson : List Nat → List Nat) (o c : Nat)
    (hoc : (o = 91 ∧ c = 93) ∨ (o = 123 ∧ c = 125)) (M wsC r out : List Nat) (T : FFTok)
    (N kk : Nat) (bf : List Nat) (hwsC : wsC.all isWS = true) (hN : N ≤ M.length)
    (mid : ∀ (out : List Nat) (T : FFTok), ∃ out' T', ∀ fuel,
      FFLexer.SkipField_loop WriteJson (singleTok o) (fuel + N) 1
          (FFLexer.mk (rd [o] (M ++ (wsC ++ c :: r))) out T kk bf)
        = FFLexer.SkipField_loop WriteJson (singleTok o) fuel 1
          (FFLexer.mk (rd ([o] ++ M) (wsC ++ c :: r)) out' T' kk bf)) :
    ∃ ffl1 ffl2,
      FFLexer.Scan WriteJson false (FFLexer.mk (rd [] (o :: (M ++ (wsC ++ c :: r)))) out T kk bf)
        = some ((singleTok o, none), ffl1) ∧
      (singleTok o = .FFTok_left_brace ∨ singleTok o = .FFTok_left_bracket) ∧
      ffl1.SkipField WriteJson (singleTok o) = some (none, ffl2) ∧
      ffl2.reader = rd (o :: (M ++ (wsC ++ [c]))) r := by
  have ho : isSingle o = true := by rcases hoc with ⟨rfl, _⟩ | ⟨rfl, _⟩ <;> rfl
  have hc : isSingle c = true := by rcases hoc with ⟨_, rfl⟩ | ⟨_, rfl⟩ <;> rfl
  have hst : singleTok o = .FFTok_left_brace ∨ singleTok o = .FFTok_left_bracket := by
    rcases hoc with ⟨rfl, _⟩ | ⟨rfl, _⟩
    · exact Or.inl rfl
    · exact Or.inr rfl
  have hsc : singleTok c = endTok (singleTok o) := by
    rcases hoc with ⟨rfl, rfl⟩ | ⟨rfl, rfl⟩ <;> rfl
  have hne3 : endTok (singleTok o) ≠ .FFTok_eof := by
    rcases hoc with ⟨rfl, rfl⟩ | ⟨rfl, rfl⟩ <;> decide
  have s1 := Scan_single WriteJson [] [] (M ++ (wsC ++ c :: r)) out o T kk bf rfl ho
  simp only [List.nil_append] at s1
  obtain ⟨out1, T1, hmid⟩ := mid [] (singleTok o)
  have s2 := Scan_single WriteJson ([o] ++ M) wsC r out1 c T1 kk bf hwsC hc
  rw [hsc] at s2
  refine ⟨_, FFLexer.mk (rd ([o] ++ M ++ wsC ++ [c]) r) [] (endTok (singleTok o)) kk bf, s1, hst,
    ?_, ?_⟩
  · unfold FFLexer.SkipField
    rw [if_pos hst]
    have hf : (rd [o] (M ++ (wsC ++ c :: r))).l - (rd [o] (M ++ (wsC ++ c :: r))).i + 1
        = ((M ++ (wsC ++ c :: r)).length - N + 1) + N := by
      rw [rd_fuel]
      simp only [List.length_append, List.length_cons]
      omega
    simp only [hf]
    rw [hmid, SkipField_loop_close WriteJson _ _ _ _ _ s2 hne3, if_pos rfl]
  · simp


/-! ## Literals and numbers that are cut short -/

theorem wantBytes_mismatch (iftrue : FFTok) (p : List Nat) :
    ∀ (y : Nat) (w : List Nat) (x : Nat) (r a out : List Nat) (T : FFTok) (k : Nat) (bf : List Nat),
      x ≠ y →
      FFLexer.wantBytes (p ++ y :: w) iftrue (FFLexer.mk (rd a (p ++ x :: r)) out T k bf)
        = some ((.FFTok_error, some (.FFError .FFErr_invalid_string)),
            FFLexer.mk (rd (a ++ p) (x :: r)) (out ++ p) T k bf) := by
  induction p with
  | nil =>
    intro y w x r a out T k bf hxy
    simp only [List.nil_append, FFLexer.wantBytes, readByte_cons, ne_eq, hxy, not_false_eq_true,
      if_true, unreadByte_snoc, List.append_nil]
  | cons q p ih =>
    intro y w x r a out T k bf hxy
    rw [List.cons_append, List.cons_append, FFLexer.wantBytes, readByte_cons]
    simp only [ne_eq, not_true_eq_false, if_false, WriteByte_mk]
    rw [ih y w x r (a ++ [q]) (out ++ [q]) T k bf hxy]
    simp

theorem wantBytes_eof (iftrue : FFTok) (p : List Nat) :
    ∀ (y : Nat) (w : List Nat) (a out : List Nat) (T : FFTok) (k : Nat) (bf : List Nat),
      FFLexer.wantBytes (p ++ y :: w) iftrue (FFLexer.mk (rd a p) out T k bf)
        = some ((.FFTok_error, some (.FFError .FFErr_io)),
            FFLexer.mk (rd (a ++ p) []) (out ++ p) T k bf) := by
  induction p with
  | nil =>
    intro y w a out T k bf
    simp only [List.nil_append, FFLexer.wantBytes, readByte_nil, List.append_nil]
  | cons q p ih =>
    intro y w a out T k bf
    rw [List.cons_append, FFLexer.wantBytes, readByte_cons]
    simp only [ne_eq, not_true_eq_false, if_false, WriteByte_mk]
    rw [ih y w (a ++ [q]) (out ++ [q]) T k bf]
    simp

/-- Two byte strings: the first is a prefix of the second, or they differ at a first
index, or the second is a proper prefix of the first. -/
theorem prefix_trichotomy (want : List Nat) :
    ∀ rest : List Nat, (∃ r, rest = want ++ r) ∨
      (∃ p x r y w, want = p ++ y :: w ∧ rest = p ++ x :: r ∧ x ≠ y) ∨
      (∃ y w, want = rest ++ y :: w) := by
  induction want with
  | nil => intro rest; exact Or.inl ⟨rest, rfl⟩
  | cons y want ih =>
    intro rest
    rcases rest with _ | ⟨x, rest⟩
    · exact Or.inr (Or.inr ⟨y, want, rfl⟩)
    by_cases hxy : x = y
    · subst hxy
      rcases ih rest with ⟨r, hr⟩ | ⟨p, x', r, y', w, h1, h2, h3⟩ | ⟨y', w, h⟩
      · exact Or.inl ⟨r, by rw [hr]; rfl⟩
      · exact Or.inr (Or.inl ⟨x :: p, x', r, y', w, by rw [h1]; rfl, by rw [h2]; rfl, h3⟩)
      · exact Or.inr (Or.inr ⟨y', w, by rw [h]; rfl⟩)
    · exact Or.inr (Or.inl ⟨[], x, rest, y, want, rfl, rfl, hxy⟩)

/-- Scan at a byte that is no whitespace: the byte is read and the `switch` runs on it. -/
theorem Scan_at (WriteJson : List Nat → List Nat) (captureall : Bool) (a b out : List Nat)
    (c : Nat) (T : FFTok) (k : Nat) (bf : List Nat) (hc : isWS c = false) :
    FFLexer.Scan WriteJson captureall (FFLexer.mk (rd a (c :: b)) out T k bf)
      = FFLexer.Scan_switch WriteJson captureall
          (FFLexer.Scan_loop WriteJson captureall (b.length + 1)) c
          (FFLexer.mk (rd (a ++ [c]) b) (if captureall then out else []) .FFTok_init k bf) := by
  cases captureall with
  | false =>
    rw [Scan_false_mk]
    have := ReadByteNoWS_rd a [] b c rfl hc
    simp only [List.nil_append, List.append_nil] at this
    rw [this]
    simp
  | true =>
    unfold FFLexer.Scan
    simp only [if_true, rd_fuel, List.length_cons]
    rw [FFLexer.Scan_loop]
    simp only [if_true, ReadByte_rd_cons]

/-- The exponent part of `lexNumber` when no digit follows the exponent marker `c` and the
optional sign: the bytes after the marker are `sign ++ d :: r`, and `d` is no digit (and no
sign when `sign` is empty). -/
theorem lexNumber_exponent_missing (c : Nat) (hc : c = 101 ∨ c = 69) (sign : List Nat)
    (hsign : sign = [] ∨ sign = [43] ∨ sign = [45]) (d : Nat) (hd : isDigit d = false)
    (hd2 : sign = [] → d ≠ 43 ∧ d ≠ 45) (tok T : FFTok) (p r out : List Nat) (k : Nat)
    (bf : List Nat) :
    FFLexer.lexNumber_exponent c tok (FFLexer.mk (rd (p ++ [c]) (sign ++ d :: r)) out T k bf)
      = some ((.FFTok_error, some (.FFError .FFErr_missing_integer_after_exponent)),
          FFLexer.mk (rd (p ++ c :: (sign ++ [d])) r) (out ++ c :: sign) T k bf) := by
  rcases hsign with rfl | rfl | rfl
  · have hx : ¬ (d = 43 ∨ d = 45) := by have := hd2 rfl; omega
    simp only [FFLexer.lexNumber_exponent, hc, if_true, WriteByte_mk, List.nil_append,
      readByte_cons, hx, if_false, rd_fuel]
    rw [lexNumber_digits_stop _ _ _ _ hd]
    simp
  · simp only [FFLexer.lexNumber_exponent, hc, if_true, WriteByte_mk, List.cons_append,
      List.nil_append, readByte_cons, true_or, rd_fuel]
    rw [lexNumber_digits_stop _ _ _ _ hd]
    simp
  · simp only [FFLexer.lexNumber_exponent, hc, if_true, WriteByte_mk, List.cons_append,
      List.nil_append, readByte_cons, or_true, rd_fuel]
    rw [lexNumber_digits_stop _ _ _ _ hd]
    simp

/-- The exponent part of `lexNumber` when the input ends after the exponent marker and the
optional sign. -/
theorem lexNumber_exponent_eof (c : Nat) (hc : c = 101 ∨ c = 69) (sign : List Nat)
    (hsign : sign = [] ∨ sign = [43] ∨ sign = [45]) (tok T : FFTok) (p out : List Nat) (k : Nat)
    (bf : List Nat) :
    FFLexer.lexNumber_exponent c tok (FFLexer.mk (rd (p ++ [c]) sign) out T k bf)
      = some ((.FFTok_error, some (.FFError .FFErr_io)),
          FFLexer.mk (rd (p ++ c :: sign) []) (out ++ c :: sign) T k bf) := by
  rcases hsign with rfl | rfl | rfl
  · simp [FFLexer.lexNumber_exponent, hc, WriteByte_mk, readByte_nil]
  · simp [FFLexer.lexNumber_exponent, hc, WriteByte_mk, readByte_nil, readByte_cons]
  · simp [FFLexer.lexNumber_exponent, hc, WriteByte_mk, readByte_nil, readByte_cons]

/-- The fraction part of `lexNumber` when no digit follows the `.`. -/
theorem lexNumber_fraction_missing (d : Nat) (hd : isDigit d = false) (T : FFTok)
    (p r out : List Nat) (k : Nat) (bf : List Nat) :
    FFLexer.lexNumber_fraction 46 (FFLexer.mk (rd (p ++ [46]) (d :: r)) out T k bf)
      = some ((.FFTok_error, some (.FFError .FFErr_missing_integer_after_decimal)),
          FFLexer.mk (rd (p ++ [46]) (d :: r)) (out ++ [46]) T k bf) := by
  simp only [FFLexer.lexNumber_fraction, if_true, WriteByte_mk, readByte_cons, rd_fuel]
  rw [lexNumber_digits_stop _ _ _ _ hd]
  simp only [if_true]
  rw [unreadByte_of _ (p ++ [46]) r d _ T k bf rfl]

/-- The fraction part of `lexNumber` when the input ends after the `.`. -/
theorem lexNumber_fraction_eof (T : FFTok) (p out : List Nat) (k : Nat) (bf : List Nat) :
    FFLexer.lexNumber_fraction 46 (FFLexer.mk (rd (p ++ [46]) []) out T k bf)
      = some ((.FFTok_error, some (.FFError .FFErr_io)),
          FFLexer.mk (rd (p ++ [46]) []) (out ++ [46]) T k bf) := by
  simp [FFLexer.lexNumber_fraction, WriteByte_mk, readByte_nil]

/-- The fraction part of `lexNumber` over a fractional part `frac` (or none) that the byte
`c2` ends: the exponent part goes on from `c2`. -/
theorem lexNumber_fraction_pass (frac : Option (List Nat)) (hfrac : fracOk frac = true)
    (c c2 : Nat) (b b2 p out : List Nat) (T : FFTok) (k : Nat) (bf : List Nat)
    (hcb : c :: b = renderFrac frac ++ c2 :: b2)
    (hc2 : (if frac.isNone then c2 != 46 else !isDigit c2) = true) :
    FFLexer.lexNumber_fraction c (FFLexer.mk (rd (p ++ [c]) b) out T k bf)
      = FFLexer.lexNumber_exponent c2 (if frac.isNone then .FFTok_integer else .FFTok_double)
          (FFLexer.mk (rd (p ++ (renderFrac frac ++ [c2])) b2) (out ++ renderFrac frac) T k bf) := by
  cases frac with
  | none =>
    simp only [renderFrac, List.nil_append, List.cons.injEq] at hcb
    obtain ⟨rfl, rfl⟩ := hcb
    have h46 : ¬ (c = 46) := by simpa using hc2
    simp [FFLexer.lexNumber_fraction, h46, renderFrac]
  | some ds =>
    cases ds with
    | nil => simp [fracOk] at hfrac
    | cons x ds =>
      simp only [fracOk, List.all_cons, Bool.and_eq_true, bne_iff_ne] at hfrac
      obtain ⟨_, hx, hds⟩ := hfrac
      simp only [renderFrac, List.cons_append, List.cons.injEq] at hcb
      obtain ⟨rfl, rfl⟩ := hcb
      have hT : headOk (fun d => !isDigit d) (c2 :: b2) = true := by simpa [headOk] using hc2
      simp only [FFLexer.lexNumber_fraction, if_true, WriteByte_mk, readByte_cons, rd_fuel]
      rw [lexNumber_digits_run ds hds _ x 0 _ (c2 :: b2) _ T k bf hx (by simp) hT]
      have h0 : ¬ (0 + 1 + ds.length = 0) := by omega
      simp only [h0, if_false, List.take_succ_cons, List.take_zero, List.drop_succ_cons,
        List.drop_zero]
      simp [renderFrac]

/-- The integer part of `lexNumber` at a byte that is no digit. -/
theorem lexNumber_integer_missing (c : Nat) (hc : isDigit c = false) (T : FFTok)
    (p b out : List Nat) (k : Nat) (bf : List Nat) :
    FFLexer.lexNumber_integer c (FFLexer.mk (rd (p ++ [c]) b) out T k bf)
      = some ((.FFTok_error, some (.FFError .FFErr_missing_integer_after_minus)),
          FFLexer.mk (rd p (c :: b)) out T k bf) := by
  have h1 : ¬ (c = 48) := by
    intro h; subst h; simp [isDigit] at hc
  have h2 : ¬ (49 ≤ c ∧ c ≤ 57) := by
    simp only [isDigit, Bool.and_eq_false_iff, decide_eq_false_iff_not] at hc
    omega
  simp [FFLexer.lexNumber_integer, h1, h2, unreadByte_snoc]

/-- The integer part of `lexNumber` over an integer part `int` that the byte `c2` ends:
the fraction part goes on from `c2`. -/
theorem lexNumber_integer_pass (int : List Nat) (hint : intPartOk int = true)
    (c c2 : Nat) (b b2 p out : List Nat) (T : FFTok) (k : Nat) (bf : List Nat)
    (hcb : c :: b = int ++ c2 :: b2) (hc2 : int = [48] ∨ isDigit c2 = false) :
    FFLexer.lexNumber_integer c (FFLexer.mk (rd (p ++ [c]) b) out T k bf)
      = FFLexer.lexNumber_fraction c2
          (FFLexer.mk (rd (p ++ (int ++ [c2])) b2) (out ++ int) T k bf) := by
  cases int with
  | nil => simp [intPartOk] at hint
  | cons c0 ds0 =>
    simp only [List.cons_append, List.cons.injEq] at hcb
    obtain ⟨rfl, rfl⟩ := hcb
    simp only [intPartOk, Bool.or_eq_true, Bool.and_eq_true, beq_iff_eq, decide_eq_true_eq] at hint
    rcases hint with ⟨rfl, rfl⟩ | ⟨⟨h1, h2⟩, hds⟩
    · simp [FFLexer.lexNumber_integer, WriteByte_mk, readByte_cons]
    · have hc0 : ¬ (c = 48) := by omega
      have hc1 : 49 ≤ c ∧ c ≤ 57 := ⟨h1, h2⟩
      have hcd : isDigit c = true := by
        simp only [isDigit, Bool.and_eq_true, decide_eq_true_eq]
        omega
      have hd2 : isDigit c2 = false := by
        rcases hc2 with h | h
        · simp only [List.cons.injEq] at h
          exact absurd h.1 hc0
        · exact h
      have hT : headOk (fun d => !isDigit d) (c2 :: b2) = true := by simpa [headOk] using hd2
      simp only [FFLexer.lexNumber_integer, hc0, if_false, hc1, and_self, if_true, rd_fuel]
      rw [lexNumber_digits_run ds0 hds _ c 0 _ _ _ T k bf hcd (by simp) hT]
      simp

/-- Scan at a `-` or a digit: the byte is pushed back and `lexNumber` runs. -/
theorem Scan_number_start (WriteJson : List Nat → List Nat) (captureall : Bool)
    (a b out : List Nat) (c : Nat) (T : FFTok) (k : Nat) (bf : List Nat)
    (hc : c = 45 ∨ isDigit c = true) :
    FFLexer.Scan WriteJson captureall (FFLexer.mk (rd a (c :: b)) out T k bf)
      = FFLexer.afterLex (FFLexer.lexNumber
          (FFLexer.mk (rd a (c :: b)) (if captureall then out else []) .FFTok_init k bf)) := by
  have hr : c = 45 ∨ (48 ≤ c ∧ c ≤ 57) := by
    rcases hc with h | h
    · exact Or.inl h
    · right; simpa [isDigit] using h
  have hws : isWS c = false := by
    simp only [isWS, Bool.or_eq_false_iff, beq_eq_false_iff_ne]
    omega
  rw [Scan_at WriteJson captureall a b out c T k bf hws]
  have e1 : ¬ c = 123 := by omega
  have e2 : ¬ c = 125 := by omega
  have e3 : ¬ c = 91 := by omega
  have e4 : ¬ c = 93 := by omega
  have e5 : ¬ c = 44 := by omega
  have e6 : ¬ c = 58 := by omega
  have e7 : ¬ (c = 9 ∨ c = 10 ∨ c = 11 ∨ c = 12 ∨ c = 13 ∨ c = 32) := by omega
  have e8 : ¬ c = 116 := by omega
  have e9 : ¬ c = 102 := by omega
  have e10 : ¬ c = 110 := by omega
  have e11 : ¬ c = 34 := by omega
  simp only [FFLexer.Scan_switch, e1, e2, e3, e4, e5, e6, e7, e8, e9, e10, e11, if_false, hr,
    if_true, unreadByte_snoc]

/-- The beginning of `lexNumber`: after the optional `-`, the integer part starts at the
byte `c`. -/
theorem lexNumber_pre (m : Bool) (c : Nat) (hc : m = false → c ≠ 45) (a b out : List Nat)
    (T : FFTok) (k : Nat) (bf : List Nat) :
    FFLexer.lexNumber (FFLexer.mk (rd a ((if m then [45] else []) ++ c :: b)) out T k bf)
      = FFLexer.lexNumber_integer c
          (FFLexer.mk (rd (a ++ (if m then [45] else []) ++ [c]) b)
            (out ++ (if m then [45] else [])) T k bf) := by
  cases m with
  | true =>
    simp only [if_true, List.cons_append, List.nil_append, FFLexer.lexNumber, readByte_cons,
      WriteByte_mk]
  | false =>
    have := hc rfl
    simp [FFLexer.lexNumber, readByte_cons, this]

theorem intPartOk_head (int : List Nat) (h : intPartOk int = true) :
    ∃ c ds, int = c :: ds ∧ isDigit c = true := by
  cases int with
  | nil => simp [intPartOk] at h
  | cons c ds =>
    refine ⟨c, ds, rfl, ?_⟩
    simp only [intPartOk, Bool.or_eq_true, Bool.and_eq_true, beq_iff_eq, decide_eq_true_eq] at h
    simp only [isDigit, Bool.and_eq_true, decide_eq_true_eq]
    omega

theorem isDigit_ne_45 (c : Nat) (h : isDigit c = true) : c ≠ 45 := by
  simp only [isDigit, Bool.and_eq_true, decide_eq_true_eq] at h
  omega

/-- Number lexing from the sign over an integer part `int` that the byte `c2` ends: the
fraction part goes on from `c2`. -/
theorem lexNumber_to_fraction (m : Bool) (int : List Nat) (hint : intPartOk int = true)
    (c2 : Nat) (hc2 : int = [48] ∨ isDigit c2 = false) (a b2 out : List Nat) (T : FFTok) (k : Nat)
    (bf : List Nat) :
    FFLexer.lexNumber
        (FFLexer.mk (rd a ((if m then [45] else []) ++ (int ++ c2 :: b2))) out T k bf)
      = FFLexer.lexNumber_fraction c2
          (FFLexer.mk (rd (a ++ ((if m then [45] else []) ++ int) ++ [c2]) b2)
            (out ++ ((if m then [45] else []) ++ int)) T k bf) := by
  obtain ⟨c, ds, rfl, hcd⟩ := intPartOk_head int hint
  rw [List.cons_append, lexNumber_pre m c (fun _ => isDigit_ne_45 c hcd),
    lexNumber_integer_pass (c :: ds) hint c c2 (ds ++ c2 :: b2) b2 _ _ T k bf rfl hc2]
  simp

/-! ## Every scan returns -/

theorem Lexed_result (f : Bool → FFLexer → Option (TokErr × FFLexer)) (a b : List Nat) (k lo : Nat)
    (te : TokErr) (a2 b2 : List Nat) (h1 : a2 ++ b2 = a ++ b) (h2 : te.2 = none → lo ≤ a2.length)
    (h3 : ∀ e, te.2 = some e → e.fromLexing = true)
    (h : ∀ (cap : Bool) (out : List Nat) (T : FFTok) (bf : List Nat), ∃ out2 T2 bf2,
      f cap (FFLexer.mk (rd a b) out T k bf) = some (te, FFLexer.mk (rd a2 b2) out2 T2 k bf2)) :
    Lexed f a b k lo := by
  refine ⟨te, a2, b2, h1, h2, h3, fun cap out T bf => ?_⟩
  obtain ⟨out2, T2, bf2, e⟩ := h cap out T bf
  exact ⟨_, out2, T2, bf2, e, fun _ => rfl⟩

theorem Lexed_pass (f g : Bool → FFLexer → Option (TokErr × FFLexer)) (a b a1 b1 : List Nat)
    (k lo lo1 : Nat) (hab : a1 ++ b1 = a ++ b) (hlo : lo ≤ lo1)
    (h : ∀ (cap : Bool) (out : List Nat) (T : FFTok) (bf : List Nat), ∃ out1 T1 bf1,
      f cap (FFLexer.mk (rd a b) out T k bf) = g cap (FFLexer.mk (rd a1 b1) out1 T1 k bf1))
    (hg : Lexed g a1 b1 k lo1) : Lexed f a b k lo := by
  obtain ⟨te, a2, b2, h1, h2, h3, h4⟩ := hg
  refine ⟨te, a2, b2, h1.trans hab, fun e => le_trans hlo (h2 e), h3, fun cap out T bf => ?_⟩
  obtain ⟨out1, T1, bf1, e⟩ := h cap out T bf
  obtain ⟨r2, out2, T2, bf2, e2, hr⟩ := h4 cap out1 T1 bf1
  exact ⟨r2, out2, T2, bf2, e.trans e2, hr⟩

theorem numberResult_err (tok : FFTok) (tail : List Nat) (e : GoError)
    (h : (numberResult tok tail).2 = some e) : e.fromLexing = true := by
  cases tail with
  | nil => simp only [numberResult, Option.some.injEq] at h; subst h; rfl
  | cons d r => simp [numberResult] at h

theorem numberResult_ok (tok : FFTok) (tail : List Nat) (h : (numberResult tok tail).2 = none) :
    tail ≠ [] := by
  cases tail with
  | nil => simp [numberResult] at h
  | cons d r => simp

theorem lexNumber_exponent_lexed (c : Nat) (tok : FFTok) (p b : List Nat) (k : Nat) :
    Lexed (fun _ => FFLexer.lexNumber_exponent c tok) (p ++ [c]) b k p.length := by
  -- the outcome over a well-formed exponent (or none)
  have run : ∀ (exp : Option (Nat × Option Nat × List Nat)) (tail : List Nat),
      expOk exp = true → c :: b = renderExp exp ++ tail → headOk (expStoppedBy exp) tail = true →
      Lexed (fun _ => FFLexer.lexNumber_exponent c tok) (p ++ [c]) b k p.length := by
    intro exp tail hexp hcb ht
    refine Lexed_result _ _ _ _ _ (numberResult (if exp.isSome then .FFTok_double else tok) tail)
      (p ++ renderExp exp) tail ?_ ?_ (numberResult_err _ _) ?_
    · rw [List.append_assoc, ← hcb]; simp
    · intro _; simp
    · intro cap out T bf
      exact ⟨_, _, _, lexNumber_exponent_run exp hexp tail p out b c tok T k bf hcb ht⟩
  have miss : ∀ (sign : List Nat) (d : Nat) (r : List Nat), (c = 101 ∨ c = 69) →
      (sign = [] ∨ sign = [43] ∨ sign = [45]) → isDigit d = false →
      (sign = [] → d ≠ 43 ∧ d ≠ 45) → b = sign ++ d :: r →
      Lexed (fun _ => FFLexer.lexNumber_exponent c tok) (p ++ [c]) b k p.length := by
    intro sign d r hc hsign hd hd2 hb
    subst hb
    refine Lexed_result _ _ _ _ _
      (.FFTok_error, some (.FFError .FFErr_missing_integer_after_exponent))
      (p ++ c :: (sign ++ [d])) r (by simp) (by simp) ?_ ?_
    · intro e he; simp only [Option.some.injEq] at he; subst he; rfl
    · intro cap out T bf
      exact ⟨_, _, _, lexNumber_exponent_missing c hc sign hsign d hd hd2 tok T p r out k bf⟩
  have eof : ∀ (sign : List Nat), (c = 101 ∨ c = 69) →
      (sign = [] ∨ sign = [43] ∨ sign = [45]) → b = sign →
      Lexed (fun _ => FFLexer.lexNumber_exponent c tok) (p ++ [c]) b k p.length := by
    intro sign hc hsign hb
    subst hb
    refine Lexed_result _ _ _ _ _ (.FFTok_error, some (.FFError .FFErr_io))
      (p ++ c :: b) [] (by simp) (by simp) ?_ ?_
    · intro e he; simp only [Option.some.injEq] at he; subst he; rfl
    · intro cap out T bf
      exact ⟨_, _, _, lexNumber_exponent_eof c hc b hsign tok T p out k bf⟩
  -- the digits of an exponent
  have digits : ∀ (sign : Option Nat) (d : Nat) (r : List Nat), (c = 101 ∨ c = 69) →
      (sign = none ∨ sign = some 43 ∨ sign = some 45) → isDigit d = true →
      c :: b = c :: ((match sign with | none => [] | some s => [s]) ++ d :: r) →
      Lexed (fun _ => FFLexer.lexNumber_exponent c tok) (p ++ [c]) b k p.length := by
    intro sign d r hc hsign hd hb
    obtain ⟨ds, tail, rfl, hds, ht⟩ := split_run isDigit r
    refine run (some (c, sign, d :: ds)) tail ?_ ?_ ?_
    · have h1 : (c == 101 || c == 69) = true := by
        rcases hc with rfl | rfl <;> rfl
      have h2 : (sign == none || sign == some 43 || sign == some 45) = true := by
        rcases hsign with rfl | rfl | rfl <;> rfl
      simp [expOk, h1, h2, hd, hds]
    · rw [hb]
      rcases hsign with rfl | rfl | rfl <;> simp [renderExp]
    · cases tail with
      | nil => rfl
      | cons x t => simpa [headOk, expStoppedBy] using ht
  by_cases hc : c = 101 ∨ c = 69
  swap
  · exact run none (c :: b) rfl rfl (by
      simp only [headOk, expStoppedBy, Bool.and_eq_true, bne_iff_ne]
      omega)
  rcases b with _ | ⟨s, b1⟩
  · exact eof [] hc (Or.inl rfl) rfl
  by_cases hs : s = 43 ∨ s = 45
  · rcases b1 with _ | ⟨d, r⟩
    · exact eof [s] hc (by rcases hs with rfl | rfl <;> simp) rfl
    have hsl : ([s] : List Nat) = [] ∨ [s] = [43] ∨ [s] = [45] := by
      rcases hs with rfl | rfl <;> simp
    cases hd : isDigit d with
    | false => exact miss [s] d r hc hsl hd (fun h => by cases h) rfl
    | true =>
      exact digits (some s) d r hc (by rcases hs with rfl | rfl <;> simp) hd rfl
  · cases hd : isDigit s with
    | false => exact miss [] s b1 hc (Or.inl rfl) hd (fun _ => by omega) rfl
    | true => exact digits none s b1 hc (Or.inl rfl) hd rfl

theorem lexNumber_fraction_lexed (c : Nat) (p b : List Nat) (k : Nat) :
    Lexed (fun _ => FFLexer.lexNumber_fraction c) (p ++ [c]) b k p.length := by
  have pass : ∀ (frac : Option (List Nat)) (c2 : Nat) (b2 : List Nat), fracOk frac = true →
      c :: b = renderFrac frac ++ c2 :: b2 →
      (if frac.isNone then c2 != 46 else !isDigit c2) = true →
      Lexed (fun _ => FFLexer.lexNumber_fraction c) (p ++ [c]) b k p.length := by
    intro frac c2 b2 hfrac hcb hc2
    refine Lexed_pass _
      (fun _ => FFLexer.lexNumber_exponent c2 (if frac.isNone then .FFTok_integer else .FFTok_double))
      _ _ ((p ++ renderFrac frac) ++ [c2]) b2 k _ (p ++ renderFrac frac).length ?_ (by simp) ?_
      (lexNumber_exponent_lexed c2 _ (p ++ renderFrac frac) b2 k)
    · have : p ++ [c] ++ b = p ++ (c :: b) := by simp
      rw [this, hcb]; simp
    · intro cap out T bf
      refine ⟨out ++ renderFrac frac, T, bf, ?_⟩
      rw [List.append_assoc]
      exact lexNumber_fraction_pass frac hfrac c c2 b b2 p out T k bf hcb hc2
  by_cases hc : c = 46
  swap
  · exact pass none c b rfl rfl (by simpa using hc)
  subst hc
  rcases b with _ | ⟨d, r⟩
  · refine Lexed_result _ _ _ _ _ (.FFTok_error, some (.FFError .FFErr_io))
      (p ++ [46]) [] rfl (by simp) ?_ ?_
    · intro e he; simp only [Option.some.injEq] at he; subst he; rfl
    · intro cap out T bf
      exact ⟨_, _, _, lexNumber_fraction_eof T p out k bf⟩
  cases hd : isDigit d with
  | false =>
    refine Lexed_result _ _ _ _ _
      (.FFTok_error, some (.FFError .FFErr_missing_integer_after_decimal))
      (p ++ [46]) (d :: r) rfl (by simp) ?_ ?_
    · intro e he; simp only [Option.some.injEq] at he; subst he; rfl
    · intro cap out T bf
      exact ⟨_, _, _, lexNumber_fraction_missing d hd T p r out k bf⟩
  | true =>
    obtain ⟨ds, tail, rfl, hds, ht⟩ := split_run isDigit r
    have hfrac : fracOk (some (d :: ds)) = true := by simp [fracOk, hd, hds]
    rcases tail with _ | ⟨c2, b2⟩
    · refine Lexed_result _ _ _ _ _ (numberResult .FFTok_double [])
        (p ++ renderFrac (some (d :: ds)) ++ renderExp none) [] ?_ (by simp [numberResult])
        (numberResult_err _ _) ?_
      · simp [renderFrac, renderExp]
      · intro cap out T bf
        have := lexNumber_fraction_run (some (d :: ds)) none hfrac rfl [] p out (d :: (ds ++ []))
          46 T k bf (by simp [renderFrac, renderExp]) rfl
        exact ⟨_, _, _, this⟩
    · exact pass (some (d :: ds)) c2 b2 hfrac (by simp [renderFrac]) (by simpa [headOk] using ht)

theorem lexNumber_integer_lexed (c : Nat) (p b : List Nat) (k : Nat) :
    Lexed (fun _ => FFLexer.lexNumber_integer c) (p ++ [c]) b k (p.length + 1) := by
  have pass : ∀ (int : List Nat) (c2 : Nat) (b2 : List Nat), intPartOk int = true →
      c :: b = int ++ c2 :: b2 → (int = [48] ∨ isDigit c2 = false) →
      Lexed (fun _ => FFLexer.lexNumber_integer c) (p ++ [c]) b k (p.length + 1) := by
    intro int c2 b2 hint hcb hc2
    obtain ⟨c0, ds0, hi, _⟩ := intPartOk_head int hint
    refine Lexed_pass _ (fun _ => FFLexer.lexNumber_fraction c2)
      _ _ ((p ++ int) ++ [c2]) b2 k _ (p ++ int).length ?_ (by rw [hi]; simp) ?_
      (lexNumber_fraction_lexed c2 (p ++ int) b2 k)
    · have : p ++ [c] ++ b = p ++ (c :: b) := by simp
      rw [this, hcb]; simp
    · intro cap out T bf
      refine ⟨out ++ int, T, bf, ?_⟩
      rw [List.append_assoc]
      exact lexNumber_integer_pass int hint c c2 b b2 p out T k bf hcb hc2
  have atEnd : ∀ (int : List Nat), intPartOk int = true → c :: b = int →
      Lexed (fun _ => FFLexer.lexNumber_integer c) (p ++ [c]) b k (p.length + 1) := by
    intro int hint hcb
    refine Lexed_result _ _ _ _ _ (numberResult .FFTok_integer [])
      (p ++ (int ++ (renderFrac none ++ renderExp none))) [] ?_ (by simp [numberResult])
      (numberResult_err _ _) ?_
    · rw [← hcb]; simp [renderFrac, renderExp]
    · intro cap out T bf
      have := lexNumber_integer_run ⟨false, int, none, none⟩ (by simp [JNumber.wf, hint, fracOk, expOk])
        [] p out b c T k bf (by simp [renderFrac, renderExp, hcb]) rfl
      exact ⟨_, _, _, this⟩
  cases hd : isDigit c with
  | false =>
    refine Lexed_result _ _ _ _ _
      (.FFTok_error, some (.FFError .FFErr_missing_integer_after_minus))
      p (c :: b) (by simp) (by simp) ?_ ?_
    · intro e he; simp only [Option.some.injEq] at he; subst he; rfl
    · intro cap out T bf
      exact ⟨_, _, _, lexNumber_integer_missing c hd T p b out k bf⟩
  | true =>
    have hr : 48 ≤ c ∧ c ≤ 57 := by simpa [isDigit] using hd
    by_cases h0 : c = 48
    · subst h0
      rcases b with _ | ⟨c2, b2⟩
      · exact atEnd [48] rfl rfl
      · exact pass [48] c2 b2 rfl rfl (Or.inl rfl)
    · obtain ⟨ds, tail, rfl, hds, ht⟩ := split_run isDigit b
      have hint : intPartOk (c :: ds) = true := by
        simp only [intPartOk, Bool.or_eq_true, Bool.and_eq_true, beq_iff_eq, decide_eq_true_eq]
        right
        exact ⟨⟨by omega, by omega⟩, hds⟩
      rcases tail with _ | ⟨c2, b2⟩
      · exact atEnd (c :: ds) hint (by simp)
      · exact pass (c :: ds) c2 b2 hint rfl (Or.inr (by simpa [headOk] using ht))

theorem lexNumber_lexed (a b : List Nat) (k : Nat) :
    Lexed (fun _ => FFLexer.lexNumber) a b k (a.length + 1) := by
  have io : ∀ e : GoError,
      ((FFTok.FFTok_error, some (GoError.FFError .FFErr_io)) : TokErr).2 = some e →
      e.fromLexing = true := by
    intro e he; simp only [Option.some.injEq] at he; subst he; rfl
  rcases b with _ | ⟨c, b1⟩
  · refine Lexed_result _ _ _ _ _ (.FFTok_error, some (.FFError .FFErr_io)) a [] rfl (by simp) io ?_
    intro cap out T bf
    exact ⟨out, T, bf, by simp [FFLexer.lexNumber, readByte_nil]⟩
  by_cases hc : c = 45
  · subst hc
    rcases b1 with _ | ⟨d, r⟩
    · refine Lexed_result _ _ _ _ _ (.FFTok_error, some (.FFError .FFErr_io)) (a ++ [45]) []
        (by simp) (by simp) io ?_
      intro cap out T bf
      exact ⟨out ++ [45], T, bf,
        by simp [FFLexer.lexNumber, readByte_cons, readByte_nil, WriteByte_mk]⟩
    · refine Lexed_pass _ (fun _ => FFLexer.lexNumber_integer d) _ _ ((a ++ [45]) ++ [d]) r k _
        ((a ++ [45]).length + 1) (by simp) (by simp) ?_ (lexNumber_integer_lexed d (a ++ [45]) r k)
      intro cap out T bf
      exact ⟨out ++ [45], T, bf, by simp [FFLexer.lexNumber, readByte_cons, WriteByte_mk]⟩
  · refine Lexed_pass _ (fun _ => FFLexer.lexNumber_integer c) _ _ (a ++ [c]) b1 k _
      (a.length + 1) (by simp) (le_refl _) ?_ (lexNumber_integer_lexed c a b1 k)
    intro cap out T bf
    exact ⟨out, T, bf, by simp [FFLexer.lexNumber, readByte_cons, hc]⟩

theorem wantBytes_lexed (want : List Nat) (tok : FFTok) (a b : List Nat) (k : Nat) :
    Lexed (fun _ => FFLexer.wantBytes want tok) a b k a.length := by
  rcases prefix_trichotomy want b with ⟨r, rfl⟩ | ⟨p, x, r, y, w, rfl, rfl, hxy⟩ | ⟨y, w, rfl⟩
  · refine Lexed_result _ _ _ _ _ (tok, none) (a ++ want) r (by simp) (by simp) (by simp) ?_
    intro cap out T bf
    exact ⟨_, _, _, wantBytes_run want tok a r out T k bf⟩
  · refine Lexed_result _ _ _ _ _ (.FFTok_error, some (.FFError .FFErr_invalid_string)) (a ++ p)
      (x :: r) (by simp) (by simp) ?_ ?_
    · intro e he; simp only [Option.some.injEq] at he; subst he; rfl
    · intro cap out T bf
      exact ⟨_, _, _, wantBytes_mismatch tok p y w x r a out T k bf hxy⟩
  · refine Lexed_result _ _ _ _ _ (.FFTok_error, some (.FFError .FFErr_io)) (a ++ b)
      [] (by simp) (by simp) ?_ ?_
    · intro e he; simp only [Option.some.injEq] at he; subst he; rfl
    · intro cap out T bf
      exact ⟨_, _, _, wantBytes_eof tok b y w a out T k bf⟩

/-- The loop of a `//` comment over a body without a newline, up to the newline. -/
theorem lexComment_line_run (body : List Nat) (hbody : body.all (fun x => x != 10) = true) :
    ∀ (fuel : Nat) (a r out : List Nat) (T : FFTok) (k : Nat) (bf : List Nat),
      body.length + 1 ≤ fuel →
      FFLexer.lexComment_line fuel (FFLexer.mk (rd a (body ++ 10 :: r)) out T k bf)
        = some ((.FFTok_comment, none), FFLexer.mk (rd (a ++ (body ++ [10])) r) out T k bf) := by
  induction body with
  | nil =>
    intro fuel a r out T k bf hf
    obtain ⟨f, rfl⟩ : ∃ f, fuel = f + 1 := ⟨fuel - 1, by omega⟩
    simp [FFLexer.lexComment_line, readByte_cons]
  | cons x body ih =>
    intro fuel a r out T k bf hf
    obtain ⟨f, rfl⟩ : ∃ f, fuel = f + 1 := ⟨fuel - 1, by omega⟩
    simp only [List.all_cons, Bool.and_eq_true, bne_iff_ne] at hbody
    rw [List.cons_append, FFLexer.lexComment_line, readByte_cons]
    simp only [hbody.1, if_false]
    rw [ih (by simpa using hbody.2) f (a ++ [x]) r out T k bf (by simp at hf; omega)]
    simp

/-- The loop of a `//` comment over a body without a newline that the input ends. -/
theorem lexComment_line_eof (body : List Nat) (hbody : body.all (fun x => x != 10) = true) :
    ∀ (fuel : Nat) (a out : List Nat) (T : FFTok) (k : Nat) (bf : List Nat),
      body.length + 1 ≤ fuel →
      FFLexer.lexComment_line fuel (FFLexer.mk (rd a body) out T k bf)
        = some ((.FFTok_error, some (.FFError .FFErr_io)),
            FFLexer.mk (rd (a ++ body) []) out T k bf) := by
  induction body with
  | nil =>
    intro fuel a out T k bf hf
    obtain ⟨f, rfl⟩ : ∃ f, fuel = f + 1 := ⟨fuel - 1, by omega⟩
    simp [FFLexer.lexComment_line, readByte_nil]
  | cons x body ih =>
    intro fuel a out T k bf hf
    obtain ⟨f, rfl⟩ : ∃ f, fuel = f + 1 := ⟨fuel - 1, by omega⟩
    simp only [List.all_cons, Bool.and_eq_true, bne_iff_ne] at hbody
    rw [FFLexer.lexComment_line, readByte_cons]
    simp only [hbody.1, if_false]
    rw [ih (by simpa using hbody.2) f (a ++ [x]) out T k bf (by simp at hf; omega)]
    simp

/-- The loop of a `/*` comment over a body without a `*`, then a `*`: the outcome is that
of the byte after the `*`. -/
theorem lexComment_block_run (body : List Nat) (hbody : body.all (fun x => x != 42) = true) :
    ∀ (fuel : Nat) (a t out : List Nat) (T : FFTok) (k : Nat) (bf : List Nat),
      body.length + 1 ≤ fuel →
      FFLexer.lexComment_block fuel (FFLexer.mk (rd a (body ++ 42 :: t)) out T k bf)
        = some (match t with
            | [] => (.FFTok_error, some (.FFError .FFErr_io))
            | x :: _ => if x = 47 then (.FFTok_comment, none)
                else (.FFTok_error, some (.FFError .FFErr_incomplete_comment)),
            FFLexer.mk (rd (a ++ (body ++ 42 :: t.take 1)) (t.drop 1)) out T k bf) := by
  induction body with
  | nil =>
    intro fuel a t out T k bf hf
    obtain ⟨f, rfl⟩ : ∃ f, fuel = f + 1 := ⟨fuel - 1, by omega⟩
    rcases t with _ | ⟨x, r⟩
    · simp [FFLexer.lexComment_block, readByte_cons, readByte_nil]
    · by_cases hx : x = 47
      · simp [FFLexer.lexComment_block, readByte_cons, hx]
      · simp [FFLexer.lexComment_block, readByte_cons, hx]
  | cons x body ih =>
    intro fuel a t out T k bf hf
    obtain ⟨f, rfl⟩ : ∃ f, fuel = f + 1 := ⟨fuel - 1, by omega⟩
    simp only [List.all_cons, Bool.and_eq_true, bne_iff_ne] at hbody
    rw [List.cons_append, FFLexer.lexComment_block, readByte_cons]
    simp only [hbody.1, if_false]
    rw [ih (by simpa using hbody.2) f (a ++ [x]) t out T k bf (by simp at hf; omega)]
    simp

/-- The loop of a `/*` comment over a body without a `*` that the input ends. -/
theorem lexComment_block_eof (body : List Nat) (hbody : body.all (fun x => x != 42) = true) :
    ∀ (fuel : Nat) (a out : List Nat) (T : FFTok) (k : Nat) (bf : List Nat),
      body.length + 1 ≤ fuel →
      FFLexer.lexComment_block fuel (FFLexer.mk (rd a body) out T k bf)
        = some ((.FFTok_error, some (.FFError .FFErr_io)),
            FFLexer.mk (rd (a ++ body) []) out T k bf) := by
  induction body with
  | nil =>
    intro fuel a out T k bf hf
    obtain ⟨f, rfl⟩ : ∃ f, fuel = f + 1 := ⟨fuel - 1, by omega⟩
    simp [FFLexer.lexComment_block, readByte_nil]
  | cons x body ih =>
    intro fuel a out T k bf hf
    obtain ⟨f, rfl⟩ : ∃ f, fuel = f + 1 := ⟨fuel - 1, by omega⟩
    simp only [List.all_cons, Bool.and_eq_true, bne_iff_ne] at hbody
    rw [FFLexer.lexComment_block, readByte_cons]
    simp only [hbody.1, if_false]
    rw [ih (by simpa using hbody.2) f (a ++ [x]) out T k bf (by simp at hf; omega)]
    simp

theorem lexComment_lexed (a b : List Nat) (k : Nat) :
    Lexed (fun _ => FFLexer.lexComment) a b k a.length := by
  have io : ∀ e : GoError,
      ((FFTok.FFTok_error, some (GoError.FFError .FFErr_io)) : TokErr).2 = some e →
      e.fromLexing = true := by
    intro e he; simp only [Option.some.injEq] at he; subst he; rfl
  have inc : ∀ e : GoError,
      ((FFTok.FFTok_error, some (GoError.FFError .FFErr_incomplete_comment)) : TokErr).2 = some e →
      e.fromLexing = true := by
    intro e he; simp only [Option.some.injEq] at he; subst he; rfl
  rcases b with _ | ⟨c, r⟩
  · refine Lexed_result _ _ _ _ _ (.FFTok_error, some (.FFError .FFErr_io)) a [] rfl (by simp) io ?_
    intro cap out T bf
    exact ⟨out, T, bf, by simp [FFLexer.lexComment, readByte_nil]⟩
  by_cases h47 : c = 47
  · subst h47
    obtain ⟨body, tail, rfl, hbody, ht⟩ := split_run (fun x => x != 10) r
    rcases tail with _ | ⟨x, r2⟩
    · refine Lexed_result _ _ _ _ _ (.FFTok_error, some (.FFError .FFErr_io))
        (a ++ [47] ++ body) [] (by simp) (by simp) io ?_
      intro cap out T bf
      refine ⟨out, T, bf, ?_⟩
      simp only [FFLexer.lexComment, readByte_cons, if_true, rd_fuel, List.append_nil]
      rw [lexComment_line_eof body hbody _ _ _ _ _ _ (le_refl _)]
    · have hx : x = 10 := by simpa [headOk] using ht
      subst hx
      refine Lexed_result _ _ _ _ _ (.FFTok_comment, none)
        (a ++ [47] ++ (body ++ [10])) r2 (by simp) (by simp) (by simp) ?_
      intro cap out T bf
      refine ⟨out, T, bf, ?_⟩
      simp only [FFLexer.lexComment, readByte_cons, if_true, rd_fuel]
      rw [lexComment_line_run body hbody _ _ _ _ _ _ _ (by simp)]
  by_cases h42 : c = 42
  · subst h42
    obtain ⟨body, tail, rfl, hbody, ht⟩ := split_run (fun x => x != 42) r
    rcases tail with _ | ⟨x, t⟩
    · refine Lexed_result _ _ _ _ _ (.FFTok_error, some (.FFError .FFErr_io))
        (a ++ [42] ++ body) [] (by simp) (by simp) io ?_
      intro cap out T bf
      refine ⟨out, T, bf, ?_⟩
      simp only [FFLexer.lexComment, readByte_cons, h47, if_false, if_true, rd_fuel,
        List.append_nil]
      rw [lexComment_block_eof body hbody _ _ _ _ _ _ (le_refl _)]
    · have hx : x = 42 := by simpa [headOk] using ht
      subst hx
      clear ht
      have key : ∀ (out : List Nat) (T : FFTok) (bf : List Nat),
          FFLexer.lexComment (FFLexer.mk (rd a (42 :: (body ++ 42 :: t))) out T k bf)
            = some (match t with
              | [] => (.FFTok_error, some (.FFError .FFErr_io))
              | x :: _ => if x = 47 then (.FFTok_comment, none)
                  else (.FFTok_error, some (.FFError .FFErr_incomplete_comment)),
              FFLexer.mk (rd (a ++ [42] ++ (body ++ 42 :: t.take 1)) (t.drop 1)) out T k bf) := by
        intro out T bf
        simp only [FFLexer.lexComment, readByte_cons, h47, if_false, if_true, rd_fuel]
        rw [lexComment_block_run body hbody _ _ _ _ _ _ _ (by simp)]
      rcases t with _ | ⟨y, r2⟩
      · refine Lexed_result _ _ _ _ _ (.FFTok_error, some (.FFError .FFErr_io))
          (a ++ [42] ++ (body ++ [42])) [] (by simp) (by simp) io ?_
        intro cap out T bf
        exact ⟨out, T, bf, by rw [key]; simp⟩
      · by_cases hy : y = 47
        · subst hy
          refine Lexed_result _ _ _ _ _ (.FFTok_comment, none)
            (a ++ [42] ++ (body ++ [42, 47])) r2 (by simp) (by simp) (by simp) ?_
          intro cap out T bf
          exact ⟨out, T, bf, by rw [key]; simp⟩
        · refine Lexed_result _ _ _ _ _ (.FFTok_error, some (.FFError .FFErr_incomplete_comment))
            (a ++ [42] ++ (body ++ [42, y])) r2 (by simp) (by simp) inc ?_
          intro cap out T bf
          exact ⟨out, T, bf, by rw [key]; simp [hy]⟩
  · refine Lexed_result _ _ _ _ _ (.FFTok_error, some (.FFError .FFErr_incomplete_comment))
      (a ++ [c]) r (by simp) (by simp) inc ?_
    intro cap out T bf
    exact ⟨out, T, bf, by simp [FFLexer.lexComment, readByte_cons, h47, h42]⟩

theorem ParseUint_loop_err (base bitSize : Nat) :
    ∀ (s : List Nat) (n : Nat) (e : GoError), ParseUint_loop base bitSize s n = .error e →
      e = .parse_error := by
  intro s
  induction s with
  | nil => intro n e h; simp [ParseUint_loop] at h
  | cons c rest ih =>
    intro n e h
    unfold ParseUint_loop at h
    split at h
    · simp only [Except.error.injEq] at h; exact h.symm
    · split_ifs at h
      · simp only [Except.error.injEq] at h; exact h.symm
      · simp only [Except.error.injEq] at h; exact h.symm
      · exact ih _ e h

theorem ParseUint_err (s : List Nat) (base bitSize : Nat) (e : GoError)
    (h : ParseUint s base bitSize = .error e) : e = .parse_error := by
  unfold ParseUint at h
  split_ifs at h
  · simp only [Except.error.injEq] at h; exact h.symm
  · exact ParseUint_loop_err base bitSize s 0 e h

theorem readU4_loop_err (r : ffReader) :
    ∀ (n j : Nat) (u4 : List Nat) (e : GoError), r.readU4_loop n j u4 = some (.error e) →
      e.fromLexing = true := by
  intro n
  induction n with
  | zero => intro j u4 e h; simp [ffReader.readU4_loop] at h
  | succ n ih =>
    intro j u4 e h
    unfold ffReader.readU4_loop at h
    split_ifs at h with h1
    · simp only [Option.some.injEq, Except.error.injEq] at h; subst h; rfl
    · split at h
      · simp at h
      · split_ifs at h
        · exact ih _ _ e h
        · simp only [Option.some.injEq, Except.error.injEq] at h; subst h; rfl

theorem readU4_err (r : ffReader) (j : Nat) (e : GoError) (h : r.readU4 j = some (.error e)) :
    e.fromLexing = true := by
  unfold ffReader.readU4 at h
  split at h
  · simp at h
  · rename_i e2 h2
    simp only [Option.some.injEq, Except.error.injEq] at h
    subst h
    exact readU4_loop_err r 4 j [] _ h2
  · split at h
    · rename_i e2 h2
      simp only [Option.some.injEq, Except.error.injEq] at h
      subst h
      rw [ParseUint_err _ _ _ _ h2]
      rfl
    · simp at h

/-- One escape inside a string: `handleEscaped` returns an error, the same for every
output buffer, or it returns the index after the bytes `esc` of the escape, with the cursor
there. -/
theorem handleEscaped_total (a pending rest : List Nat) (x : Nat) :
    (∃ e, e.fromLexing = true ∧ ∀ out, ∃ r2 out2,
      (rd a (pending ++ 92 :: rest)).handleEscaped x (a.length + pending.length + 1) out
        = some (.error e, r2, out2)) ∨
    (∃ esc rest2, rest = esc ++ rest2 ∧ ∀ out, ∃ out2,
      (rd a (pending ++ 92 :: rest)).handleEscaped x (a.length + pending.length + 1) out
        = some (.ok (a ++ (pending ++ 92 :: esc)).length, rd (a ++ (pending ++ 92 :: esc)) rest2,
            out2)) := by
  rcases rest with _ | ⟨c, rest⟩
  · left
    have : a.length + pending.length + 1 ≥ (rd a (pending ++ [92])).l := by
      simp only [rd, List.length_append, List.length_cons, List.length_nil]
      omega
    exact ⟨.EOF, rfl, fun out => ⟨rd a (pending ++ [92]), out, by
      simp [ffReader.handleEscaped, this]⟩⟩
  by_cases hu : c = 117
  swap
  · cases hb : escapeByte c with
    | none =>
      exact Or.inl ⟨.lex_string_invalid_escaped_char c, rfl,
        fun out => ⟨_, _, handleEscaped_bad a pending rest out c x hu hb⟩⟩
    | some b =>
      right
      refine ⟨[c], rest, rfl, fun out => ⟨out ++ pending ++ [b], ?_⟩⟩
      rw [handleEscaped_esc a pending rest out c b x hb]
      simp
      omega
  subst hu
  have e2 : a.length + pending.length + 2 = (a ++ (pending ++ [92, 117])).length := by
    simp only [List.length_append, List.length_cons, List.length_nil]
    omega
  rcases readU4_cases (rd a (pending ++ 92 :: 117 :: rest)) (a ++ (pending ++ [92, 117])) rest
    (by simp [rd]) (by simp [rd]) with ⟨e, he⟩ | ⟨h1, h2, h3, h4, post, rfl, x1, x2, x3, x4, hr⟩
  · left
    refine ⟨e, readU4_err _ _ _ he, fun out => ?_⟩
    rw [handleEscaped_u_unfold, e2, he]
    exact ⟨_, _, rfl⟩
  cases hsur : utf16_IsSurrogate (hex4 h1 h2 h3 h4) with
  | false =>
    right
    refine ⟨[117, h1, h2, h3, h4], post, rfl, fun out =>
      ⟨Buffer_WriteRune (out ++ pending) (hex4 h1 h2 h3 h4), ?_⟩⟩
    rw [handleEscaped_u_unfold, e2, hr]
    simp only [hsur, Bool.false_eq_true, if_false]
    rw [rd_with_i a _ (a ++ (pending ++ [92, 117, h1, h2, h3, h4])) post _ (by simp)
      (by simp; omega)]
    simp
    omega
  | true =>
    -- the two skipped bytes and the second code unit
    rcases post with _ | ⟨y1, post⟩
    · left
      refine ⟨.EOF, rfl, fun out => ?_⟩
      rw [handleEscaped_u_unfold, e2, hr]
      simp only [hsur, if_true]
      rw [readU4_eof _ _ (by simp only [rd, List.length_append, List.length_cons, List.length_nil]; omega)]
      exact ⟨_, _, rfl⟩
    rcases post with _ | ⟨y2, post⟩
    · left
      refine ⟨.EOF, rfl, fun out => ?_⟩
      rw [handleEscaped_u_unfold, e2, hr]
      simp only [hsur, if_true]
      rw [readU4_eof _ _ (by simp only [rd, List.length_append, List.length_cons, List.length_nil]; omega)]
      exact ⟨_, _, rfl⟩
    have e8 : a.length + pending.length + 8
        = (a ++ (pending ++ [92, 117, h1, h2, h3, h4, y1, y2])).length := by
      simp only [List.length_append, List.length_cons, List.length_nil]
      omega
    rcases readU4_cases (rd a (pending ++ 92 :: 117 :: h1 :: h2 :: h3 :: h4 :: y1 :: y2 :: post))
      (a ++ (pending ++ [92, 117, h1, h2, h3, h4, y1, y2])) post
      (by simp [rd]) (by simp [rd]) with ⟨e, he⟩ | ⟨l1, l2, l3, l4, post2, rfl, z1, z2, z3, z4, hr2⟩
    · left
      refine ⟨e, readU4_err _ _ _ he, fun out => ?_⟩
      rw [handleEscaped_u_unfold, e2, hr]
      simp only [hsur, if_true]
      rw [e8, he]
      exact ⟨_, _, rfl⟩
    by_cases hdec : utf16_DecodeRune (hex4 h1 h2 h3 h4) (hex4 l1 l2 l3 l4)
        = unicode_ReplacementChar
    · left
      refine ⟨.lex_string_invalid_unicode_surrogate (hex4 h1 h2 h3 h4) (hex4 l1 l2 l3 l4), rfl,
        fun out => ?_⟩
      rw [handleEscaped_u_unfold, e2, hr]
      simp only [hsur, if_true]
      rw [e8, hr2]
      simp only [hdec, ne_eq, not_true_eq_false, if_false]
      exact ⟨_, _, rfl⟩
    right
    refine ⟨[117, h1, h2, h3, h4, y1, y2, l1, l2, l3, l4], post2, rfl, fun out =>
      ⟨Buffer_WriteRune (out ++ pending)
        (utf16_DecodeRune (hex4 h1 h2 h3 h4) (hex4 l1 l2 l3 l4)), ?_⟩⟩
    rw [handleEscaped_u_unfold, e2, hr]
    simp only [hsur, if_true]
    rw [e8, hr2]
    simp only [hdec, ne_eq, not_false_eq_true, if_true]
    rw [rd_with_i a _ (a ++ (pending ++ [92, 117, h1, h2, h3, h4, y1, y2, l1, l2, l3, l4]))
      post2 _ (by simp) (by simp; omega)]
    simp
    omega

/-- The loop of `SliceString` always returns, with the same error or nil for every output
buffer; with nil the cursor has moved on in the same input. -/
theorem SliceString_loop_total :
    ∀ (fuel : Nat) (a tail : List Nat), tail.length + 1 ≤ fuel →
      ∃ e a2 b2, a2 ++ b2 = a ++ tail ∧ (e = none → a.length < a2.length) ∧
        (∀ err, e = some err → err.fromLexing = true) ∧
        ∀ out, ∃ r2 out2, ffReader.SliceString_loop fuel (rd a tail) a.length out
          = some (e, r2, out2) ∧ (e = none → r2 = rd a2 b2) := by
  intro fuel
  induction fuel with
  | zero => intro a tail hf; omega
  | succ f ih =>
    intro a tail hf
    by_cases hj : a.length ≥ (rd a tail).l
    · exact ⟨some .EOF, a, tail, rfl, by simp, by
        intro err h; simp only [Option.some.injEq] at h; subst h; rfl,
        fun out => ⟨rd a tail, out, by simp [ffReader.SliceString_loop, hj], by simp⟩⟩
    obtain ⟨ps, t2, rfl, hps, ht2⟩ := split_run isPlain tail
    rcases t2 with _ | ⟨x, rest⟩
    · -- the end of the input
      have hs : aScanString (rd a (ps ++ [])).s a.length = (a.length + ps.length, 0) := by
        unfold aScanString
        simp only [rd, List.append_nil]
        rw [drop_split a ps a.length (Nat.le_refl _), Nat.sub_self, List.drop_zero,
          aScanString_from_end ps hps]
      have c0 : byteLookupTable 0 &&& cIJC ≠ 0 := isPlain_false_cIJC 0 rfl
      have n1 : ¬ ((0 : Nat) = 34) := by decide
      have n2 : ¬ ((0 : Nat) = 92) := by decide
      refine ⟨some (.lex_string_invalid_json_char 0), a, ps ++ [], rfl, by simp, ?_, fun out => ?_⟩
      · intro err h; simp only [Option.some.injEq] at h; subst h; rfl
      · rw [SliceString_loop_step _ _ _ _ hj]
        simp only [hs, n1, n2, if_false, c0, ne_eq, not_false_eq_true, if_true]
        exact ⟨_, _, rfl, by simp⟩
    have hx : isPlain x = false := by simpa [headOk] using ht2
    have hs : aScanString (rd a (ps ++ x :: rest)).s a.length = (a.length + ps.length + 1, x) :=
      aScanString_pending a ps rest x a.length hps hx (Nat.le_refl _) (by omega)
    by_cases c1 : x = 34
    · subst c1
      refine ⟨none, a ++ (ps ++ [34]), rest, by simp, by simp, by simp, fun out => ?_⟩
      rw [SliceString_loop_step _ _ _ _ hj]
      have hne : a.length + ps.length + 1 ≠ (rd a (ps ++ 34 :: rest)).i := by
        simp only [rd]; omega
      have hsl : goSlice (rd a (ps ++ 34 :: rest)).s (rd a (ps ++ 34 :: rest)).i
          (a.length + ps.length + 1 - 1) = some ps := by
        have := goSlice_pending a ps (34 :: rest)
        simpa [rd] using this
      simp only [hs, if_true, hne, ne_eq, not_false_eq_true, hsl]
      refine ⟨_, _, rfl, fun _ => ?_⟩
      exact rd_with_i a _ (a ++ (ps ++ [34])) rest _ (by simp) (by simp; omega)
    by_cases c2 : x = 92
    · subst c2
      rcases handleEscaped_total a ps rest 92 with ⟨e, hcl, he⟩ | ⟨esc, rest2, rfl, he⟩
      · refine ⟨some e, a, ps ++ 92 :: rest, rfl, by simp, ?_, fun out => ?_⟩
        · intro err h; simp only [Option.some.injEq] at h; subst h; exact hcl
        · obtain ⟨r2, out2, h2⟩ := he out
          rw [SliceString_loop_step _ _ _ _ hj]
          simp only [hs, if_neg c1, if_true, h2]
          exact ⟨_, _, rfl, by simp⟩
      · obtain ⟨e, a2, b2, h1, h2, h3, h4⟩ := ih (a ++ (ps ++ 92 :: esc)) rest2
          (by simp at hf; omega)
        refine ⟨e, a2, b2, by rw [h1]; simp, ?_, h3, fun out => ?_⟩
        · intro h; have := h2 h; simp at this; omega
        · obtain ⟨out1, h5⟩ := he out
          obtain ⟨r2, out2, h6, h7⟩ := h4 out1
          rw [SliceString_loop_step _ _ _ _ hj]
          simp only [hs, if_neg c1, if_true, h5]
          exact ⟨r2, out2, h6, h7⟩
    refine ⟨some (.lex_string_invalid_json_char x), a, ps ++ x :: rest, rfl, by simp, ?_,
      fun out => ?_⟩
    · intro err h; simp only [Option.some.injEq] at h; subst h; rfl
    · rw [SliceString_loop_step _ _ _ _ hj]
      simp only [hs, if_neg c1, if_neg c2, if_pos (isPlain_false_cIJC x hx)]
      exact ⟨_, _, rfl, by simp⟩

theorem lexString_lexed (WriteJson : List Nat → List Nat) (a b : List Nat) (k : Nat) :
    Lexed (fun cap => FFLexer.lexString WriteJson cap) a b k (a.length + 1) := by
  obtain ⟨e, a2, b2, h1, h2, h3, h4⟩ := SliceString_loop_total (b.length + 1) a b (le_refl _)
  have hS : ∀ out, (rd a b).SliceString out
      = ffReader.SliceString_loop (b.length + 1) (rd a b) a.length out := by
    intro out
    unfold ffReader.SliceString
    rw [rd_fuel]
    rfl
  cases e with
  | none =>
    refine ⟨(.FFTok_string, none), a2, b2, h1, fun _ => h2 rfl, by simp, fun cap out T bf => ?_⟩
    cases cap with
    | true =>
      obtain ⟨r2, out2, h5, h6⟩ := h4 []
      refine ⟨r2, out ++ WriteJson out2, T, out2, ?_, fun _ => h6 rfl⟩
      simp only [FFLexer.lexString, if_true, hS, h5]
    | false =>
      obtain ⟨r2, out2, h5, h6⟩ := h4 out
      refine ⟨r2, out2, T, bf, ?_, fun _ => h6 rfl⟩
      simp [FFLexer.lexString, hS, h5]
  | some err =>
    refine ⟨(.FFTok_error, some err), a, b, rfl, by simp, ?_, fun cap out T bf => ?_⟩
    · intro e2 he2; simp only [Option.some.injEq] at he2; subst he2; exact h3 _ rfl
    cases cap with
    | true =>
      obtain ⟨r2, out2, h5, _⟩ := h4 []
      refine ⟨r2, out, T, out2, ?_, by simp⟩
      simp only [FFLexer.lexString, if_true, hS, h5]
    | false =>
      obtain ⟨r2, out2, h5, _⟩ := h4 out
      refine ⟨r2, out2, T, bf, ?_, by simp⟩
      simp [FFLexer.lexString, hS, h5]

theorem Lexed_afterLex (f : Bool → FFLexer → Option (TokErr × FFLexer)) (a b : List Nat)
    (k lo : Nat) (h : Lexed f a b k lo) :
    Lexed (fun cap ffl => FFLexer.afterLex (f cap ffl)) a b k lo := by
  obtain ⟨⟨t, e⟩, a2, b2, h1, h2, h3, h4⟩ := h
  cases e with
  | none =>
    refine ⟨(t, none), a2, b2, h1, h2, h3, fun cap out T bf => ?_⟩
    obtain ⟨r2, out2, T2, bf2, h5, h6⟩ := h4 cap out T bf
    exact ⟨r2, out2, t, bf2, by simp [h5, FFLexer.afterLex, FFLexer.lexed], h6⟩
  | some err =>
    refine ⟨(.FFTok_error, some err), a2, b2, h1, by simp, ?_, fun cap out T bf => ?_⟩
    · intro e2 he2; exact h3 e2 he2
    obtain ⟨r2, out2, T2, bf2, h5, _⟩ := h4 cap out T bf
    exact ⟨r2, out2, T2, bf2, by simp [h5, FFLexer.afterLex], by simp⟩

/-- The `switch` of Scan on a byte that is no whitespace is uniform. -/
theorem Scan_switch_lexed (WriteJson : List Nat → List Nat)
    (againf : Bool → FFLexer → Option (TokErr × FFLexer)) (c : Nat) (hc : isWS c = false)
    (a b : List Nat) (k : Nat) :
    Lexed (fun cap => FFLexer.Scan_switch WriteJson cap (againf cap) c) (a ++ [c]) b k
      (a.length + 1) := by
  have hws : ¬ (c = 9 ∨ c = 10 ∨ c = 11 ∨ c = 12 ∨ c = 13 ∨ c = 32) := by
    simp only [isWS, Bool.or_eq_false_iff, beq_eq_false_iff_ne] at hc
    omega
  have single : ∀ tok : FFTok,
      (∀ cap ffl, FFLexer.Scan_switch WriteJson cap (againf cap) c ffl = ffl.single cap tok c) →
      Lexed (fun cap => FFLexer.Scan_switch WriteJson cap (againf cap) c) (a ++ [c]) b k
        (a.length + 1) := by
    intro tok h
    refine Lexed_result _ _ _ _ _ (tok, none) (a ++ [c]) b rfl (by simp) (by simp) ?_
    intro cap out T bf
    refine ⟨if cap then out ++ [c] else out, tok, bf, ?_⟩
    rw [h]
    cases cap <;> simp [FFLexer.single, FFLexer.lexed, WriteByte_mk]
  have literal : ∀ (want : List Nat) (tok : FFTok),
      (∀ cap ffl, FFLexer.Scan_switch WriteJson cap (againf cap) c ffl
        = FFLexer.afterLex ((ffl.WriteByte c).wantBytes want tok)) →
      Lexed (fun cap => FFLexer.Scan_switch WriteJson cap (againf cap) c) (a ++ [c]) b k
        (a.length + 1) := by
    intro want tok h
    refine Lexed_pass _ (fun _ ffl => FFLexer.afterLex (FFLexer.wantBytes want tok ffl)) _ _
      (a ++ [c]) b k _ (a ++ [c]).length rfl (by simp) ?_
      (Lexed_afterLex _ _ _ _ _ (wantBytes_lexed want tok (a ++ [c]) b k))
    intro cap out T bf
    exact ⟨out ++ [c], T, bf, by rw [h, WriteByte_mk]⟩
  by_cases e1 : c = 123
  · exact single .FFTok_left_bracket (fun cap ffl => by subst e1; simp [FFLexer.Scan_switch])
  by_cases e2 : c = 125
  · exact single .FFTok_right_bracket (fun cap ffl => by subst e2; simp [FFLexer.Scan_switch])
  by_cases e3 : c = 91
  · exact single .FFTok_left_brace (fun cap ffl => by subst e3; simp [FFLexer.Scan_switch])
  by_cases e4 : c = 93
  · exact single .FFTok_right_brace (fun cap ffl => by subst e4; simp [FFLexer.Scan_switch])
  by_cases e5 : c = 44
  · exact single .FFTok_comma (fun cap ffl => by subst e5; simp [FFLexer.Scan_switch])
  by_cases e6 : c = 58
  · exact single .FFTok_colon (fun cap ffl => by subst e6; simp [FFLexer.Scan_switch])
  by_cases e7 : c = 116
  · exact literal true_bytes1 .FFTok_bool (fun cap ffl => by
      subst e7; simp [FFLexer.Scan_switch])
  by_cases e8 : c = 102
  · exact literal false_bytes1 .FFTok_bool (fun cap ffl => by
      subst e8; simp [FFLexer.Scan_switch])
  by_cases e9 : c = 110
  · exact literal null_bytes .FFTok_null (fun cap ffl => by
      subst e9; simp [FFLexer.Scan_switch])
  by_cases e10 : c = 34
  · refine Lexed_pass _ (fun cap ffl => FFLexer.afterLex (FFLexer.lexString WriteJson cap ffl))
      _ _ (a ++ [c]) b k _ ((a ++ [c]).length + 1) rfl (by simp) ?_
      (Lexed_afterLex _ _ _ _ _ (lexString_lexed WriteJson (a ++ [c]) b k))
    intro cap out T bf
    exact ⟨out, T, bf, by subst e10; simp [FFLexer.Scan_switch]⟩
  by_cases e11 : c = 45 ∨ (48 ≤ c ∧ c ≤ 57)
  · refine Lexed_pass _ (fun _ ffl => FFLexer.afterLex (FFLexer.lexNumber ffl))
      _ _ a (c :: b) k _ (a.length + 1) (by simp) (le_refl _) ?_
      (Lexed_afterLex _ _ _ _ _ (lexNumber_lexed a (c :: b) k))
    intro cap out T bf
    refine ⟨out, T, bf, ?_⟩
    simp only [FFLexer.Scan_switch, e1, e2, e3, e4, e5, e6, hws, e7, e8, e9, e10, if_false, e11,
      if_true, unreadByte_snoc]
  by_cases e12 : c = 47
  · refine Lexed_pass _ (fun _ ffl => FFLexer.afterLex (FFLexer.lexComment ffl))
      _ _ (a ++ [c]) b k _ (a ++ [c]).length rfl (by simp) ?_
      (Lexed_afterLex _ _ _ _ _ (lexComment_lexed (a ++ [c]) b k))
    intro cap out T bf
    refine ⟨out, T, bf, ?_⟩
    subst e12
    simp [FFLexer.Scan_switch]
  · refine Lexed_result _ _ _ _ _ (.FFTok_error, some (.FFError .FFErr_invalid_char)) (a ++ [c]) b
      rfl (by simp) ?_ ?_
    · intro e he; simp only [Option.some.injEq] at he; subst he; rfl
    · intro cap out T bf
      refine ⟨out, T, bf, ?_⟩
      simp only [FFLexer.Scan_switch, e1, e2, e3, e4, e5, e6, hws, e7, e8, e9, e10, if_false, e11,
        e12]

/-- Scan is uniform: on every input it returns, the token and the error are the same in
both modes and for all buffers, an error is a lexing error, and with a nil error the cursor
has moved on. -/
theorem Scan_lexed (WriteJson : List Nat → List Nat) (a b : List Nat) (k : Nat) :
    Lexed (fun cap => FFLexer.Scan WriteJson cap) a b k (a.length + 1) := by
  obtain ⟨ws, rest, rfl, hws, hrest⟩ := split_run isWS b
  have hT : ∀ (out : List Nat) (T : FFTok) (bf : List Nat),
      FFLexer.Scan WriteJson true (FFLexer.mk (rd a (ws ++ rest)) out T k bf)
        = FFLexer.Scan_loop WriteJson true (rest.length + 1)
            (FFLexer.mk (rd (a ++ ws) rest) (out ++ ws) .FFTok_init k bf) := by
    intro out T bf
    unfold FFLexer.Scan
    simp only [if_true, rd_fuel]
    have : (ws ++ rest).length + 1 = (rest.length + 1) + ws.length := by
      simp only [List.length_append]; omega
    rw [this, Scan_loop_true_ws WriteJson ws hws]
  rcases rest with _ | ⟨c, r⟩
  · refine ⟨(.FFTok_eof, some .EOF), a, ws ++ [], rfl, by simp, ?_, fun cap out T bf => ?_⟩
    · intro e he; simp only [Option.some.injEq] at he; subst he; rfl
    cases cap with
    | true =>
      refine ⟨rd (a ++ ws) [], out ++ ws, .FFTok_init, bf, ?_, by simp⟩
      beta_reduce
      rw [hT]
      simp [FFLexer.Scan_loop, ReadByte_rd_nil]
    | false =>
      refine ⟨rd a ws, [], .FFTok_init, bf, ?_, by simp⟩
      beta_reduce
      rw [List.append_nil, Scan_false_mk, ReadByteNoWS_rd_eof a ws hws]
      simp
  · have hc : isWS c = false := by simpa [headOk] using hrest
    refine Lexed_pass _
      (fun cap => FFLexer.Scan_switch WriteJson cap
        (if cap then FFLexer.Scan_loop WriteJson true (r.length + 1)
          else FFLexer.Scan_loop WriteJson false (ws ++ c :: r).length) c)
      _ _ ((a ++ ws) ++ [c]) r k _ ((a ++ ws).length + 1) (by simp) (by simp) ?_
      (Scan_switch_lexed WriteJson _ c hc (a ++ ws) r k)
    intro cap out T bf
    cases cap with
    | true =>
      refine ⟨out ++ ws, .FFTok_init, bf, ?_⟩
      beta_reduce
      rw [hT, List.length_cons, FFLexer.Scan_loop]
      simp only [if_true, ReadByte_rd_cons]
    | false =>
      refine ⟨[], .FFTok_init, bf, ?_⟩
      beta_reduce
      rw [Scan_false_mk, ReadByteNoWS_rd a ws r c hws hc]
      simp

/-- Scan on a lexer with a well-formed reader always returns; an error is a lexing error,
and with a nil error the reader is well formed, over the same input, and has moved on. -/
theorem Scan_total (WriteJson : List Nat → List Nat) (cap : Bool) (ffl : FFLexer)
    (hwf : ffl.reader.wf) :
    ∃ tok e ffl2, ffl.Scan WriteJson cap = some ((tok, e), ffl2) ∧
      (∀ err, e = some err → err.fromLexing = true) ∧
      (e = none → ffl2.reader.wf ∧ ffl2.reader.s = ffl.reader.s ∧
        ffl.reader.i < ffl2.reader.i) := by
  obtain ⟨r, out, T, k, bf⟩ := ffl
  have hr := wf_eq_rd r hwf
  obtain ⟨⟨tok, e⟩, a2, b2, h1, h2, h3, h4⟩ := Scan_lexed WriteJson (r.s.take r.i) (r.s.drop r.i) k
  obtain ⟨r2, out2, T2, bf2, h5, h6⟩ := h4 cap out T bf
  refine ⟨tok, e, FFLexer.mk r2 out2 T2 k bf2, ?_, h3, ?_⟩
  · show FFLexer.Scan WriteJson cap (FFLexer.mk r out T k bf) = _
    rw [hr]
    exact h5
  · intro he
    have h7 := h6 he
    have h8 := h2 he
    subst h7
    refine ⟨rd_wf a2 b2, ?_, ?_⟩
    · show a2 ++ b2 = r.s
      rw [h1]; simp
    · show r.i < a2.length
      have : (r.s.take r.i).length = r.i := by
        rw [List.length_take]
        exact Nat.min_eq_left (by rw [← hwf.1]; exact hwf.2)
      omega

/-- The token and error that Scan returns depend on the reader only, not on the mode or on
the buffers; and with a nil error so does the new reader. -/
theorem Scan_uniform (WriteJson : List Nat → List Nat) (c1 c2 : Bool) (ffl1 ffl2 : FFLexer)
    (hwf : ffl1.reader.wf) (hr : ffl2.reader = ffl1.reader) (hk : ffl2.lastCurrentChar = ffl1.lastCurrentChar)
    (tok : FFTok) (e : Option GoError) (x1 : FFLexer)
    (h : ffl1.Scan WriteJson c1 = some ((tok, e), x1)) :
    ∃ x2, ffl2.Scan WriteJson c2 = some ((tok, e), x2) ∧
      x2.lastCurrentChar = x1.lastCurrentChar ∧ (e = none → x2.reader = x1.reader) := by
  obtain ⟨r, out, T, k, bf⟩ := ffl1
  obtain ⟨r', out', T', k', bf'⟩ := ffl2
  simp only at hr hk hwf
  subst hr hk
  have hr := wf_eq_rd r' hwf
  obtain ⟨te, a2, b2, h1, h2, h3, h4⟩ := Scan_lexed WriteJson (r'.s.take r'.i) (r'.s.drop r'.i) k'
  obtain ⟨r2, out2, T2, bf2, h5, h6⟩ := h4 c1 out T bf
  obtain ⟨r3, out3, T3, bf3, h7, h8⟩ := h4 c2 out' T' bf'
  rw [← hr] at h5 h7
  beta_reduce at h5 h7
  rw [h5] at h
  simp only [Option.some.injEq, Prod.mk.injEq] at h
  obtain ⟨hte, hx⟩ := h
  subst hx
  subst hte
  refine ⟨_, h7, rfl, fun he => ?_⟩
  rw [h6 he, h8 he]

/-! ## The shape of the input behind a token -/

/-- Scan in plain mode with a nil error: the pending bytes are whitespace, then a byte `c`
that is none, and the result is that of the `switch` on `c`. -/
theorem Scan_false_inv (WriteJson : List Nat → List Nat) (a b out : List Nat) (T : FFTok)
    (k : Nat) (bf : List Nat) (t : FFTok) (x : FFLexer)
    (h : FFLexer.Scan WriteJson false (FFLexer.mk (rd a b) out T k bf) = some ((t, none), x)) :
    ∃ ws c r, ws.all isWS = true ∧ isWS c = false ∧ b = ws ++ c :: r ∧
      FFLexer.Scan_switch WriteJson false (FFLexer.Scan_loop WriteJson false b.length) c
        (FFLexer.mk (rd (a ++ ws ++ [c]) r) [] .FFTok_init k bf) = some ((t, none), x) := by
  obtain ⟨ws, rest, rfl, hws, hrest⟩ := split_run isWS b
  rw [Scan_false_mk] at h
  cases rest with
  | nil =>
    rw [ReadByteNoWS_rd_eof a _ (by simpa using hws)] at h
    simp at h
  | cons c r =>
    have hcw : isWS c = false := by simpa [headOk] using hrest
    rw [ReadByteNoWS_rd a ws r c hws hcw] at h
    exact ⟨ws, c, r, hws, hcw, rfl, h⟩

/-- The token that the `switch` of Scan returns with a nil error, by the byte. -/
theorem Scan_switch_tok (WriteJson : List Nat → List Nat) (cap : Bool)
    (again : FFLexer → Option (TokErr × FFLexer)) (c : Nat) (hcw : isWS c = false)
    (a b out : List Nat) (T : FFTok) (k : Nat) (bf : List Nat) (t : FFTok) (x : FFLexer)
    (h : FFLexer.Scan_switch WriteJson cap again c (FFLexer.mk (rd (a ++ [c]) b) out T k bf)
      = some ((t, none), x)) :
    (isSingle c = true ∧ t = singleTok c) ∨ (c = 116 ∧ t = .FFTok_bool) ∨
    (c = 102 ∧ t = .FFTok_bool) ∨ (c = 110 ∧ t = .FFTok_null) ∨ (c = 34 ∧ t = .FFTok_string) ∨
    ((c = 45 ∨ (48 ≤ c ∧ c ≤ 57)) ∧ (t = .FFTok_integer ∨ t = .FFTok_double)) ∨
    (c = 47 ∧ t = .FFTok_comment) := by
  unfold FFLexer.Scan_switch at h
  by_cases c1 : c = 123
  · rw [if_pos c1] at h
    exact Or.inl ⟨by subst c1; rfl, by rw [single_tok _ _ _ _ _ _ h]; subst c1; rfl⟩
  rw [if_neg c1] at h
  by_cases c2 : c = 125
  · rw [if_pos c2] at h
    exact Or.inl ⟨by subst c2; rfl, by rw [single_tok _ _ _ _ _ _ h]; subst c2; rfl⟩
  rw [if_neg c2] at h
  by_cases c3 : c = 91
  · rw [if_pos c3] at h
    exact Or.inl ⟨by subst c3; rfl, by rw [single_tok _ _ _ _ _ _ h]; subst c3; rfl⟩
  rw [if_neg c3] at h
  by_cases c4 : c = 93
  · rw [if_pos c4] at h
    exact Or.inl ⟨by subst c4; rfl, by rw [single_tok _ _ _ _ _ _ h]; subst c4; rfl⟩
  rw [if_neg c4] at h
  by_cases c5 : c = 44
  · rw [if_pos c5] at h
    exact Or.inl ⟨by subst c5; rfl, by rw [single_tok _ _ _ _ _ _ h]; subst c5; rfl⟩
  rw [if_neg c5] at h
  by_cases c6 : c = 58
  · rw [if_pos c6] at h
    exact Or.inl ⟨by subst c6; rfl, by rw [single_tok _ _ _ _ _ _ h]; subst c6; rfl⟩
  rw [if_neg c6] at h
  have c7 : ¬ (c = 9 ∨ c = 10 ∨ c = 11 ∨ c = 12 ∨ c = 13 ∨ c = 32) := by
    simp only [isWS, Bool.or_eq_false_iff, beq_eq_false_iff_ne] at hcw
    omega
  rw [if_neg c7] at h
  by_cases c8 : c = 116
  · rw [if_pos c8] at h
    obtain ⟨_, h1, _⟩ := afterLex_ok _ _ _ h
    exact Or.inr (Or.inl ⟨c8, wantBytes_tok _ _ _ _ _ h1⟩)
  rw [if_neg c8] at h
  by_cases c9 : c = 102
  · rw [if_pos c9] at h
    obtain ⟨_, h1, _⟩ := afterLex_ok _ _ _ h
    exact Or.inr (Or.inr (Or.inl ⟨c9, wantBytes_tok _ _ _ _ _ h1⟩))
  rw [if_neg c9] at h
  by_cases c10 : c = 110
  · rw [if_pos c10] at h
    obtain ⟨_, h1, _⟩ := afterLex_ok _ _ _ h
    exact Or.inr (Or.inr (Or.inr (Or.inl ⟨c10, wantBytes_tok _ _ _ _ _ h1⟩)))
  rw [if_neg c10] at h
  by_cases c11 : c = 34
  · rw [if_pos c11] at h
    obtain ⟨_, h1, _⟩ := afterLex_ok _ _ _ h
    exact Or.inr (Or.inr (Or.inr (Or.inr (Or.inl ⟨c11, lexString_tok _ _ _ _ _ h1⟩))))
  rw [if_neg c11] at h
  by_cases c12 : c = 45 ∨ (48 ≤ c ∧ c ≤ 57)
  · rw [if_pos c12, unreadByte_snoc] at h
    obtain ⟨ffl2, h1, _⟩ := afterLex_ok _ _ _ h
    obtain ⟨n, tail, hn, hb, ht, _⟩ := lexNumber_ok _ _ _ _ _ _ _ _ h1
    refine Or.inr (Or.inr (Or.inr (Or.inr (Or.inr (Or.inl ⟨c12, ?_⟩)))))
    rw [ht]
    unfold JNumber.kind
    split_ifs
    · exact Or.inl rfl
    · exact Or.inr rfl
  rw [if_neg c12] at h
  by_cases c13 : c = 47
  · rw [if_pos c13] at h
    obtain ⟨_, h1, _⟩ := afterLex_ok _ _ _ h
    exact Or.inr (Or.inr (Or.inr (Or.inr (Or.inr (Or.inr ⟨c13, lexComment_tok _ _ _ h1⟩)))))
  rw [if_neg c13] at h
  simp at h

/-- Scan in plain mode returns a colon: the pending bytes are whitespace and a `:`. -/
theorem Scan_colon_inv (WriteJson : List Nat → List Nat) (a b out : List Nat) (T : FFTok)
    (k : Nat) (bf : List Nat) (x : FFLexer)
    (h : FFLexer.Scan WriteJson false (FFLexer.mk (rd a b) out T k bf)
      = some ((.FFTok_colon, none), x)) :
    ∃ ws r, ws.all isWS = true ∧ b = ws ++ 58 :: r ∧
      x = FFLexer.mk (rd (a ++ ws ++ [58]) r) [] .FFTok_colon k bf := by
  obtain ⟨ws, c, r, hws, hcw, rfl, hsw⟩ := Scan_false_inv WriteJson a b out T k bf _ x h
  have hc : c = 58 := by
    rcases Scan_switch_tok WriteJson false _ c hcw (a ++ ws) r [] .FFTok_init k bf _ x hsw with
      ⟨hs, ht⟩ | ⟨_, ht⟩ | ⟨_, ht⟩ | ⟨_, ht⟩ | ⟨_, ht⟩ | ⟨_, ht⟩ | ⟨_, ht⟩
    · simp only [isSingle, Bool.or_eq_true, beq_iff_eq] at hs
      unfold singleTok at ht
      split_ifs at ht
      omega
    · cases ht
    · cases ht
    · cases ht
    · cases ht
    · rcases ht with ht | ht <;> cases ht
    · cases ht
  subst hc
  have := Scan_single WriteJson a ws r out 58 T k bf hws rfl
  rw [this] at h
  simp only [Option.some.injEq, Prod.mk.injEq] at h
  exact ⟨ws, r, hws, rfl, h.2.symm⟩

/-- Scan in plain mode returns FFTok_bool: the pending bytes are whitespace and `true` or
`false`, and the literal is the output buffer. -/
theorem Scan_bool_inv (WriteJson : List Nat → List Nat) (a b out : List Nat) (T : FFTok)
    (k : Nat) (bf : List Nat) (x : FFLexer)
    (h : FFLexer.Scan WriteJson false (FFLexer.mk (rd a b) out T k bf)
      = some ((.FFTok_bool, none), x)) :
    ∃ ws r lit, (lit = true_bytes ∨ lit = false_bytes) ∧ ws.all isWS = true ∧
      b = ws ++ (lit ++ r) ∧ x = FFLexer.mk (rd (a ++ ws ++ lit) r) lit .FFTok_bool k bf := by
  obtain ⟨ws, c, r, hws, hcw, rfl, hsw⟩ := Scan_false_inv WriteJson a b out T k bf _ x h
  have fin : ∀ (which : Nat) (r2 : List Nat), which ≠ 0 →
      c :: r = literalText which ++ r2 →
      ∃ ws2 r3 lit, (lit = true_bytes ∨ lit = false_bytes) ∧ ws2.all isWS = true ∧
        ws ++ c :: r = ws2 ++ (lit ++ r3) ∧
        x = FFLexer.mk (rd (a ++ ws2 ++ lit) r3) lit .FFTok_bool k bf := by
    intro which r2 hw hcr
    have := Scan_literal WriteJson which a ws r2 out T k bf hws
    rw [← hcr, h] at this
    simp only [Option.some.injEq, Prod.mk.injEq] at this
    refine ⟨ws, r2, literalText which, ?_, hws, by rw [hcr], ?_⟩
    · unfold literalText
      split_ifs with h0 h1
      · exact absurd h0 hw
      · exact Or.inl rfl
      · exact Or.inr rfl
    · rw [this.2]
      simp [literalTok, hw]
  have hc : c = 116 ∨ c = 102 := by
    rcases Scan_switch_tok WriteJson false _ c hcw (a ++ ws) r [] .FFTok_init k bf _ x hsw with
      ⟨hs, ht⟩ | ⟨hc, _⟩ | ⟨hc, _⟩ | ⟨_, ht⟩ | ⟨_, ht⟩ | ⟨_, ht⟩ | ⟨_, ht⟩
    · unfold singleTok at ht
      split_ifs at ht
    · exact Or.inl hc
    · exact Or.inr hc
    · cases ht
    · cases ht
    · rcases ht with ht | ht <;> cases ht
    · cases ht
  rcases hc with rfl | rfl
  · have hsw2 : FFLexer.afterLex (FFLexer.wantBytes true_bytes1 .FFTok_bool
        (FFLexer.mk (rd (a ++ ws ++ [116]) r) [116] .FFTok_init k bf))
        = some ((.FFTok_bool, none), x) := by
      simpa [FFLexer.Scan_switch, WriteByte_mk] using hsw
    rcases prefix_trichotomy true_bytes1 r with ⟨r2, rfl⟩ | ⟨p, y, r2, z, w, hw, rfl, hyz⟩ |
      ⟨z, w, hw⟩
    · exact fin 1 r2 (by decide) rfl
    · rw [hw, wantBytes_mismatch _ p z w y r2 _ _ _ _ _ hyz] at hsw2
      simp [FFLexer.afterLex] at hsw2
    · rw [hw, wantBytes_eof] at hsw2
      simp [FFLexer.afterLex] at hsw2
  · have hsw2 : FFLexer.afterLex (FFLexer.wantBytes false_bytes1 .FFTok_bool
        (FFLexer.mk (rd (a ++ ws ++ [102]) r) [102] .FFTok_init k bf))
        = some ((.FFTok_bool, none), x) := by
      simpa [FFLexer.Scan_switch, WriteByte_mk] using hsw
    rcases prefix_trichotomy false_bytes1 r with ⟨r2, rfl⟩ | ⟨p, y, r2, z, w, hw, rfl, hyz⟩ |
      ⟨z, w, hw⟩
    · exact fin 2 r2 (by decide) rfl
    · rw [hw, wantBytes_mismatch _ p z w y r2 _ _ _ _ _ hyz] at hsw2
      simp [FFLexer.afterLex] at hsw2
    · rw [hw, wantBytes_eof] at hsw2
      simp [FFLexer.afterLex] at hsw2

/-- The two scans of a value scanner, on a lexer with a well-formed reader: both return a
token with a nil error, the first a colon, or one of them fails or the first is no colon. -/
theorem two_scans_cases (WriteJson : List Nat → List Nat) (ffl : FFLexer) (hwf : ffl.reader.wf) :
    (∃ ffl1 tok2 ffl2, ffl.Scan WriteJson false = some ((.FFTok_colon, none), ffl1) ∧
      ffl1.Scan WriteJson false = some ((tok2, none), ffl2)) ∨
    (∃ t e x, ffl.Scan WriteJson false = some ((t, some e), x)) ∨
    (∃ t x, ffl.Scan WriteJson false = some ((t, none), x) ∧ t ≠ .FFTok_colon) ∨
    (∃ ffl1 t e x, ffl.Scan WriteJson false = some ((.FFTok_colon, none), ffl1) ∧
      ffl1.Scan WriteJson false = some ((t, some e), x)) := by
  obtain ⟨t1, e1, ffl1, h1, _, hok1⟩ := Scan_total WriteJson false ffl hwf
  cases e1 with
  | some err => exact Or.inr (Or.inl ⟨t1, err, ffl1, h1⟩)
  | none =>
    by_cases hc : t1 = .FFTok_colon
    swap
    · exact Or.inr (Or.inr (Or.inl ⟨t1, ffl1, h1, hc⟩))
    subst hc
    obtain ⟨t2, e2, ffl2, h2, _, _⟩ := Scan_total WriteJson false ffl1 (hok1 rfl).1
    cases e2 with
    | some err => exact Or.inr (Or.inr (Or.inr ⟨ffl1, t2, err, ffl2, h1, h2⟩))
    | none => exact Or.inl ⟨ffl1, t2, ffl2, h1, h2⟩

/-! ## Runs of scans -/

theorem scans_succ (WriteJson : List Nat → List Nat) (cap : Bool) (n : Nat) (ffl ffl1 : FFLexer)
    (tok : FFTok) (h : ffl.Scan WriteJson cap = some ((tok, none), ffl1)) :
    ffl.scans WriteJson cap (n + 1)
      = match ffl1.scans WriteJson cap n with
        | some (toks, x) => some (tok :: toks, x)
        | none => none := by
  rw [FFLexer.scans, h]

/-- The tokens of successive scans depend on the reader only, not on the mode or on the
buffers. -/
theorem scans_uniform (WriteJson : List Nat → List Nat) (c1 c2 : Bool) :
    ∀ (n : Nat) (ffl1 ffl2 : FFLexer), ffl1.reader.wf → ffl2.reader = ffl1.reader →
      ffl2.lastCurrentChar = ffl1.lastCurrentChar →
      ∀ (toks : List FFTok) (x1 : FFLexer), ffl1.scans WriteJson c1 n = some (toks, x1) →
      ∃ x2, ffl2.scans WriteJson c2 n = some (toks, x2) := by
  intro n
  induction n with
  | zero =>
    intro ffl1 ffl2 _ _ _ toks x1 h
    simp only [FFLexer.scans, Option.some.injEq, Prod.mk.injEq] at h
    exact ⟨ffl2, by rw [← h.1]; rfl⟩
  | succ n ih =>
    intro ffl1 ffl2 hwf hr hk toks x1 h
    obtain ⟨tok, e, g1, hs, _, hok⟩ := Scan_total WriteJson c1 ffl1 hwf
    cases e with
    | some err => rw [FFLexer.scans, hs] at h; simp at h
    | none =>
      obtain ⟨g2, hs2, hk2, hr2⟩ := Scan_uniform WriteJson c1 c2 ffl1 ffl2 hwf hr hk tok none g1 hs
      rw [scans_succ WriteJson c1 n ffl1 g1 tok hs] at h
      rcases h3 : g1.scans WriteJson c1 n with _ | ⟨toks1, y1⟩
      · rw [h3] at h; simp at h
      rw [h3] at h
      simp only [Option.some.injEq, Prod.mk.injEq] at h
      obtain ⟨y2, h4⟩ := ih g1 g2 (hok rfl).1 (hr2 rfl) hk2 toks1 y1 h3
      refine ⟨y2, ?_⟩
      rw [scans_succ WriteJson c2 n ffl2 g2 tok hs2, h4, ← h.1]

theorem endTok_ne (start : FFTok)
    (hstart : start = .FFTok_left_brace ∨ start = .FFTok_left_bracket) :
    endTok start ≠ start ∧ endTok start ≠ .FFTok_eof ∧ start ≠ .FFTok_eof := by
  rcases hstart with rfl | rfl <;> decide

/-- The loop of SkipField ends with nil only after a run of scans whose tokens close the
structure: the closing tokens of the start kind outnumber the opening ones by `depth`, and
by less in every proper prefix. -/
theorem SkipField_loop_nil (WriteJson : List Nat → List Nat) (start : FFTok)
    (hstart : start = .FFTok_left_brace ∨ start = .FFTok_left_bracket) :
    ∀ (fuel depth : Nat) (ffl x : FFLexer), 1 ≤ depth →
      FFLexer.SkipField_loop WriteJson start fuel depth ffl = some (none, x) →
      ∃ n toks, ffl.scans WriteJson false n = some (toks, x) ∧
        toks.count (endTok start) = toks.count start + depth ∧
        ∀ m, m < n → (toks.take m).count (endTok start) < (toks.take m).count start + depth := by
  obtain ⟨hne, hne2, hne3⟩ := endTok_ne start hstart
  intro fuel
  induction fuel with
  | zero => intro depth ffl x _ h; simp [FFLexer.SkipField_loop] at h
  | succ f ih =>
    intro depth ffl x hd h
    unfold FFLexer.SkipField_loop at h
    rcases hs : ffl.Scan WriteJson false with _ | ⟨⟨tok, e⟩, ffl1⟩
    · rw [hs] at h; simp at h
    rw [hs] at h
    cases e with
    | some err => simp at h
    | none =>
      simp only at h
      have step : ∀ (d2 : Nat), 1 ≤ d2 →
          FFLexer.SkipField_loop WriteJson start f d2 ffl1 = some (none, x) →
          (∀ c1 c2 : Nat, c1 = c2 + d2 →
            (tok :: ([] : List FFTok)).count (endTok start) + c1
              = (tok :: ([] : List FFTok)).count start + c2 + depth) →
          ∃ n toks, ffl.scans WriteJson false n = some (toks, x) ∧
            toks.count (endTok start) = toks.count start + depth ∧
            ∀ m, m < n →
              (toks.take m).count (endTok start) < (toks.take m).count start + depth := by
        intro d2 hd2 hl hc
        obtain ⟨n, toks, h1, h2, h3⟩ := ih d2 ffl1 x hd2 hl
        refine ⟨n + 1, tok :: toks, ?_, ?_, ?_⟩
        · rw [scans_succ WriteJson false n ffl ffl1 tok hs, h1]
        · have := hc _ _ h2
          simp only [List.count_cons, List.count_nil] at this ⊢
          omega
        · intro m hm
          cases m with
          | zero => simp; omega
          | succ m =>
            have h4 := h3 m (by omega)
            have := hc ((toks.take m).count (endTok start) + d2 + (toks.take m).count start)
              ((toks.take m).count (endTok start) + (toks.take m).count start) (by omega)
            simp only [List.take_succ_cons, List.count_cons, List.count_nil] at this ⊢
            omega
      by_cases h1 : tok = .FFTok_eof
      · rw [if_pos h1] at h; simp at h
      rw [if_neg h1] at h
      by_cases h2 : tok = endTok start
      · rw [if_pos h2] at h
        by_cases h3 : depth - 1 = 0
        · rw [if_pos h3] at h
          simp only [Option.some.injEq, Prod.mk.injEq, true_and] at h
          subst h
          refine ⟨1, [tok], ?_, ?_, ?_⟩
          · rw [scans_succ WriteJson false 0 ffl ffl1 tok hs]
            rfl
          · subst h2
            simp only [List.count_cons, List.count_nil, beq_self_eq_true, if_true]
            have : (endTok start == start) = false := by simpa using hne
            simp only [this, Bool.false_eq_true, if_false]
            omega
          · intro m hm
            have : m = 0 := by omega
            subst this
            simp
            omega
        · rw [if_neg h3] at h
          refine step (depth - 1) (by omega) h ?_
          intro c1 c2 hc
          subst h2
          have : (endTok start == start) = false := by simpa using hne
          simp only [List.count_cons, List.count_nil, beq_self_eq_true, if_true, this,
            Bool.false_eq_true, if_false]
          omega
      · rw [if_neg h2] at h
        have he : (tok == endTok start) = false := by simpa using h2
        by_cases h3 : tok = start
        · rw [if_pos h3] at h
          refine step (depth + 1) (by omega) h ?_
          intro c1 c2 hc
          have hs2 : (tok == start) = true := by simpa using h3
          simp only [List.count_cons, List.count_nil, he, hs2, Bool.false_eq_true, if_false, if_true]
          omega
        · rw [if_neg h3] at h
          refine step depth hd h ?_
          intro c1 c2 hc
          have hs2 : (tok == start) = false := by simpa using h3
          simp only [List.count_cons, List.count_nil, he, hs2, Bool.false_eq_true, if_false]
          omega

/-- The loop of SkipField on an input whose tokens never close the structure: it returns
an error. -/
theorem SkipField_loop_unclosed (WriteJson : List Nat → List Nat) (start : FFTok)
    (hstart : start = .FFTok_left_brace ∨ start = .FFTok_left_bracket) :
    ∀ (fuel depth : Nat) (ffl : FFLexer), ffl.reader.wf →
      ffl.reader.l - ffl.reader.i + 1 ≤ fuel → 1 ≤ depth →
      (∀ n toks x, ffl.scans WriteJson false n = some (toks, x) →
        toks.count (endTok start) < toks.count start + depth) →
      ∃ e x, FFLexer.SkipField_loop WriteJson start fuel depth ffl = some (some e, x) := by
  obtain ⟨hne, hne2, hne3⟩ := endTok_ne start hstart
  intro fuel
  induction fuel with
  | zero => intro depth ffl _ hf; omega
  | succ f ih =>
    intro depth ffl hwf hf hd hopen
    obtain ⟨tok, e, ffl1, hs, _, hok⟩ := Scan_total WriteJson false ffl hwf
    unfold FFLexer.SkipField_loop
    rw [hs]
    cases e with
    | some err => exact ⟨_, _, rfl⟩
    | none =>
      obtain ⟨hwf1, hs1, hi1⟩ := hok rfl
      have hf1 : ffl1.reader.l - ffl1.reader.i + 1 ≤ f := by
        have h1 := hwf.1
        have h2 := hwf1.1
        have h3 := hwf1.2
        rw [hs1] at h2
        omega
      have next : ∀ d2 : Nat, 1 ≤ d2 →
          (∀ c1 c2 : Nat, (tok :: ([] : List FFTok)).count (endTok start) + c1
              < (tok :: ([] : List FFTok)).count start + c2 + depth → c1 < c2 + d2) →
          ∃ e x, FFLexer.SkipField_loop WriteJson start f d2 ffl1 = some (some e, x) := by
        intro d2 hd2 hc
        refine ih d2 ffl1 hwf1 hf1 hd2 ?_
        intro n toks x hn
        have h1 : ffl.scans WriteJson false (n + 1) = some (tok :: toks, x) := by
          rw [scans_succ WriteJson false n ffl ffl1 tok hs, hn]
        have h2 := hopen (n + 1) (tok :: toks) x h1
        apply hc
        simp only [List.count_cons, List.count_nil] at h2 ⊢
        omega
      simp only
      by_cases h1 : tok = .FFTok_eof
      · rw [if_pos h1]; exact ⟨_, _, rfl⟩
      rw [if_neg h1]
      by_cases h2 : tok = endTok start
      · rw [if_pos h2]
        have hes : (endTok start == start) = false := by simpa using hne
        by_cases h3 : depth - 1 = 0
        · exfalso
          have h4 : ffl.scans WriteJson false 1 = some ([tok], ffl1) := by
            rw [scans_succ WriteJson false 0 ffl ffl1 tok hs]
            rfl
          have h5 := hopen 1 [tok] ffl1 h4
          subst h2
          simp only [List.count_cons, List.count_nil, beq_self_eq_true, if_true, hes,
            Bool.false_eq_true, if_false] at h5
          omega
        · rw [if_neg h3]
          refine next (depth - 1) (by omega) ?_
          intro c1 c2 hc
          subst h2
          simp only [List.count_cons, List.count_nil, beq_self_eq_true, if_true, hes,
            Bool.false_eq_true, if_false] at hc
          omega
      · rw [if_neg h2]
        have he : (tok == endTok start) = false := by simpa using h2
        by_cases h3 : tok = start
        · rw [if_pos h3]
          refine next (depth + 1) (by omega) ?_
          intro c1 c2 hc
          have hs2 : (tok == start) = true := by simpa using h3
          simp only [List.count_cons, List.count_nil, he, hs2, Bool.false_eq_true, if_false,
            if_true] at hc
          omega
        · rw [if_neg h3]
          refine next depth hd ?_
          intro c1 c2 hc
          have hs2 : (tok == start) = false := by simpa using h3
          simp only [List.count_cons, List.count_nil, he, hs2, Bool.false_eq_true,
            if_false] at hc
          omega

/-- The loop of captureField on an input whose tokens never close the structure: it
returns an error. -/
theorem captureField_loop_unclosed (WriteJson : List Nat → List Nat) (start : FFTok)
    (hstart : start = .FFTok_left_brace ∨ start = .FFTok_left_bracket) :
    ∀ (fuel depth : Nat) (ffl : FFLexer), ffl.reader.wf →
      ffl.reader.l - ffl.reader.i + 1 ≤ fuel → 1 ≤ depth →
      (∀ n toks x, ffl.scans WriteJson true n = some (toks, x) →
        toks.count (endTok start) < toks.count start + depth) →
      ∃ e x, FFLexer.captureField_loop WriteJson start fuel depth ffl = some (.error e, x) := by
  obtain ⟨hne, hne2, hne3⟩ := endTok_ne start hstart
  intro fuel
  induction fuel with
  | zero => intro depth ffl _ hf; omega
  | succ f ih =>
    intro depth ffl hwf hf hd hopen
    obtain ⟨tok, e, ffl1, hs, _, hok⟩ := Scan_total WriteJson true ffl hwf
    unfold FFLexer.captureField_loop
    rw [hs]
    cases e with
    | some err => exact ⟨_, _, rfl⟩
    | none =>
      obtain ⟨hwf1, hs1, hi1⟩ := hok rfl
      have hf1 : ffl1.reader.l - ffl1.reader.i + 1 ≤ f := by
        have h1 := hwf.1
        have h2 := hwf1.1
        have h3 := hwf1.2
        rw [hs1] at h2
        omega
      have next : ∀ d2 : Nat, 1 ≤ d2 →
          (∀ c1 c2 : Nat, (tok :: ([] : List FFTok)).count (endTok start) + c1
              < (tok :: ([] : List FFTok)).count start + c2 + depth → c1 < c2 + d2) →
          ∃ e x, FFLexer.captureField_loop WriteJson start f d2 ffl1 = some (.error e, x) := by
        intro d2 hd2 hc
        refine ih d2 ffl1 hwf1 hf1 hd2 ?_
        intro n toks x hn
        have h1 : ffl.scans WriteJson true (n + 1) = some (tok :: toks, x) := by
          rw [scans_succ WriteJson true n ffl ffl1 tok hs, hn]
        have h2 := hopen (n + 1) (tok :: toks) x h1
        apply hc
        simp only [List.count_cons, List.count_nil] at h2 ⊢
        omega
      simp only
      by_cases h1 : tok = .FFTok_eof
      · rw [if_pos h1]; exact ⟨_, _, rfl⟩
      rw [if_neg h1]
      by_cases h2 : tok = endTok start
      · rw [if_pos h2]
        have hes : (endTok start == start) = false := by simpa using hne
        by_cases h3 : depth - 1 = 0
        · exfalso
          have h4 : ffl.scans WriteJson true 1 = some ([tok], ffl1) := by
            rw [scans_succ WriteJson true 0 ffl ffl1 tok hs]
            rfl
          have h5 := hopen 1 [tok] ffl1 h4
          subst h2
          simp only [List.count_cons, List.count_nil, beq_self_eq_true, if_true, hes,
            Bool.false_eq_true, if_false] at h5
          omega
        · rw [if_neg h3]
          refine next (depth - 1) (by omega) ?_
          intro c1 c2 hc
          subst h2
          simp only [List.count_cons, List.count_nil, beq_self_eq_true, if_true, hes,
            Bool.false_eq_true, if_false] at hc
          omega
      · rw [if_neg h2]
        have he : (tok == endTok start) = false := by simpa using h2
        by_cases h3 : tok = start
        · rw [if_pos h3]
          refine next (depth + 1) (by omega) ?_
          intro c1 c2 hc
          have hs2 : (tok == start) = true := by simpa using h3
          simp only [List.count_cons, List.count_nil, he, hs2, Bool.false_eq_true, if_false,
            if_true] at hc
          omega
        · rw [if_neg h3]
          refine next depth hd ?_
          intro c1 c2 hc
          have hs2 : (tok == start) = false := by simpa using h3
          simp only [List.count_cons, List.count_nil, he, hs2, Bool.false_eq_true,
            if_false] at hc
          omega

/-- An error of the loop of SkipField is a lexing error or the `unexpected EOF` error. -/
theorem SkipField_loop_err (WriteJson : List Nat → List Nat) (start : FFTok) :
    ∀ (fuel depth : Nat) (g : FFLexer), g.reader.wf → ∀ (e : GoError) (x : FFLexer),
      FFLexer.SkipField_loop WriteJson start fuel depth g = some (some e, x) →
      e.fromLexing = true ∨ e = .unexpected_EOF := by
  intro fuel
  induction fuel with
  | zero => intro depth g _ e x h; simp [FFLexer.SkipField_loop] at h
  | succ f ih =>
    intro depth g hg e x h
    obtain ⟨tok, e1, g2, hs, hcl, hok⟩ := Scan_total WriteJson false g hg
    unfold FFLexer.SkipField_loop at h
    rw [hs] at h
    cases e1 with
    | some err =>
      simp only [Option.some.injEq, Prod.mk.injEq] at h
      rw [← h.1]
      exact Or.inl (hcl err rfl)
    | none =>
      have hg2 := (hok rfl).1
      simp only at h
      split_ifs at h
      · simp only [Option.some.injEq, Prod.mk.injEq] at h
        exact Or.inr h.1.symm
      · simp at h
      · exact ih _ g2 hg2 e x h
      · exact ih _ g2 hg2 e x h
      · exact ih _ g2 hg2 e x h

/-- An error of the loop of captureField is a lexing error or the `unexpected EOF` error. -/
theorem captureField_loop_err (WriteJson : List Nat → List Nat) (start : FFTok) :
    ∀ (fuel depth : Nat) (g : FFLexer), g.reader.wf → ∀ (e : GoError) (x : FFLexer),
      FFLexer.captureField_loop WriteJson start fuel depth g = some (.error e, x) →
      e.fromLexing = true ∨ e = .unexpected_EOF := by
  intro fuel
  induction fuel with
  | zero => intro depth g _ e x h; simp [FFLexer.captureField_loop] at h
  | succ f ih =>
    intro depth g hg e x h
    obtain ⟨tok, e1, g2, hs, hcl, hok⟩ := Scan_total WriteJson true g hg
    unfold FFLexer.captureField_loop at h
    rw [hs] at h
    cases e1 with
    | some err =>
      simp only [Option.some.injEq, Prod.mk.injEq, Except.error.injEq] at h
      rw [← h.1]
      exact Or.inl (hcl err rfl)
    | none =>
      have hg2 := (hok rfl).1
      simp only at h
      split_ifs at h
      · simp only [Option.some.injEq, Prod.mk.injEq, Except.error.injEq] at h
        exact Or.inr h.1.symm
      · simp at h
      · exact ih _ g2 hg2 e x h
      · exact ih _ g2 hg2 e x h
      · exact ih _ g2 hg2 e x h

/-! ## Capturing a value -/

/-- Scan in capture mode over leading whitespace: the whitespace is copied to the output
buffer. -/
theorem Scan_true_ws (WriteJson : List Nat → List Nat) (ws : List Nat) (hws : ws.all isWS = true)
    (a b out : List Nat) (T : FFTok) (k : Nat) (bf : List Nat) :
    FFLexer.Scan WriteJson true (FFLexer.mk (rd a (ws ++ b)) out T k bf)
      = FFLexer.Scan WriteJson true (FFLexer.mk (rd (a ++ ws) b) (out ++ ws) T k bf) := by
  unfold FFLexer.Scan
  simp only [if_true, rd_fuel]
  have : (ws ++ b).length + 1 = (b.length + 1) + ws.length := by
    simp only [List.length_append]; omega
  rw [this, Scan_loop_true_ws WriteJson ws hws]

theorem cap_single (WriteJson : List Nat → List Nat) (a ws b out : List Nat) (c : Nat)
    (T : FFTok) (k : Nat) (bf : List Nat) (hws : ws.all isWS = true) (hc : isSingle c = true) :
    FFLexer.Scan WriteJson true (FFLexer.mk (rd a (ws ++ c :: b)) out T k bf)
      = some ((singleTok c, none),
          FFLexer.mk (rd (a ++ ws ++ [c]) b) (out ++ ws ++ [c]) (singleTok c) k bf) := by
  rw [Scan_true_ws WriteJson ws hws, Scan_at WriteJson true (a ++ ws) b (out ++ ws) c T k bf
    (isSingle_not_WS c hc)]
  have : c = 123 ∨ c = 125 ∨ c = 91 ∨ c = 93 ∨ c = 44 ∨ c = 58 := by
    simp only [isSingle, Bool.or_eq_true, beq_iff_eq] at hc
    omega
  rcases this with rfl | rfl | rfl | rfl | rfl | rfl <;>
    simp [FFLexer.Scan_switch, FFLexer.single, FFLexer.lexed, WriteByte_mk, singleTok]

theorem cap_literal (WriteJson : List Nat → List Nat) (which : Nat) (a ws b out : List Nat)
    (T : FFTok) (k : Nat) (bf : List Nat) (hws : ws.all isWS = true) :
    FFLexer.Scan WriteJson true (FFLexer.mk (rd a (ws ++ (literalText which ++ b))) out T k bf)
      = some ((literalTok which, none),
          FFLexer.mk (rd (a ++ ws ++ literalText which) b) (out ++ ws ++ literalText which)
            (literalTok which) k bf) := by
  rw [Scan_true_ws WriteJson ws hws]
  by_cases h0 : which = 0
  · subst h0
    have e : literalText 0 ++ b = 110 :: (null_bytes ++ b) := rfl
    rw [e, Scan_at WriteJson true (a ++ ws) _ (out ++ ws) 110 T k bf rfl]
    simp only [FFLexer.Scan_switch, WriteByte_mk]
    simp only [Nat.reduceEqDiff, if_false, if_true, Nat.reduceLeDiff, false_or, or_false,
      wantBytes_run, FFLexer.afterLex, FFLexer.lexed]
    simp [literalText, literalTok, null_bytes]
  · by_cases h1 : which = 1
    · subst h1
      have e : literalText 1 ++ b = 116 :: (true_bytes1 ++ b) := rfl
      rw [e, Scan_at WriteJson true (a ++ ws) _ (out ++ ws) 116 T k bf rfl]
      simp only [FFLexer.Scan_switch, WriteByte_mk]
      simp only [Nat.reduceEqDiff, if_false, if_true, Nat.reduceLeDiff, false_or, or_false,
        wantBytes_run, FFLexer.afterLex, FFLexer.lexed]
      simp [literalText, literalTok, true_bytes1]
    · have e : literalText which ++ b = 102 :: (false_bytes1 ++ b) := by
        simp [literalText, h0, h1, false_bytes1]
      rw [e, Scan_at WriteJson true (a ++ ws) _ (out ++ ws) 102 T k bf rfl]
      simp only [FFLexer.Scan_switch, WriteByte_mk]
      simp only [Nat.reduceEqDiff, if_false, if_true, Nat.reduceLeDiff, false_or, or_false,
        wantBytes_run, FFLexer.afterLex, FFLexer.lexed]
      simp [literalText, literalTok, h0, h1, false_bytes1]

theorem cap_number (WriteJson : List Nat → List Nat) (n : JNumber) (hn : n.wf = true)
    (a ws b out : List Nat) (T : FFTok) (k : Nat) (bf : List Nat) (hws : ws.all isWS = true)
    (hb : delimHead b = true) :
    FFLexer.Scan WriteJson true (FFLexer.mk (rd a (ws ++ (n.render ++ b))) out T k bf)
      = some ((n.kind, none),
          FFLexer.mk (rd (a ++ ws ++ n.render) b) (out ++ ws ++ n.render) n.kind k bf) := by
  rw [Scan_true_ws WriteJson ws hws]
  obtain ⟨c, rest, hr, hc⟩ := render_head n hn
  have e : n.render ++ b = c :: (rest ++ b) := by rw [hr]; rfl
  rw [e, Scan_number_start WriteJson true (a ++ ws) _ (out ++ ws) c T k bf hc, ← e]
  simp only [if_true]
  rw [lexNumber_run n hn b (a ++ ws) (out ++ ws) .FFTok_init k bf (stoppedBy_of_delimHead n b hb),
    afterLex_numberResult]
  rcases b with _ | ⟨d, b⟩
  · simp [delimHead] at hb
  · simp [numberResult]

theorem cap_string (WriteJson : List Nat → List Nat) (items : List JStrItem)
    (hok : itemsOk items = true) (a ws rest out : List Nat)
    (T : FFTok) (k : Nat) (bf : List Nat) (hws : ws.all isWS = true) :
    FFLexer.Scan WriteJson true
        (FFLexer.mk (rd a (ws ++ 34 :: (renderItems items ++ 34 :: rest))) out T k bf)
      = some ((.FFTok_string, none),
          FFLexer.mk (rd (a ++ ws ++ 34 :: (renderItems items ++ [34])) rest)
            (out ++ ws ++ WriteJson (decodeItems items)) .FFTok_string k (decodeItems items)) := by
  rw [Scan_true_ws WriteJson ws hws, Scan_at WriteJson true (a ++ ws) _ (out ++ ws) 34 T k bf rfl]
  have hs := SliceString_items items hok (a ++ ws ++ [34]) rest []
  simp only [FFLexer.Scan_switch, Nat.reduceEqDiff, if_false, if_true, Nat.reduceLeDiff, false_or,
    or_false, FFLexer.lexString, hs, FFLexer.afterLex, FFLexer.lexed]
  simp

theorem captureField_loop_other (WriteJson : List Nat → List Nat) (start tok : FFTok)
    (fuel depth : Nat) (ffl ffl' : FFLexer)
    (h : ffl.Scan WriteJson true = some ((tok, none), ffl'))
    (h1 : tok ≠ .FFTok_eof) (h2 : tok ≠ endTok start) (h3 : tok ≠ start) :
    FFLexer.captureField_loop WriteJson start (fuel + 1) depth ffl
      = FFLexer.captureField_loop WriteJson start fuel depth ffl' := by
  rw [FFLexer.captureField_loop, h]
  simp only [h1, h2, h3, if_false]

theorem captureField_loop_open (WriteJson : List Nat → List Nat) (start : FFTok)
    (fuel depth : Nat) (ffl ffl' : FFLexer)
    (h : ffl.Scan WriteJson true = some ((start, none), ffl'))
    (h1 : start ≠ .FFTok_eof) (h2 : start ≠ endTok start) :
    FFLexer.captureField_loop WriteJson start (fuel + 1) depth ffl
      = FFLexer.captureField_loop WriteJson start fuel (depth + 1) ffl' := by
  rw [FFLexer.captureField_loop, h]
  simp only [h1, h2, if_false, if_true]

theorem captureField_loop_close (WriteJson : List Nat → List Nat) (start : FFTok)
    (fuel depth : Nat) (ffl ffl' : FFLexer)
    (h : ffl.Scan WriteJson true = some ((endTok start, none), ffl'))
    (h1 : endTok start ≠ .FFTok_eof) :
    FFLexer.captureField_loop WriteJson start (fuel + 1) (depth + 1) ffl
      = if depth = 0 then some (.ok ffl'.outputbuf, ffl')
        else FFLexer.captureField_loop WriteJson start fuel depth ffl' := by
  rw [FFLexer.captureField_loop, h]
  simp only [h1, if_false, if_true, Nat.add_sub_cancel]

theorem capture_single (WriteJson : List Nat → List Nat) (start : FFTok) (c : Nat)
    (hc : isSingle c = true) (h2 : singleTok c ≠ endTok start) (h3 : singleTok c ≠ start)
    (a ws b out : List Nat) (T : FFTok) (kk : Nat) (bf : List Nat) (hws : ws.all isWS = true)
    (fuel depth : Nat) :
    FFLexer.captureField_loop WriteJson start (fuel + 1) depth
        (FFLexer.mk (rd a (ws ++ c :: b)) out T kk bf)
      = FFLexer.captureField_loop WriteJson start fuel depth
        (FFLexer.mk (rd (a ++ ws ++ [c]) b) (out ++ ws ++ [c]) (singleTok c) kk bf) := by
  refine captureField_loop_other WriteJson start (singleTok c) fuel depth _ _
    (cap_single WriteJson a ws b out c T kk bf hws hc) ?_ h2 h3
  unfold singleTok
  split_ifs <;> decide

theorem capture_literal (WriteJson : List Nat → List Nat) (start : FFTok)
    (hstart : start = .FFTok_left_brace ∨ start = .FFTok_left_bracket) (which : Nat)
    (a ws b out : List Nat) (T : FFTok) (kk : Nat) (bf : List Nat) (hws : ws.all isWS = true)
    (fuel depth : Nat) :
    FFLexer.captureField_loop WriteJson start (fuel + 1) depth
        (FFLexer.mk (rd a (ws ++ (literalText which ++ b))) out T kk bf)
      = FFLexer.captureField_loop WriteJson start fuel depth
        (FFLexer.mk (rd (a ++ ws ++ literalText which) b) (out ++ ws ++ literalText which)
          (literalTok which) kk bf) := by
  refine captureField_loop_other WriteJson start (literalTok which) fuel depth _ _
    (cap_literal WriteJson which a ws b out T kk bf hws) ?_ ?_ ?_ <;>
  · unfold literalTok
    rcases hstart with rfl | rfl <;> split_ifs <;> decide

theorem capture_string (WriteJson : List Nat → List Nat) (start : FFTok)
    (hstart : start = .FFTok_left_brace ∨ start = .FFTok_left_bracket) (items : List JStrItem)
    (hok : itemsOk items = true)
    (a ws b out : List Nat) (T : FFTok) (kk : Nat) (bf : List Nat) (hws : ws.all isWS = true)
    (fuel depth : Nat) :
    FFLexer.captureField_loop WriteJson start (fuel + 1) depth
        (FFLexer.mk (rd a (ws ++ 34 :: (renderItems items ++ 34 :: b))) out T kk bf)
      = FFLexer.captureField_loop WriteJson start fuel depth
        (FFLexer.mk (rd (a ++ ws ++ 34 :: (renderItems items ++ [34])) b)
          (out ++ ws ++ WriteJson (decodeItems items)) .FFTok_string kk (decodeItems items)) := by
  refine captureField_loop_other WriteJson start .FFTok_string fuel depth _ _
    (cap_string WriteJson items hok a ws b out T kk bf hws) ?_ ?_ ?_ <;>
  · rcases hstart with rfl | rfl <;> decide

theorem capture_number (WriteJson : List Nat → List Nat) (start : FFTok)
    (hstart : start = .FFTok_left_brace ∨ start = .FFTok_left_bracket) (n : JNumber)
    (hn : n.wf = true)
    (a ws b out : List Nat) (T : FFTok) (kk : Nat) (bf : List Nat) (hws : ws.all isWS = true)
    (hb : delimHead b = true) (fuel depth : Nat) :
    FFLexer.captureField_loop WriteJson start (fuel + 1) depth
        (FFLexer.mk (rd a (ws ++ (n.render ++ b))) out T kk bf)
      = FFLexer.captureField_loop WriteJson start fuel depth
        (FFLexer.mk (rd (a ++ ws ++ n.render) b) (out ++ ws ++ n.render) n.kind kk bf) := by
  refine captureField_loop_other WriteJson start n.kind fuel depth _ _
    (cap_number WriteJson n hn a ws b out T kk bf hws hb) ?_ ?_ ?_ <;>
  · unfold JNumber.kind
    rcases hstart with rfl | rfl <;> split_ifs <;> decide

/-- A bracket pair around a middle part `M` that the loop of captureField passes at any
depth, writing `M2` for it: the loop passes the whole at any depth above zero and writes
the pair around `M2`, whitespace included. -/
theorem capture_brackets (WriteJson : List Nat → List Nat) (start : FFTok)
    (hstart : start = .FFTok_left_brace ∨ start = .FFTok_left_bracket) (o c : Nat)
    (hoc : (o = 91 ∧ c = 93) ∨ (o = 123 ∧ c = 125))
    (a ws0 M M2 wsC tail : List Nat) (N kk : Nat)
    (hws0 : ws0.all isWS = true) (hwsC : wsC.all isWS = true)
    (mid : ∀ (depth : Nat) (out : List Nat) (T : FFTok) (bf : List Nat), ∃ T' bf', ∀ fuel,
      FFLexer.captureField_loop WriteJson start (fuel + N) (depth + 1)
          (FFLexer.mk (rd (a ++ ws0 ++ [o]) (M ++ (wsC ++ c :: tail))) out T kk bf)
        = FFLexer.captureField_loop WriteJson start fuel (depth + 1)
          (FFLexer.mk (rd (a ++ ws0 ++ [o] ++ M) (wsC ++ c :: tail)) (out ++ M2) T' kk bf'))
    (depth : Nat) (out : List Nat) (T : FFTok) (bf : List Nat) :
    ∃ T' bf', ∀ fuel,
      FFLexer.captureField_loop WriteJson start (fuel + (N + 2)) (depth + 1)
          (FFLexer.mk (rd a (ws0 ++ o :: (M ++ (wsC ++ c :: tail)))) out T kk bf)
        = FFLexer.captureField_loop WriteJson start fuel (depth + 1)
          (FFLexer.mk (rd (a ++ (ws0 ++ o :: (M ++ (wsC ++ [c])))) tail)
            (out ++ (ws0 ++ o :: (M2 ++ (wsC ++ [c])))) T' kk bf') := by
  have ho : isSingle o = true := by rcases hoc with ⟨rfl, _⟩ | ⟨rfl, _⟩ <;> rfl
  have hc : isSingle c = true := by rcases hoc with ⟨_, rfl⟩ | ⟨_, rfl⟩ <;> rfl
  have hfin : a ++ ws0 ++ [o] ++ M ++ wsC ++ [c] = a ++ (ws0 ++ o :: (M ++ (wsC ++ [c]))) := by
    simp
  have hout : out ++ ws0 ++ [o] ++ M2 ++ wsC ++ [c] = out ++ (ws0 ++ o :: (M2 ++ (wsC ++ [c]))) := by
    simp
  by_cases hso : singleTok o = start
  · -- the pair is of the kind that captureField counts
    have hsc : singleTok c = endTok start := by
      rcases hoc with ⟨rfl, rfl⟩ | ⟨rfl, rfl⟩ <;> (subst hso; rfl)
    have hne : start ≠ endTok start := by rcases hstart with rfl | rfl <;> decide
    have hne2 : start ≠ .FFTok_eof := by rcases hstart with rfl | rfl <;> decide
    have hne3 : endTok start ≠ .FFTok_eof := by rcases hstart with rfl | rfl <;> decide
    obtain ⟨T1, bf1, hmid⟩ := mid (depth + 1) (out ++ ws0 ++ [o]) start bf
    refine ⟨endTok start, bf1, ?_⟩
    intro fuel
    have e1 : fuel + (N + 2) = (fuel + 1 + N) + 1 := by omega
    have s1 := cap_single WriteJson a ws0 (M ++ (wsC ++ c :: tail)) out o T kk bf hws0 ho
    rw [hso] at s1
    rw [e1, captureField_loop_open WriteJson start _ _ _ _ s1 hne2 hne, hmid (fuel + 1)]
    have s2 := cap_single WriteJson (a ++ ws0 ++ [o] ++ M) wsC tail (out ++ ws0 ++ [o] ++ M2) c T1
      kk bf1 hwsC hc
    rw [hsc] at s2
    rw [captureField_loop_close WriteJson start _ _ _ _ s2 hne3, if_neg (by omega), hfin, hout]
  · -- the pair is of the other kind
    have hso2 : singleTok o ≠ endTok start := by
      rcases hoc with ⟨rfl, rfl⟩ | ⟨rfl, rfl⟩ <;> rcases hstart with rfl | rfl <;> decide
    have hsc : singleTok c ≠ start := by
      rcases hoc with ⟨rfl, rfl⟩ | ⟨rfl, rfl⟩ <;> rcases hstart with rfl | rfl <;> decide
    have hsc2 : singleTok c ≠ endTok start := by
      rcases hoc with ⟨rfl, rfl⟩ | ⟨rfl, rfl⟩ <;> rcases hstart with rfl | rfl <;>
        first | decide | exact absurd rfl hso
    obtain ⟨T1, bf1, hmid⟩ := mid depth (out ++ ws0 ++ [o]) (singleTok o) bf
    refine ⟨singleTok c, bf1, ?_⟩
    intro fuel
    have e1 : fuel + (N + 2) = (fuel + 1 + N) + 1 := by omega
    rw [e1, capture_single WriteJson start o ho hso2 hso a ws0 _ out T kk bf hws0, hmid (fuel + 1),
      capture_single WriteJson start c hc hsc2 hsc _ wsC tail _ T1 kk bf1 hwsC, hfin, hout]

/-- The loop of captureField, at any depth above zero, passes over a well-formed syntax
tree that is followed by a delimiter: it takes one pass for each token, leaves the cursor
just after the tree and has appended the text of the tree to the output buffer, with every
string written anew by WriteJson. -/
theorem captureField_loop_over (WriteJson : List Nat → List Nat) (q : List Nat → List JStrItem)
    (hq : ∀ s, WriteJson s = 34 :: (renderItems (q s) ++ [34])) (start : FFTok)
    (hstart : start = .FFTok_left_brace ∨ start = .FFTok_left_bracket) (kk : Nat)
    {k : JKind} (v : JSyn k) :
    v.wf = true → ∀ (a ws0 tail out : List Nat) (T : FFTok) (bf : List Nat) (depth : Nat),
      ws0.all isWS = true → delimHead tail = true →
      ∃ T' bf', ∀ fuel,
        FFLexer.captureField_loop WriteJson start (fuel + v.tokens) (depth + 1)
            (FFLexer.mk (rd a (ws0 ++ (v.render ++ tail))) out T kk bf)
          = FFLexer.captureField_loop WriteJson start fuel (depth + 1)
            (FFLexer.mk (rd (a ++ (ws0 ++ v.render)) tail)
              (out ++ (ws0 ++ (v.requote q).render)) T' kk bf') := by
  induction v with
  | literal which =>
    intro _ a ws0 tail out T bf depth hws0 _
    refine ⟨literalTok which, bf, fun fuel => ?_⟩
    rw [JSyn.tokens, JSyn.render, capture_literal WriteJson start hstart which a ws0 tail out T kk
      bf hws0]
    simp [JSyn.requote, JSyn.render]
  | number n =>
    intro hwf a ws0 tail out T bf depth hws0 htail
    refine ⟨n.kind, bf, fun fuel => ?_⟩
    rw [JSyn.tokens, JSyn.render, capture_number WriteJson start hstart n hwf a ws0 tail out T kk
      bf hws0 htail]
    simp [JSyn.requote, JSyn.render]
  | string items =>
    intro hwf a ws0 tail out T bf depth hws0 _
    refine ⟨.FFTok_string, decodeItems items, fun fuel => ?_⟩
    have e : ws0 ++ ((JSyn.string items).render ++ tail)
        = ws0 ++ 34 :: (renderItems items ++ 34 :: tail) := by simp [JSyn.render]
    rw [JSyn.tokens, e, capture_string WriteJson start hstart items hwf a ws0 tail out T kk bf
      hws0, hq]
    simp [JSyn.render, JSyn.requote]
  | emptyArray ws =>
    intro hwf a ws0 tail out T bf depth hws0 _
    have hws := isJsonWS_isWS ws hwf
    have := capture_brackets WriteJson start hstart 91 93 (Or.inl ⟨rfl, rfl⟩) a ws0 [] [] ws tail 0
      kk hws0 hws (fun depth out T bf => ⟨T, bf, fun fuel => by simp⟩) depth out T bf
    simpa [JSyn.render, JSyn.tokens, JSyn.requote] using this
  | emptyObject ws =>
    intro hwf a ws0 tail out T bf depth hws0 _
    have hws := isJsonWS_isWS ws hwf
    have := capture_brackets WriteJson start hstart 123 125 (Or.inr ⟨rfl, rfl⟩) a ws0 [] [] ws tail
      0 kk hws0 hws (fun depth out T bf => ⟨T, bf, fun fuel => by simp⟩) depth out T bf
    simpa [JSyn.render, JSyn.tokens, JSyn.requote] using this
  | array es ws ih =>
    intro hwf a ws0 tail out T bf depth hws0 _
    simp only [JSyn.wf, Bool.and_eq_true] at hwf
    have hws := isJsonWS_isWS ws hwf.2
    have := capture_brackets WriteJson start hstart 91 93 (Or.inl ⟨rfl, rfl⟩) a ws0 es.render
      (es.requote q).render ws tail es.tokens kk hws0 hws
      (fun depth out T bf => by
        have := ih hwf.1 (a ++ ws0 ++ [91]) [] (ws ++ 93 :: tail) out T bf depth rfl
          (delimHead_ws_append ws _ hws rfl)
        simpa using this) depth out T bf
    simpa [JSyn.render, JSyn.tokens, JSyn.requote] using this
  | object ms ws ih =>
    intro hwf a ws0 tail out T bf depth hws0 _
    simp only [JSyn.wf, Bool.and_eq_true] at hwf
    have hws := isJsonWS_isWS ws hwf.2
    have := capture_brackets WriteJson start hstart 123 125 (Or.inr ⟨rfl, rfl⟩) a ws0 ms.render
      (ms.requote q).render ws tail ms.tokens kk hws0 hws
      (fun depth out T bf => by
        have := ih hwf.1 (a ++ ws0 ++ [123]) [] (ws ++ 125 :: tail) out T bf depth rfl
          (delimHead_ws_append ws _ hws rfl)
        simpa using this) depth out T bf
    simpa [JSyn.render, JSyn.tokens, JSyn.requote] using this
  | element ws1 v ih =>
    intro hwf a ws0 tail out T bf depth hws0 htail
    simp only [JSyn.wf, Bool.and_eq_true] at hwf
    have hws1 := isJsonWS_isWS ws1 hwf.1
    have := ih hwf.2 a (ws0 ++ ws1) tail out T bf depth (all_isWS_append _ _ hws0 hws1) htail
    simpa [JSyn.render, JSyn.tokens, JSyn.requote] using this
  | elements ws1 v ws2 rest ihv ihr =>
    intro hwf a ws0 tail out T bf depth hws0 htail
    simp only [JSyn.wf, Bool.and_eq_true] at hwf
    obtain ⟨⟨⟨h1, hv⟩, h2⟩, hr⟩ := hwf
    have hws1 := isJsonWS_isWS ws1 h1
    have hws2 := isJsonWS_isWS ws2 h2
    obtain ⟨T1, b1, e1⟩ := ihv hv a (ws0 ++ ws1) (ws2 ++ 44 :: (rest.render ++ tail)) out T bf depth
      (all_isWS_append _ _ hws0 hws1) (delimHead_ws_append ws2 _ hws2 rfl)
    obtain ⟨T2, b2, e2⟩ := ihr hr (a ++ (ws0 ++ ws1 ++ v.render) ++ ws2 ++ [44]) [] tail
      (out ++ (ws0 ++ ws1 ++ (v.requote q).render) ++ ws2 ++ [44]) (singleTok 44) b1 depth rfl htail
    refine ⟨T2, b2, fun fuel => ?_⟩
    have ef : fuel + (JSyn.elements ws1 v ws2 rest).tokens
        = (fuel + rest.tokens + 1) + v.tokens := by simp only [JSyn.tokens]; omega
    have er : ws0 ++ ((JSyn.elements ws1 v ws2 rest).render ++ tail)
        = (ws0 ++ ws1) ++ (v.render ++ (ws2 ++ 44 :: (rest.render ++ tail))) := by
      simp [JSyn.render]
    have hc2 : singleTok 44 ≠ endTok start := by rcases hstart with rfl | rfl <;> decide
    have hc3 : singleTok 44 ≠ start := by rcases hstart with rfl | rfl <;> decide
    rw [ef, er, e1, capture_single WriteJson start 44 rfl hc2 hc3 _ ws2 _ _ T1 kk b1 hws2]
    have e2' := e2 fuel
    simp only [List.nil_append] at e2'
    rw [e2']
    simp [JSyn.render, JSyn.requote]
  | member ws1 key ws2 ws3 v ihv =>
    intro hwf a ws0 tail out T bf depth hws0 htail
    simp only [JSyn.wf, Bool.and_eq_true] at hwf
    obtain ⟨⟨⟨⟨h1, hk⟩, h2⟩, h3⟩, hv⟩ := hwf
    have hws1 := isJsonWS_isWS ws1 h1
    have hws2 := isJsonWS_isWS ws2 h2
    have hws3 := isJsonWS_isWS ws3 h3
    obtain ⟨T1, b1, e1⟩ := ihv hv
      (a ++ (ws0 ++ ws1) ++ 34 :: (renderItems key ++ [34]) ++ ws2 ++ [58]) ws3 tail
      (out ++ (ws0 ++ ws1) ++ WriteJson (decodeItems key) ++ ws2 ++ [58])
      (singleTok 58) (decodeItems key) depth hws3 htail
    refine ⟨T1, b1, fun fuel => ?_⟩
    have ef : fuel + (JSyn.member ws1 key ws2 ws3 v).tokens
        = (fuel + v.tokens + 1) + 1 := by simp only [JSyn.tokens]; omega
    have er : ws0 ++ ((JSyn.member ws1 key ws2 ws3 v).render ++ tail)
        = (ws0 ++ ws1) ++ 34 :: (renderItems key ++ 34 :: (ws2 ++ 58 :: (ws3 ++ (v.render ++ tail)))) := by
      simp [JSyn.render]
    have hc2 : singleTok 58 ≠ endTok start := by rcases hstart with rfl | rfl <;> decide
    have hc3 : singleTok 58 ≠ start := by rcases hstart with rfl | rfl <;> decide
    rw [ef, er, capture_string WriteJson start hstart key hk a (ws0 ++ ws1) _ out T kk bf
      (all_isWS_append _ _ hws0 hws1),
      capture_single WriteJson start 58 rfl hc2 hc3 _ ws2 _ _ _ kk _ hws2, e1, hq]
    simp [JSyn.render, JSyn.requote]
  | members ws1 key ws2 ws3 v ws4 rest ihv ihr =>
    intro hwf a ws0 tail out T bf depth hws0 htail
    simp only [JSyn.wf, Bool.and_eq_true] at hwf
    obtain ⟨⟨⟨⟨⟨⟨h1, hk⟩, h2⟩, h3⟩, hv⟩, h4⟩, hr⟩ := hwf
    have hws1 := isJsonWS_isWS ws1 h1
    have hws2 := isJsonWS_isWS ws2 h2
    have hws3 := isJsonWS_isWS ws3 h3
    have hws4 := isJsonWS_isWS ws4 h4
    obtain ⟨T1, b1, e1⟩ := ihv hv
      (a ++ (ws0 ++ ws1) ++ 34 :: (renderItems key ++ [34]) ++ ws2 ++ [58]) ws3
      (ws4 ++ 44 :: (rest.render ++ tail))
      (out ++ (ws0 ++ ws1) ++ WriteJson (decodeItems key) ++ ws2 ++ [58])
      (singleTok 58) (decodeItems key) depth hws3
      (delimHead_ws_append ws4 _ hws4 rfl)
    obtain ⟨T2, b2, e2⟩ := ihr hr
      (a ++ (ws0 ++ ws1) ++ 34 :: (renderItems key ++ [34]) ++ ws2 ++ [58] ++ (ws3 ++ v.render)
        ++ ws4 ++ [44]) [] tail
      (out ++ (ws0 ++ ws1) ++ WriteJson (decodeItems key) ++ ws2 ++ [58]
        ++ (ws3 ++ (v.requote q).render) ++ ws4 ++ [44])
      (singleTok 44) b1 depth rfl htail
    refine ⟨T2, b2, fun fuel => ?_⟩
    have ef : fuel + (JSyn.members ws1 key ws2 ws3 v ws4 rest).tokens
        = (fuel + rest.tokens + 1 + v.tokens + 1) + 1 := by simp only [JSyn.tokens]; omega
    have er : ws0 ++ ((JSyn.members ws1 key ws2 ws3 v ws4 rest).render ++ tail)
        = (ws0 ++ ws1) ++ 34 :: (renderItems key ++ 34 :: (ws2 ++ 58 :: (ws3 ++ (v.render ++
            (ws4 ++ 44 :: (rest.render ++ tail)))))) := by
      simp [JSyn.render]
    have hc2 : singleTok 58 ≠ endTok start := by rcases hstart with rfl | rfl <;> decide
    have hc3 : singleTok 58 ≠ start := by rcases hstart with rfl | rfl <;> decide
    have hd2 : singleTok 44 ≠ endTok start := by rcases hstart with rfl | rfl <;> decide
    have hd3 : singleTok 44 ≠ start := by rcases hstart with rfl | rfl <;> decide
    rw [ef, er, capture_string WriteJson start hstart key hk a (ws0 ++ ws1) _ out T kk bf
      (all_isWS_append _ _ hws0 hws1),
      capture_single WriteJson start 58 rfl hc2 hc3 _ ws2 _ _ _ kk _ hws2, e1,
      capture_single WriteJson start 44 rfl hd2 hd3 _ ws4 _ _ T1 kk b1 hws4]
    have e2' := e2 fuel
    simp only [List.nil_append] at e2'
    rw [e2', hq]
    simp [JSyn.render, JSyn.requote]

theorem requote_wf (q : List Nat → List JStrItem) (hq : ∀ s, itemsOk (q s) = true)
    {k : JKind} (v : JSyn k) : v.wf = true → (v.requote q).wf = true := by
  induction v with
  | literal which => intro _; rfl
  | number n => intro h; exact h
  | string items => intro _; exact hq _
  | emptyArray ws => intro h; exact h
  | emptyObject ws => intro h; exact h
  | array es ws ih =>
    intro h
    simp only [JSyn.wf, Bool.and_eq_true] at h
    simp [JSyn.requote, JSyn.wf, ih h.1, h.2]
  | object ms ws ih =>
    intro h
    simp only [JSyn.wf, Bool.and_eq_true] at h
    simp [JSyn.requote, JSyn.wf, ih h.1, h.2]
  | element ws1 v ih =>
    intro h
    simp only [JSyn.wf, Bool.and_eq_true] at h
    simp [JSyn.requote, JSyn.wf, ih h.2, h.1]
  | elements ws1 v ws2 rest ihv ihr =>
    intro h
    simp only [JSyn.wf, Bool.and_eq_true] at h
    obtain ⟨⟨⟨h1, hv⟩, h2⟩, hr⟩ := h
    simp [JSyn.requote, JSyn.wf, ihv hv, ihr hr, h1, h2]
  | member ws1 key ws2 ws3 v ihv =>
    intro h
    simp only [JSyn.wf, Bool.and_eq_true] at h
    obtain ⟨⟨⟨⟨h1, hk⟩, h2⟩, h3⟩, hv⟩ := h
    simp [JSyn.requote, JSyn.wf, ihv hv, h1, h2, h3, hq]
  | members ws1 key ws2 ws3 v ws4 rest ihv ihr =>
    intro h
    simp only [JSyn.wf, Bool.and_eq_true] at h
    obtain ⟨⟨⟨⟨⟨⟨h1, hk⟩, h2⟩, h3⟩, hv⟩, h4⟩, hr⟩ := h
    simp [JSyn.requote, JSyn.wf, ihv hv, ihr hr, h1, h2, h3, h4, hq]

theorem requote_denote (q : List Nat → List JStrItem) (hq : ∀ s, decodeItems (q s) = s)
    {k : JKind} (v : JSyn k) : (v.requote q).denote = v.denote := by
  induction v with
  | literal which => rfl
  | number n => rfl
  | string items => simp [JSyn.requote, JSyn.denote, hq]
  | emptyArray ws => rfl
  | emptyObject ws => rfl
  | array es ws ih => simp [JSyn.requote, JSyn.denote, ih]
  | object ms ws ih => simp [JSyn.requote, JSyn.denote, ih]
  | element ws1 v ih => simp [JSyn.requote, JSyn.denote, ih]
  | elements ws1 v ws2 rest ihv ihr => simp [JSyn.requote, JSyn.denote, ihv, ihr]
  | member ws1 key ws2 ws3 v ihv => simp [JSyn.requote, JSyn.denote, ihv, hq]
  | members ws1 key ws2 ws3 v ws4 rest ihv ihr =>
    simp [JSyn.requote, JSyn.denote, ihv, ihr, hq]

/-- Scanning an opening bracket and capturing what it opens: the middle part `M` is one
that the loop of captureField passes in `N` passes at depth 1, writing `M2`. -/
theorem Scan_then_CaptureField_brackets (WriteJson : List Nat → List Nat) (o c : Nat)
    (hoc : (o = 91 ∧ c = 93) ∨ (o = 123 ∧ c = 125)) (M M2 wsC r out : List Nat) (T : FFTok)
    (N kk : Nat) (bf : List Nat) (hwsC : wsC.all isWS = true) (hN : N ≤ M.length)
    (mid : ∀ (out : List Nat) (T : FFTok) (bf : List Nat), ∃ T' bf', ∀ fuel,
      FFLexer.captureField_loop WriteJson (singleTok o) (fuel + N) 1
          (FFLexer.mk (rd [o] (M ++ (wsC ++ c :: r))) out T kk bf)
        = FFLexer.captureField_loop WriteJson (singleTok o) fuel 1
          (FFLexer.mk (rd ([o] ++ M) (wsC ++ c :: r)) (out ++ M2) T' kk bf')) :
    ∃ ffl1 ffl2,
      FFLexer.Scan WriteJson false (FFLexer.mk (rd [] (o :: (M ++ (wsC ++ c :: r)))) out T kk bf)
        = some ((singleTok o, none), ffl1) ∧
      (singleTok o = .FFTok_left_brace ∨ singleTok o = .FFTok_left_bracket) ∧
      ffl1.CaptureField WriteJson (singleTok o) = some (.ok (o :: (M2 ++ (wsC ++ [c]))), ffl2) ∧
      ffl2.reader = rd (o :: (M ++ (wsC ++ [c]))) r := by
  have ho : isSingle o = true := by rcases hoc with ⟨rfl, _⟩ | ⟨rfl, _⟩ <;> rfl
  have hc : isSingle c = true := by rcases hoc with ⟨_, rfl⟩ | ⟨_, rfl⟩ <;> rfl
  have hst : singleTok o = .FFTok_left_brace ∨ singleTok o = .FFTok_left_bracket := by
    rcases hoc with ⟨rfl, _⟩ | ⟨rfl, _⟩
    · exact Or.inl rfl
    · exact Or.inr rfl
  have hsc : singleTok c = endTok (singleTok o) := by
    rcases hoc with ⟨rfl, rfl⟩ | ⟨rfl, rfl⟩ <;> rfl
  have hne3 : endTok (singleTok o) ≠ .FFTok_eof := by
    rcases hoc with ⟨rfl, rfl⟩ | ⟨rfl, rfl⟩ <;> decide
  have s1 := Scan_single WriteJson [] [] (M ++ (wsC ++ c :: r)) out o T kk bf rfl ho
  simp only [List.nil_append] at s1
  obtain ⟨T1, bf1, hmid⟩ := mid [o] (singleTok o) bf
  have s2 := cap_single WriteJson ([o] ++ M) wsC r ([o] ++ M2) c T1 kk bf1 hwsC hc
  rw [hsc] at s2
  have hw : (if singleTok o = .FFTok_left_bracket
      then (FFLexer.mk (rd [o] (M ++ (wsC ++ c :: r))) [] (singleTok o) kk bf).WriteByte 123
      else (FFLexer.mk (rd [o] (M ++ (wsC ++ c :: r))) [] (singleTok o) kk bf).WriteByte 91)
      = FFLexer.mk (rd [o] (M ++ (wsC ++ c :: r))) [o] (singleTok o) kk bf := by
    rcases hoc with ⟨rfl, _⟩ | ⟨rfl, _⟩ <;> simp [singleTok, WriteByte_mk]
  refine ⟨_, FFLexer.mk (rd ([o] ++ M ++ wsC ++ [c]) r) ([o] ++ M2 ++ wsC ++ [c])
    (endTok (singleTok o)) kk bf1, s1, hst, ?_, ?_⟩
  · unfold FFLexer.CaptureField FFLexer.captureField
    rw [if_pos hst]
    simp only [hw]
    have hf : (rd [o] (M ++ (wsC ++ c :: r))).l - (rd [o] (M ++ (wsC ++ c :: r))).i + 1
        = ((M ++ (wsC ++ c :: r)).length - N + 1) + N := by
      rw [rd_fuel]
      simp only [List.length_append, List.length_cons]
      omega
    simp only [hf]
    rw [hmid, captureField_loop_close WriteJson _ _ _ _ _ s2 hne3, if_pos rfl]
    simp
  · simp

theorem quoteItem_control : ∀ c < 32,
    (JStrItem.u4 48 48 (hexDigit (c / 16)) (hexDigit (c % 16))).wf = true ∧
    (JStrItem.u4 48 48 (hexDigit (c / 16)) (hexDigit (c % 16))).decode = [c] := by
  decide

theorem quoteItem_ok (c : Nat) : (quoteItem c).wf = true ∧ (quoteItem c).decode = [c] := by
  unfold quoteItem
  by_cases hp : isPlain c = true
  · simp [hp, JStrItem.wf, JStrItem.decode]
  · by_cases h1 : c = 34
    · subst h1; exact ⟨rfl, rfl⟩
    · by_cases h2 : c = 92
      · subst h2; exact ⟨rfl, rfl⟩
      · have hlt : c < 32 := by
          by_contra hc
          apply hp
          simp only [isPlain, Bool.and_eq_true, decide_eq_true_eq, bne_iff_ne]
          exact ⟨⟨by omega, h1⟩, h2⟩
        simp only [hp, Bool.false_eq_true, if_false, h1, h2]
        exact quoteItem_control c hlt

/-- The writer `quoteJson` meets the assumption on WriteJson: its items are of the string
grammar and decode to the argument. -/
theorem quoteJson_ok (s : List Nat) :
    itemsOk (s.map quoteItem) = true ∧ decodeItems (s.map quoteItem) = s ∧
    quoteJson s = 34 :: (renderItems (s.map quoteItem) ++ [34]) := by
  refine ⟨?_, ?_, rfl⟩
  · induction s with
    | nil => rfl
    | cons c s ih => simp [itemsOk, (quoteItem_ok c).1, ih]
  · induction s with
    | nil => rfl
    | cons c s ih => simp [decodeItems, (quoteItem_ok c).2, ih]


/-! ## Positions -/

theorem takeWhile_append_all (p : Nat → Bool) (l m : List Nat) :
    (l ++ m).takeWhile p = if l.all p = true then l ++ m.takeWhile p else l.takeWhile p := by
  induction l with
  | nil => simp
  | cons x l ih =>
    by_cases hx : p x = true
    · simp only [List.cons_append, List.takeWhile_cons, hx, if_true, List.all_cons, Bool.true_and, ih]
      split <;> rfl
    · simp [List.takeWhile_cons, hx]

theorem all_ne_lf (l : List Nat) : (l.reverse.all (fun c => c != 10) = true) ↔ 10 ∉ l := by
  simp only [List.all_eq_true, List.mem_reverse, bne_iff_ne, ne_eq]
  constructor
  · intro h hm
    exact h 10 hm rfl
  · intro h x hx he
    exact h (he ▸ hx)

theorem column_snoc (c : Nat) (mid : List Nat) :
    ((c :: mid).reverse.takeWhile (fun c => c != 10)).length
      = if 10 ∈ mid then (mid.reverse.takeWhile (fun c => c != 10)).length
        else if c = 10 then mid.length else mid.length + 1 := by
  rw [List.reverse_cons, takeWhile_append_all]
  by_cases hm : 10 ∈ mid
  · rw [if_neg (fun h => (all_ne_lf mid).mp h hm), if_pos hm]
  · rw [if_pos ((all_ne_lf mid).mpr hm), if_neg hm]
    by_cases hc : c = 10
    · subst hc
      simp
    · simp [hc]

theorem PosWithLine_loop_run (r : ffReader) :
    ∀ (mid pre rest : List Nat) (line ch : Nat), r.s = pre ++ (mid ++ rest) →
      r.PosWithLine_loop mid.length pre.length line ch
        = some (line + mid.count 10,
            if 10 ∈ mid then (mid.reverse.takeWhile (fun c => c != 10)).length
            else ch + mid.length) := by
  intro mid
  induction mid with
  | nil =>
    intro pre rest line ch _
    simp [ffReader.PosWithLine_loop]
  | cons c mid ih =>
    intro pre rest line ch hs
    have hget : r.s[pre.length]? = some c := by
      rw [hs]
      exact getElem?_split pre (mid ++ rest) c
    have hs2 : r.s = (pre ++ [c]) ++ (mid ++ rest) := by
      rw [hs]
      simp
    have := ih (pre ++ [c]) rest
    simp only [List.length_append, List.length_singleton] at this
    simp only [List.length_cons, ffReader.PosWithLine_loop, hget]
    rw [column_snoc]
    by_cases hc : c = 10
    · subst hc
      rw [if_pos rfl, this _ _ hs2]
      by_cases hm : 10 ∈ mid
      · simp [hm, Nat.add_assoc, Nat.add_comm]
      · simp [hm, Nat.add_assoc, Nat.add_comm]
    · rw [if_neg hc, this _ _ hs2]
      have hne : (10 : Nat) ≠ c := fun h => hc h.symm
      by_cases hm : 10 ∈ mid
      · simp [hm, hne, hc, List.count_cons]
      · simp [hm, hne, hc, List.count_cons]
        omega

/-! ## Whitespace -/

theorem isWS_iff (c : Nat) :
    isWS c = true ↔ c = 9 ∨ c = 10 ∨ c = 11 ∨ c = 12 ∨ c = 13 ∨ c = 32 := by
  simp only [isWS, Bool.or_eq_true, beq_iff_eq]
  tauto

theorem Scan_switch_ws (WriteJson : List Nat → List Nat) (captureall : Bool)
    (again : FFLexer → Option (TokErr × FFLexer)) (c : Nat) (ffl : FFLexer)
    (h : isWS c = true) :
    FFLexer.Scan_switch WriteJson captureall again c ffl
      = again (if captureall then ffl.WriteByte c else ffl) := by
  have h2 := (isWS_iff c).mp h
  unfold FFLexer.Scan_switch
  rw [if_neg (by omega), if_neg (by omega), if_neg (by omega), if_neg (by omega),
    if_neg (by omega), if_neg (by omega), if_pos h2]

theorem Scan_switch_not_ws (WriteJson : List Nat → List Nat) (captureall : Bool)
    (again again2 : FFLexer → Option (TokErr × FFLexer)) (c : Nat) (ffl : FFLexer)
    (h : isWS c = false) :
    FFLexer.Scan_switch WriteJson captureall again c ffl
      = FFLexer.Scan_switch WriteJson captureall again2 c ffl := by
  have h2 : ¬ (c = 9 ∨ c = 10 ∨ c = 11 ∨ c = 12 ∨ c = 13 ∨ c = 32) := by
    intro h3
    rw [(isWS_iff c).mpr h3] at h
    cases h
  unfold FFLexer.Scan_switch
  rw [if_neg h2, if_neg h2]

theorem ReadByteNoWS_cases (a b : List Nat) :
    (b.all isWS = true ∧ (rd a b).ReadByteNoWS = some (.error .EOF, rd a b)) ∨
    (∃ ws c rest, b = ws ++ c :: rest ∧ ws.all isWS = true ∧ isWS c = false ∧
      (rd a b).ReadByteNoWS = some (.ok c, rd (a ++ ws ++ [c]) rest)) := by
  obtain ⟨ws, tail, hb, hws, hhead⟩ := split_run isWS b
  cases tail with
  | nil =>
    left
    simp only [List.append_nil] at hb
    subst hb
    exact ⟨hws, ReadByteNoWS_rd_eof a b hws⟩
  | cons c rest =>
    right
    have hc : isWS c = false := by
      simpa [headOk] using hhead
    exact ⟨ws, c, rest, hb, hws, hc, hb ▸ ReadByteNoWS_rd a ws rest c hws hc⟩

/-! ## Decimal texts -/

theorem decimalText_step (u : Nat) (h : 10 ≤ u) :
    decimalText u = decimalText (u / 10) ++ [48 + u % 10] := by
  have h0 : u ≠ 0 := by omega
  have h1 : u / 10 ≠ 0 := by omega
  simp only [decimalText, if_neg h0, if_neg h1]
  rw [Nat.digits_def' (by decide) (by omega)]
  simp

theorem decimalText_small (u : Nat) (h : u < 10) : decimalText u = [48 + u] := by
  by_cases h0 : u = 0
  · subst h0
    rfl
  · simp only [decimalText, if_neg h0]
    rw [Nat.digits_of_lt 10 u h0 h]
    rfl

theorem formatBits2_loop_decimal :
    ∀ (fuel u : Nat) (a : List Nat), u < 10 ^ (fuel + 1) →
      formatBits2_loop 10 (fuel + 1) u a = decimalText u ++ a := by
  intro fuel
  induction fuel with
  | zero =>
    intro u a hu
    have hu2 : u < 10 := by simpa using hu
    rw [formatBits2_loop, if_neg (by omega), decimalText_small u hu2]
    simp [formatDigit, hu2]
  | succ fuel ih =>
    intro u a hu
    rw [formatBits2_loop]
    by_cases h : u ≥ 10
    · rw [if_pos h, ih _ _ (by rw [Nat.pow_succ] at hu; omega), decimalText_step u h]
      have : u % 10 < 10 := Nat.mod_lt _ (by decide)
      simp [formatDigit, this]
    · rw [if_neg h, decimalText_small u (by omega)]
      have : u < 10 := by omega
      simp [formatDigit, this]

theorem decimalValue_digits (L : List Nat) (hL : ∀ d ∈ L, d < 10) :
    decimalValue (L.reverse.map (fun d => 48 + d)) = Nat.ofDigits 10 L := by
  induction L with
  | nil => rfl
  | cons x L ih =>
    have := ih (fun d hd => hL d (List.mem_cons_of_mem _ hd))
    unfold decimalValue at this ⊢
    simp only [List.reverse_cons, List.map_append, List.map_cons, List.map_nil,
      List.foldl_append, List.foldl_cons, List.foldl_nil, this, Nat.ofDigits_cons]
    omega

theorem decimalText_facts (u : Nat) :
    decimalText u ≠ [] ∧ (∀ d ∈ decimalText u, 48 ≤ d ∧ d ≤ 57) ∧
    (u ≠ 0 → (decimalText u).head? ≠ some 48) ∧ decimalValue (decimalText u) = u := by
  by_cases h0 : u = 0
  · subst h0
    refine ⟨by decide, by decide, fun h => absurd rfl h, by decide⟩
  · have hne : Nat.digits 10 u ≠ [] := by
      simpa [Nat.digits_ne_nil_iff_ne_zero] using h0
    simp only [decimalText, if_neg h0]
    refine ⟨by simpa using hne, ?_, ?_, ?_⟩
    · intro d hd
      simp only [List.mem_map, List.mem_reverse] at hd
      obtain ⟨x, hx, rfl⟩ := hd
      have := Nat.digits_lt_base (by decide : 1 < 10) hx
      omega
    · intro _
      have hlast := Nat.getLast_digit_ne_zero 10 h0
      rw [List.head?_map, List.head?_reverse, List.getLast?_eq_getLast _ hne]
      simp only [Option.map_some', ne_eq, Option.some.injEq]
      omega
    · rw [decimalValue_digits _ (fun d hd => Nat.digits_lt_base (by decide) hd)]
      exact Nat.ofDigits_digits 10 u

/-! ## The cursor of the reader -/

theorem aScanString_from_bounds :
    ∀ (t : List Nat) (j : Nat), (aScanString_from t j).1 ≤ j + t.length ∧
      (t ≠ [] → j < (aScanString_from t j).1) := by
  intro t
  induction t with
  | nil =>
    intro j
    simp [aScanString_from]
  | cons c t ih =>
    intro j
    rw [aScanString_from]
    by_cases h : byteLookupTable c &&& sliceStringMask = 0
    · rw [if_pos h]
      have := (ih (j + 1)).1
      have h2 : j + 1 ≤ (aScanString_from t (j + 1)).1 := by
        cases t with
        | nil => simp [aScanString_from]
        | cons d t => exact Nat.le_of_lt ((ih (j + 1)).2 (by simp))
      simp only [List.length_cons]
      constructor
      · omega
      · intro _
        omega
    · rw [if_neg h]
      simp

theorem aScanString_bounds (s : List Nat) (j : Nat) (h : j < s.length) :
    j < (aScanString s j).1 ∧ (aScanString s j).1 ≤ s.length := by
  have hb := aScanString_from_bounds (s.drop j) j
  have hne : s.drop j ≠ [] := by
    intro he
    have := congrArg List.length he
    simp at this
    omega
  unfold aScanString
  refine ⟨hb.2 hne, ?_⟩
  have := hb.1
  simp only [List.length_drop] at this
  omega

theorem readU4_loop_ok (r : ffReader) :
    ∀ (n j : Nat) (u4 x : List Nat), j ≤ r.l → r.readU4_loop n j u4 = some (.ok x) →
      j + n ≤ r.l := by
  intro n
  induction n with
  | zero =>
    intro j u4 x hj _
    exact hj
  | succ n ih =>
    intro j u4 x _ h
    rw [ffReader.readU4_loop] at h
    by_cases hj : j ≥ r.l
    · rw [if_pos hj] at h
      cases h
    · rw [if_neg hj] at h
      cases hc : r.s[j]? with
      | none =>
        rw [hc] at h
        cases h
      | some c =>
        rw [hc] at h
        simp only at h
        by_cases hh : byteLookupTable c &&& cVHC ≠ 0
        · rw [if_pos hh] at h
          have := ih _ _ _ (by omega) h
          omega
        · rw [if_neg hh] at h
          cases h

theorem readU4_loop_class (r : ffReader) :
    ∀ (n j : Nat) (u4 : List Nat) (e : GoError), r.readU4_loop n j u4 = some (.error e) →
      e.fromStringBody = true := by
  intro n
  induction n with
  | zero =>
    intro j u4 e h
    cases h
  | succ n ih =>
    intro j u4 e h
    rw [ffReader.readU4_loop] at h
    by_cases hj : j ≥ r.l
    · rw [if_pos hj] at h
      cases h
      rfl
    · rw [if_neg hj] at h
      cases hc : r.s[j]? with
      | none =>
        rw [hc] at h
        cases h
      | some c =>
        rw [hc] at h
        simp only at h
        by_cases hh : byteLookupTable c &&& cVHC ≠ 0
        · rw [if_pos hh] at h
          exact ih _ _ _ h
        · rw [if_neg hh] at h
          cases h
          rfl

theorem readU4_inv (r : ffReader) (j : Nat) (res : Except GoError Nat)
    (h : r.readU4 j = some res) :
    (∀ v, res = .ok v → j + 4 ≤ r.l) ∧ (∀ e, res = .error e → e.fromStringBody = true) := by
  unfold ffReader.readU4 at h
  cases hl : r.readU4_loop 4 j [] with
  | none =>
    rw [hl] at h
    cases h
  | some lr =>
    rw [hl] at h
    cases lr with
    | error e =>
      simp only [Option.some.injEq] at h
      subst h
      refine ⟨fun v hv => (by cases hv), fun e2 he => ?_⟩
      cases he
      exact readU4_loop_class r _ _ _ _ hl
    | ok u4 =>
      have hb : j + 4 ≤ r.l := by
        by_cases hj : j ≤ r.l
        · exact readU4_loop_ok r 4 j [] u4 hj hl
        · rw [ffReader.readU4_loop, if_pos (by omega)] at hl
          cases hl
      simp only at h
      cases hp : ParseUint u4 16 64 with
      | error e =>
        rw [hp] at h
        simp only [Option.some.injEq] at h
        subst h
        refine ⟨fun v hv => (by cases hv), fun e2 he => ?_⟩
        cases he
        rw [ParseUint_err _ _ _ _ hp]
        rfl
      | ok rr =>
        rw [hp] at h
        simp only [Option.some.injEq] at h
        subst h
        exact ⟨fun _ _ => hb, fun e2 he => by cases he⟩

theorem handleEscaped_inv (r : ffReader) (c j : Nat) (out : List Nat)
    (res : Except GoError Nat) (r2 : ffReader) (out2 : List Nat)
    (hi : r.i ≤ r.l) (hj : r.i ≤ j)
    (h : r.handleEscaped c j out = some (res, r2, out2)) :
    r2.s = r.s ∧ r2.l = r.l ∧ r.i ≤ r2.i ∧ r2.i ≤ r2.l ∧
    (∀ j2, res = .ok j2 → j2 = r2.i ∧ j < j2) ∧
    (∀ e, res = .error e → e.fromStringBody = true) := by
  have same : ∀ e : GoError, e.fromStringBody = true →
      some ((Except.error e : Except GoError Nat), r, out) = some (res, r2, out2) →
      r2.s = r.s ∧ r2.l = r.l ∧ r.i ≤ r2.i ∧ r2.i ≤ r2.l ∧
      (∀ j2, res = .ok j2 → j2 = r2.i ∧ j < j2) ∧
      (∀ e, res = .error e → e.fromStringBody = true) := by
    intro e he h
    simp only [Option.some.injEq, Prod.mk.injEq] at h
    obtain ⟨rfl, rfl, rfl⟩ := h
    exact ⟨rfl, rfl, le_refl _, hi, fun j2 h => (by cases h), fun e2 h => (by cases h; exact he)⟩
  unfold ffReader.handleEscaped at h
  by_cases h1 : j ≥ r.l
  · rw [if_pos h1] at h
    exact same _ (by rfl) h
  · rw [if_neg h1] at h
    cases hc : r.s[j]? with
    | none =>
      rw [hc] at h
      cases h
    | some c0 =>
      rw [hc] at h
      dsimp only at h
      by_cases hu : c0 = 117
      · rw [if_pos hu] at h
        cases h4 : r.readU4 (j + 1) with
        | none =>
          rw [h4] at h
          cases h
        | some res1 =>
          rw [h4] at h
          have hinv := readU4_inv r (j + 1) res1 h4
          cases res1 with
          | error e =>
            dsimp only at h
            exact same e (hinv.2 e rfl) h
          | ok ru =>
            dsimp only at h
            have hb := hinv.1 ru rfl
            by_cases hs : utf16_IsSurrogate ru = true
            · rw [if_pos hs] at h
              cases h5 : r.readU4 (j + 1 + 6) with
              | none =>
                rw [h5] at h
                cases h
              | some res2 =>
                rw [h5] at h
                have hinv2 := readU4_inv r (j + 1 + 6) res2 h5
                cases res2 with
                | error e =>
                  dsimp only at h
                  exact same e (hinv2.2 e rfl) h
                | ok ru2 =>
                  dsimp only at h
                  have hb2 := hinv2.1 ru2 rfl
                  cases hg : goSlice r.s r.i (j + 1 - 2) with
                  | none =>
                    rw [hg] at h
                    cases h
                  | some b =>
                    rw [hg] at h
                    dsimp only at h
                    by_cases hv : utf16_DecodeRune ru ru2 ≠ unicode_ReplacementChar
                    · rw [if_pos hv] at h
                      simp only [Option.some.injEq, Prod.mk.injEq] at h
                      obtain ⟨rfl, rfl, rfl⟩ := h
                      refine ⟨rfl, rfl, ?_, ?_, ?_, fun e h => (by cases h)⟩
                      · simp only
                        omega
                      · simp only
                        omega
                      · intro j2 hj2
                        cases hj2
                        exact ⟨rfl, by omega⟩
                    · rw [if_neg hv] at h
                      simp only [Option.some.injEq, Prod.mk.injEq] at h
                      obtain ⟨rfl, rfl, rfl⟩ := h
                      refine ⟨rfl, rfl, ?_, ?_, fun j2 h => (by cases h), fun e h => ?_⟩
                      · simp only
                        omega
                      · simp only
                        omega
                      · cases h
                        rfl
            · rw [if_neg hs] at h
              cases hg : goSlice r.s r.i (j + 1 - 2) with
              | none =>
                rw [hg] at h
                cases h
              | some b =>
                rw [hg] at h
                dsimp only at h
                simp only [Option.some.injEq, Prod.mk.injEq] at h
                obtain ⟨rfl, rfl, rfl⟩ := h
                refine ⟨rfl, rfl, ?_, ?_, ?_, fun e h => (by cases h)⟩
                · simp only
                  omega
                · simp only
                  omega
                · intro j2 hj2
                  cases hj2
                  exact ⟨rfl, by omega⟩
      · rw [if_neg hu] at h
        by_cases hv : byteLookupTable c0 &&& cVEC = 0
        · rw [if_pos hv] at h
          exact same _ (by rfl) h
        · rw [if_neg hv] at h
          cases hg : goSlice r.s r.i (j + 1 - 2) with
          | none =>
            rw [hg] at h
            cases h
          | some b =>
            rw [hg] at h
            dsimp only at h
            simp only [Option.some.injEq, Prod.mk.injEq] at h
            obtain ⟨rfl, rfl, rfl⟩ := h
            refine ⟨rfl, rfl, ?_, ?_, ?_, fun e h => (by cases h)⟩
            · simp only
              omega
            · simp only
              omega
            · intro j2 hj2
              cases hj2
              exact ⟨rfl, by omega⟩

theorem SliceString_loop_inv :
    ∀ (fuel : Nat) (r : ffReader) (j : Nat) (out : List Nat) (e : Option GoError)
      (r2 : ffReader) (out2 : List Nat),
      r.l = r.s.length → r.i ≤ r.l → r.i ≤ j →
      ffReader.SliceString_loop fuel r j out = some (e, r2, out2) →
      r2.s = r.s ∧ r2.l = r.l ∧ r.i ≤ r2.i ∧ r2.i ≤ r2.l ∧
      (∀ err, e = some err → err.fromStringBody = true) := by
  intro fuel
  induction fuel with
  | zero =>
    intro r j out e r2 out2 _ _ _ h
    cases h
  | succ fuel ih =>
    intro r j out e r2 out2 hl hi hj h
    rw [ffReader.SliceString_loop] at h
    by_cases h1 : j ≥ r.l
    · rw [if_pos h1] at h
      simp only [Option.some.injEq, Prod.mk.injEq] at h
      obtain ⟨rfl, rfl, rfl⟩ := h
      exact ⟨rfl, rfl, le_refl _, hi, fun err he => (by cases he; rfl)⟩
    · rw [if_neg h1] at h
      have hb := aScanString_bounds r.s j (by omega)
      dsimp only at h
      by_cases hq : (aScanString r.s j).2 = 34
      · rw [if_pos hq] at h
        by_cases hne : (aScanString r.s j).1 ≠ r.i
        · rw [if_pos hne] at h
          cases hg : goSlice r.s r.i ((aScanString r.s j).1 - 1) with
          | none =>
            rw [hg] at h
            cases h
          | some b =>
            rw [hg] at h
            simp only [Option.some.injEq, Prod.mk.injEq] at h
            obtain ⟨rfl, rfl, rfl⟩ := h
            refine ⟨rfl, rfl, ?_, ?_, fun err he => (by cases he)⟩
            · simp only
              omega
            · simp only
              omega
        · rw [if_neg hne] at h
          simp only [Option.some.injEq, Prod.mk.injEq] at h
          obtain ⟨rfl, rfl, rfl⟩ := h
          exact ⟨rfl, rfl, le_refl _, hi, fun err he => (by cases he)⟩
      · rw [if_neg hq] at h
        by_cases hbs : (aScanString r.s j).2 = 92
        · rw [if_pos hbs] at h
          cases hh : r.handleEscaped (aScanString r.s j).2 (aScanString r.s j).1 out with
          | none =>
            rw [hh] at h
            cases h
          | some p =>
            obtain ⟨res, r3, out3⟩ := p
            rw [hh] at h
            have hinv := handleEscaped_inv r _ _ out res r3 out3 hi (by omega) hh
            cases res with
            | error e3 =>
              simp only [Option.some.injEq, Prod.mk.injEq] at h
              obtain ⟨rfl, rfl, rfl⟩ := h
              exact ⟨hinv.1, hinv.2.1, hinv.2.2.1, hinv.2.2.2.1,
                fun err he => (by cases he; exact hinv.2.2.2.2.2 _ rfl)⟩
            | ok j3 =>
              dsimp only at h
              have hj3 := hinv.2.2.2.2.1 j3 rfl
              have := ih r3 j3 out3 e r2 out2 (by rw [hinv.2.1, hinv.1, hl])
                hinv.2.2.2.1 (by omega) h
              refine ⟨this.1.trans hinv.1, this.2.1.trans hinv.2.1, ?_, this.2.2.2.1,
                this.2.2.2.2⟩
              have := this.2.2.1
              have := hinv.2.2.1
              omega
        · rw [if_neg hbs] at h
          by_cases hij : byteLookupTable (aScanString r.s j).2 &&& cIJC ≠ 0
          · rw [if_pos hij] at h
            simp only [Option.some.injEq, Prod.mk.injEq] at h
            obtain ⟨rfl, rfl, rfl⟩ := h
            exact ⟨rfl, rfl, le_refl _, hi, fun err he => (by cases he; rfl)⟩
          · rw [if_neg hij] at h
            exact ih r _ out e r2 out2 hl hi (by omega) h

theorem SliceString_inv (r : ffReader) (out : List Nat) (hwf : r.wf) :
    ∃ e r2 out2, r.SliceString out = some (e, r2, out2) ∧ r2.wf ∧ r2.s = r.s ∧ r.i ≤ r2.i ∧
      (∀ err, e = some err → err.fromStringBody = true) := by
  have htot := SliceString_loop_total (r.l - r.i + 1) (r.s.take r.i) (r.s.drop r.i) (by
    have h1 := hwf.1
    have h2 := hwf.2
    simp only [List.length_drop]
    omega)
  obtain ⟨e, a2, b2, _, _, _, hrun⟩ := htot
  obtain ⟨r2, out2, hrun, _⟩ := hrun out
  rw [← wf_eq_rd r hwf] at hrun
  have hlen : (r.s.take r.i).length = r.i := by
    have h1 := hwf.1
    have h2 := hwf.2
    simp only [List.length_take]
    omega
  rw [hlen] at hrun
  have hinv := SliceString_loop_inv _ r r.i out e r2 out2 hwf.1 hwf.2 (le_refl _) hrun
  refine ⟨e, r2, out2, hrun, ⟨?_, hinv.2.2.2.1⟩, hinv.1, hinv.2.2.1, hinv.2.2.2.2⟩
  rw [hinv.2.1, hinv.1]
  exact hwf.1

theorem ReadByte_inv (r : ffReader) (hwf : r.wf) :
    ∃ res r2, r.ReadByte = some (res, r2) ∧ r2.wf ∧ r2.s = r.s ∧ r.i ≤ r2.i ∧
      (∀ c, res = .ok c → r2.i = r.i + 1 ∧ r.s[r.i]? = some c) ∧
      (∀ e, res = .error e → e = .EOF ∧ r2 = r ∧ r.s[r.i]? = none) := by
  unfold ffReader.ReadByte
  by_cases h : r.i ≥ r.l
  · rw [if_pos h]
    have hnone : r.s[r.i]? = none := by
      rw [List.getElem?_eq_none_iff]
      have := hwf.1
      omega
    exact ⟨_, _, rfl, hwf, rfl, le_refl _, fun c hc => (by cases hc),
      fun e he => (by cases he; exact ⟨rfl, rfl, hnone⟩)⟩
  · rw [if_neg h]
    have hlt : r.i < r.s.length := by
      have := hwf.1
      omega
    rw [List.getElem?_eq_getElem hlt]
    refine ⟨_, _, rfl, ⟨hwf.1, ?_⟩, rfl, Nat.le_succ _, ?_, fun e he => (by cases he)⟩
    · simp only
      omega
    · intro c hc
      cases hc
      exact ⟨rfl, rfl⟩

theorem ReadByteNoWS_inv (r : ffReader) (hwf : r.wf) :
    ∃ res r2, r.ReadByteNoWS = some (res, r2) ∧ r2.wf ∧ r2.s = r.s ∧ r.i ≤ r2.i ∧
      (∀ c, res = .ok c → r.i < r2.i ∧ r.s[r2.i - 1]? = some c) ∧
      (∀ e, res = .error e → e = .EOF ∧ r2 = r) := by
  rw [wf_eq_rd r hwf]
  rcases ReadByteNoWS_cases (r.s.take r.i) (r.s.drop r.i) with ⟨_, h⟩ | ⟨ws, c, rest, hb, _, _, h⟩
  · exact ⟨_, _, h, rd_wf _ _, rfl, le_refl _, fun c hc => (by cases hc),
      fun e he => (by cases he; exact ⟨rfl, rfl⟩)⟩
  · refine ⟨_, _, h, rd_wf _ _, ?_, ?_, ?_, fun e he => (by cases he)⟩
    · simp only [rd, hb, List.append_assoc, List.singleton_append]
    · simp only [rd, List.length_append, List.length_singleton]
      omega
    · intro c2 hc2
      cases hc2
      constructor
      · simp only [rd, List.length_append, List.length_singleton]
        omega
      · simp only [rd, hb, List.length_append, List.length_singleton, Nat.add_sub_cancel]
        have := getElem?_split (r.s.take r.i ++ ws) rest c
        simpa [List.append_assoc] using this

theorem ReaderOp_run_inv (op : ReaderOp) (r : ffReader) (hwf : r.wf) :
    (op.run r = none ↔ op = .UnreadByte ∧ r.i = 0) ∧ ∀ r2, op.run r = some r2 → r2.wf := by
  cases op with
  | ReadByte =>
    obtain ⟨res, r2, h, hw, _⟩ := ReadByte_inv r hwf
    simp only [ReaderOp.run, h, Option.map_some', reduceCtorEq, false_and, iff_false,
      not_false_eq_true, Option.some.injEq, true_and]
    intro r3 h3
    exact h3 ▸ hw
  | ReadByteNoWS =>
    obtain ⟨res, r2, h, hw, _⟩ := ReadByteNoWS_inv r hwf
    simp only [ReaderOp.run, h, Option.map_some', reduceCtorEq, false_and, iff_false,
      not_false_eq_true, Option.some.injEq, true_and]
    intro r3 h3
    exact h3 ▸ hw
  | UnreadByte =>
    simp only [ReaderOp.run, true_and]
    unfold ffReader.UnreadByte
    by_cases h : r.i ≤ 0
    · rw [if_pos h]
      simp only [true_iff, reduceCtorEq, false_implies, implies_true, and_true]
      omega
    · rw [if_neg h]
      simp only [reduceCtorEq, false_iff, Option.some.injEq]
      refine ⟨by omega, ?_⟩
      intro r2 h2
      subst h2
      have := hwf.2
      exact ⟨hwf.1, by simp only; omega⟩
  | SliceString out =>
    obtain ⟨e, r2, out2, h, hw, _⟩ := SliceString_inv r out hwf
    simp only [ReaderOp.run, h, Option.map_some', reduceCtorEq, false_and, iff_false,
      not_false_eq_true, Option.some.injEq, true_and]
    intro r3 h3
    exact h3 ▸ hw
  | Reset d =>
    simp only [ReaderOp.run, reduceCtorEq, false_and, iff_false, not_false_eq_true,
      Option.some.injEq, true_and]
    intro r2 h2
    subst h2
    exact ⟨rfl, Nat.zero_le _⟩

theorem after_wf : ∀ (ops : List ReaderOp) (r : ffReader), r.wf → ∀ r2 ∈ r.after ops, r2.wf := by
  intro ops
  induction ops with
  | nil =>
    intro r _ r2 h
    cases h
  | cons op ops ih =>
    intro r hwf r2 h
    rw [ffReader.after] at h
    cases hrun : op.run r with
    | none =>
      rw [hrun] at h
      cases h
    | some r3 =>
      rw [hrun] at h
      have hw3 := (ReaderOp_run_inv op r hwf).2 r3 hrun
      simp only [List.mem_cons] at h
      rcases h with h | h
      · exact h ▸ hw3
      · exact ih r3 hw3 r2 h

/-! ## The cursor of the lexer and the classes of its errors -/

theorem Advanced_refl (x : FFLexer) (h : x.reader.wf) : x.Advanced x x.reader.i :=
  ⟨h, rfl, le_refl _⟩

theorem Advanced_trans (x y z : FFLexer) (lo lo2 : Nat) (h1 : x.Advanced y lo)
    (h2 : y.Advanced z lo2) : x.Advanced z lo2 :=
  ⟨h2.1, h2.2.1.trans h1.2.1, h2.2.2⟩

theorem Advanced_mono (x y : FFLexer) (lo lo2 : Nat) (h1 : x.Advanced y lo) (h : lo2 ≤ lo) :
    x.Advanced y lo2 :=
  ⟨h1.1, h1.2.1, le_trans h h1.2.2⟩

theorem readByte_inv (x : FFLexer) (hwf : x.reader.wf) :
    ∃ res y, x.readByte = some (res, y) ∧ x.Advanced y x.reader.i ∧
      y.outputbuf = x.outputbuf ∧
      (∀ c, res = .ok c → y.reader.i = x.reader.i + 1 ∧ x.reader.s[x.reader.i]? = some c) ∧
      (∀ e, res = .error e → e = .FFError .FFErr_io ∧ x.reader.s[x.reader.i]? = none) := by
  obtain ⟨res, r2, h, hw, hs, hi, hok, herr⟩ := ReadByte_inv x.reader hwf
  unfold FFLexer.readByte
  rw [h]
  cases res with
  | error e =>
    exact ⟨_, _, rfl, ⟨hw, hs, hi⟩, rfl, fun c hc => (by cases hc),
      fun e he => (by cases he; exact ⟨rfl, (herr _ rfl).2.2⟩)⟩
  | ok c =>
    exact ⟨_, _, rfl, ⟨hw, hs, hi⟩, rfl, fun c2 hc => (by cases hc; exact hok c rfl),
      fun e he => (by cases he)⟩

theorem unreadByte_inv (x y : FFLexer) (hwf : x.reader.wf) (h : x.unreadByte = some y) :
    y.reader.wf ∧ y.reader.s = x.reader.s ∧ y.reader.i + 1 = x.reader.i ∧
      y.outputbuf = x.outputbuf := by
  unfold FFLexer.unreadByte ffReader.UnreadByte at h
  by_cases h0 : x.reader.i ≤ 0
  · rw [if_pos h0] at h
    cases h
  · rw [if_neg h0] at h
    simp only [Option.some.injEq] at h
    subst h
    have := hwf.2
    exact ⟨⟨hwf.1, by simp only; omega⟩, rfl, by simp only; omega, rfl⟩

theorem wantBytes_inv :
    ∀ (want : List Nat) (tok : FFTok) (x : FFLexer) (te : TokErr) (y : FFLexer),
      x.reader.wf → FFLexer.wantBytes want tok x = some (te, y) →
      x.Advanced y x.reader.i ∧ (∀ e, te.2 = some e → e.kinded = true) := by
  intro want
  induction want with
  | nil =>
    intro tok x te y hwf h
    simp only [FFLexer.wantBytes, Option.some.injEq, Prod.mk.injEq] at h
    obtain ⟨rfl, rfl⟩ := h
    exact ⟨Advanced_refl _ hwf, fun e he => (by cases he)⟩
  | cons b want ih =>
    intro tok x te y hwf h
    obtain ⟨res, x1, h1, ha, _, hok, herr⟩ := readByte_inv x hwf
    rw [FFLexer.wantBytes, h1] at h
    cases res with
    | error e =>
      simp only [Option.some.injEq, Prod.mk.injEq] at h
      obtain ⟨rfl, rfl⟩ := h
      refine ⟨ha, fun e2 he => ?_⟩
      cases he
      rw [(herr e rfl).1]
      rfl
    | ok c =>
      dsimp only at h
      by_cases hc : c ≠ b
      · rw [if_pos hc] at h
        cases hu : x1.unreadByte with
        | none =>
          rw [hu] at h
          cases h
        | some x2 =>
          rw [hu] at h
          simp only [Option.some.injEq, Prod.mk.injEq] at h
          obtain ⟨rfl, rfl⟩ := h
          have := unreadByte_inv x1 x2 ha.1 hu
          have h3 := (hok c rfl).1
          refine ⟨⟨this.1, this.2.1.trans ha.2.1, by omega⟩, fun e2 he => ?_⟩
          cases he
          rfl
      · rw [if_neg hc] at h
        have := ih tok (x1.WriteByte c) te y ha.1 h
        refine ⟨⟨this.1.1, this.1.2.1.trans ha.2.1, ?_⟩, this.2⟩
        have h3 := this.1.2.2
        have h4 := ha.2.2
        exact le_trans h4 h3

theorem lexComment_line_inv :
    ∀ (fuel : Nat) (x : FFLexer) (te : TokErr) (y : FFLexer),
      x.reader.wf → FFLexer.lexComment_line fuel x = some (te, y) →
      x.Advanced y x.reader.i ∧ (∀ e, te.2 = some e → e.kinded = true) := by
  intro fuel
  induction fuel with
  | zero =>
    intro x te y _ h
    cases h
  | succ fuel ih =>
    intro x te y hwf h
    obtain ⟨res, x1, h1, ha, _, hok, herr⟩ := readByte_inv x hwf
    rw [FFLexer.lexComment_line, h1] at h
    cases res with
    | error e =>
      simp only [Option.some.injEq, Prod.mk.injEq] at h
      obtain ⟨rfl, rfl⟩ := h
      refine ⟨ha, fun e2 he => ?_⟩
      cases he
      rw [(herr e rfl).1]
      rfl
    | ok c =>
      dsimp only at h
      by_cases hc : c = 10
      · rw [if_pos hc] at h
        simp only [Option.some.injEq, Prod.mk.injEq] at h
        obtain ⟨rfl, rfl⟩ := h
        exact ⟨ha, fun e he => (by cases he)⟩
      · rw [if_neg hc] at h
        have := ih x1 te y ha.1 h
        exact ⟨⟨this.1.1, this.1.2.1.trans ha.2.1, le_trans ha.2.2 this.1.2.2⟩, this.2⟩

theorem lexComment_block_inv :
    ∀ (fuel : Nat) (x : FFLexer) (te : TokErr) (y : FFLexer),
      x.reader.wf → FFLexer.lexComment_block fuel x = some (te, y) →
      x.Advanced y x.reader.i ∧ (∀ e, te.2 = some e → e.kinded = true) := by
  intro fuel
  induction fuel with
  | zero =>
    intro x te y _ h
    cases h
  | succ fuel ih =>
    intro x te y hwf h
    obtain ⟨res, x1, h1, ha, _, hok, herr⟩ := readByte_inv x hwf
    rw [FFLexer.lexComment_block, h1] at h
    cases res with
    | error e =>
      simp only [Option.some.injEq, Prod.mk.injEq] at h
      obtain ⟨rfl, rfl⟩ := h
      refine ⟨ha, fun e2 he => ?_⟩
      cases he
      rw [(herr e rfl).1]
      rfl
    | ok c =>
      dsimp only at h
      by_cases hc : c = 42
      · rw [if_pos hc] at h
        obtain ⟨res2, x2, h2, ha2, _, hok2, herr2⟩ := readByte_inv x1 ha.1
        rw [h2] at h
        have hadv : x.Advanced x2 x.reader.i :=
          ⟨ha2.1, ha2.2.1.trans ha.2.1, le_trans ha.2.2 ha2.2.2⟩
        cases res2 with
        | error e =>
          simp only [Option.some.injEq, Prod.mk.injEq] at h
          obtain ⟨rfl, rfl⟩ := h
          refine ⟨hadv, fun e2 he => ?_⟩
          cases he
          rw [(herr2 e rfl).1]
          rfl
        | ok c2 =>
          dsimp only at h
          by_cases hc2 : c2 = 47
          · rw [if_pos hc2] at h
            simp only [Option.some.injEq, Prod.mk.injEq] at h
            obtain ⟨rfl, rfl⟩ := h
            exact ⟨hadv, fun e he => (by cases he)⟩
          · rw [if_neg hc2] at h
            simp only [Option.some.injEq, Prod.mk.injEq] at h
            obtain ⟨rfl, rfl⟩ := h
            refine ⟨hadv, fun e he => ?_⟩
            cases he
            rfl
      · rw [if_neg hc] at h
        have := ih x1 te y ha.1 h
        exact ⟨⟨this.1.1, this.1.2.1.trans ha.2.1, le_trans ha.2.2 this.1.2.2⟩, this.2⟩

theorem lexComment_inv (x : FFLexer) (te : TokErr) (y : FFLexer) (hwf : x.reader.wf)
    (h : x.lexComment = some (te, y)) :
    x.Advanced y x.reader.i ∧ (∀ e, te.2 = some e → e.kinded = true) := by
  obtain ⟨res, x1, h1, ha, _, hok, herr⟩ := readByte_inv x hwf
  rw [FFLexer.lexComment, h1] at h
  cases res with
  | error e =>
    simp only [Option.some.injEq, Prod.mk.injEq] at h
    obtain ⟨rfl, rfl⟩ := h
    refine ⟨ha, fun e2 he => ?_⟩
    cases he
    rw [(herr e rfl).1]
    rfl
  | ok c =>
    dsimp only at h
    by_cases hc : c = 47
    · rw [if_pos hc] at h
      have := lexComment_line_inv _ x1 te y ha.1 h
      exact ⟨⟨this.1.1, this.1.2.1.trans ha.2.1, le_trans ha.2.2 this.1.2.2⟩, this.2⟩
    · rw [if_neg hc] at h
      by_cases hc2 : c = 42
      · rw [if_pos hc2] at h
        have := lexComment_block_inv _ x1 te y ha.1 h
        exact ⟨⟨this.1.1, this.1.2.1.trans ha.2.1, le_trans ha.2.2 this.1.2.2⟩, this.2⟩
      · rw [if_neg hc2] at h
        simp only [Option.some.injEq, Prod.mk.injEq] at h
        obtain ⟨rfl, rfl⟩ := h
        refine ⟨ha, fun e he => ?_⟩
        cases he
        rfl

theorem lexString_inv (WriteJson : List Nat → List Nat) (cap : Bool) (x : FFLexer) (te : TokErr)
    (y : FFLexer) (hwf : x.reader.wf) (h : x.lexString WriteJson cap = some (te, y)) :
    x.Advanced y x.reader.i ∧ (∀ e, te.2 = some e → e.fromStringBody = true) := by
  unfold FFLexer.lexString at h
  cases cap with
  | true =>
    obtain ⟨e, r2, out2, hs, hw, hss, hi, hcl⟩ := SliceString_inv x.reader [] hwf
    simp only [if_true, hs] at h
    cases e with
    | none =>
      simp only [Option.some.injEq, Prod.mk.injEq] at h
      obtain ⟨rfl, rfl⟩ := h
      exact ⟨⟨hw, hss, hi⟩, fun e he => (by cases he)⟩
    | some err =>
      simp only [Option.some.injEq, Prod.mk.injEq] at h
      obtain ⟨rfl, rfl⟩ := h
      exact ⟨⟨hw, hss, hi⟩, fun e he => (by cases he; exact hcl _ rfl)⟩
  | false =>
    obtain ⟨e, r2, out2, hs, hw, hss, hi, hcl⟩ := SliceString_inv x.reader x.outputbuf hwf
    simp only [Bool.false_eq_true, if_false, hs] at h
    cases e with
    | none =>
      simp only [Option.some.injEq, Prod.mk.injEq] at h
      obtain ⟨rfl, rfl⟩ := h
      exact ⟨⟨hw, hss, hi⟩, fun e he => (by cases he)⟩
    | some err =>
      simp only [Option.some.injEq, Prod.mk.injEq] at h
      obtain ⟨rfl, rfl⟩ := h
      exact ⟨⟨hw, hss, hi⟩, fun e he => (by cases he; exact hcl _ rfl)⟩

theorem kinded_io : (GoError.FFError .FFErr_io).kinded = true := rfl

theorem lexNumber_digits_inv :
    ∀ (fuel c n : Nat) (x : FFLexer) (res : Except GoError (Nat × Nat)) (y : FFLexer),
      x.reader.wf → FFLexer.lexNumber_digits fuel c n x = some (res, y) →
      x.Advanced y x.reader.i ∧ (∀ e, res = .error e → e.kinded = true) ∧
      (∀ p, res = .ok p → 48 ≤ c ∧ c ≤ 57 → x.reader.i + 1 ≤ y.reader.i) := by
  intro fuel
  induction fuel with
  | zero =>
    intro c n x res y _ h
    cases h
  | succ fuel ih =>
    intro c n x res y hwf h
    rw [FFLexer.lexNumber_digits] at h
    by_cases hd : 48 ≤ c ∧ c ≤ 57
    · rw [if_pos hd] at h
      obtain ⟨res1, x1, h1, ha, _, hok, herr⟩ := readByte_inv (x.WriteByte c) hwf
      rw [h1] at h
      have ha1 : x.Advanced x1 x.reader.i := ha
      cases res1 with
      | error e =>
        simp only [Option.some.injEq, Prod.mk.injEq] at h
        obtain ⟨rfl, rfl⟩ := h
        refine ⟨ha1, fun e2 he => ?_, fun p hp => (by cases hp)⟩
        cases he
        rw [(herr e rfl).1]
        rfl
      | ok c2 =>
        dsimp only at h
        have := ih c2 (n + 1) x1 res y ha.1 h
        have hi1 : x1.reader.i = x.reader.i + 1 := (hok c2 rfl).1
        refine ⟨⟨this.1.1, this.1.2.1.trans ha1.2.1, le_trans ha1.2.2 this.1.2.2⟩, this.2.1,
          fun p _ _ => ?_⟩
        have := this.1.2.2
        omega
    · rw [if_neg hd] at h
      simp only [Option.some.injEq, Prod.mk.injEq] at h
      obtain ⟨rfl, rfl⟩ := h
      exact ⟨Advanced_refl _ hwf, fun e he => (by cases he), fun p _ h => absurd h hd⟩

theorem lexNumber_exponent_inv (c : Nat) (tok : FFTok) (x : FFLexer) (te : TokErr) (y : FFLexer)
    (hwf : x.reader.wf) (h : x.lexNumber_exponent c tok = some (te, y)) :
    x.Advanced y (x.reader.i - 1) ∧ (∀ e, te.2 = some e → e.kinded = true) := by
  unfold FFLexer.lexNumber_exponent at h
  by_cases hc : c = 101 ∨ c = 69
  · rw [if_pos hc] at h
    obtain ⟨res1, x1, h1, ha, _, hok, herr⟩ := readByte_inv (x.WriteByte c) hwf
    rw [h1] at h
    have ha1 : x.Advanced x1 x.reader.i := ha
    cases res1 with
    | error e =>
      simp only [Option.some.injEq, Prod.mk.injEq] at h
      obtain ⟨rfl, rfl⟩ := h
      refine ⟨Advanced_mono _ _ _ _ ha1 (Nat.sub_le _ _), fun e2 he => ?_⟩
      cases he
      rw [(herr e rfl).1]
      rfl
    | ok c2 =>
      dsimp only at h
      have hi1 : x1.reader.i = x.reader.i + 1 := (hok c2 rfl).1
      have key : ∀ (c3 : Nat) (x2 : FFLexer), x2.reader.wf → x2.reader.s = x.reader.s →
          x.reader.i + 1 ≤ x2.reader.i →
          (match FFLexer.lexNumber_digits (x2.reader.l - x2.reader.i + 1) c3 0 x2 with
            | none => none
            | some (.error err, ffl) => some ((FFTok.FFTok_error, some err), ffl)
            | some (.ok (_, numRead), ffl) =>
              if numRead = 0 then
                some ((FFTok.FFTok_error,
                  some (GoError.FFError .FFErr_missing_integer_after_exponent)), ffl)
              else
                match ffl.unreadByte with
                | none => none
                | some ffl => some ((FFTok.FFTok_double, none), ffl)) = some (te, y) →
          x.Advanced y (x.reader.i - 1) ∧ (∀ e, te.2 = some e → e.kinded = true) := by
        intro c3 x2 hw2 hs2 hi2 h
        cases hdg : FFLexer.lexNumber_digits (x2.reader.l - x2.reader.i + 1) c3 0 x2 with
        | none =>
          rw [hdg] at h
          cases h
        | some p =>
          obtain ⟨res3, x3⟩ := p
          rw [hdg] at h
          have hinv := lexNumber_digits_inv _ c3 0 x2 res3 x3 hw2 hdg
          have ha3 : x.Advanced x3 (x.reader.i + 1) :=
            ⟨hinv.1.1, hinv.1.2.1.trans hs2, le_trans hi2 hinv.1.2.2⟩
          cases res3 with
          | error e =>
            simp only [Option.some.injEq, Prod.mk.injEq] at h
            obtain ⟨rfl, rfl⟩ := h
            exact ⟨Advanced_mono _ _ _ _ ha3 (by omega),
              fun e2 he => (by cases he; exact hinv.2.1 _ rfl)⟩
          | ok p3 =>
            obtain ⟨c4, numRead⟩ := p3
            dsimp only at h
            by_cases hn : numRead = 0
            · rw [if_pos hn] at h
              simp only [Option.some.injEq, Prod.mk.injEq] at h
              obtain ⟨rfl, rfl⟩ := h
              exact ⟨Advanced_mono _ _ _ _ ha3 (by omega), fun e2 he => (by cases he; rfl)⟩
            · rw [if_neg hn] at h
              cases hu : x3.unreadByte with
              | none =>
                rw [hu] at h
                cases h
              | some x4 =>
                rw [hu] at h
                simp only [Option.some.injEq, Prod.mk.injEq] at h
                obtain ⟨rfl, rfl⟩ := h
                have hu4 := unreadByte_inv x3 x4 ha3.1 hu
                have := ha3.2.2
                exact ⟨⟨hu4.1, hu4.2.1.trans ha3.2.1, by omega⟩, fun e2 he => (by cases he)⟩
      by_cases hsg : c2 = 43 ∨ c2 = 45
      · rw [if_pos hsg] at h
        obtain ⟨res2, x2, h2, hb, _, hok2, herr2⟩ := readByte_inv (x1.WriteByte c2) ha.1
        rw [h2] at h
        have hb1 : x1.Advanced x2 x1.reader.i := hb
        cases res2 with
        | error e =>
          simp only [Option.some.injEq, Prod.mk.injEq] at h
          obtain ⟨rfl, rfl⟩ := h
          refine ⟨⟨hb1.1, hb1.2.1.trans ha1.2.1, ?_⟩, fun e2 he => ?_⟩
          · have := hb1.2.2
            omega
          · cases he
            rw [(herr2 e rfl).1]
            rfl
        | ok c3 =>
          dsimp only at h
          refine key c3 x2 hb1.1 (hb1.2.1.trans ha1.2.1) ?_ h
          have := hb1.2.2
          omega
      · rw [if_neg hsg] at h
        dsimp only at h
        exact key c2 x1 ha1.1 ha1.2.1 (by omega) h
  · rw [if_neg hc] at h
    cases hu : x.unreadByte with
    | none =>
      rw [hu] at h
      cases h
    | some x4 =>
      rw [hu] at h
      simp only [Option.some.injEq, Prod.mk.injEq] at h
      obtain ⟨rfl, rfl⟩ := h
      have := unreadByte_inv x x4 hwf hu
      exact ⟨⟨this.1, this.2.1, by omega⟩, fun e2 he => (by cases he)⟩

theorem lexNumber_fraction_inv (c : Nat) (x : FFLexer) (te : TokErr) (y : FFLexer)
    (hwf : x.reader.wf) (h : x.lexNumber_fraction c = some (te, y)) :
    x.Advanced y (x.reader.i - 1) ∧ (∀ e, te.2 = some e → e.kinded = true) := by
  unfold FFLexer.lexNumber_fraction at h
  by_cases hc : c = 46
  · rw [if_pos hc] at h
    obtain ⟨res1, x1, h1, ha, _, hok, herr⟩ := readByte_inv (x.WriteByte c) hwf
    rw [h1] at h
    have ha1 : x.Advanced x1 x.reader.i := ha
    cases res1 with
    | error e =>
      simp only [Option.some.injEq, Prod.mk.injEq] at h
      obtain ⟨rfl, rfl⟩ := h
      refine ⟨Advanced_mono _ _ _ _ ha1 (Nat.sub_le _ _), fun e2 he => ?_⟩
      cases he
      rw [(herr e rfl).1]
      rfl
    | ok c2 =>
      dsimp only at h
      have hi1 : x1.reader.i = x.reader.i + 1 := (hok c2 rfl).1
      cases hdg : FFLexer.lexNumber_digits (x1.reader.l - x1.reader.i + 1) c2 0 x1 with
      | none =>
        rw [hdg] at h
        cases h
      | some p =>
        obtain ⟨res3, x3⟩ := p
        rw [hdg] at h
        have hinv := lexNumber_digits_inv _ c2 0 x1 res3 x3 ha1.1 hdg
        have ha3 : x.Advanced x3 (x.reader.i + 1) :=
          ⟨hinv.1.1, hinv.1.2.1.trans ha1.2.1, by have := hinv.1.2.2; omega⟩
        cases res3 with
        | error e =>
          simp only [Option.some.injEq, Prod.mk.injEq] at h
          obtain ⟨rfl, rfl⟩ := h
          exact ⟨Advanced_mono _ _ _ _ ha3 (by omega),
            fun e2 he => (by cases he; exact hinv.2.1 _ rfl)⟩
        | ok p3 =>
          obtain ⟨c4, numRead⟩ := p3
          dsimp only at h
          by_cases hn : numRead = 0
          · rw [if_pos hn] at h
            cases hu : x3.unreadByte with
            | none =>
              rw [hu] at h
              cases h
            | some x4 =>
              rw [hu] at h
              simp only [Option.some.injEq, Prod.mk.injEq] at h
              obtain ⟨rfl, rfl⟩ := h
              have hu4 := unreadByte_inv x3 x4 ha3.1 hu
              have := ha3.2.2
              exact ⟨⟨hu4.1, hu4.2.1.trans ha3.2.1, by omega⟩,
                fun e2 he => (by cases he; rfl)⟩
          · rw [if_neg hn] at h
            have hex := lexNumber_exponent_inv c4 .FFTok_double x3 te y ha3.1 h
            have := ha3.2.2
            exact ⟨⟨hex.1.1, hex.1.2.1.trans ha3.2.1, by have := hex.1.2.2; omega⟩, hex.2⟩
  · rw [if_neg hc] at h
    exact lexNumber_exponent_inv c .FFTok_integer x te y hwf h

theorem lexNumber_integer_inv (c : Nat) (x : FFLexer) (te : TokErr) (y : FFLexer)
    (hwf : x.reader.wf) (h : x.lexNumber_integer c = some (te, y)) :
    x.Advanced y (x.reader.i - 1) ∧ (∀ e, te.2 = some e → e.kinded = true) ∧
    (48 ≤ c ∧ c ≤ 57 → x.reader.i ≤ y.reader.i) := by
  unfold FFLexer.lexNumber_integer at h
  by_cases hc : c = 48
  · rw [if_pos hc] at h
    obtain ⟨res1, x1, h1, ha, _, hok, herr⟩ := readByte_inv (x.WriteByte c) hwf
    rw [h1] at h
    have ha1 : x.Advanced x1 x.reader.i := ha
    cases res1 with
    | error e =>
      simp only [Option.some.injEq, Prod.mk.injEq] at h
      obtain ⟨rfl, rfl⟩ := h
      refine ⟨Advanced_mono _ _ _ _ ha1 (Nat.sub_le _ _), fun e2 he => ?_, fun _ => ha1.2.2⟩
      cases he
      rw [(herr e rfl).1]
      rfl
    | ok c2 =>
      dsimp only at h
      have hi1 : x1.reader.i = x.reader.i + 1 := (hok c2 rfl).1
      have hf := lexNumber_fraction_inv c2 x1 te y ha1.1 h
      have := hf.1.2.2
      exact ⟨⟨hf.1.1, hf.1.2.1.trans ha1.2.1, by omega⟩, hf.2, fun _ => (by omega)⟩
  · rw [if_neg hc] at h
    by_cases hd : 49 ≤ c ∧ c ≤ 57
    · rw [if_pos hd] at h
      cases hdg : FFLexer.lexNumber_digits (x.reader.l - x.reader.i + 1) c 0 x with
      | none =>
        rw [hdg] at h
        cases h
      | some p =>
        obtain ⟨res3, x3⟩ := p
        rw [hdg] at h
        have hinv := lexNumber_digits_inv _ c 0 x res3 x3 hwf hdg
        cases res3 with
        | error e =>
          simp only [Option.some.injEq, Prod.mk.injEq] at h
          obtain ⟨rfl, rfl⟩ := h
          exact ⟨Advanced_mono _ _ _ _ hinv.1 (Nat.sub_le _ _),
            fun e2 he => (by cases he; exact hinv.2.1 _ rfl), fun _ => hinv.1.2.2⟩
        | ok p3 =>
          obtain ⟨c4, numRead⟩ := p3
          dsimp only at h
          have hi3 := hinv.2.2 _ rfl ⟨by omega, hd.2⟩
          have hf := lexNumber_fraction_inv c4 x3 te y hinv.1.1 h
          have := hf.1.2.2
          exact ⟨⟨hf.1.1, hf.1.2.1.trans hinv.1.2.1, by omega⟩, hf.2, fun _ => (by omega)⟩
    · rw [if_neg hd] at h
      cases hu : x.unreadByte with
      | none =>
        rw [hu] at h
        cases h
      | some x4 =>
        rw [hu] at h
        simp only [Option.some.injEq, Prod.mk.injEq] at h
        obtain ⟨rfl, rfl⟩ := h
        have hu4 := unreadByte_inv x x4 hwf hu
        exact ⟨⟨hu4.1, hu4.2.1, by omega⟩, fun e2 he => (by cases he; rfl),
          fun h48 => (by omega)⟩

theorem lexNumber_inv (x : FFLexer) (te : TokErr) (y : FFLexer) (hwf : x.reader.wf)
    (h : x.lexNumber = some (te, y)) :
    x.Advanced y x.reader.i ∧ (∀ e, te.2 = some e → e.kinded = true) ∧
    (∀ c, x.reader.s[x.reader.i]? = some c → c = 45 ∨ (48 ≤ c ∧ c ≤ 57) →
      x.reader.i + 1 ≤ y.reader.i) := by
  unfold FFLexer.lexNumber at h
  obtain ⟨res1, x1, h1, ha, _, hok, herr⟩ := readByte_inv x hwf
  rw [h1] at h
  cases res1 with
  | error e =>
    simp only [Option.some.injEq, Prod.mk.injEq] at h
    obtain ⟨rfl, rfl⟩ := h
    refine ⟨ha, fun e2 he => ?_, fun c hc _ => ?_⟩
    · cases he
      rw [(herr e rfl).1]
      rfl
    · rw [(herr e rfl).2] at hc
      cases hc
  | ok c =>
    dsimp only at h
    have hi1 : x1.reader.i = x.reader.i + 1 := (hok c rfl).1
    have hget := (hok c rfl).2
    by_cases hm : c = 45
    · rw [if_pos hm] at h
      obtain ⟨res2, x2, h2, hb, _, hok2, herr2⟩ := readByte_inv (x1.WriteByte c) ha.1
      rw [h2] at h
      have hb1 : x1.Advanced x2 x1.reader.i := hb
      cases res2 with
      | error e =>
        simp only [Option.some.injEq, Prod.mk.injEq] at h
        obtain ⟨rfl, rfl⟩ := h
        have := hb1.2.2
        refine ⟨⟨hb1.1, hb1.2.1.trans ha.2.1, by omega⟩, fun e2 he => ?_, fun _ _ _ => (by omega)⟩
        cases he
        rw [(herr2 e rfl).1]
        rfl
      | ok c2 =>
        dsimp only at h
        have hi2 : x2.reader.i = x1.reader.i + 1 := (hok2 c2 rfl).1
        have hint := lexNumber_integer_inv c2 x2 te y hb1.1 h
        have := hint.1.2.2
        exact ⟨⟨hint.1.1, (hint.1.2.1.trans hb1.2.1).trans ha.2.1, by omega⟩, hint.2.1,
          fun _ _ _ => (by omega)⟩
    · rw [if_neg hm] at h
      have hint := lexNumber_integer_inv c x1 te y ha.1 h
      have := hint.1.2.2
      refine ⟨⟨hint.1.1, hint.1.2.1.trans ha.2.1, by omega⟩, hint.2.1, fun c2 hc2 hd => ?_⟩
      rw [hget] at hc2
      cases hc2
      rcases hd with hd | hd
      · exact absurd hd hm
      · have := hint.2.2 hd
        omega

theorem afterLex_inv (o : Option (TokErr × FFLexer)) (te : TokErr) (y : FFLexer)
    (h : FFLexer.afterLex o = some (te, y)) :
    ∃ te0 y0, o = some (te0, y0) ∧ y.reader = y0.reader ∧ te.2 = te0.2 ∧
      (∀ e, te.2 = some e → te.1 = .FFTok_error) := by
  cases o with
  | none => cases h
  | some p =>
    obtain ⟨⟨tok, e⟩, y0⟩ := p
    cases e with
    | none =>
      simp only [FFLexer.afterLex, FFLexer.lexed, Option.some.injEq, Prod.mk.injEq] at h
      obtain ⟨rfl, rfl⟩ := h
      exact ⟨_, _, rfl, rfl, rfl, fun e he => (by cases he)⟩
    | some err =>
      simp only [FFLexer.afterLex, Option.some.injEq, Prod.mk.injEq] at h
      obtain ⟨rfl, rfl⟩ := h
      exact ⟨_, _, rfl, rfl, rfl, fun e _ => rfl⟩

theorem single_inv (cap : Bool) (tok : FFTok) (c : Nat) (x : FFLexer) (te : TokErr) (y : FFLexer)
    (hwf : x.reader.wf) (h : x.single cap tok c = some (te, y)) :
    x.Advanced y x.reader.i ∧ scanErrorClass te := by
  unfold FFLexer.single FFLexer.lexed at h
  simp only [Option.some.injEq, Prod.mk.injEq] at h
  obtain ⟨rfl, rfl⟩ := h
  refine ⟨?_, fun e he => (by cases he)⟩
  cases cap
  · exact ⟨hwf, rfl, le_refl _⟩
  · exact ⟨hwf, rfl, le_refl _⟩

theorem afterLex_class (o : Option (TokErr × FFLexer)) (x : FFLexer) (te : TokErr) (y : FFLexer)
    (lo : Nat)
    (hinv : ∀ te0 y0, o = some (te0, y0) → x.Advanced y0 lo ∧
      (∀ e, te0.2 = some e → e.kinded = true ∨ e.fromStringBody = true))
    (h : FFLexer.afterLex o = some (te, y)) :
    x.Advanced y lo ∧ scanErrorClass te := by
  obtain ⟨te0, y0, ho, hr, he, htok⟩ := afterLex_inv o te y h
  have := hinv te0 y0 ho
  refine ⟨⟨hr ▸ this.1.1, hr ▸ this.1.2.1, hr ▸ this.1.2.2⟩, fun e hte => ?_⟩
  exact Or.inr ⟨htok e hte, this.2 e (he ▸ hte)⟩

theorem Scan_switch_inv (WriteJson : List Nat → List Nat) (cap : Bool)
    (again : FFLexer → Option (TokErr × FFLexer)) (c : Nat) (x : FFLexer) (te : TokErr)
    (y : FFLexer) (hwf : x.reader.wf) (hi : 1 ≤ x.reader.i)
    (hget : x.reader.s[x.reader.i - 1]? = some c)
    (hag : ∀ x2 te2 y2, x2.reader.wf → again x2 = some (te2, y2) →
      x2.Advanced y2 x2.reader.i ∧ scanErrorClass te2)
    (h : FFLexer.Scan_switch WriteJson cap again c x = some (te, y)) :
    x.Advanced y x.reader.i ∧ scanErrorClass te := by
  unfold FFLexer.Scan_switch at h
  by_cases c1 : c = 123
  · rw [if_pos c1] at h
    exact single_inv _ _ _ x te y hwf h
  rw [if_neg c1] at h
  by_cases c2 : c = 125
  · rw [if_pos c2] at h
    exact single_inv _ _ _ x te y hwf h
  rw [if_neg c2] at h
  by_cases c3 : c = 91
  · rw [if_pos c3] at h
    exact single_inv _ _ _ x te y hwf h
  rw [if_neg c3] at h
  by_cases c4 : c = 93
  · rw [if_pos c4] at h
    exact single_inv _ _ _ x te y hwf h
  rw [if_neg c4] at h
  by_cases c5 : c = 44
  · rw [if_pos c5] at h
    exact single_inv _ _ _ x te y hwf h
  rw [if_neg c5] at h
  by_cases c6 : c = 58
  · rw [if_pos c6] at h
    exact single_inv _ _ _ x te y hwf h
  rw [if_neg c6] at h
  by_cases c7 : c = 9 ∨ c = 10 ∨ c = 11 ∨ c = 12 ∨ c = 13 ∨ c = 32
  · rw [if_pos c7] at h
    cases cap with
    | true => exact hag (x.WriteByte c) te y hwf h
    | false => exact hag x te y hwf h
  rw [if_neg c7] at h
  by_cases c8 : c = 116
  · rw [if_pos c8] at h
    refine afterLex_class _ x te y _ (fun te0 y0 ho => ?_) h
    have := wantBytes_inv _ _ (x.WriteByte 116) te0 y0 hwf ho
    exact ⟨this.1, fun e he => Or.inl (this.2 e he)⟩
  rw [if_neg c8] at h
  by_cases c9 : c = 102
  · rw [if_pos c9] at h
    refine afterLex_class _ x te y _ (fun te0 y0 ho => ?_) h
    have := wantBytes_inv _ _ (x.WriteByte 102) te0 y0 hwf ho
    exact ⟨this.1, fun e he => Or.inl (this.2 e he)⟩
  rw [if_neg c9] at h
  by_cases c10 : c = 110
  · rw [if_pos c10] at h
    refine afterLex_class _ x te y _ (fun te0 y0 ho => ?_) h
    have := wantBytes_inv _ _ (x.WriteByte 110) te0 y0 hwf ho
    exact ⟨this.1, fun e he => Or.inl (this.2 e he)⟩
  rw [if_neg c10] at h
  by_cases c11 : c = 34
  · rw [if_pos c11] at h
    refine afterLex_class _ x te y _ (fun te0 y0 ho => ?_) h
    have := lexString_inv WriteJson cap x te0 y0 hwf ho
    exact ⟨this.1, fun e he => Or.inr (this.2 e he)⟩
  rw [if_neg c11] at h
  by_cases c12 : c = 45 ∨ (48 ≤ c ∧ c ≤ 57)
  · rw [if_pos c12] at h
    cases hu : x.unreadByte with
    | none =>
      rw [hu] at h
      cases h
    | some x0 =>
      rw [hu] at h
      dsimp only at h
      have hu0 := unreadByte_inv x x0 hwf hu
      refine afterLex_class _ x te y _ (fun te0 y0 ho => ?_) h
      have hn := lexNumber_inv x0 te0 y0 hu0.1 ho
      have hget0 : x0.reader.s[x0.reader.i]? = some c := by
        rw [hu0.2.1]
        have : x0.reader.i = x.reader.i - 1 := by omega
        rw [this]
        exact hget
      have := hn.2.2 c hget0 c12
      exact ⟨⟨hn.1.1, hn.1.2.1.trans hu0.2.1, by omega⟩, fun e he => Or.inl (hn.2.1 e he)⟩
  rw [if_neg c12] at h
  by_cases c13 : c = 47
  · rw [if_pos c13] at h
    refine afterLex_class _ x te y _ (fun te0 y0 ho => ?_) h
    have := lexComment_inv x te0 y0 hwf ho
    exact ⟨this.1, fun e he => Or.inl (this.2 e he)⟩
  rw [if_neg c13] at h
  simp only [Option.some.injEq, Prod.mk.injEq] at h
  obtain ⟨rfl, rfl⟩ := h
  exact ⟨Advanced_refl _ hwf, fun e he => (by cases he; exact Or.inr ⟨rfl, Or.inl rfl⟩)⟩

theorem Scan_loop_inv (WriteJson : List Nat → List Nat) (cap : Bool) :
    ∀ (fuel : Nat) (x : FFLexer) (te : TokErr) (y : FFLexer), x.reader.wf →
      FFLexer.Scan_loop WriteJson cap fuel x = some (te, y) →
      x.Advanced y x.reader.i ∧ scanErrorClass te ∧
      (te.1 ≠ .FFTok_eof → x.reader.i < y.reader.i) := by
  intro fuel
  induction fuel with
  | zero =>
    intro x te y _ h
    cases h
  | succ fuel ih =>
    intro x te y hwf h
    rw [FFLexer.Scan_loop] at h
    have hread : ∃ res r2, (if cap then x.reader.ReadByte else x.reader.ReadByteNoWS)
        = some (res, r2) ∧ r2.wf ∧ r2.s = x.reader.s ∧ x.reader.i ≤ r2.i ∧
        (∀ c, res = .ok c → x.reader.i < r2.i ∧ r2.s[r2.i - 1]? = some c) ∧
        (∀ e, res = .error e → e = .EOF ∧ r2 = x.reader) := by
      cases cap with
      | true =>
        obtain ⟨res, r2, h1, hw, hs, hi, hok, herr⟩ := ReadByte_inv x.reader hwf
        refine ⟨res, r2, h1, hw, hs, hi, fun c hc => ?_, fun e he => ?_⟩
        · have := hok c hc
          refine ⟨by omega, ?_⟩
          rw [hs, this.1]
          exact this.2
        · exact ⟨(herr e he).1, (herr e he).2.1⟩
      | false =>
        obtain ⟨res, r2, h1, hw, hs, hi, hok, herr⟩ := ReadByteNoWS_inv x.reader hwf
        refine ⟨res, r2, h1, hw, hs, hi, fun c hc => ?_, herr⟩
        have := hok c hc
        refine ⟨this.1, ?_⟩
        rw [hs]
        exact this.2
    obtain ⟨res, r2, h1, hw, hs, hi, hok, herr⟩ := hread
    rw [h1] at h
    cases res with
    | error e =>
      dsimp only at h
      rw [if_pos (herr e rfl).1] at h
      simp only [Option.some.injEq, Prod.mk.injEq] at h
      obtain ⟨rfl, rfl⟩ := h
      refine ⟨⟨hw, hs, hi⟩, fun e2 he => ?_, fun hne => absurd rfl hne⟩
      cases he
      exact Or.inl ⟨rfl, (herr e rfl).1⟩
    | ok c =>
      dsimp only at h
      have hc := hok c rfl
      have hsw := Scan_switch_inv WriteJson cap (FFLexer.Scan_loop WriteJson cap fuel) c
        { x with reader := r2 } te y hw (by simp only; omega) hc.2
        (fun x2 te2 y2 hw2 h2 => ⟨(ih x2 te2 y2 hw2 h2).1, (ih x2 te2 y2 hw2 h2).2.1⟩) h
      have := hsw.1.2.2
      simp only at this
      exact ⟨⟨hsw.1.1, hsw.1.2.1.trans hs, by omega⟩, hsw.2, fun _ => (by omega)⟩

theorem Scan_inv (WriteJson : List Nat → List Nat) (cap : Bool) (x : FFLexer) (te : TokErr)
    (y : FFLexer) (hwf : x.reader.wf) (h : x.Scan WriteJson cap = some (te, y)) :
    x.Advanced y x.reader.i ∧ scanErrorClass te ∧
    (te.1 ≠ .FFTok_eof → x.reader.i < y.reader.i) := by
  unfold FFLexer.Scan at h
  cases cap with
  | true =>
    exact Scan_loop_inv WriteJson true _ { x with Token := .FFTok_init } te y hwf h
  | false =>
    exact Scan_loop_inv WriteJson false _ { x with outputbuf := [], Token := .FFTok_init } te y
      hwf h

/-- Scan on a lexer with a well-formed reader returns; the reader it leaves is well formed
again, over the same input, with the cursor not before its old place and after it unless
the token is FFTok_eof; the error is of one of the classes of `scanErrorClass`. -/
theorem Scan_returns (WriteJson : List Nat → List Nat) (cap : Bool) (x : FFLexer)
    (hwf : x.reader.wf) :
    ∃ te y, x.Scan WriteJson cap = some (te, y) ∧ x.Advanced y x.reader.i ∧
      scanErrorClass te ∧ (te.1 ≠ .FFTok_eof → x.reader.i < y.reader.i) := by
  obtain ⟨tok, e, y, h, _⟩ := Scan_total WriteJson cap x hwf
  exact ⟨(tok, e), y, h, Scan_inv WriteJson cap x _ y hwf h⟩

/-! ## The operations return -/

theorem scanErrorClass_err (tok : FFTok) (e : GoError) (h : scanErrorClass (tok, some e)) :
    e.kinded = true ∨ e.fromStringBody = true := by
  rcases h e rfl with ⟨_, rfl⟩ | ⟨_, h2⟩
  · exact Or.inr rfl
  · exact h2

theorem Scan_cases (WriteJson : List Nat → List Nat) (cap : Bool) (x : FFLexer)
    (hwf : x.reader.wf) :
    (∃ tok e y, x.Scan WriteJson cap = some ((tok, some e), y) ∧ x.Advanced y x.reader.i ∧
      scanErrorClass (tok, some e) ∧ (e.kinded = true ∨ e.fromStringBody = true)) ∨
    (∃ tok y, x.Scan WriteJson cap = some ((tok, none), y) ∧ x.Advanced y (x.reader.i + 1)) := by
  obtain ⟨te, y, h, hadv, hcl, hprog⟩ := Scan_returns WriteJson cap x hwf
  obtain ⟨tok, e, y2, h2, _, hnil⟩ := Scan_total WriteJson cap x hwf
  rw [h] at h2
  simp only [Option.some.injEq, Prod.mk.injEq] at h2
  obtain ⟨rfl, rfl⟩ := h2
  cases e with
  | some err =>
    exact Or.inl ⟨tok, err, y, h, hadv, hcl, scanErrorClass_err tok err hcl⟩
  | none =>
    have := (hnil rfl).2.2
    exact Or.inr ⟨tok, y, h, ⟨hadv.1, hadv.2.1, by omega⟩⟩

theorem SkipField_loop_returns (WriteJson : List Nat → List Nat) (start : FFTok) :
    ∀ (fuel depth : Nat) (x : FFLexer), x.reader.wf → x.reader.l - x.reader.i + 1 ≤ fuel →
      ∃ res y, FFLexer.SkipField_loop WriteJson start fuel depth x = some (res, y) ∧
        x.Advanced y x.reader.i ∧
        (∀ e, res = some e → e.kinded = true ∨ e.fromStringBody = true ∨ e.ofHelper = true) := by
  intro fuel
  induction fuel with
  | zero =>
    intro depth x _ h
    omega
  | succ fuel ih =>
    intro depth x hwf hf
    rw [FFLexer.SkipField_loop]
    rcases Scan_cases WriteJson false x hwf with ⟨tok, e, y, h, hadv, _, hcl⟩ | ⟨tok, y, h, hadv⟩
    · rw [h]
      refine ⟨_, _, rfl, hadv, fun e2 he => ?_⟩
      cases he
      rcases hcl with h1 | h1
      · exact Or.inl h1
      · exact Or.inr (Or.inl h1)
    · rw [h]
      dsimp only
      have hlen : y.reader.l = x.reader.l := by
        rw [hadv.1.1, hadv.2.1, hwf.1]
      have hfuel : y.reader.l - y.reader.i + 1 ≤ fuel := by
        have := hadv.2.2
        have := hadv.1.2
        omega
      have next : ∀ d, ∃ res y2, FFLexer.SkipField_loop WriteJson start fuel d y = some (res, y2) ∧
          x.Advanced y2 x.reader.i ∧
          (∀ e, res = some e → e.kinded = true ∨ e.fromStringBody = true ∨ e.ofHelper = true) := by
        intro d
        obtain ⟨res, y2, h2, ha2, hc2⟩ := ih d y hadv.1 hfuel
        have := hadv.2.2
        exact ⟨res, y2, h2, ⟨ha2.1, ha2.2.1.trans hadv.2.1, by have := ha2.2.2; omega⟩, hc2⟩
      have here : x.Advanced y x.reader.i := ⟨hadv.1, hadv.2.1, by have := hadv.2.2; omega⟩
      by_cases h1 : tok = .FFTok_eof
      · rw [if_pos h1]
        exact ⟨_, _, rfl, here, fun e he => (by cases he; exact Or.inr (Or.inr rfl))⟩
      · rw [if_neg h1]
        by_cases h2 : tok = endTok start
        · rw [if_pos h2]
          by_cases h3 : depth - 1 = 0
          · rw [if_pos h3]
            exact ⟨_, _, rfl, here, fun e he => (by cases he)⟩
          · rw [if_neg h3]
            exact next _
        · rw [if_neg h2]
          by_cases h4 : tok = start
          · rw [if_pos h4]
            exact next _
          · rw [if_neg h4]
            exact next _

theorem captureField_loop_returns (WriteJson : List Nat → List Nat) (start : FFTok) :
    ∀ (fuel depth : Nat) (x : FFLexer), x.reader.wf → x.reader.l - x.reader.i + 1 ≤ fuel →
      ∃ res y, FFLexer.captureField_loop WriteJson start fuel depth x = some (res, y) ∧
        x.Advanced y x.reader.i ∧
        (∀ e, res = .error e → e.kinded = true ∨ e.fromStringBody = true ∨ e.ofHelper = true) := by
  intro fuel
  induction fuel with
  | zero =>
    intro depth x _ h
    omega
  | succ fuel ih =>
    intro depth x hwf hf
    rw [FFLexer.captureField_loop]
    rcases Scan_cases WriteJson true x hwf with ⟨tok, e, y, h, hadv, _, hcl⟩ | ⟨tok, y, h, hadv⟩
    · rw [h]
      refine ⟨_, _, rfl, hadv, fun e2 he => ?_⟩
      cases he
      rcases hcl with h1 | h1
      · exact Or.inl h1
      · exact Or.inr (Or.inl h1)
    · rw [h]
      dsimp only
      have hlen : y.reader.l = x.reader.l := by
        rw [hadv.1.1, hadv.2.1, hwf.1]
      have hfuel : y.reader.l - y.reader.i + 1 ≤ fuel := by
        have := hadv.2.2
        have := hadv.1.2
        omega
      have next : ∀ d, ∃ res y2,
          FFLexer.captureField_loop WriteJson start fuel d y = some (res, y2) ∧
          x.Advanced y2 x.reader.i ∧
          (∀ e, res = .error e →
            e.kinded = true ∨ e.fromStringBody = true ∨ e.ofHelper = true) := by
        intro d
        obtain ⟨res, y2, h2, ha2, hc2⟩ := ih d y hadv.1 hfuel
        have := hadv.2.2
        exact ⟨res, y2, h2, ⟨ha2.1, ha2.2.1.trans hadv.2.1, by have := ha2.2.2; omega⟩, hc2⟩
      have here : x.Advanced y x.reader.i := ⟨hadv.1, hadv.2.1, by have := hadv.2.2; omega⟩
      by_cases h1 : tok = .FFTok_eof
      · rw [if_pos h1]
        exact ⟨_, _, rfl, here, fun e he => (by cases he; exact Or.inr (Or.inr rfl))⟩
      · rw [if_neg h1]
        by_cases h2 : tok = endTok start
        · rw [if_pos h2]
          by_cases h3 : depth - 1 = 0
          · rw [if_pos h3]
            exact ⟨_, _, rfl, here, fun e he => (by cases he)⟩
          · rw [if_neg h3]
            exact next _
        · rw [if_neg h2]
          by_cases h4 : tok = start
          · rw [if_pos h4]
            exact next _
          · rw [if_neg h4]
            exact next _

theorem SkipField_loop_fuel (WriteJson : List Nat → List Nat) (start : FFTok) :
    ∀ (fuel k depth : Nat) (x : FFLexer) (r : Option GoError × FFLexer),
      FFLexer.SkipField_loop WriteJson start fuel depth x = some r →
      FFLexer.SkipField_loop WriteJson start (fuel + k) depth x = some r := by
  intro fuel
  induction fuel with
  | zero =>
    intro k depth x r h
    cases h
  | succ fuel ih =>
    intro k depth x r h
    rw [show fuel + 1 + k = (fuel + k) + 1 by omega, FFLexer.SkipField_loop]
    rw [FFLexer.SkipField_loop] at h
    cases hs : x.Scan WriteJson false with
    | none =>
      rw [hs] at h
      cases h
    | some p =>
      obtain ⟨⟨tok, e⟩, y⟩ := p
      rw [hs] at h
      cases e with
      | some err => exact h
      | none =>
        dsimp only at h ⊢
        by_cases h1 : tok = .FFTok_eof
        · rw [if_pos h1] at h ⊢
          exact h
        · rw [if_neg h1] at h ⊢
          by_cases h2 : tok = endTok start
          · rw [if_pos h2] at h ⊢
            by_cases h3 : depth - 1 = 0
            · rw [if_pos h3] at h ⊢
              exact h
            · rw [if_neg h3] at h ⊢
              exact ih k _ y r h
          · rw [if_neg h2] at h ⊢
            by_cases h4 : tok = start
            · rw [if_pos h4] at h ⊢
              exact ih k _ y r h
            · rw [if_neg h4] at h ⊢
              exact ih k _ y r h

theorem captureField_loop_fuel (WriteJson : List Nat → List Nat) (start : FFTok) :
    ∀ (fuel k depth : Nat) (x : FFLexer) (r : Except GoError (List Nat) × FFLexer),
      FFLexer.captureField_loop WriteJson start fuel depth x = some r →
      FFLexer.captureField_loop WriteJson start (fuel + k) depth x = some r := by
  intro fuel
  induction fuel with
  | zero =>
    intro k depth x r h
    cases h
  | succ fuel ih =>
    intro k depth x r h
    rw [show fuel + 1 + k = (fuel + k) + 1 by omega, FFLexer.captureField_loop]
    rw [FFLexer.captureField_loop] at h
    cases hs : x.Scan WriteJson true with
    | none =>
      rw [hs] at h
      cases h
    | some p =>
      obtain ⟨⟨tok, e⟩, y⟩ := p
      rw [hs] at h
      cases e with
      | some err => exact h
      | none =>
        dsimp only at h ⊢
        by_cases h1 : tok = .FFTok_eof
        · rw [if_pos h1] at h ⊢
          exact h
        · rw [if_neg h1] at h ⊢
          by_cases h2 : tok = endTok start
          · rw [if_pos h2] at h ⊢
            by_cases h3 : depth - 1 = 0
            · rw [if_pos h3] at h ⊢
              exact h
            · rw [if_neg h3] at h ⊢
              exact ih k _ y r h
          · rw [if_neg h2] at h ⊢
            by_cases h4 : tok = start
            · rw [if_pos h4] at h ⊢
              exact ih k _ y r h
            · rw [if_neg h4] at h ⊢
              exact ih k _ y r h

theorem SkipField_returns (WriteJson : List Nat → List Nat) (start : FFTok) (x : FFLexer)
    (hwf : x.reader.wf) :
    ∃ res y, x.SkipField WriteJson start = some (res, y) ∧ x.Advanced y x.reader.i ∧
      (∀ e, res = some e → e.kinded = true ∨ e.fromStringBody = true ∨ e.ofHelper = true) := by
  unfold FFLexer.SkipField
  by_cases h1 : start = .FFTok_left_brace ∨ start = .FFTok_left_bracket
  · rw [if_pos h1]
    exact SkipField_loop_returns WriteJson start _ 1 x hwf (le_refl _)
  · rw [if_neg h1]
    by_cases h2 : start = .FFTok_bool ∨ start = .FFTok_integer ∨ start = .FFTok_null ∨
        start = .FFTok_double ∨ start = .FFTok_string
    · rw [if_pos h2]
      exact ⟨_, _, rfl, Advanced_refl x hwf, fun e he => (by cases he)⟩
    · rw [if_neg h2]
      exact ⟨_, _, rfl, Advanced_refl x hwf, fun e he => (by cases he; exact Or.inr (Or.inr rfl))⟩

theorem CaptureField_returns (WriteJson : List Nat → List Nat) (start : FFTok) (x : FFLexer)
    (hwf : x.reader.wf) :
    ∃ res y, x.CaptureField WriteJson start = some (res, y) ∧ x.Advanced y x.reader.i ∧
      (∀ e, res = .error e → e.kinded = true ∨ e.fromStringBody = true ∨ e.ofHelper = true) := by
  unfold FFLexer.CaptureField FFLexer.captureField
  by_cases h1 : start = .FFTok_left_brace ∨ start = .FFTok_left_bracket
  · rw [if_pos h1]
    by_cases hb : start = .FFTok_left_bracket
    · simp only [hb, if_true]
      exact captureField_loop_returns WriteJson _ _ 1 (x.WriteByte 123) hwf (le_refl _)
    · simp only [hb, if_false]
      exact captureField_loop_returns WriteJson _ _ 1 (x.WriteByte 91) hwf (le_refl _)
  · rw [if_neg h1]
    by_cases h2 : start = .FFTok_bool ∨ start = .FFTok_integer ∨ start = .FFTok_null ∨
        start = .FFTok_double
    · rw [if_pos h2]
      exact ⟨_, _, rfl, Advanced_refl x hwf, fun e he => (by cases he)⟩
    · rw [if_neg h2]
      by_cases h3 : start = .FFTok_string
      · rw [if_pos h3]
        exact ⟨_, _, rfl, ⟨hwf, rfl, le_refl _⟩, fun e he => (by cases he)⟩
      · rw [if_neg h3]
        exact ⟨_, _, rfl, Advanced_refl x hwf,
          fun e he => (by cases he; exact Or.inr (Or.inr rfl))⟩

theorem ParseInt_err (s : List Nat) (base bitSize : Nat) (e : GoError)
    (h : ParseInt s base bitSize = .error e) : e = .parse_error := by
  unfold ParseInt at h
  cases s with
  | nil =>
    cases h
    rfl
  | cons c rest =>
    dsimp only at h
    cases hp : ParseUint (if c = 43 ∨ c = 45 then rest else c :: rest) base 64 with
    | error e2 =>
      rw [hp] at h
      cases h
      exact ParseUint_err _ _ _ _ hp
    | ok un =>
      rw [hp] at h
      dsimp only at h
      split_ifs at h <;> (cases h; rfl)

/-- The frame of a value scanner: two calls of Scan, the first for the colon. -/
theorem two_scans_returns (WriteJson : List Nat → List Nat) (x : FFLexer) (hwf : x.reader.wf) :
    (∃ tok e y, x.Scan WriteJson false = some ((tok, some e), y) ∧ x.Advanced y x.reader.i ∧
      (e.kinded = true ∨ e.fromStringBody = true)) ∨
    (∃ tok y, x.Scan WriteJson false = some ((tok, none), y) ∧ x.Advanced y x.reader.i ∧
      tok ≠ .FFTok_colon) ∨
    (∃ y1 tok e y, x.Scan WriteJson false = some ((.FFTok_colon, none), y1) ∧
      y1.Scan WriteJson false = some ((tok, some e), y) ∧ x.Advanced y x.reader.i ∧
      (e.kinded = true ∨ e.fromStringBody = true)) ∨
    (∃ y1 tok y, x.Scan WriteJson false = some ((.FFTok_colon, none), y1) ∧
      y1.Scan WriteJson false = some ((tok, none), y) ∧ x.Advanced y x.reader.i) := by
  rcases Scan_cases WriteJson false x hwf with ⟨tok, e, y, h, hadv, _, hcl⟩ | ⟨tok, y1, h, hadv⟩
  · exact Or.inl ⟨tok, e, y, h, hadv, hcl⟩
  · have here : x.Advanced y1 x.reader.i := ⟨hadv.1, hadv.2.1, by have := hadv.2.2; omega⟩
    by_cases hc : tok = .FFTok_colon
    · subst hc
      rcases Scan_cases WriteJson false y1 hadv.1 with
        ⟨tok2, e, y, h2, hadv2, _, hcl⟩ | ⟨tok2, y, h2, hadv2⟩
      · exact Or.inr (Or.inr (Or.inl ⟨y1, tok2, e, y, h, h2,
          ⟨hadv2.1, hadv2.2.1.trans here.2.1, le_trans here.2.2 hadv2.2.2⟩, hcl⟩))
      · exact Or.inr (Or.inr (Or.inr ⟨y1, tok2, y, h, h2,
          ⟨hadv2.1, hadv2.2.1.trans here.2.1, by
            have := hadv2.2.2
            have := here.2.2
            omega⟩⟩))
    · exact Or.inr (Or.inl ⟨tok, y1, h, here, hc⟩)

theorem ScanIntValue_returns (WriteJson : List Nat → List Nat) (bitSize : Nat) (x : FFLexer)
    (hwf : x.reader.wf) :
    ∃ res y, x.ScanIntValue WriteJson bitSize = some (res, y) ∧ x.Advanced y x.reader.i ∧
      (∀ e, res = .error e → e.kinded = true ∨ e.fromStringBody = true ∨ e.ofHelper = true) := by
  unfold FFLexer.ScanIntValue
  rcases two_scans_returns WriteJson x hwf with ⟨tok, e, y, h, hadv, hcl⟩ |
    ⟨tok, y, h, hadv, hne⟩ | ⟨y1, tok, e, y, h, h2, hadv, hcl⟩ | ⟨y1, tok, y, h, h2, hadv⟩
  · rw [h]
    refine ⟨_, _, rfl, hadv, fun e2 he => ?_⟩
    cases he
    rcases hcl with h1 | h1
    · exact Or.inl h1
    · exact Or.inr (Or.inl h1)
  · rw [h]
    dsimp only
    rw [if_pos hne]
    exact ⟨_, _, rfl, hadv, fun e2 he => (by cases he; exact Or.inr (Or.inr rfl))⟩
  · rw [h]
    dsimp only
    rw [if_neg (fun hn => hn rfl), h2]
    refine ⟨_, _, rfl, hadv, fun e2 he => ?_⟩
    cases he
    rcases hcl with h1 | h1
    · exact Or.inl h1
    · exact Or.inr (Or.inl h1)
  · rw [h]
    dsimp only
    rw [if_neg (fun hn => hn rfl), h2]
    dsimp only
    by_cases ht : tok ≠ .FFTok_integer
    · rw [if_pos ht]
      exact ⟨_, _, rfl, hadv, fun e2 he => (by cases he; exact Or.inr (Or.inr rfl))⟩
    · rw [if_neg ht]
      refine ⟨_, _, rfl, hadv, fun e2 he => ?_⟩
      rw [ParseInt_err _ _ _ _ he]
      exact Or.inr (Or.inr rfl)

theorem ScanUintValue_returns (WriteJson : List Nat → List Nat) (bitSize : Nat) (x : FFLexer)
    (hwf : x.reader.wf) :
    ∃ res y, x.ScanUintValue WriteJson bitSize = some (res, y) ∧ x.Advanced y x.reader.i ∧
      (∀ e, res = .error e → e.kinded = true ∨ e.fromStringBody = true ∨ e.ofHelper = true) := by
  unfold FFLexer.ScanUintValue
  rcases two_scans_returns WriteJson x hwf with ⟨tok, e, y, h, hadv, hcl⟩ |
    ⟨tok, y, h, hadv, hne⟩ | ⟨y1, tok, e, y, h, h2, hadv, hcl⟩ | ⟨y1, tok, y, h, h2, hadv⟩
  · rw [h]
    refine ⟨_, _, rfl, hadv, fun e2 he => ?_⟩
    cases he
    rcases hcl with h1 | h1
    · exact Or.inl h1
    · exact Or.inr (Or.inl h1)
  · rw [h]
    dsimp only
    rw [if_pos hne]
    exact ⟨_, _, rfl, hadv, fun e2 he => (by cases he; exact Or.inr (Or.inr rfl))⟩
  · rw [h]
    dsimp only
    rw [if_neg (fun hn => hn rfl), h2]
    refine ⟨_, _, rfl, hadv, fun e2 he => ?_⟩
    cases he
    rcases hcl with h1 | h1
    · exact Or.inl h1
    · exact Or.inr (Or.inl h1)
  · rw [h]
    dsimp only
    rw [if_neg (fun hn => hn rfl), h2]
    dsimp only
    by_cases ht : tok ≠ .FFTok_integer
    · rw [if_pos ht]
      exact ⟨_, _, rfl, hadv, fun e2 he => (by cases he; exact Or.inr (Or.inr rfl))⟩
    · rw [if_neg ht]
      refine ⟨_, _, rfl, hadv, fun e2 he => ?_⟩
      rw [ParseUint_err _ _ _ _ he]
      exact Or.inr (Or.inr rfl)

theorem ScanStringValue_returns (WriteJson : List Nat → List Nat) (x : FFLexer)
    (hwf : x.reader.wf) :
    ∃ res y, x.ScanStringValue WriteJson = some (res, y) ∧ x.Advanced y x.reader.i ∧
      (∀ e, res = .error e → e.kinded = true ∨ e.fromStringBody = true ∨ e.ofHelper = true) := by
  unfold FFLexer.ScanStringValue
  rcases two_scans_returns WriteJson x hwf with ⟨tok, e, y, h, hadv, hcl⟩ |
    ⟨tok, y, h, hadv, hne⟩ | ⟨y1, tok, e, y, h, h2, hadv, hcl⟩ | ⟨y1, tok, y, h, h2, hadv⟩
  · rw [h]
    refine ⟨_, _, rfl, hadv, fun e2 he => ?_⟩
    cases he
    rcases hcl with h1 | h1
    · exact Or.inl h1
    · exact Or.inr (Or.inl h1)
  · rw [h]
    dsimp only
    rw [if_pos hne]
    exact ⟨_, _, rfl, hadv, fun e2 he => (by cases he; exact Or.inr (Or.inr rfl))⟩
  · rw [h]
    dsimp only
    rw [if_neg (fun hn => hn rfl), h2]
    refine ⟨_, _, rfl, hadv, fun e2 he => ?_⟩
    cases he
    rcases hcl with h1 | h1
    · exact Or.inl h1
    · exact Or.inr (Or.inl h1)
  · rw [h]
    dsimp only
    rw [if_neg (fun hn => hn rfl), h2]
    dsimp only
    by_cases ht : tok ≠ .FFTok_string
    · rw [if_pos ht]
      exact ⟨_, _, rfl, hadv, fun e2 he => (by cases he; exact Or.inr (Or.inr rfl))⟩
    · rw [if_neg ht]
      exact ⟨_, _, rfl, hadv, fun e2 he => (by cases he)⟩

theorem ScanBoolValue_returns (WriteJson : List Nat → List Nat) (bitSize : Nat) (x : FFLexer)
    (hwf : x.reader.wf) :
    ∃ res y, x.ScanBoolValue WriteJson bitSize = some (res, y) ∧ x.Advanced y x.reader.i ∧
      (∀ e, res = .error e → e.kinded = true ∨ e.fromStringBody = true ∨ e.ofHelper = true) := by
  unfold FFLexer.ScanBoolValue
  rcases two_scans_returns WriteJson x hwf with ⟨tok, e, y, h, hadv, hcl⟩ |
    ⟨tok, y, h, hadv, hne⟩ | ⟨y1, tok, e, y, h, h2, hadv, hcl⟩ | ⟨y1, tok, y, h, h2, hadv⟩
  · rw [h]
    refine ⟨_, _, rfl, hadv, fun e2 he => ?_⟩
    cases he
    rcases hcl with h1 | h1
    · exact Or.inl h1
    · exact Or.inr (Or.inl h1)
  · rw [h]
    dsimp only
    rw [if_pos hne]
    exact ⟨_, _, rfl, hadv, fun e2 he => (by cases he; exact Or.inr (Or.inr rfl))⟩
  · rw [h]
    dsimp only
    rw [if_neg (fun hn => hn rfl), h2]
    refine ⟨_, _, rfl, hadv, fun e2 he => ?_⟩
    cases he
    rcases hcl with h1 | h1
    · exact Or.inl h1
    · exact Or.inr (Or.inl h1)
  · rw [h]
    dsimp only
    rw [if_neg (fun hn => hn rfl), h2]
    dsimp only
    by_cases ht : tok ≠ .FFTok_bool
    · rw [if_pos ht]
      exact ⟨_, _, rfl, hadv, fun e2 he => (by cases he; exact Or.inr (Or.inr rfl))⟩
    · rw [if_neg ht]
      by_cases h3 : true_bytes = y.outputbuf
      · rw [if_pos h3]
        exact ⟨_, _, rfl, hadv, fun e2 he => (by cases he)⟩
      · rw [if_neg h3]
        by_cases h4 : false_bytes = y.outputbuf
        · rw [if_pos h4]
          exact ⟨_, _, rfl, hadv, fun e2 he => (by cases he)⟩
        · rw [if_neg h4]
          exact ⟨_, _, rfl, hadv, fun e2 he => (by cases he; exact Or.inr (Or.inr rfl))⟩

theorem ScanFloatValue_returns {F : Type} (ParseFloat : List Nat → Nat → Except GoError F)
    (WriteJson : List Nat → List Nat) (x : FFLexer) (hwf : x.reader.wf) :
    ∃ res y, x.ScanFloatValue ParseFloat WriteJson = some (res, y) ∧
      x.Advanced y x.reader.i ∧
      (∀ e, res = .error e → e.kinded = true ∨ e.fromStringBody = true ∨ e.ofHelper = true ∨
        ∃ b n, ParseFloat b n = .error e) := by
  unfold FFLexer.ScanFloatValue
  rcases two_scans_returns WriteJson x hwf with ⟨tok, e, y, h, hadv, hcl⟩ |
    ⟨tok, y, h, hadv, hne⟩ | ⟨y1, tok, e, y, h, h2, hadv, hcl⟩ | ⟨y1, tok, y, h, h2, hadv⟩
  · rw [h]
    refine ⟨_, _, rfl, hadv, fun e2 he => ?_⟩
    cases he
    rcases hcl with h1 | h1
    · exact Or.inl h1
    · exact Or.inr (Or.inl h1)
  · rw [h]
    dsimp only
    rw [if_pos hne]
    exact ⟨_, _, rfl, hadv, fun e2 he => (by cases he; exact Or.inr (Or.inr (Or.inl rfl)))⟩
  · rw [h]
    dsimp only
    rw [if_neg (fun hn => hn rfl), h2]
    refine ⟨_, _, rfl, hadv, fun e2 he => ?_⟩
    cases he
    rcases hcl with h1 | h1
    · exact Or.inl h1
    · exact Or.inr (Or.inl h1)
  · rw [h]
    dsimp only
    rw [if_neg (fun hn => hn rfl), h2]
    dsimp only
    by_cases ht : tok ≠ .FFTok_double
    · rw [if_pos ht]
      exact ⟨_, _, rfl, hadv, fun e2 he => (by cases he; exact Or.inr (Or.inr (Or.inl rfl)))⟩
    · rw [if_neg ht]
      exact ⟨_, _, rfl, hadv, fun e2 he => Or.inr (Or.inr (Or.inr ⟨_, _, he⟩))⟩

theorem ScanToValue_returns (WriteJson : List Nat → List Nat) (x : FFLexer)
    (hwf : x.reader.wf) :
    ∃ te y, x.ScanToValue WriteJson = some (te, y) ∧ x.Advanced y x.reader.i ∧
      (∀ e, te.2 = some e → e.kinded = true ∨ e.fromStringBody = true ∨ e.ofHelper = true) := by
  unfold FFLexer.ScanToValue
  rcases two_scans_returns WriteJson x hwf with ⟨tok, e, y, h, hadv, hcl⟩ |
    ⟨tok, y, h, hadv, hne⟩ | ⟨y1, tok, e, y, h, h2, hadv, hcl⟩ | ⟨y1, tok, y, h, h2, hadv⟩
  · rw [h]
    refine ⟨_, _, rfl, hadv, fun e2 he => ?_⟩
    cases he
    rcases hcl with h1 | h1
    · exact Or.inl h1
    · exact Or.inr (Or.inl h1)
  · rw [h]
    dsimp only
    rw [if_pos hne]
    exact ⟨_, _, rfl, hadv, fun e2 he => (by cases he; exact Or.inr (Or.inr rfl))⟩
  · rw [h]
    dsimp only
    rw [if_neg (fun hn => hn rfl), h2]
    refine ⟨_, _, rfl, hadv, fun e2 he => ?_⟩
    cases he
    rcases hcl with h1 | h1
    · exact Or.inl h1
    · exact Or.inr (Or.inl h1)
  · rw [h]
    dsimp only
    rw [if_neg (fun hn => hn rfl), h2]
    dsimp only
    split_ifs
    · exact ⟨_, _, rfl, hadv, fun e2 he => (by cases he)⟩
    · exact ⟨_, _, rfl, hadv, fun e2 he => (by cases he; exact Or.inr (Or.inr rfl))⟩

theorem kinded_iff (e : GoError) : e.kinded = true ↔ ∃ k, e = .FFError k ∧ k.ofScan = true := by
  cases e <;> simp [GoError.kinded]

theorem LexOp_run_returns {F : Type} (ParseFloat : List Nat → Nat → Except GoError F)
    (WriteJson : List Nat → List Nat) (op : LexOp) (x : FFLexer) (hwf : x.reader.wf) :
    ∃ res y, op.run ParseFloat WriteJson x = some (res, y) ∧ x.Advanced y x.reader.i ∧
      (∀ e, res.err = some e → e.kinded = true ∨ e.fromStringBody = true ∨ e.ofHelper = true ∨
        ∃ b n, ParseFloat b n = .error e) := by
  have lift : ∀ e : GoError,
      (e.kinded = true ∨ e.fromStringBody = true ∨ e.ofHelper = true) →
      e.kinded = true ∨ e.fromStringBody = true ∨ e.ofHelper = true ∨
        ∃ b n, ParseFloat b n = .error e := by
    intro e h
    rcases h with h | h | h
    · exact Or.inl h
    · exact Or.inr (Or.inl h)
    · exact Or.inr (Or.inr (Or.inl h))
  have exc : ∀ {α : Type} (v : Except GoError α) (e : GoError), exceptErr v = some e →
      v = .error e := by
    intro α v e h
    cases v with
    | error e2 =>
      simp only [exceptErr, Option.some.injEq] at h
      rw [h]
    | ok a => cases h
  cases op with
  | Scan cap =>
    obtain ⟨te, y, h, hadv, hcl, _⟩ := Scan_returns WriteJson cap x hwf
    refine ⟨.token te, y, by simp [LexOp.run, h], hadv, fun e he => ?_⟩
    obtain ⟨tok, e0⟩ := te
    simp only [LexResult.err] at he
    subst he
    rcases scanErrorClass_err tok e hcl with h1 | h1
    · exact Or.inl h1
    · exact Or.inr (Or.inl h1)
  | ScanIntValue bitSize =>
    obtain ⟨res, y, h, hadv, hcl⟩ := ScanIntValue_returns WriteJson bitSize x hwf
    exact ⟨.int res, y, by simp [LexOp.run, h], hadv, fun e he => lift e (hcl e (exc res e he))⟩
  | ScanUintValue bitSize =>
    obtain ⟨res, y, h, hadv, hcl⟩ := ScanUintValue_returns WriteJson bitSize x hwf
    exact ⟨.uint res, y, by simp [LexOp.run, h], hadv, fun e he => lift e (hcl e (exc res e he))⟩
  | ScanStringValue =>
    obtain ⟨res, y, h, hadv, hcl⟩ := ScanStringValue_returns WriteJson x hwf
    exact ⟨.string res, y, by simp [LexOp.run, h], hadv,
      fun e he => lift e (hcl e (exc res e he))⟩
  | ScanBoolValue bitSize =>
    obtain ⟨res, y, h, hadv, hcl⟩ := ScanBoolValue_returns WriteJson bitSize x hwf
    exact ⟨.bool res, y, by simp [LexOp.run, h], hadv, fun e he => lift e (hcl e (exc res e he))⟩
  | ScanFloatValue =>
    obtain ⟨res, y, h, hadv, hcl⟩ := ScanFloatValue_returns ParseFloat WriteJson x hwf
    exact ⟨.float res, y, by simp [LexOp.run, h], hadv, fun e he => hcl e (exc res e he)⟩
  | ScanToValue =>
    obtain ⟨te, y, h, hadv, hcl⟩ := ScanToValue_returns WriteJson x hwf
    exact ⟨.token te, y, by simp [LexOp.run, h], hadv, fun e he => lift e (hcl e he)⟩
  | CaptureField start =>
    obtain ⟨res, y, h, hadv, hcl⟩ := CaptureField_returns WriteJson start x hwf
    exact ⟨.bytes res, y, by simp [LexOp.run, h], hadv,
      fun e he => lift e (hcl e (exc res e he))⟩
  | SkipField start =>
    obtain ⟨res, y, h, hadv, hcl⟩ := SkipField_returns WriteJson start x hwf
    exact ⟨.error res, y, by simp [LexOp.run, h], hadv, fun e he => lift e (hcl e he)⟩

theorem trace_no_panic {F : Type} (ParseFloat : List Nat → Nat → Except GoError F)
    (WriteJson : List Nat → List Nat) :
    ∀ (ops : List LexOp) (x : FFLexer), x.reader.wf →
      none ∉ x.trace ParseFloat WriteJson ops := by
  intro ops
  induction ops with
  | nil =>
    intro x _ h
    cases h
  | cons op ops ih =>
    intro x hwf h
    obtain ⟨res, y, hrun, hadv, _⟩ := LexOp_run_returns ParseFloat WriteJson op x hwf
    rw [FFLexer.trace, hrun] at h
    simp only [List.mem_cons, reduceCtorEq, false_or] at h
    exact ih y hadv.1 h

/-! ## The scratch buffer is not read -/

theorem setBuf_buf (y : FFLexer) : y.setBuf y.buf = y := rfl

theorem readByte_setBuf (x : FFLexer) (b : List Nat) :
    (x.setBuf b).readByte = x.readByte.map (fun p => (p.1, p.2.setBuf b)) := by
  simp only [FFLexer.readByte, FFLexer.setBuf]
  cases x.reader.ReadByte with
  | none => rfl
  | some p =>
    obtain ⟨res, r⟩ := p
    cases res <;> rfl

theorem unreadByte_setBuf (x : FFLexer) (b : List Nat) :
    (x.setBuf b).unreadByte = x.unreadByte.map (fun y => y.setBuf b) := by
  simp only [FFLexer.unreadByte, FFLexer.setBuf]
  cases x.reader.UnreadByte <;> rfl

theorem wantBytes_setBuf :
    ∀ (want : List Nat) (tok : FFTok) (x : FFLexer) (b : List Nat),
      FFLexer.wantBytes want tok (x.setBuf b)
        = (FFLexer.wantBytes want tok x).map (fun p => (p.1, p.2.setBuf b)) := by
  intro want
  induction want with
  | nil =>
    intro tok x b
    rfl
  | cons w want ih =>
    intro tok x b
    rw [FFLexer.wantBytes, FFLexer.wantBytes, readByte_setBuf]
    cases x.readByte with
    | none => rfl
    | some p =>
      obtain ⟨res, y⟩ := p
      cases res with
      | error e => rfl
      | ok c =>
        simp only [Option.map_some']
        by_cases hc : c ≠ w
        · rw [if_pos hc, if_pos hc, unreadByte_setBuf]
          cases y.unreadByte <;> rfl
        · rw [if_neg hc, if_neg hc]
          exact ih tok (y.WriteByte c) b

theorem lexComment_line_setBuf :
    ∀ (fuel : Nat) (x : FFLexer) (b : List Nat),
      FFLexer.lexComment_line fuel (x.setBuf b)
        = (FFLexer.lexComment_line fuel x).map (fun p => (p.1, p.2.setBuf b)) := by
  intro fuel
  induction fuel with
  | zero =>
    intro x b
    rfl
  | succ fuel ih =>
    intro x b
    rw [FFLexer.lexComment_line, FFLexer.lexComment_line, readByte_setBuf]
    cases x.readByte with
    | none => rfl
    | some p =>
      obtain ⟨res, y⟩ := p
      cases res with
      | error e => rfl
      | ok c =>
        simp only [Option.map_some']
        by_cases hc : c = 10
        · rw [if_pos hc, if_pos hc]
          rfl
        · rw [if_neg hc, if_neg hc]
          exact ih y b

theorem lexComment_block_setBuf :
    ∀ (fuel : Nat) (x : FFLexer) (b : List Nat),
      FFLexer.lexComment_block fuel (x.setBuf b)
        = (FFLexer.lexComment_block fuel x).map (fun p => (p.1, p.2.setBuf b)) := by
  intro fuel
  induction fuel with
  | zero =>
    intro x b
    rfl
  | succ fuel ih =>
    intro x b
    rw [FFLexer.lexComment_block, FFLexer.lexComment_block, readByte_setBuf]
    cases x.readByte with
    | none => rfl
    | some p =>
      obtain ⟨res, y⟩ := p
      cases res with
      | error e => rfl
      | ok c =>
        simp only [Option.map_some']
        by_cases hc : c = 42
        · rw [if_pos hc, if_pos hc, readByte_setBuf]
          cases y.readByte with
          | none => rfl
          | some p2 =>
            obtain ⟨res2, y2⟩ := p2
            cases res2 with
            | error e => rfl
            | ok c2 =>
              simp only [Option.map_some']
              by_cases hc2 : c2 = 47
              · rw [if_pos hc2, if_pos hc2]
                rfl
              · rw [if_neg hc2, if_neg hc2]
                rfl
        · rw [if_neg hc, if_neg hc]
          exact ih y b

theorem lexComment_setBuf (x : FFLexer) (b : List Nat) :
    (x.setBuf b).lexComment = x.lexComment.map (fun p => (p.1, p.2.setBuf b)) := by
  rw [FFLexer.lexComment, FFLexer.lexComment, readByte_setBuf]
  cases x.readByte with
  | none => rfl
  | some p =>
    obtain ⟨res, y⟩ := p
    cases res with
    | error e => rfl
    | ok c =>
      simp only [Option.map_some']
      by_cases hc : c = 47
      · rw [if_pos hc, if_pos hc]
        exact lexComment_line_setBuf _ y b
      · rw [if_neg hc, if_neg hc]
        by_cases hc2 : c = 42
        · rw [if_pos hc2, if_pos hc2]
          exact lexComment_block_setBuf _ y b
        · rw [if_neg hc2, if_neg hc2]
          rfl

theorem lexNumber_digits_setBuf :
    ∀ (fuel c n : Nat) (x : FFLexer) (b : List Nat),
      FFLexer.lexNumber_digits fuel c n (x.setBuf b)
        = (FFLexer.lexNumber_digits fuel c n x).map (fun p => (p.1, p.2.setBuf b)) := by
  intro fuel
  induction fuel with
  | zero =>
    intro c n x b
    rfl
  | succ fuel ih =>
    intro c n x b
    rw [FFLexer.lexNumber_digits, FFLexer.lexNumber_digits]
    by_cases hd : 48 ≤ c ∧ c ≤ 57
    · rw [if_pos hd, if_pos hd]
      have : (x.setBuf b).WriteByte c = (x.WriteByte c).setBuf b := rfl
      rw [this, readByte_setBuf]
      cases (x.WriteByte c).readByte with
      | none => rfl
      | some p =>
        obtain ⟨res, y⟩ := p
        cases res with
        | error e => rfl
        | ok c2 =>
          simp only [Option.map_some']
          exact ih c2 (n + 1) y b
    · rw [if_neg hd, if_neg hd]
      rfl

theorem lexNumber_exponent_setBuf (c : Nat) (tok : FFTok) (x : FFLexer) (b : List Nat) :
    (x.setBuf b).lexNumber_exponent c tok
      = (x.lexNumber_exponent c tok).map (fun p => (p.1, p.2.setBuf b)) := by
  have key : ∀ (c3 : Nat) (z : FFLexer),
      (match FFLexer.lexNumber_digits ((z.setBuf b).reader.l - (z.setBuf b).reader.i + 1) c3 0
          (z.setBuf b) with
        | none => none
        | some (.error err, ffl) => some ((FFTok.FFTok_error, some err), ffl)
        | some (.ok (_, numRead), ffl) =>
          if numRead = 0 then
            some ((FFTok.FFTok_error,
              some (GoError.FFError .FFErr_missing_integer_after_exponent)), ffl)
          else
            match ffl.unreadByte with
            | none => none
            | some ffl => some ((FFTok.FFTok_double, none), ffl))
      = (match FFLexer.lexNumber_digits (z.reader.l - z.reader.i + 1) c3 0 z with
        | none => none
        | some (.error err, ffl) => some ((FFTok.FFTok_error, some err), ffl)
        | some (.ok (_, numRead), ffl) =>
          if numRead = 0 then
            some ((FFTok.FFTok_error,
              some (GoError.FFError .FFErr_missing_integer_after_exponent)), ffl)
          else
            match ffl.unreadByte with
            | none => none
            | some ffl => some ((FFTok.FFTok_double, none), ffl)).map
          (fun (p : TokErr × FFLexer) => (p.1, p.2.setBuf b)) := by
    intro c3 z
    rw [lexNumber_digits_setBuf]
    have hr : (z.setBuf b).reader = z.reader := rfl
    rw [hr]
    cases FFLexer.lexNumber_digits (z.reader.l - z.reader.i + 1) c3 0 z with
    | none => rfl
    | some p =>
      obtain ⟨res, y⟩ := p
      cases res with
      | error e => rfl
      | ok q =>
        obtain ⟨c4, numRead⟩ := q
        simp only [Option.map_some']
        by_cases hn : numRead = 0
        · rw [if_pos hn, if_pos hn]
          rfl
        · rw [if_neg hn, if_neg hn, unreadByte_setBuf]
          cases y.unreadByte <;> rfl
  unfold FFLexer.lexNumber_exponent
  by_cases hc : c = 101 ∨ c = 69
  · rw [if_pos hc, if_pos hc]
    have hw : (x.setBuf b).WriteByte c = (x.WriteByte c).setBuf b := rfl
    rw [hw, readByte_setBuf]
    cases (x.WriteByte c).readByte with
    | none => rfl
    | some p =>
      obtain ⟨res, y⟩ := p
      cases res with
      | error e => rfl
      | ok c2 =>
        simp only [Option.map_some']
        by_cases hs : c2 = 43 ∨ c2 = 45
        · simp only [if_pos hs]
          have hw2 : (y.setBuf b).WriteByte c2 = (y.WriteByte c2).setBuf b := rfl
          rw [hw2, readByte_setBuf]
          cases (y.WriteByte c2).readByte with
          | none => rfl
          | some p2 =>
            obtain ⟨res2, y2⟩ := p2
            cases res2 with
            | error e => rfl
            | ok c3 =>
              simp only [Option.map_some']
              exact key c3 y2
        · simp only [if_neg hs]
          exact key c2 y
  · rw [if_neg hc, if_neg hc, unreadByte_setBuf]
    cases x.unreadByte <;> rfl

theorem lexNumber_fraction_setBuf (c : Nat) (x : FFLexer) (b : List Nat) :
    (x.setBuf b).lexNumber_fraction c
      = (x.lexNumber_fraction c).map (fun p => (p.1, p.2.setBuf b)) := by
  unfold FFLexer.lexNumber_fraction
  by_cases hc : c = 46
  · rw [if_pos hc, if_pos hc]
    have hw : (x.setBuf b).WriteByte c = (x.WriteByte c).setBuf b := rfl
    rw [hw, readByte_setBuf]
    cases (x.WriteByte c).readByte with
    | none => rfl
    | some p =>
      obtain ⟨res, y⟩ := p
      cases res with
      | error e => rfl
      | ok c2 =>
        simp only [Option.map_some']
        rw [lexNumber_digits_setBuf]
        have hr : (y.setBuf b).reader = y.reader := rfl
        rw [hr]
        cases FFLexer.lexNumber_digits (y.reader.l - y.reader.i + 1) c2 0 y with
        | none => rfl
        | some p2 =>
          obtain ⟨res2, y2⟩ := p2
          cases res2 with
          | error e => rfl
          | ok q =>
            obtain ⟨c4, numRead⟩ := q
            simp only [Option.map_some']
            by_cases hn : numRead = 0
            · rw [if_pos hn, if_pos hn, unreadByte_setBuf]
              cases y2.unreadByte <;> rfl
            · rw [if_neg hn, if_neg hn]
              exact lexNumber_exponent_setBuf c4 _ y2 b
  · rw [if_neg hc, if_neg hc]
    exact lexNumber_exponent_setBuf c _ x b

theorem lexNumber_integer_setBuf (c : Nat) (x : FFLexer) (b : List Nat) :
    (x.setBuf b).lexNumber_integer c
      = (x.lexNumber_integer c).map (fun p => (p.1, p.2.setBuf b)) := by
  unfold FFLexer.lexNumber_integer
  by_cases hc : c = 48
  · rw [if_pos hc, if_pos hc]
    have hw : (x.setBuf b).WriteByte c = (x.WriteByte c).setBuf b := rfl
    rw [hw, readByte_setBuf]
    cases (x.WriteByte c).readByte with
    | none => rfl
    | some p =>
      obtain ⟨res, y⟩ := p
      cases res with
      | error e => rfl
      | ok c2 =>
        simp only [Option.map_some']
        exact lexNumber_fraction_setBuf c2 y b
  · rw [if_neg hc, if_neg hc]
    by_cases hd : 49 ≤ c ∧ c ≤ 57
    · rw [if_pos hd, if_pos hd, lexNumber_digits_setBuf]
      have hr : (x.setBuf b).reader = x.reader := rfl
      rw [hr]
      cases FFLexer.lexNumber_digits (x.reader.l - x.reader.i + 1) c 0 x with
      | none => rfl
      | some p2 =>
        obtain ⟨res2, y2⟩ := p2
        cases res2 with
        | error e => rfl
        | ok q =>
          obtain ⟨c4, numRead⟩ := q
          simp only [Option.map_some']
          exact lexNumber_fraction_setBuf c4 y2 b
    · rw [if_neg hd, if_neg hd, unreadByte_setBuf]
      cases x.unreadByte <;> rfl

theorem lexNumber_setBuf (x : FFLexer) (b : List Nat) :
    (x.setBuf b).lexNumber = x.lexNumber.map (fun p => (p.1, p.2.setBuf b)) := by
  unfold FFLexer.lexNumber
  rw [readByte_setBuf]
  cases x.readByte with
  | none => rfl
  | some p =>
    obtain ⟨res, y⟩ := p
    cases res with
    | error e => rfl
    | ok c =>
      simp only [Option.map_some']
      by_cases hm : c = 45
      · rw [if_pos hm, if_pos hm]
        have hw : (y.setBuf b).WriteByte c = (y.WriteByte c).setBuf b := rfl
        rw [hw, readByte_setBuf]
        cases (y.WriteByte c).readByte with
        | none => rfl
        | some p2 =>
          obtain ⟨res2, y2⟩ := p2
          cases res2 with
          | error e => rfl
          | ok c2 =>
            simp only [Option.map_some']
            exact lexNumber_integer_setBuf c2 y2 b
      · rw [if_neg hm, if_neg hm]
        exact lexNumber_integer_setBuf c y b

theorem lexString_setBuf (WriteJson : List Nat → List Nat) (x : FFLexer) (b : List Nat) :
    (x.setBuf b).lexString WriteJson false
      = (x.lexString WriteJson false).map (fun p => (p.1, p.2.setBuf b)) ∧
    (x.setBuf b).lexString WriteJson true = x.lexString WriteJson true := by
  constructor
  · simp only [FFLexer.lexString, FFLexer.setBuf, Bool.false_eq_true, if_false]
    cases x.reader.SliceString x.outputbuf with
    | none => rfl
    | some p =>
      obtain ⟨e, r, out⟩ := p
      cases e <;> rfl
  · simp only [FFLexer.lexString, FFLexer.setBuf, if_true]

theorem afterLex_setBuf (o : Option (TokErr × FFLexer)) (b : List Nat) :
    FFLexer.afterLex (o.map (fun p => (p.1, p.2.setBuf b)))
      = (FFLexer.afterLex o).map (fun p => (p.1, p.2.setBuf b)) := by
  cases o with
  | none => rfl
  | some p =>
    obtain ⟨⟨tok, e⟩, y⟩ := p
    cases e <;> rfl

theorem BufFree_of_eq {α : Type} (o : Option (α × FFLexer)) :
    ∃ b2, o = o.map (fun p => (p.1, p.2.setBuf b2)) := by
  cases o with
  | none => exact ⟨[], rfl⟩
  | some p => exact ⟨p.2.buf, rfl⟩

theorem Scan_switch_setBuf (WriteJson : List Nat → List Nat) (cap : Bool)
    (again : FFLexer → Option (TokErr × FFLexer)) (hag : BufFree again) (c : Nat) :
    BufFree (FFLexer.Scan_switch WriteJson cap again c) := by
  intro x b
  have hsingle : ∀ tok c2, ∃ b2, (x.setBuf b).single cap tok c2
      = (x.single cap tok c2).map (fun p => (p.1, p.2.setBuf b2)) := by
    intro tok c2
    refine ⟨b, ?_⟩
    cases cap <;> rfl
  have hwant : ∀ (c2 : Nat) (want : List Nat) (tok : FFTok), ∃ b2,
      FFLexer.afterLex (((x.setBuf b).WriteByte c2).wantBytes want tok)
        = (FFLexer.afterLex ((x.WriteByte c2).wantBytes want tok)).map
            (fun p => (p.1, p.2.setBuf b2)) := by
    intro c2 want tok
    refine ⟨b, ?_⟩
    have hw : (x.setBuf b).WriteByte c2 = (x.WriteByte c2).setBuf b := rfl
    rw [hw, wantBytes_setBuf, afterLex_setBuf]
  unfold FFLexer.Scan_switch
  by_cases c1 : c = 123
  · rw [if_pos c1, if_pos c1]
    exact hsingle _ _
  rw [if_neg c1, if_neg c1]
  by_cases c2 : c = 125
  · rw [if_pos c2, if_pos c2]
    exact hsingle _ _
  rw [if_neg c2, if_neg c2]
  by_cases c3 : c = 91
  · rw [if_pos c3, if_pos c3]
    exact hsingle _ _
  rw [if_neg c3, if_neg c3]
  by_cases c4 : c = 93
  · rw [if_pos c4, if_pos c4]
    exact hsingle _ _
  rw [if_neg c4, if_neg c4]
  by_cases c5 : c = 44
  · rw [if_pos c5, if_pos c5]
    exact hsingle _ _
  rw [if_neg c5, if_neg c5]
  by_cases c6 : c = 58
  · rw [if_pos c6, if_pos c6]
    exact hsingle _ _
  rw [if_neg c6, if_neg c6]
  by_cases c7 : c = 9 ∨ c = 10 ∨ c = 11 ∨ c = 12 ∨ c = 13 ∨ c = 32
  · rw [if_pos c7, if_pos c7]
    cases cap with
    | true => exact hag (x.WriteByte c) b
    | false => exact hag x b
  rw [if_neg c7, if_neg c7]
  by_cases c8 : c = 116
  · rw [if_pos c8, if_pos c8]
    exact hwant _ _ _
  rw [if_neg c8, if_neg c8]
  by_cases c9 : c = 102
  · rw [if_pos c9, if_pos c9]
    exact hwant _ _ _
  rw [if_neg c9, if_neg c9]
  by_cases c10 : c = 110
  · rw [if_pos c10, if_pos c10]
    exact hwant _ _ _
  rw [if_neg c10, if_neg c10]
  by_cases c11 : c = 34
  · rw [if_pos c11, if_pos c11]
    cases cap with
    | true =>
      rw [(lexString_setBuf WriteJson x b).2]
      exact BufFree_of_eq _
    | false =>
      rw [(lexString_setBuf WriteJson x b).1, afterLex_setBuf]
      exact ⟨b, rfl⟩
  rw [if_neg c11, if_neg c11]
  by_cases c12 : c = 45 ∨ (48 ≤ c ∧ c ≤ 57)
  · rw [if_pos c12, if_pos c12, unreadByte_setBuf]
    cases x.unreadByte with
    | none => exact ⟨b, rfl⟩
    | some x0 =>
      simp only [Option.map_some']
      rw [lexNumber_setBuf, afterLex_setBuf]
      exact ⟨b, rfl⟩
  rw [if_neg c12, if_neg c12]
  by_cases c13 : c = 47
  · rw [if_pos c13, if_pos c13, lexComment_setBuf, afterLex_setBuf]
    exact ⟨b, rfl⟩
  rw [if_neg c13, if_neg c13]
  exact ⟨b, rfl⟩

theorem Scan_loop_setBuf (WriteJson : List Nat → List Nat) (cap : Bool) :
    ∀ fuel, BufFree (FFLexer.Scan_loop WriteJson cap fuel) := by
  intro fuel
  induction fuel with
  | zero =>
    intro x b
    exact ⟨b, rfl⟩
  | succ fuel ih =>
    intro x b
    rw [FFLexer.Scan_loop, FFLexer.Scan_loop]
    have hr : (x.setBuf b).reader = x.reader := rfl
    rw [hr]
    cases (if cap = true then x.reader.ReadByte else x.reader.ReadByteNoWS) with
    | none => exact ⟨b, rfl⟩
    | some p =>
      obtain ⟨res, r⟩ := p
      cases res with
      | error e =>
        dsimp only
        by_cases he : e = .EOF
        · rw [if_pos he, if_pos he]
          exact ⟨b, rfl⟩
        · rw [if_neg he, if_neg he]
          exact ⟨b, rfl⟩
      | ok c =>
        exact Scan_switch_setBuf WriteJson cap _ ih c { x with reader := r } b

theorem Scan_setBuf (WriteJson : List Nat → List Nat) (cap : Bool) :
    BufFree (FFLexer.Scan WriteJson cap) := by
  intro x b
  unfold FFLexer.Scan
  cases cap with
  | true => exact Scan_loop_setBuf WriteJson true _ { x with Token := .FFTok_init } b
  | false =>
    exact Scan_loop_setBuf WriteJson false _ { x with outputbuf := [], Token := .FFTok_init } b

theorem ScanIntValue_setBuf (WriteJson : List Nat → List Nat) (bitSize : Nat) :
    BufFree (FFLexer.ScanIntValue WriteJson bitSize) := by
  intro x b
  obtain ⟨b1, h1⟩ := Scan_setBuf WriteJson false x b
  unfold FFLexer.ScanIntValue
  rw [h1]
  cases x.Scan WriteJson false with
  | none => exact ⟨b, rfl⟩
  | some p =>
    obtain ⟨⟨tok, e⟩, y⟩ := p
    cases e with
    | some err => exact ⟨b1, rfl⟩
    | none =>
      simp only [Option.map_some']
      by_cases ht : tok ≠ .FFTok_colon
      · rw [if_pos ht, if_pos ht]
        exact ⟨b1, rfl⟩
      · rw [if_neg ht, if_neg ht]
        obtain ⟨b2, h2⟩ := Scan_setBuf WriteJson false y b1
        rw [h2]
        cases y.Scan WriteJson false with
        | none => exact ⟨b, rfl⟩
        | some p2 =>
          obtain ⟨⟨tok2, e2⟩, y2⟩ := p2
          cases e2 with
          | some err => exact ⟨b2, rfl⟩
          | none =>
            simp only [Option.map_some']
            by_cases ht2 : tok2 ≠ .FFTok_integer
            · rw [if_pos ht2, if_pos ht2]
              exact ⟨b2, rfl⟩
            · rw [if_neg ht2, if_neg ht2]
              exact ⟨b2, rfl⟩

theorem ScanUintValue_setBuf (WriteJson : List Nat → List Nat) (bitSize : Nat) :
    BufFree (FFLexer.ScanUintValue WriteJson bitSize) := by
  intro x b
  obtain ⟨b1, h1⟩ := Scan_setBuf WriteJson false x b
  unfold FFLexer.ScanUintValue
  rw [h1]
  cases x.Scan WriteJson false with
  | none => exact ⟨b, rfl⟩
  | some p =>
    obtain ⟨⟨tok, e⟩, y⟩ := p
    cases e with
    | some err => exact ⟨b1, rfl⟩
    | none =>
      simp only [Option.map_some']
      by_cases ht : tok ≠ .FFTok_colon
      · rw [if_pos ht, if_pos ht]
        exact ⟨b1, rfl⟩
      · rw [if_neg ht, if_neg ht]
        obtain ⟨b2, h2⟩ := Scan_setBuf WriteJson false y b1
        rw [h2]
        cases y.Scan WriteJson false with
        | none => exact ⟨b, rfl⟩
        | some p2 =>
          obtain ⟨⟨tok2, e2⟩, y2⟩ := p2
          cases e2 with
          | some err => exact ⟨b2, rfl⟩
          | none =>
            simp only [Option.map_some']
            by_cases ht2 : tok2 ≠ .FFTok_integer
            · rw [if_pos ht2, if_pos ht2]
              exact ⟨b2, rfl⟩
            · rw [if_neg ht2, if_neg ht2]
              exact ⟨b2, rfl⟩

theorem ScanStringValue_setBuf (WriteJson : List Nat → List Nat) :
    BufFree (FFLexer.ScanStringValue WriteJson) := by
  intro x b
  obtain ⟨b1, h1⟩ := Scan_setBuf WriteJson false x b
  unfold FFLexer.ScanStringValue
  rw [h1]
  cases x.Scan WriteJson false with
  | none => exact ⟨b, rfl⟩
  | some p =>
    obtain ⟨⟨tok, e⟩, y⟩ := p
    cases e with
    | some err => exact ⟨b1, rfl⟩
    | none =>
      simp only [Option.map_some']
      by_cases ht : tok ≠ .FFTok_colon
      · rw [if_pos ht, if_pos ht]
        exact ⟨b1, rfl⟩
      · rw [if_neg ht, if_neg ht]
        obtain ⟨b2, h2⟩ := Scan_setBuf WriteJson false y b1
        rw [h2]
        cases y.Scan WriteJson false with
        | none => exact ⟨b, rfl⟩
        | some p2 =>
          obtain ⟨⟨tok2, e2⟩, y2⟩ := p2
          cases e2 with
          | some err => exact ⟨b2, rfl⟩
          | none =>
            simp only [Option.map_some']
            by_cases ht2 : tok2 ≠ .FFTok_string
            · rw [if_pos ht2, if_pos ht2]
              exact ⟨b2, rfl⟩
            · rw [if_neg ht2, if_neg ht2]
              exact ⟨b2, rfl⟩

theorem ScanBoolValue_setBuf (WriteJson : List Nat → List Nat) (bitSize : Nat) :
    BufFree (FFLexer.ScanBoolValue WriteJson bitSize) := by
  intro x b
  obtain ⟨b1, h1⟩ := Scan_setBuf WriteJson false x b
  unfold FFLexer.ScanBoolValue
  rw [h1]
  cases x.Scan WriteJson false with
  | none => exact ⟨b, rfl⟩
  | some p =>
    obtain ⟨⟨tok, e⟩, y⟩ := p
    cases e with
    | some err => exact ⟨b1, rfl⟩
    | none =>
      simp only [Option.map_some']
      by_cases ht : tok ≠ .FFTok_colon
      · rw [if_pos ht, if_pos ht]
        exact ⟨b1, rfl⟩
      · rw [if_neg ht, if_neg ht]
        obtain ⟨b2, h2⟩ := Scan_setBuf WriteJson false y b1
        rw [h2]
        cases y.Scan WriteJson false with
        | none => exact ⟨b, rfl⟩
        | some p2 =>
          obtain ⟨⟨tok2, e2⟩, y2⟩ := p2
          cases e2 with
          | some err => exact ⟨b2, rfl⟩
          | none =>
            simp only [Option.map_some']
            by_cases ht2 : tok2 ≠ .FFTok_bool
            · rw [if_pos ht2, if_pos ht2]
              exact ⟨b2, rfl⟩
            · rw [if_neg ht2, if_neg ht2]
              have ho : (y2.setBuf b2).outputbuf = y2.outputbuf := rfl
              rw [ho]
              by_cases h3 : true_bytes = y2.outputbuf
              · rw [if_pos h3, if_pos h3]
                exact ⟨b2, rfl⟩
              · rw [if_neg h3, if_neg h3]
                by_cases h4 : false_bytes = y2.outputbuf
                · rw [if_pos h4, if_pos h4]
                  exact ⟨b2, rfl⟩
                · rw [if_neg h4, if_neg h4]
                  exact ⟨b2, rfl⟩

theorem ScanFloatValue_setBuf {F : Type} (ParseFloat : List Nat → Nat → Except GoError F)
    (WriteJson : List Nat → List Nat) :
    BufFree (FFLexer.ScanFloatValue ParseFloat WriteJson) := by
  intro x b
  obtain ⟨b1, h1⟩ := Scan_setBuf WriteJson false x b
  unfold FFLexer.ScanFloatValue
  rw [h1]
  cases x.Scan WriteJson false with
  | none => exact ⟨b, rfl⟩
  | some p =>
    obtain ⟨⟨tok, e⟩, y⟩ := p
    cases e with
    | some err => exact ⟨b1, rfl⟩
    | none =>
      simp only [Option.map_some']
      by_cases ht : tok ≠ .FFTok_colon
      · rw [if_pos ht, if_pos ht]
        exact ⟨b1, rfl⟩
      · rw [if_neg ht, if_neg ht]
        obtain ⟨b2, h2⟩ := Scan_setBuf WriteJson false y b1
        rw [h2]
        cases y.Scan WriteJson false with
        | none => exact ⟨b, rfl⟩
        | some p2 =>
          obtain ⟨⟨tok2, e2⟩, y2⟩ := p2
          cases e2 with
          | some err => exact ⟨b2, rfl⟩
          | none =>
            simp only [Option.map_some']
            by_cases ht2 : tok2 ≠ .FFTok_double
            · rw [if_pos ht2, if_pos ht2]
              exact ⟨b2, rfl⟩
            · rw [if_neg ht2, if_neg ht2]
              exact ⟨b2, rfl⟩

theorem ScanToValue_setBuf (WriteJson : List Nat → List Nat) :
    BufFree (FFLexer.ScanToValue WriteJson) := by
  intro x b
  obtain ⟨b1, h1⟩ := Scan_setBuf WriteJson false x b
  unfold FFLexer.ScanToValue
  rw [h1]
  cases x.Scan WriteJson false with
  | none => exact ⟨b, rfl⟩
  | some p =>
    obtain ⟨⟨tok, e⟩, y⟩ := p
    cases e with
    | some err => exact ⟨b1, rfl⟩
    | none =>
      simp only [Option.map_some']
      by_cases ht : tok ≠ .FFTok_colon
      · rw [if_pos ht, if_pos ht]
        exact ⟨b1, rfl⟩
      · rw [if_neg ht, if_neg ht]
        obtain ⟨b2, h2⟩ := Scan_setBuf WriteJson false y b1
        rw [h2]
        cases y.Scan WriteJson false with
        | none => exact ⟨b, rfl⟩
        | some p2 =>
          obtain ⟨⟨tok2, e2⟩, y2⟩ := p2
          cases e2 with
          | some err => exact ⟨b2, rfl⟩
          | none =>
            simp only [Option.map_some']
            by_cases ht2 : tok2 = .FFTok_left_brace ∨ tok2 = .FFTok_left_bracket ∨
                tok2 = .FFTok_integer ∨ tok2 = .FFTok_double ∨ tok2 = .FFTok_string ∨
                tok2 = .FFTok_bool ∨ tok2 = .FFTok_null
            · rw [if_pos ht2, if_pos ht2]
              exact ⟨b2, rfl⟩
            · rw [if_neg ht2, if_neg ht2]
              exact ⟨b2, rfl⟩

theorem SkipField_loop_setBuf (WriteJson : List Nat → List Nat) (start : FFTok) :
    ∀ fuel depth, BufFree (FFLexer.SkipField_loop WriteJson start fuel depth) := by
  intro fuel
  induction fuel with
  | zero =>
    intro depth x b
    exact ⟨b, rfl⟩
  | succ fuel ih =>
    intro depth x b
    obtain ⟨b1, h1⟩ := Scan_setBuf WriteJson false x b
    rw [FFLexer.SkipField_loop, FFLexer.SkipField_loop, h1]
    cases x.Scan WriteJson false with
    | none => exact ⟨b, rfl⟩
    | some p =>
      obtain ⟨⟨tok, e⟩, y⟩ := p
      cases e with
      | some err => exact ⟨b1, rfl⟩
      | none =>
        simp only [Option.map_some']
        by_cases t1 : tok = .FFTok_eof
        · rw [if_pos t1, if_pos t1]
          exact ⟨b1, rfl⟩
        · rw [if_neg t1, if_neg t1]
          by_cases t2 : tok = endTok start
          · rw [if_pos t2, if_pos t2]
            by_cases t3 : depth - 1 = 0
            · rw [if_pos t3, if_pos t3]
              exact ⟨b1, rfl⟩
            · rw [if_neg t3, if_neg t3]
              exact ih _ y b1
          · rw [if_neg t2, if_neg t2]
            by_cases t4 : tok = start
            · rw [if_pos t4, if_pos t4]
              exact ih _ y b1
            · rw [if_neg t4, if_neg t4]
              exact ih _ y b1

theorem captureField_loop_setBuf (WriteJson : List Nat → List Nat) (start : FFTok) :
    ∀ fuel depth, BufFree (FFLexer.captureField_loop WriteJson start fuel depth) := by
  intro fuel
  induction fuel with
  | zero =>
    intro depth x b
    exact ⟨b, rfl⟩
  | succ fuel ih =>
    intro depth x b
    obtain ⟨b1, h1⟩ := Scan_setBuf WriteJson true x b
    rw [FFLexer.captureField_loop, FFLexer.captureField_loop, h1]
    cases x.Scan WriteJson true with
    | none => exact ⟨b, rfl⟩
    | some p =>
      obtain ⟨⟨tok, e⟩, y⟩ := p
      cases e with
      | some err => exact ⟨b1, rfl⟩
      | none =>
        simp only [Option.map_some']
        by_cases t1 : tok = .FFTok_eof
        · rw [if_pos t1, if_pos t1]
          exact ⟨b1, rfl⟩
        · rw [if_neg t1, if_neg t1]
          by_cases t2 : tok = endTok start
          · rw [if_pos t2, if_pos t2]
            by_cases t3 : depth - 1 = 0
            · rw [if_pos t3, if_pos t3]
              exact ⟨b1, rfl⟩
            · rw [if_neg t3, if_neg t3]
              exact ih _ y b1
          · rw [if_neg t2, if_neg t2]
            by_cases t4 : tok = start
            · rw [if_pos t4, if_pos t4]
              exact ih _ y b1
            · rw [if_neg t4, if_neg t4]
              exact ih _ y b1

theorem SkipField_setBuf (WriteJson : List Nat → List Nat) (start : FFTok) :
    BufFree (FFLexer.SkipField WriteJson start) := by
  intro x b
  unfold FFLexer.SkipField
  by_cases h1 : start = .FFTok_left_brace ∨ start = .FFTok_left_bracket
  · rw [if_pos h1, if_pos h1]
    exact SkipField_loop_setBuf WriteJson start _ 1 x b
  · rw [if_neg h1, if_neg h1]
    by_cases h2 : start = .FFTok_bool ∨ start = .FFTok_integer ∨ start = .FFTok_null ∨
        start = .FFTok_double ∨ start = .FFTok_string
    · rw [if_pos h2, if_pos h2]
      exact ⟨b, rfl⟩
    · rw [if_neg h2, if_neg h2]
      exact ⟨b, rfl⟩

theorem CaptureField_setBuf (WriteJson : List Nat → List Nat) (start : FFTok) :
    BufFree (FFLexer.CaptureField WriteJson start) := by
  intro x b
  unfold FFLexer.CaptureField FFLexer.captureField
  by_cases h1 : start = .FFTok_left_brace ∨ start = .FFTok_left_bracket
  · rw [if_pos h1, if_pos h1]
    by_cases hb : start = .FFTok_left_bracket
    · simp only [hb, if_true]
      exact captureField_loop_setBuf WriteJson _ _ 1 (x.WriteByte 123) b
    · simp only [hb, if_false]
      exact captureField_loop_setBuf WriteJson _ _ 1 (x.WriteByte 91) b
  · rw [if_neg h1, if_neg h1]
    by_cases h2 : start = .FFTok_bool ∨ start = .FFTok_integer ∨ start = .FFTok_null ∨
        start = .FFTok_double
    · rw [if_pos h2, if_pos h2]
      exact ⟨b, rfl⟩
    · rw [if_neg h2, if_neg h2]
      by_cases h3 : start = .FFTok_string
      · rw [if_pos h3, if_pos h3]
        exact ⟨WriteJson x.outputbuf, rfl⟩
      · rw [if_neg h3, if_neg h3]
        exact ⟨b, rfl⟩

theorem BufFree_map {α β : Type} (f : FFLexer → Option (α × FFLexer)) (g : α → β)
    (h : BufFree f) : BufFree (fun x => (f x).map (fun p => (g p.1, p.2))) := by
  intro x b
  obtain ⟨b2, h2⟩ := h x b
  refine ⟨b2, ?_⟩
  simp only [h2]
  cases f x <;> rfl

theorem LexOp_run_setBuf {F : Type} (ParseFloat : List Nat → Nat → Except GoError F)
    (WriteJson : List Nat → List Nat) (op : LexOp) :
    BufFree (op.run ParseFloat WriteJson) := by
  cases op with
  | Scan cap => exact BufFree_map _ _ (Scan_setBuf WriteJson cap)
  | ScanIntValue bitSize => exact BufFree_map _ _ (ScanIntValue_setBuf WriteJson bitSize)
  | ScanUintValue bitSize => exact BufFree_map _ _ (ScanUintValue_setBuf WriteJson bitSize)
  | ScanStringValue => exact BufFree_map _ _ (ScanStringValue_setBuf WriteJson)
  | ScanBoolValue bitSize => exact BufFree_map _ _ (ScanBoolValue_setBuf WriteJson bitSize)
  | ScanFloatValue => exact BufFree_map _ _ (ScanFloatValue_setBuf ParseFloat WriteJson)
  | ScanToValue => exact BufFree_map _ _ (ScanToValue_setBuf WriteJson)
  | CaptureField start => exact BufFree_map _ _ (CaptureField_setBuf WriteJson start)
  | SkipField start => exact BufFree_map _ _ (SkipField_setBuf WriteJson start)

theorem trace_setBuf {F : Type} (ParseFloat : List Nat → Nat → Except GoError F)
    (WriteJson : List Nat → List Nat) :
    ∀ (ops : List LexOp) (x : FFLexer) (b : List Nat),
      (x.setBuf b).trace ParseFloat WriteJson ops = x.trace ParseFloat WriteJson ops := by
  intro ops
  induction ops with
  | nil =>
    intro x b
    rfl
  | cons op ops ih =>
    intro x b
    obtain ⟨b2, h2⟩ := LexOp_run_setBuf ParseFloat WriteJson op x b
    rw [FFLexer.trace, FFLexer.trace, h2]
    cases op.run ParseFloat WriteJson x with
    | none => rfl
    | some p =>
      obtain ⟨res, y⟩ := p
      simp only [Option.map_some']
      rw [ih y b2]
      rfl


/-! ## Parsing decimal integers -/

theorem decimal_foldl_ge :
    ∀ (ds : List Nat) (acc : Nat), acc ≤ ds.foldl (fun a d => a * 10 + (d - 48)) acc := by
  intro ds
  induction ds with
  | nil =>
    intro acc
    exact le_refl _
  | cons c ds ih =>
    intro acc
    have := ih (acc * 10 + (c - 48))
    simp only [List.foldl_cons]
    omega

theorem ParseUint_loop_digits (bitSize : Nat) :
    ∀ (ds : List Nat) (acc : Nat), ds.all isDigit = true →
      ds.foldl (fun a d => a * 10 + (d - 48)) acc < 2 ^ bitSize →
      ParseUint_loop 10 bitSize ds acc = .ok (ds.foldl (fun a d => a * 10 + (d - 48)) acc) := by
  intro ds
  induction ds with
  | nil =>
    intro acc _ _
    rfl
  | cons c ds ih =>
    intro acc hall hlt
    simp only [List.all_cons, Bool.and_eq_true] at hall
    have hc : 48 ≤ c ∧ c ≤ 57 := by
      simpa [isDigit] using hall.1
    have hdv : digitVal c = some (c - 48) := by
      unfold digitVal
      rw [if_pos hc]
    simp only [List.foldl_cons] at hlt ⊢
    have hge := decimal_foldl_ge ds (acc * 10 + (c - 48))
    rw [ParseUint_loop, hdv]
    dsimp only
    rw [if_neg (by omega), if_neg (by omega)]
    exact ih _ hall.2 hlt

theorem ParseUint_digits (ds : List Nat) (bitSize : Nat) (hne : ds ≠ [])
    (hall : ds.all isDigit = true) (hlt : decimalValue ds < 2 ^ bitSize) :
    ParseUint ds 10 bitSize = .ok (decimalValue ds) := by
  unfold ParseUint
  rw [if_neg hne]
  exact ParseUint_loop_digits bitSize ds 0 hall hlt

theorem ParseInt_integer (n : JNumber) (bitSize : Nat) (hn : n.wf = true)
    (hfrac : n.frac = none) (hexp : n.exp = none) (h1 : 1 ≤ bitSize) (h64 : bitSize ≤ 64)
    (hfit : if n.minus = true then decimalValue n.int ≤ 2 ^ (bitSize - 1)
      else decimalValue n.int < 2 ^ (bitSize - 1)) :
    ParseInt n.render 10 bitSize
      = .ok (if n.minus = true then -(decimalValue n.int : Int) else (decimalValue n.int : Int)) := by
  have hint : intPartOk n.int = true := by
    simp only [JNumber.wf, Bool.and_eq_true] at hn
    exact hn.1.1
  have hall := intPartOk_all_isDigit n.int hint
  have hpow : (2 : Nat) ^ (bitSize - 1) ≤ 2 ^ 63 :=
    Nat.pow_le_pow_right (by decide) (by omega)
  have hv : decimalValue n.int < 2 ^ 64 := by
    have : (2 : Nat) ^ 63 < 2 ^ 64 := by norm_num
    split_ifs at hfit <;> omega
  obtain ⟨c, ds, hcd⟩ : ∃ c ds, n.int = c :: ds := by
    cases hi : n.int with
    | nil =>
      rw [hi] at hint
      cases hint
    | cons c ds => exact ⟨c, ds, rfl⟩
  have hne : n.int ≠ [] := by
    rw [hcd]
    exact List.cons_ne_nil _ _
  have hc : 48 ≤ c ∧ c ≤ 57 := by
    rw [hcd] at hall
    simp only [List.all_cons, Bool.and_eq_true] at hall
    simpa [isDigit] using hall.1
  have hp := ParseUint_digits n.int 64 hne hall hv
  unfold JNumber.render
  rw [hfrac, hexp]
  simp only [renderFrac, renderExp, List.append_nil]
  cases hm : n.minus with
  | true =>
    rw [hm] at hfit
    simp only [if_true] at hfit ⊢
    simp only [List.singleton_append, ParseInt, or_true, if_true, hp, ne_eq, not_true_eq_false,
      false_and, if_false, true_and]
    rw [if_neg (by omega)]
  | false =>
    rw [hm] at hfit
    simp only [Bool.false_eq_true, if_false] at hfit ⊢
    rw [List.nil_append, hcd]
    rw [hcd] at hp hfit
    simp only [ParseInt]
    rw [if_neg (by omega), hp]
    dsimp only
    rw [if_neg (by omega), if_neg (by omega), if_neg (by omega)]


/-! ## The origin of the errors of the operations -/

theorem single_no_error (cap : Bool) (t : FFTok) (c : Nat) (x : FFLexer) (tok : FFTok)
    (err : GoError) (y : FFLexer) (h : x.single cap t c = some ((tok, some err), y)) : False := by
  unfold FFLexer.single FFLexer.lexed at h
  simp only [Option.some.injEq, Prod.mk.injEq] at h
  cases h.1.2

theorem afterLex_error (o : Option (TokErr × FFLexer)) (tok : FFTok) (err : GoError)
    (y : FFLexer) (h : FFLexer.afterLex o = some ((tok, some err), y)) :
    tok = .FFTok_error ∧ ∃ te0 y0, o = some (te0, y0) ∧ te0.2 = some err := by
  obtain ⟨te0, y0, ho, _, he, htok⟩ := afterLex_inv o _ y h
  exact ⟨htok err rfl, te0, y0, ho, he.symm⟩

/-- An error of the `switch` of Scan at a byte that is not whitespace comes with the token
FFTok_error, and is an `*FFError` of one of the kinds of the lexer unless the byte is the
quote (the byte 34). -/
theorem Scan_switch_error (WriteJson : List Nat → List Nat) (cap : Bool)
    (again : FFLexer → Option (TokErr × FFLexer)) (c : Nat) (x : FFLexer) (tok : FFTok)
    (err : GoError) (y : FFLexer) (hwf : x.reader.wf) (hc : isWS c = false)
    (h : FFLexer.Scan_switch WriteJson cap again c x = some ((tok, some err), y)) :
    tok = .FFTok_error ∧ (c = 34 ∨ err.kinded = true) := by
  unfold FFLexer.Scan_switch at h
  by_cases c1 : c = 123
  · rw [if_pos c1] at h
    exact (single_no_error _ _ _ _ _ _ _ h).elim
  rw [if_neg c1] at h
  by_cases c2 : c = 125
  · rw [if_pos c2] at h
    exact (single_no_error _ _ _ _ _ _ _ h).elim
  rw [if_neg c2] at h
  by_cases c3 : c = 91
  · rw [if_pos c3] at h
    exact (single_no_error _ _ _ _ _ _ _ h).elim
  rw [if_neg c3] at h
  by_cases c4 : c = 93
  · rw [if_pos c4] at h
    exact (single_no_error _ _ _ _ _ _ _ h).elim
  rw [if_neg c4] at h
  by_cases c5 : c = 44
  · rw [if_pos c5] at h
    exact (single_no_error _ _ _ _ _ _ _ h).elim
  rw [if_neg c5] at h
  by_cases c6 : c = 58
  · rw [if_pos c6] at h
    exact (single_no_error _ _ _ _ _ _ _ h).elim
  rw [if_neg c6] at h
  by_cases c7 : c = 9 ∨ c = 10 ∨ c = 11 ∨ c = 12 ∨ c = 13 ∨ c = 32
  · rw [(isWS_iff c).mpr c7] at hc
    cases hc
  rw [if_neg c7] at h
  by_cases c8 : c = 116
  · rw [if_pos c8] at h
    obtain ⟨ht, te0, y0, ho, he⟩ := afterLex_error _ _ _ _ h
    exact ⟨ht, Or.inr ((wantBytes_inv _ _ (x.WriteByte 116) te0 y0 hwf ho).2 err he)⟩
  rw [if_neg c8] at h
  by_cases c9 : c = 102
  · rw [if_pos c9] at h
    obtain ⟨ht, te0, y0, ho, he⟩ := afterLex_error _ _ _ _ h
    exact ⟨ht, Or.inr ((wantBytes_inv _ _ (x.WriteByte 102) te0 y0 hwf ho).2 err he)⟩
  rw [if_neg c9] at h
  by_cases c10 : c = 110
  · rw [if_pos c10] at h
    obtain ⟨ht, te0, y0, ho, he⟩ := afterLex_error _ _ _ _ h
    exact ⟨ht, Or.inr ((wantBytes_inv _ _ (x.WriteByte 110) te0 y0 hwf ho).2 err he)⟩
  rw [if_neg c10] at h
  by_cases c11 : c = 34
  · rw [if_pos c11] at h
    exact ⟨(afterLex_error _ _ _ _ h).1, Or.inl c11⟩
  rw [if_neg c11] at h
  by_cases c12 : c = 45 ∨ (48 ≤ c ∧ c ≤ 57)
  · rw [if_pos c12] at h
    cases hu : x.unreadByte with
    | none =>
      rw [hu] at h
      cases h
    | some x0 =>
      rw [hu] at h
      dsimp only at h
      have hu0 := unreadByte_inv x x0 hwf hu
      obtain ⟨ht, te0, y0, ho, he⟩ := afterLex_error _ _ _ _ h
      exact ⟨ht, Or.inr ((lexNumber_inv x0 te0 y0 hu0.1 ho).2.1 err he)⟩
  rw [if_neg c12] at h
  by_cases c13 : c = 47
  · rw [if_pos c13] at h
    obtain ⟨ht, te0, y0, ho, he⟩ := afterLex_error _ _ _ _ h
    exact ⟨ht, Or.inr ((lexComment_inv x te0 y0 hwf ho).2 err he)⟩
  rw [if_neg c13] at h
  simp only [Option.some.injEq, Prod.mk.injEq] at h
  obtain ⟨⟨rfl, rfl⟩, rfl⟩ := h
  exact ⟨rfl, Or.inr rfl⟩

/-- Scan over whitespace and then a byte that is not whitespace is the `switch` at that
byte, in either mode. -/
theorem Scan_skip (WriteJson : List Nat → List Nat) (cap : Bool) (a ws r out : List Nat)
    (c : Nat) (T : FFTok) (k : Nat) (bf : List Nat) (hws : ws.all isWS = true)
    (hc : isWS c = false) :
    ∃ again out2, FFLexer.Scan WriteJson cap (FFLexer.mk (rd a (ws ++ c :: r)) out T k bf)
      = FFLexer.Scan_switch WriteJson cap again c
          (FFLexer.mk (rd (a ++ ws ++ [c]) r) out2 .FFTok_init k bf) := by
  cases cap with
  | true =>
    refine ⟨FFLexer.Scan_loop WriteJson true (r.length + 1), out ++ ws, ?_⟩
    rw [Scan_true_ws WriteJson ws hws, Scan_at WriteJson true _ _ _ c T k bf hc]
    rfl
  | false =>
    refine ⟨FFLexer.Scan_loop WriteJson false (ws ++ c :: r).length, [], ?_⟩
    rw [Scan_false_mk, ReadByteNoWS_rd a ws r c hws hc]

/-- Scan with only whitespace left returns FFTok_eof with `io.EOF`, in either mode. -/
theorem Scan_only_ws (WriteJson : List Nat → List Nat) (cap : Bool) (a ws out : List Nat)
    (T : FFTok) (k : Nat) (bf : List Nat) (hws : ws.all isWS = true) :
    ∃ y, FFLexer.Scan WriteJson cap (FFLexer.mk (rd a ws) out T k bf)
      = some ((.FFTok_eof, some .EOF), y) := by
  cases cap with
  | true =>
    have := Scan_true_ws WriteJson ws hws a [] out T k bf
    rw [List.append_nil] at this
    rw [this]
    unfold FFLexer.Scan
    simp [FFLexer.Scan_loop, ReadByte_rd_nil]
  | false =>
    rw [Scan_false_mk, ReadByteNoWS_rd_eof a ws hws]
    simp

/-- The origin of the errors of Scan. -/
theorem Scan_error_origin (WriteJson : List Nat → List Nat) (cap : Bool) (x : FFLexer)
    (tok : FFTok) (err : GoError) (y : FFLexer) (hwf : x.reader.wf)
    (h : x.Scan WriteJson cap = some ((tok, some err), y)) :
    scanErrorOrigin x.reader.pending tok err := by
  obtain ⟨r, out, T, k, bf⟩ := x
  have hr := wf_eq_rd r hwf
  have hp : r.pending = r.s.drop r.i := rfl
  simp only at hwf ⊢
  rw [hp]
  generalize r.s.take r.i = a at hr
  generalize r.s.drop r.i = b at hr
  subst hr
  obtain ⟨ws, tail, rfl, hws, htail⟩ := split_run isWS b
  rcases tail with _ | ⟨c, rest⟩
  · obtain ⟨y2, h2⟩ := Scan_only_ws WriteJson cap a (ws ++ []) out T k bf (by simpa using hws)
    rw [h2] at h
    simp only [Option.some.injEq, Prod.mk.injEq] at h
    obtain ⟨⟨rfl, rfl⟩, _⟩ := h
    exact Or.inl ⟨rfl, rfl, by simpa using hws⟩
  · have hc : isWS c = false := by simpa [headOk] using htail
    obtain ⟨again, out2, h2⟩ := Scan_skip WriteJson cap a ws rest out c T k bf hws hc
    rw [h2] at h
    obtain ⟨ht, hk⟩ := Scan_switch_error WriteJson cap again c _ tok err y (rd_wf _ _) hc h
    rcases hk with hk | hk
    · subst hk
      exact Or.inr (Or.inr ⟨ht, ws, rest, rfl, hws⟩)
    · exact Or.inr (Or.inl ⟨ht, (kinded_iff err).mp hk⟩)

theorem ownError_not_FFError (op : LexOp) (k : FFErrKind) : op.ownError (.FFError k) = false := by
  cases op <;> rfl

theorem scanned_here (WriteJson : List Nat → List Nat) (cap : Bool) (x : FFLexer) (tok : FFTok)
    (e : GoError) (y : FFLexer) (hwf : x.reader.wf)
    (h : x.Scan WriteJson cap = some ((tok, some e), y)) : x.scanned WriteJson e y :=
  ⟨x, cap, tok, hwf, rfl, le_refl _, h, Scan_error_origin WriteJson cap x tok e y hwf h⟩

theorem scanned_after (WriteJson : List Nat → List Nat) (x y : FFLexer) (lo : Nat) (e : GoError)
    (yf : FFLexer) (hadv : x.Advanced y lo) (hlo : x.reader.i ≤ lo)
    (h : y.scanned WriteJson e yf) : x.scanned WriteJson e yf := by
  obtain ⟨z, cap, tok, hz, hs, hi, hsc, ho⟩ := h
  exact ⟨z, cap, tok, hz, hs.trans hadv.2.1, le_trans (le_trans hlo hadv.2.2) hi, hsc, ho⟩

theorem isWantedColon_of (tok : FFTok) (out : List Nat) (h : tok ≠ .FFTok_colon) :
    (GoError.wanted_token .FFTok_colon tok out).isWantedColon = true := by
  simp [GoError.isWantedColon, h]

theorem isWantedValue_of (want tok : FFTok) (h : tok ≠ want) :
    (GoError.wanted_value want tok).isWantedValue want = true := by
  simp [GoError.isWantedValue, h]

/-- The frame of the value scanners, for their errors: an error of the first call of Scan,
a first token that is not the colon, an error of the second call, or the token of the
second call with no error. -/
theorem two_scans_error (WriteJson : List Nat → List Nat) (x : FFLexer) (hwf : x.reader.wf) :
    (∃ tok e y, x.Scan WriteJson false = some ((tok, some e), y) ∧ x.scanned WriteJson e y) ∨
    (∃ tok y, x.Scan WriteJson false = some ((tok, none), y) ∧ tok ≠ .FFTok_colon) ∨
    (∃ y1 tok e y, x.Scan WriteJson false = some ((.FFTok_colon, none), y1) ∧
      y1.Scan WriteJson false = some ((tok, some e), y) ∧ x.scanned WriteJson e y) ∨
    (∃ y1 tok y, x.Scan WriteJson false = some ((.FFTok_colon, none), y1) ∧
      y1.Scan WriteJson false = some ((tok, none), y)) := by
  rcases two_scans_returns WriteJson x hwf with ⟨tok, e, y, h, _, _⟩ |
    ⟨tok, y, h, _, hne⟩ | ⟨y1, tok, e, y, h, h2, _, _⟩ | ⟨y1, tok, y, h, h2, _⟩
  · exact Or.inl ⟨tok, e, y, h, scanned_here WriteJson false x tok e y hwf h⟩
  · exact Or.inr (Or.inl ⟨tok, y, h, hne⟩)
  · have hadv := (Scan_inv WriteJson false x _ y1 hwf h).1
    exact Or.inr (Or.inr (Or.inl ⟨y1, tok, e, y, h, h2,
      scanned_after WriteJson x y1 _ e _ hadv (le_refl _)
        (scanned_here WriteJson false y1 tok e y hadv.1 h2)⟩))
  · exact Or.inr (Or.inr (Or.inr ⟨y1, tok, y, h, h2⟩))

theorem ScanIntValue_error (WriteJson : List Nat → List Nat) (bitSize : Nat) (x : FFLexer)
    (e : GoError) (y : FFLexer) (hwf : x.reader.wf)
    (h : x.ScanIntValue WriteJson bitSize = some (.error e, y)) :
    (LexOp.ScanIntValue bitSize).ownError e = true ∨ x.scanned WriteJson e y := by
  unfold FFLexer.ScanIntValue at h
  rcases two_scans_error WriteJson x hwf with ⟨tok, e1, y1, h1, hs⟩ |
    ⟨tok, y1, h1, hne⟩ | ⟨y1, tok, e1, y2, h1, h2, hs⟩ | ⟨y1, tok, y2, h1, h2⟩
  · rw [h1] at h
    simp only [Option.some.injEq, Prod.mk.injEq, Except.error.injEq] at h
    obtain ⟨rfl, rfl⟩ := h
    exact Or.inr hs
  · rw [h1] at h
    dsimp only at h
    rw [if_pos hne] at h
    simp only [Option.some.injEq, Prod.mk.injEq, Except.error.injEq] at h
    rw [← h.1]
    simp [LexOp.ownError, isWantedColon_of _ _ hne]
  · rw [h1] at h
    dsimp only at h
    rw [if_neg (fun hn => hn rfl), h2] at h
    simp only [Option.some.injEq, Prod.mk.injEq, Except.error.injEq] at h
    obtain ⟨rfl, rfl⟩ := h
    exact Or.inr hs
  · rw [h1] at h
    dsimp only at h
    rw [if_neg (fun hn => hn rfl), h2] at h
    dsimp only at h
    by_cases ht : tok ≠ .FFTok_integer
    · rw [if_pos ht] at h
      simp only [Option.some.injEq, Prod.mk.injEq, Except.error.injEq] at h
      rw [← h.1]
      simp [LexOp.ownError, isWantedValue_of _ _ ht]
    · rw [if_neg ht] at h
      simp only [Option.some.injEq, Prod.mk.injEq] at h
      rw [ParseInt_err _ _ _ _ h.1]
      exact Or.inl rfl

theorem ScanUintValue_error (WriteJson : List Nat → List Nat) (bitSize : Nat) (x : FFLexer)
    (e : GoError) (y : FFLexer) (hwf : x.reader.wf)
    (h : x.ScanUintValue WriteJson bitSize = some (.error e, y)) :
    (LexOp.ScanUintValue bitSize).ownError e = true ∨ x.scanned WriteJson e y := by
  unfold FFLexer.ScanUintValue at h
  rcases two_scans_error WriteJson x hwf with ⟨tok, e1, y1, h1, hs⟩ |
    ⟨tok, y1, h1, hne⟩ | ⟨y1, tok, e1, y2, h1, h2, hs⟩ | ⟨y1, tok, y2, h1, h2⟩
  · rw [h1] at h
    simp only [Option.some.injEq, Prod.mk.injEq, Except.error.injEq] at h
    obtain ⟨rfl, rfl⟩ := h
    exact Or.inr hs
  · rw [h1] at h
    dsimp only at h
    rw [if_pos hne] at h
    simp only [Option.some.injEq, Prod.mk.injEq, Except.error.injEq] at h
    rw [← h.1]
    simp [LexOp.ownError, isWantedColon_of _ _ hne]
  · rw [h1] at h
    dsimp only at h
    rw [if_neg (fun hn => hn rfl), h2] at h
    simp only [Option.some.injEq, Prod.mk.injEq, Except.error.injEq] at h
    obtain ⟨rfl, rfl⟩ := h
    exact Or.inr hs
  · rw [h1] at h
    dsimp only at h
    rw [if_neg (fun hn => hn rfl), h2] at h
    dsimp only at h
    by_cases ht : tok ≠ .FFTok_integer
    · rw [if_pos ht] at h
      simp only [Option.some.injEq, Prod.mk.injEq, Except.error.injEq] at h
      rw [← h.1]
      simp [LexOp.ownError, isWantedValue_of _ _ ht]
    · rw [if_neg ht] at h
      simp only [Option.some.injEq, Prod.mk.injEq] at h
      rw [ParseUint_err _ _ _ _ h.1]
      exact Or.inl rfl

theorem ScanStringValue_error (WriteJson : List Nat → List Nat) (x : FFLexer)
    (e : GoError) (y : FFLexer) (hwf : x.reader.wf)
    (h : x.ScanStringValue WriteJson = some (.error e, y)) :
    LexOp.ScanStringValue.ownError e = true ∨ x.scanned WriteJson e y := by
  unfold FFLexer.ScanStringValue at h
  rcases two_scans_error WriteJson x hwf with ⟨tok, e1, y1, h1, hs⟩ |
    ⟨tok, y1, h1, hne⟩ | ⟨y1, tok, e1, y2, h1, h2, hs⟩ | ⟨y1, tok, y2, h1, h2⟩
  · rw [h1] at h
    simp only [Option.some.injEq, Prod.mk.injEq, Except.error.injEq] at h
    obtain ⟨rfl, rfl⟩ := h
    exact Or.inr hs
  · rw [h1] at h
    dsimp only at h
    rw [if_pos hne] at h
    simp only [Option.some.injEq, Prod.mk.injEq, Except.error.injEq] at h
    rw [← h.1]
    simp [LexOp.ownError, isWantedColon_of _ _ hne]
  · rw [h1] at h
    dsimp only at h
    rw [if_neg (fun hn => hn rfl), h2] at h
    simp only [Option.some.injEq, Prod.mk.injEq, Except.error.injEq] at h
    obtain ⟨rfl, rfl⟩ := h
    exact Or.inr hs
  · rw [h1] at h
    dsimp only at h
    rw [if_neg (fun hn => hn rfl), h2] at h
    dsimp only at h
    by_cases ht : tok ≠ .FFTok_string
    · rw [if_pos ht] at h
      simp only [Option.some.injEq, Prod.mk.injEq, Except.error.injEq] at h
      rw [← h.1]
      simp [LexOp.ownError, isWantedValue_of _ _ ht]
    · rw [if_neg ht] at h
      simp only [Option.some.injEq, Prod.mk.injEq] at h
      cases h.1

theorem ScanBoolValue_error (WriteJson : List Nat → List Nat) (bitSize : Nat) (x : FFLexer)
    (e : GoError) (y : FFLexer) (hwf : x.reader.wf)
    (h : x.ScanBoolValue WriteJson bitSize = some (.error e, y)) :
    (LexOp.ScanBoolValue bitSize).ownError e = true ∨ x.scanned WriteJson e y := by
  unfold FFLexer.ScanBoolValue at h
  rcases two_scans_error WriteJson x hwf with ⟨tok, e1, y1, h1, hs⟩ |
    ⟨tok, y1, h1, hne⟩ | ⟨y1, tok, e1, y2, h1, h2, hs⟩ | ⟨y1, tok, y2, h1, h2⟩
  · rw [h1] at h
    simp only [Option.some.injEq, Prod.mk.injEq, Except.error.injEq] at h
    obtain ⟨rfl, rfl⟩ := h
    exact Or.inr hs
  · rw [h1] at h
    dsimp only at h
    rw [if_pos hne] at h
    simp only [Option.some.injEq, Prod.mk.injEq, Except.error.injEq] at h
    rw [← h.1]
    simp [LexOp.ownError, isWantedColon_of _ _ hne]
  · rw [h1] at h
    dsimp only at h
    rw [if_neg (fun hn => hn rfl), h2] at h
    simp only [Option.some.injEq, Prod.mk.injEq, Except.error.injEq] at h
    obtain ⟨rfl, rfl⟩ := h
    exact Or.inr hs
  · rw [h1] at h
    dsimp only at h
    rw [if_neg (fun hn => hn rfl), h2] at h
    dsimp only at h
    by_cases ht : tok ≠ .FFTok_bool
    · rw [if_pos ht] at h
      simp only [Option.some.injEq, Prod.mk.injEq, Except.error.injEq] at h
      rw [← h.1]
      simp [LexOp.ownError, isWantedValue_of _ _ ht]
    · rw [if_neg ht] at h
      by_cases h3 : true_bytes = y2.outputbuf
      · rw [if_pos h3] at h
        simp only [Option.some.injEq, Prod.mk.injEq] at h
        cases h.1
      · rw [if_neg h3] at h
        by_cases h4 : false_bytes = y2.outputbuf
        · rw [if_pos h4] at h
          simp only [Option.some.injEq, Prod.mk.injEq] at h
          cases h.1
        · rw [if_neg h4] at h
          simp only [Option.some.injEq, Prod.mk.injEq, Except.error.injEq] at h
          rw [← h.1]
          exact Or.inl rfl

theorem ScanFloatValue_error {F : Type} (ParseFloat : List Nat → Nat → Except GoError F)
    (WriteJson : List Nat → List Nat) (x : FFLexer)
    (e : GoError) (y : FFLexer) (hwf : x.reader.wf)
    (h : x.ScanFloatValue ParseFloat WriteJson = some (.error e, y)) :
    LexOp.ScanFloatValue.ownError e = true ∨ (∃ b, ParseFloat b 64 = .error e) ∨
      x.scanned WriteJson e y := by
  unfold FFLexer.ScanFloatValue at h
  rcases two_scans_error WriteJson x hwf with ⟨tok, e1, y1, h1, hs⟩ |
    ⟨tok, y1, h1, hne⟩ | ⟨y1, tok, e1, y2, h1, h2, hs⟩ | ⟨y1, tok, y2, h1, h2⟩
  · rw [h1] at h
    simp only [Option.some.injEq, Prod.mk.injEq, Except.error.injEq] at h
    obtain ⟨rfl, rfl⟩ := h
    exact Or.inr (Or.inr hs)
  · rw [h1] at h
    dsimp only at h
    rw [if_pos hne] at h
    simp only [Option.some.injEq, Prod.mk.injEq, Except.error.injEq] at h
    rw [← h.1]
    simp [LexOp.ownError, isWantedColon_of _ _ hne]
  · rw [h1] at h
    dsimp only at h
    rw [if_neg (fun hn => hn rfl), h2] at h
    simp only [Option.some.injEq, Prod.mk.injEq, Except.error.injEq] at h
    obtain ⟨rfl, rfl⟩ := h
    exact Or.inr (Or.inr hs)
  · rw [h1] at h
    dsimp only at h
    rw [if_neg (fun hn => hn rfl), h2] at h
    dsimp only at h
    by_cases ht : tok ≠ .FFTok_double
    · rw [if_pos ht] at h
      simp only [Option.some.injEq, Prod.mk.injEq, Except.error.injEq] at h
      rw [← h.1]
      simp [LexOp.ownError, isWantedValue_of _ _ ht]
    · rw [if_neg ht] at h
      simp only [Option.some.injEq, Prod.mk.injEq] at h
      exact Or.inr (Or.inl ⟨_, h.1⟩)

theorem ScanToValue_error (WriteJson : List Nat → List Nat) (x : FFLexer) (tok : FFTok)
    (e : GoError) (y : FFLexer) (hwf : x.reader.wf)
    (h : x.ScanToValue WriteJson = some ((tok, some e), y)) :
    LexOp.ScanToValue.ownError e = true ∨ x.scanned WriteJson e y := by
  unfold FFLexer.ScanToValue at h
  rcases two_scans_error WriteJson x hwf with ⟨tok1, e1, y1, h1, hs⟩ |
    ⟨tok1, y1, h1, hne⟩ | ⟨y1, tok1, e1, y2, h1, h2, hs⟩ | ⟨y1, tok1, y2, h1, h2⟩
  · rw [h1] at h
    simp only [Option.some.injEq, Prod.mk.injEq] at h
    obtain ⟨⟨_, rfl⟩, rfl⟩ := h
    exact Or.inr hs
  · rw [h1] at h
    dsimp only at h
    rw [if_pos hne] at h
    simp only [Option.some.injEq, Prod.mk.injEq] at h
    rw [← h.1.2]
    simp [LexOp.ownError, isWantedColon_of _ _ hne]
  · rw [h1] at h
    dsimp only at h
    rw [if_neg (fun hn => hn rfl), h2] at h
    simp only [Option.some.injEq, Prod.mk.injEq] at h
    obtain ⟨⟨_, rfl⟩, rfl⟩ := h
    exact Or.inr hs
  · rw [h1] at h
    dsimp only at h
    rw [if_neg (fun hn => hn rfl), h2] at h
    dsimp only at h
    by_cases ht : tok1 = .FFTok_left_brace ∨ tok1 = .FFTok_left_bracket ∨
        tok1 = .FFTok_integer ∨ tok1 = .FFTok_double ∨ tok1 = .FFTok_string ∨
        tok1 = .FFTok_bool ∨ tok1 = .FFTok_null
    · rw [if_pos ht] at h
      simp only [Option.some.injEq, Prod.mk.injEq] at h
      cases h.1.2
    · rw [if_neg ht] at h
      simp only [Option.some.injEq, Prod.mk.injEq] at h
      rw [← h.1.2]
      left
      simp only [not_or] at ht
      simp [LexOp.ownError, GoError.isWantedValueToken, ht]

theorem SkipField_loop_error (WriteJson : List Nat → List Nat) (start : FFTok) :
    ∀ (fuel depth : Nat) (x : FFLexer) (e : GoError) (y : FFLexer), x.reader.wf →
      FFLexer.SkipField_loop WriteJson start fuel depth x = some (some e, y) →
      e = .unexpected_EOF ∨ x.scanned WriteJson e y := by
  intro fuel
  induction fuel with
  | zero =>
    intro depth x e y _ h
    cases h
  | succ fuel ih =>
    intro depth x e y hwf h
    rw [FFLexer.SkipField_loop] at h
    cases hs : x.Scan WriteJson false with
    | none =>
      rw [hs] at h
      cases h
    | some p =>
      obtain ⟨⟨tok, eo⟩, y1⟩ := p
      rw [hs] at h
      cases eo with
      | some e1 =>
        simp only [Option.some.injEq, Prod.mk.injEq] at h
        obtain ⟨rfl, rfl⟩ := h
        exact Or.inr (scanned_here WriteJson false x tok e1 y1 hwf hs)
      | none =>
        dsimp only at h
        have hadv := (Scan_inv WriteJson false x _ y1 hwf hs).1
        have next : ∀ d, FFLexer.SkipField_loop WriteJson start fuel d y1 = some (some e, y) →
            e = .unexpected_EOF ∨ x.scanned WriteJson e y := by
          intro d hd
          rcases ih d y1 e y hadv.1 hd with h2 | h2
          · exact Or.inl h2
          · exact Or.inr (scanned_after WriteJson x y1 _ e _ hadv (le_refl _) h2)
        by_cases h1 : tok = .FFTok_eof
        · rw [if_pos h1] at h
          simp only [Option.some.injEq, Prod.mk.injEq] at h
          exact Or.inl h.1.symm
        · rw [if_neg h1] at h
          by_cases h2 : tok = endTok start
          · rw [if_pos h2] at h
            by_cases h3 : depth - 1 = 0
            · rw [if_pos h3] at h
              simp only [Option.some.injEq, Prod.mk.injEq] at h
              cases h.1
            · rw [if_neg h3] at h
              exact next _ h
          · rw [if_neg h2] at h
            by_cases h4 : tok = start
            · rw [if_pos h4] at h
              exact next _ h
            · rw [if_neg h4] at h
              exact next _ h

theorem captureField_loop_error (WriteJson : List Nat → List Nat) (start : FFTok) :
    ∀ (fuel depth : Nat) (x : FFLexer) (e : GoError) (y : FFLexer), x.reader.wf →
      FFLexer.captureField_loop WriteJson start fuel depth x = some (.error e, y) →
      e = .unexpected_EOF ∨ x.scanned WriteJson e y := by
  intro fuel
  induction fuel with
  | zero =>
    intro depth x e y _ h
    cases h
  | succ fuel ih =>
    intro depth x e y hwf h
    rw [FFLexer.captureField_loop] at h
    cases hs : x.Scan WriteJson true with
    | none =>
      rw [hs] at h
      cases h
    | some p =>
      obtain ⟨⟨tok, eo⟩, y1⟩ := p
      rw [hs] at h
      cases eo with
      | some e1 =>
        simp only [Option.some.injEq, Prod.mk.injEq, Except.error.injEq] at h
        obtain ⟨rfl, rfl⟩ := h
        exact Or.inr (scanned_here WriteJson true x tok e1 y1 hwf hs)
      | none =>
        dsimp only at h
        have hadv := (Scan_inv WriteJson true x _ y1 hwf hs).1
        have next : ∀ d,
            FFLexer.captureField_loop WriteJson start fuel d y1 = some (.error e, y) →
            e = .unexpected_EOF ∨ x.scanned WriteJson e y := by
          intro d hd
          rcases ih d y1 e y hadv.1 hd with h2 | h2
          · exact Or.inl h2
          · exact Or.inr (scanned_after WriteJson x y1 _ e _ hadv (le_refl _) h2)
        by_cases h1 : tok = .FFTok_eof
        · rw [if_pos h1] at h
          simp only [Option.some.injEq, Prod.mk.injEq, Except.error.injEq] at h
          exact Or.inl h.1.symm
        · rw [if_neg h1] at h
          by_cases h2 : tok = endTok start
          · rw [if_pos h2] at h
            by_cases h3 : depth - 1 = 0
            · rw [if_pos h3] at h
              simp only [Option.some.injEq, Prod.mk.injEq] at h
              cases h.1
            · rw [if_neg h3] at h
              exact next _ h
          · rw [if_neg h2] at h
            by_cases h4 : tok = start
            · rw [if_pos h4] at h
              exact next _ h
            · rw [if_neg h4] at h
              exact next _ h

theorem SkipField_error (WriteJson : List Nat → List Nat) (start : FFTok) (x : FFLexer)
    (e : GoError) (y : FFLexer) (hwf : x.reader.wf)
    (h : x.SkipField WriteJson start = some (some e, y)) :
    (LexOp.SkipField start).ownError e = true ∨ x.scanned WriteJson e y := by
  unfold FFLexer.SkipField at h
  by_cases h1 : start = .FFTok_left_brace ∨ start = .FFTok_left_bracket
  · rw [if_pos h1] at h
    rcases SkipField_loop_error WriteJson start _ 1 x e y hwf h with h2 | h2
    · rw [h2]
      exact Or.inl rfl
    · exact Or.inr h2
  · rw [if_neg h1] at h
    by_cases h2 : start = .FFTok_bool ∨ start = .FFTok_integer ∨ start = .FFTok_null ∨
        start = .FFTok_double ∨ start = .FFTok_string
    · rw [if_pos h2] at h
      simp only [Option.some.injEq, Prod.mk.injEq] at h
      cases h.1
    · rw [if_neg h2] at h
      simp only [Option.some.injEq, Prod.mk.injEq] at h
      rw [← h.1]
      left
      simp [LexOp.ownError]

theorem CaptureField_error (WriteJson : List Nat → List Nat) (start : FFTok) (x : FFLexer)
    (e : GoError) (y : FFLexer) (hwf : x.reader.wf)
    (h : x.CaptureField WriteJson start = some (.error e, y)) :
    (LexOp.CaptureField start).ownError e = true ∨ x.scanned WriteJson e y := by
  unfold FFLexer.CaptureField FFLexer.captureField at h
  by_cases h1 : start = .FFTok_left_brace ∨ start = .FFTok_left_bracket
  · rw [if_pos h1] at h
    have key : ∀ c, FFLexer.captureField_loop WriteJson start
        ((x.WriteByte c).reader.l - (x.WriteByte c).reader.i + 1) 1 (x.WriteByte c)
          = some (.error e, y) →
        (LexOp.CaptureField start).ownError e = true ∨ x.scanned WriteJson e y := by
      intro c hc
      rcases captureField_loop_error WriteJson start _ 1 (x.WriteByte c) e y hwf hc with h2 | h2
      · rw [h2]
        exact Or.inl rfl
      · exact Or.inr (scanned_after WriteJson x (x.WriteByte c) _ e _ ⟨hwf, rfl, le_refl _⟩
          (le_refl _) h2)
    by_cases hb : start = .FFTok_left_bracket
    · simp only [hb, if_true] at h
      exact hb ▸ key 123 (hb ▸ h)
    · simp only [hb, if_false] at h
      exact key 91 h
  · rw [if_neg h1] at h
    by_cases h2 : start = .FFTok_bool ∨ start = .FFTok_integer ∨ start = .FFTok_null ∨
        start = .FFTok_double
    · rw [if_pos h2] at h
      simp only [Option.some.injEq, Prod.mk.injEq] at h
      cases h.1
    · rw [if_neg h2] at h
      by_cases h3 : start = .FFTok_string
      · rw [if_pos h3] at h
        simp only [Option.some.injEq, Prod.mk.injEq] at h
        cases h.1
      · rw [if_neg h3] at h
        simp only [Option.some.injEq, Prod.mk.injEq, Except.error.injEq] at h
        rw [← h.1]
        left
        simp [LexOp.ownError]

/-- The origin of the error of an operation: one of its own errors, the error of
ParseFloat, or an error that a call of Scan has returned. -/
theorem LexOp_run_error {F : Type} (ParseFloat : List Nat → Nat → Except GoError F)
    (WriteJson : List Nat → List Nat) (op : LexOp) (x : FFLexer) (res : LexResult F)
    (y : FFLexer) (err : GoError) (hwf : x.reader.wf)
    (h : op.run ParseFloat WriteJson x = some (res, y)) (he : res.err = some err) :
    op.ownError err = true ∨ (op = .ScanFloatValue ∧ ∃ b, ParseFloat b 64 = .error err) ∨
      x.scanned WriteJson err y := by
  have exc : ∀ {α : Type} (v : Except GoError α) (e : GoError), exceptErr v = some e →
      v = .error e := by
    intro α v e h
    cases v with
    | error e2 =>
      simp only [exceptErr, Option.some.injEq] at h
      rw [h]
    | ok a => cases h
  have lift : op.ownError err = true ∨ x.scanned WriteJson err y →
      op.ownError err = true ∨ (op = .ScanFloatValue ∧ ∃ b, ParseFloat b 64 = .error err) ∨
        x.scanned WriteJson err y := by
    intro h
    rcases h with h | h
    · exact Or.inl h
    · exact Or.inr (Or.inr h)
  cases op with
  | Scan cap =>
    simp only [LexOp.run, Option.map_eq_some', Prod.mk.injEq] at h
    obtain ⟨⟨⟨tok, e⟩, y1⟩, h1, rfl, rfl⟩ := h
    simp only [LexResult.err] at he
    subst he
    exact Or.inr (Or.inr (scanned_here WriteJson cap x tok err y1 hwf h1))
  | ScanIntValue bitSize =>
    simp only [LexOp.run, Option.map_eq_some', Prod.mk.injEq] at h
    obtain ⟨⟨v, y1⟩, h1, rfl, rfl⟩ := h
    rw [exc v err he] at h1
    exact lift (ScanIntValue_error WriteJson bitSize x err y1 hwf h1)
  | ScanUintValue bitSize =>
    simp only [LexOp.run, Option.map_eq_some', Prod.mk.injEq] at h
    obtain ⟨⟨v, y1⟩, h1, rfl, rfl⟩ := h
    rw [exc v err he] at h1
    exact lift (ScanUintValue_error WriteJson bitSize x err y1 hwf h1)
  | ScanStringValue =>
    simp only [LexOp.run, Option.map_eq_some', Prod.mk.injEq] at h
    obtain ⟨⟨v, y1⟩, h1, rfl, rfl⟩ := h
    rw [exc v err he] at h1
    exact lift (ScanStringValue_error WriteJson x err y1 hwf h1)
  | ScanBoolValue bitSize =>
    simp only [LexOp.run, Option.map_eq_some', Prod.mk.injEq] at h
    obtain ⟨⟨v, y1⟩, h1, rfl, rfl⟩ := h
    rw [exc v err he] at h1
    exact lift (ScanBoolValue_error WriteJson bitSize x err y1 hwf h1)
  | ScanFloatValue =>
    simp only [LexOp.run, Option.map_eq_some', Prod.mk.injEq] at h
    obtain ⟨⟨v, y1⟩, h1, rfl, rfl⟩ := h
    rw [exc v err he] at h1
    rcases ScanFloatValue_error ParseFloat WriteJson x err y1 hwf h1 with h2 | h2 | h2
    · exact Or.inl h2
    · exact Or.inr (Or.inl ⟨rfl, h2⟩)
    · exact Or.inr (Or.inr h2)
  | ScanToValue =>
    simp only [LexOp.run, Option.map_eq_some', Prod.mk.injEq] at h
    obtain ⟨⟨⟨tok, e⟩, y1⟩, h1, rfl, rfl⟩ := h
    simp only [LexResult.err] at he
    subst he
    exact lift (ScanToValue_error WriteJson x tok err y1 hwf h1)
  | CaptureField start =>
    simp only [LexOp.run, Option.map_eq_some', Prod.mk.injEq] at h
    obtain ⟨⟨v, y1⟩, h1, rfl, rfl⟩ := h
    rw [exc v err he] at h1
    exact lift (CaptureField_error WriteJson start x err y1 hwf h1)
  | SkipField start =>
    simp only [LexOp.run, Option.map_eq_some', Prod.mk.injEq] at h
    obtain ⟨⟨v, y1⟩, h1, rfl, rfl⟩ := h
    simp only [LexResult.err] at he
    subst he
    exact lift (SkipField_error WriteJson start x err y1 hwf h1)

/-- C1, as the code has it: `-6` is a valid JSON number, and on a lexer whose input is
exactly `-6` Scan(false) returns FFTok_error with the error FFErr_io, not FFTok_integer;
the buffered bytes are `-6`. -/
theorem Scan_minus_six_alone_is_io_error :
    JNumber.wf ⟨true, [54], none, none⟩ = true ∧
    JNumber.render ⟨true, [54], none, none⟩ = [45, 54] ∧
    (NewFFLexer [45, 54]).Scan (fun b => b) false
      = some ((.FFTok_error, some (.FFError .FFErr_io)),
          { reader := { s := [45, 54], i := 2, l := 2 }, outputbuf := [45, 54],
            Token := .FFTok_init, lastCurrentChar := 0, buf := [] }) := by
  decide

/-- C1, amended: for every valid JSON number `s`, Scan(false) on a lexer whose input is
exactly `s` returns FFTok_error with the error FFErr_io, with the output buffer equal to
`s` and the cursor at the end of the input; and when `s` is followed by a byte that cannot
continue the number, it returns the one token of the matching kind (FFTok_integer without
fraction and exponent, FFTok_double otherwise) with a nil error, the output buffer equal
to `s` and the cursor on that byte. -/
theorem Scan_number_alone_and_followed (WriteJson : List Nat → List Nat) (n : JNumber)
    (hn : n.wf = true) :
    (NewFFLexer n.render).Scan WriteJson false
        = some ((.FFTok_error, some (.FFError .FFErr_io)),
            { reader := { s := n.render, i := n.render.length, l := n.render.length },
              outputbuf := n.render, Token := .FFTok_init, lastCurrentChar := 0, buf := [] }) ∧
    ∀ (d : Nat) (r : List Nat), n.stoppedBy d = true →
      (NewFFLexer (n.render ++ d :: r)).Scan WriteJson false
        = some ((n.kind, none),
            { reader := { s := n.render ++ d :: r, i := n.render.length,
                          l := (n.render ++ d :: r).length },
              outputbuf := n.render, Token := n.kind, lastCurrentChar := 0, buf := [] }) := by
  constructor
  · have h := Scan_number WriteJson n hn [] [] [] [] .FFTok_init 0 [] rfl rfl
    simp only [List.nil_append, List.append_nil] at h
    have e : NewFFLexer n.render = FFLexer.mk (rd [] n.render) [] .FFTok_init 0 [] := by
      simp [NewFFLexer, newffReader, rd]
    rw [e, h]
    simp [numberResult, rd]
  · intro d r hd
    have h := Scan_number WriteJson n hn [] [] (d :: r) [] .FFTok_init 0 [] rfl hd
    simp only [List.nil_append] at h
    have e : NewFFLexer (n.render ++ d :: r)
        = FFLexer.mk (rd [] (n.render ++ d :: r)) [] .FFTok_init 0 [] := by
      simp [NewFFLexer, newffReader, rd]
    rw [e, h]
    simp [numberResult, rd]

/-- The theorem `Scan_number_alone_and_followed` at the number `-6`, alone and followed by
a space. -/
theorem Scan_number_alone_and_followed_witness :
    JNumber.wf ⟨true, [54], none, none⟩ = true ∧
    (NewFFLexer [45, 54]).Scan (fun b => b) false
      = some ((.FFTok_error, some (.FFError .FFErr_io)),
          { reader := { s := [45, 54], i := 2, l := 2 }, outputbuf := [45, 54],
            Token := .FFTok_init, lastCurrentChar := 0, buf := [] }) ∧
    (NewFFLexer [45, 54, 32]).Scan (fun b => b) false
      = some ((.FFTok_integer, none),
          { reader := { s := [45, 54, 32], i := 2, l := 3 }, outputbuf := [45, 54],
            Token := .FFTok_integer, lastCurrentChar := 0, buf := [] }) :=
  ⟨by decide,
   (Scan_number_alone_and_followed (fun b => b) ⟨true, [54], none, none⟩ (by decide)).1,
   (Scan_number_alone_and_followed (fun b => b) ⟨true, [54], none, none⟩ (by decide)).2 32 []
     (by decide)⟩

/-- C2: number lexing is complete when a terminator follows.  For every valid JSON number
`n`, every byte `d` such that `n` followed by `d` is not the beginning of any valid JSON
number, every rest `r` of the input and every lexer at the start of the input
`n ++ [d] ++ r`, whatever its output buffer holds, Scan(false) returns a nil error and the
token FFTok_integer when `n` has neither fraction nor exponent and FFTok_double
otherwise, leaves exactly `n` in the output buffer and leaves the cursor at the index
len(n), on `d`. -/
theorem Scan_number_complete (WriteJson : List Nat → List Nat) (n : JNumber) (d : Nat)
    (r : List Nat) (ffl : FFLexer) (hn : n.wf = true)
    (hd : ∀ (m : JNumber) (t : List Nat), m.wf = true → m.render ≠ n.render ++ d :: t)
    (hffl : ffl.reader = newffReader (n.render ++ d :: r)) :
    ffl.Scan WriteJson false
      = some ((if n.frac = none ∧ n.exp = none then .FFTok_integer else .FFTok_double, none),
          { ffl with
            reader := { s := n.render ++ d :: r, i := n.render.length,
                        l := (n.render ++ d :: r).length },
            outputbuf := n.render,
            Token := if n.frac = none ∧ n.exp = none then .FFTok_integer else .FFTok_double }) := by
  have hs := stoppedBy_of_no_longer_number n hn d hd
  obtain ⟨reader, out, T, k, bf⟩ := ffl
  simp only at hffl
  subst hffl
  have h := Scan_number WriteJson n hn [] [] (d :: r) out T k bf rfl hs
  simp only [List.nil_append] at h
  have e : newffReader (n.render ++ d :: r) = rd [] (n.render ++ d :: r) := by
    simp [newffReader, rd]
  rw [e, h]
  have hk : n.kind = if n.frac = none ∧ n.exp = none then .FFTok_integer else .FFTok_double := by
    cases hf : n.frac <;> cases he : n.exp <;> simp [JNumber.kind, hf, he]
  simp [numberResult, rd, hk]

/-- The theorem `Scan_number_complete` on the input `01 `: the number `0` followed by the
byte `1`, which cannot continue it. -/
theorem Scan_number_complete_witness :
    JNumber.wf ⟨false, [48], none, none⟩ = true ∧
    (∀ (m : JNumber) (t : List Nat), m.wf = true →
      m.render ≠ JNumber.render ⟨false, [48], none, none⟩ ++ 49 :: t) ∧
    (NewFFLexer [48, 49, 32]).Scan (fun b => b) false
      = some ((.FFTok_integer, none),
          { reader := { s := [48, 49, 32], i := 1, l := 3 }, outputbuf := [48],
            Token := .FFTok_integer, lastCurrentChar := 0, buf := [] }) := by
  have hd : ∀ (m : JNumber) (t : List Nat), m.wf = true →
      m.render ≠ JNumber.render ⟨false, [48], none, none⟩ ++ 49 :: t := by
    intro m t hm he
    obtain ⟨minus, int, frac, exp⟩ := m
    simp only [JNumber.wf, Bool.and_eq_true] at hm
    obtain ⟨⟨hint, hfrac⟩, hexp⟩ := hm
    cases minus with
    | true => simp [JNumber.render, renderFrac, renderExp] at he
    | false =>
      cases int with
      | nil => simp [intPartOk] at hint
      | cons c0 ds0 =>
        simp only [JNumber.render, renderFrac, renderExp, Bool.false_eq_true, if_false,
          List.nil_append, List.cons_append, List.append_nil, List.cons.injEq] at he
        obtain ⟨rfl, he⟩ := he
        simp only [intPartOk, Bool.or_eq_true, Bool.and_eq_true, beq_iff_eq,
          decide_eq_true_eq] at hint
        rcases hint with ⟨_, rfl⟩ | ⟨⟨h1, _⟩, _⟩
        · cases frac with
          | some fs => simp [renderFrac] at he
          | none =>
            cases exp with
            | none => simp [renderFrac, renderExp] at he
            | some x =>
              obtain ⟨e, sign, ds⟩ := x
              simp only [expOk, Bool.and_eq_true, Bool.or_eq_true, beq_iff_eq] at hexp
              have he1 := hexp.1.1.1
              cases sign <;> simp [renderFrac, renderExp] at he <;> omega
        · omega
  exact ⟨by decide, hd,
    Scan_number_complete (fun b => b) ⟨false, [48], none, none⟩ 49 [32] (NewFFLexer [48, 49, 32])
      (by decide) hd rfl⟩

/-- C3: number lexing is sound.  For every lexer (with a reader as newffReader and the
methods leave it) and every input, if Scan(false) returns FFTok_integer or FFTok_double
with a nil error, then the output buffer is a text of the JSON number grammar (so none of
`-`, `1.`, `1e`, `1e+`, `-.5`), it is the run of input bytes consumed from the first
non-whitespace byte on, and the token is FFTok_integer exactly when that text contains no
`.`, `e` or `E`. -/
theorem Scan_number_sound (WriteJson : List Nat → List Nat) (ffl ffl' : FFLexer) (tok : FFTok)
    (hwf : ffl.reader.wf)
    (h : ffl.Scan WriteJson false = some ((tok, none), ffl'))
    (hk : tok = .FFTok_integer ∨ tok = .FFTok_double) :
    (∃ (n : JNumber) (ws tail : List Nat), n.wf = true ∧ ws.all isWS = true ∧
      ffl'.outputbuf = n.render ∧
      ffl.reader.s.drop ffl.reader.i = ws ++ n.render ++ tail ∧
      ffl'.reader = { ffl.reader with i := ffl.reader.i + ws.length + n.render.length }) ∧
    ffl'.outputbuf ∉ [[45], [49, 46], [49, 101], [49, 101, 43], [45, 46, 53]] ∧
    (tok = .FFTok_integer ↔
      (46 ∉ ffl'.outputbuf ∧ 101 ∉ ffl'.outputbuf ∧ 69 ∉ ffl'.outputbuf)) := by
  obtain ⟨reader, out, T, k, bf⟩ := ffl
  simp only at hwf
  have hr := wf_eq_rd reader hwf
  rw [hr] at h
  obtain ⟨n, ws, tail, hn, hws, hb, rfl, rfl⟩ := Scan_number_ok WriteJson _ _ out T k bf tok ffl' h hk
  refine ⟨⟨n, ws, tail, hn, hws, rfl, by simp [hb], ?_⟩, render_not_incomplete n hn,
    kind_integer_iff n hn⟩
  obtain ⟨s, i, l⟩ := reader
  obtain ⟨h1, h2⟩ := hwf
  simp only at h1 h2 hb
  subst h1
  have hs : s = s.take i ++ (ws ++ (n.render ++ tail)) := by
    rw [← hb, List.take_append_drop]
  have hl := congrArg List.length hs
  simp only [List.length_append, List.length_take] at hl
  simp only [rd, ffReader.mk.injEq, List.length_append, List.length_take, List.append_assoc]
  exact ⟨hs.symm, by omega, by omega⟩

/-- The theorem `Scan_number_sound` on the input ` -6.5e3,` scanned by a new lexer. -/
theorem Scan_number_sound_witness :
    (NewFFLexer [32, 45, 54, 46, 53, 101, 51, 44]).reader.wf ∧
    (NewFFLexer [32, 45, 54, 46, 53, 101, 51, 44]).Scan (fun b => b) false
      = some ((.FFTok_double, none),
          { reader := { s := [32, 45, 54, 46, 53, 101, 51, 44], i := 7, l := 8 },
            outputbuf := [45, 54, 46, 53, 101, 51], Token := .FFTok_double,
            lastCurrentChar := 0, buf := [] }) ∧
    ((∃ (n : JNumber) (ws tail : List Nat), n.wf = true ∧ ws.all isWS = true ∧
      [45, 54, 46, 53, 101, 51] = n.render ∧
      [32, 45, 54, 46, 53, 101, 51, 44] = ws ++ n.render ++ tail ∧
      ({ s := [32, 45, 54, 46, 53, 101, 51, 44], i := 7, l := 8 } : ffReader)
        = { s := [32, 45, 54, 46, 53, 101, 51, 44], i := 0 + ws.length + n.render.length, l := 8 }) ∧
    [45, 54, 46, 53, 101, 51] ∉ [[45], [49, 46], [49, 101], [49, 101, 43], [45, 46, 53]] ∧
    (FFTok.FFTok_double = FFTok.FFTok_integer ↔
      (46 ∉ [45, 54, 46, 53, 101, 51] ∧ 101 ∉ [45, 54, 46, 53, 101, 51] ∧
        69 ∉ [45, 54, 46, 53, 101, 51]))) :=
  ⟨by decide, by decide,
    Scan_number_sound (fun b => b) (NewFFLexer [32, 45, 54, 46, 53, 101, 51, 44])
      { reader := { s := [32, 45, 54, 46, 53, 101, 51, 44], i := 7, l := 8 },
        outputbuf := [45, 54, 46, 53, 101, 51], Token := .FFTok_double,
        lastCurrentChar := 0, buf := [] } .FFTok_double
      (by decide) (by decide) (Or.inr rfl)⟩

/-- C4: the fast path is the identity.  For every byte string `s` with no byte below
0x20, no backslash and no double quote, and every rest `r`, ScanStringValue on the input
`:"` ++ s ++ `"` ++ r returns exactly `s` with a nil error and leaves the cursor just after
the closing quote (aScanString being the scan that stops at the first byte with a bit of
sliceStringMask). -/
theorem ScanStringValue_plain (WriteJson : List Nat → List Nat) (s r : List Nat)
    (hs : s.all (fun c => 32 ≤ c && c != 34 && c != 92) = true) :
    (NewFFLexer ([58, 34] ++ s ++ [34] ++ r)).ScanStringValue WriteJson
      = some (.ok s,
          { reader := { s := [58, 34] ++ s ++ [34] ++ r, i := s.length + 3,
                        l := ([58, 34] ++ s ++ [34] ++ r).length },
            outputbuf := s, Token := .FFTok_string, lastCurrentChar := 0, buf := [] }) := by
  have hs' : s.all isPlain = true := hs
  have e : NewFFLexer ([58, 34] ++ s ++ [34] ++ r)
      = FFLexer.mk (rd [] ([] ++ 58 :: (34 :: (renderItems (s.map JStrItem.raw) ++ 34 :: r))))
          [] .FFTok_init 0 [] := by
    simp [NewFFLexer, newffReader, rd, renderItems_raw]
  have h1 : FFLexer.Scan WriteJson false
      (FFLexer.mk (rd [] ([] ++ 58 :: (34 :: (renderItems (s.map JStrItem.raw) ++ 34 :: r))))
        [] .FFTok_init 0 [])
      = some ((.FFTok_colon, none),
          FFLexer.mk (rd [58] ([] ++ 34 :: (renderItems (s.map JStrItem.raw) ++ 34 :: r))) []
            .FFTok_colon 0 []) :=
    Scan_single WriteJson [] [] (34 :: (renderItems (s.map JStrItem.raw) ++ 34 :: r)) []
      58 .FFTok_init 0 [] rfl rfl
  have h2 := Scan_string WriteJson (s.map JStrItem.raw) (itemsOk_raw s hs') [58] []
    r [] .FFTok_colon 0 [] rfl
  rw [e]
  unfold FFLexer.ScanStringValue
  rw [h1]
  simp only [ne_eq, not_true_eq_false, if_false]
  rw [h2]
  simp only [not_true_eq_false, if_false, renderItems_raw, decodeItems_raw, rd,
    Option.some.injEq, Prod.mk.injEq, true_and, FFLexer.mk.injEq, and_true, ffReader.mk.injEq]
  simp

/-- The theorem `ScanStringValue_plain` on the input `:"héllo",` (UTF-8 bytes above 0x7F
are plain bytes). -/
theorem ScanStringValue_plain_witness :
    [104, 195, 169, 108, 108, 111].all (fun c => 32 ≤ c && c != 34 && c != 92) = true ∧
    (NewFFLexer [58, 34, 104, 195, 169, 108, 108, 111, 34, 44]).ScanStringValue (fun b => b)
      = some (.ok [104, 195, 169, 108, 108, 111],
          { reader := { s := [58, 34, 104, 195, 169, 108, 108, 111, 34, 44], i := 9, l := 10 },
            outputbuf := [104, 195, 169, 108, 108, 111], Token := .FFTok_string,
            lastCurrentChar := 0, buf := [] }) :=
  ⟨by decide, ScanStringValue_plain (fun b => b) [104, 195, 169, 108, 108, 111] [44] (by decide)⟩

/-- C5: unicode escapes decode per UTF-16.  Inside a string body, after the plain bytes
`pre` and before the items `post` and the closing quote: (1) an escape of four hex digits
(of either letter case) whose value is not a surrogate makes SliceString append the UTF-8
encoding of that code point; (2) the escape of a high surrogate H in [0xD800, 0xDBFF]
followed at once by the escape of a low surrogate L in [0xDC00, 0xDFFF] makes it append
the UTF-8 encoding of the one scalar 0x10000 + (H-0xD800)*0x400 + (L-0xDC00); (3) and
handleEscaped, called after the backslash of the first of the two escapes, returns the
index just after all 12 bytes and leaves the cursor there. -/
theorem SliceString_unicode_escapes (a pre rest out : List Nat) (post : List JStrItem)
    (h1 h2 h3 h4 : Nat) (hpre : pre.all (fun c => 32 ≤ c && c != 34 && c != 92) = true)
    (hpost : itemsOk post = true)
    (x1 : isHexDigit h1 = true) (x2 : isHexDigit h2 = true)
    (x3 : isHexDigit h3 = true) (x4 : isHexDigit h4 = true) :
    (¬ (0xD800 ≤ hex4 h1 h2 h3 h4 ∧ hex4 h1 h2 h3 h4 ≤ 0xDFFF) →
      (rd a (pre ++ ([92, 117, h1, h2, h3, h4] ++ (renderItems post ++ 34 :: rest)))).SliceString out
        = some (none,
            rd (a ++ (pre ++ ([92, 117, h1, h2, h3, h4] ++ (renderItems post ++ [34])))) rest,
            out ++ pre ++ utf8 (hex4 h1 h2 h3 h4) ++ decodeItems post)) ∧
    (∀ l1 l2 l3 l4 : Nat, isHexDigit l1 = true → isHexDigit l2 = true → isHexDigit l3 = true →
      isHexDigit l4 = true →
      0xD800 ≤ hex4 h1 h2 h3 h4 ∧ hex4 h1 h2 h3 h4 ≤ 0xDBFF →
      0xDC00 ≤ hex4 l1 l2 l3 l4 ∧ hex4 l1 l2 l3 l4 ≤ 0xDFFF →
      (rd a (pre ++ ([92, 117, h1, h2, h3, h4, 92, 117, l1, l2, l3, l4] ++
          (renderItems post ++ 34 :: rest)))).SliceString out
        = some (none,
            rd (a ++ (pre ++ ([92, 117, h1, h2, h3, h4, 92, 117, l1, l2, l3, l4] ++
              (renderItems post ++ [34])))) rest,
            out ++ pre ++
              utf8 (0x10000 + (hex4 h1 h2 h3 h4 - 0xD800) * 0x400 + (hex4 l1 l2 l3 l4 - 0xDC00)) ++
              decodeItems post) ∧
      (rd a (pre ++ 92 :: 117 :: h1 :: h2 :: h3 :: h4 :: 92 :: 117 :: l1 :: l2 :: l3 :: l4 ::
          rest)).handleEscaped 92 (a.length + pre.length + 1) out
        = some (.ok (a.length + pre.length + 12),
            rd (a ++ (pre ++ [92, 117, h1, h2, h3, h4, 92, 117, l1, l2, l3, l4])) rest,
            out ++ pre ++
              utf8 (0x10000 + (hex4 h1 h2 h3 h4 - 0xD800) * 0x400 + (hex4 l1 l2 l3 l4 - 0xDC00)))) := by
  have hpre' : pre.all isPlain = true := hpre
  constructor
  · intro hns
    have hit : (JStrItem.u4 h1 h2 h3 h4).wf = true := by
      simp only [JStrItem.wf, x1, x2, x3, x4, Bool.and_self, Bool.true_and, Bool.not_eq_true',
        Bool.and_eq_false_iff, decide_eq_false_iff_not]
      omega
    exact SliceString_with_item (.u4 h1 h2 h3 h4) hit a pre rest out post hpre' hpost
  · intro l1 l2 l3 l4 z1 z2 z3 z4 hhi hlo
    have hit : (JStrItem.pair h1 h2 h3 h4 l1 l2 l3 l4).wf = true := by
      simp only [JStrItem.wf, x1, x2, x3, x4, z1, z2, z3, z4, Bool.and_self, Bool.true_and,
        Bool.and_eq_true, decide_eq_true_eq]
      exact ⟨hhi, hlo⟩
    exact ⟨SliceString_with_item (.pair h1 h2 h3 h4 l1 l2 l3 l4) hit a pre rest out post hpre' hpost,
      handleEscaped_pair a pre rest out h1 h2 h3 h4 92 117 l1 l2 l3 l4 92 x1 x2 x3 x4 z1 z2 z3 z4
        hhi hlo⟩

/-- The theorem `SliceString_unicode_escapes` on the string bodies `é"` (U+00E9, bytes
C3 A9) and `𝄞"` (U+1D11E, bytes F0 9D 84 9E), read after an opening quote. -/
theorem SliceString_unicode_escapes_witness :
    ([] : List Nat).all (fun c => 32 ≤ c && c != 34 && c != 92) = true ∧
    itemsOk [] = true ∧
    (rd [34] [92, 117, 48, 48, 101, 57, 34]).SliceString []
      = some (none, rd [34, 92, 117, 48, 48, 101, 57, 34] [], [0xC3, 0xA9]) ∧
    (rd [34] [92, 117, 68, 56, 51, 52, 92, 117, 68, 68, 49, 69, 34]).SliceString []
      = some (none, rd [34, 92, 117, 68, 56, 51, 52, 92, 117, 68, 68, 49, 69, 34] [],
          [0xF0, 0x9D, 0x84, 0x9E]) ∧
    (rd [34] [92, 117, 68, 56, 51, 52, 92, 117, 68, 68, 49, 69, 34]).handleEscaped 92 2 []
      = some (.ok 13, rd [34, 92, 117, 68, 56, 51, 52, 92, 117, 68, 68, 49, 69] [34],
          [0xF0, 0x9D, 0x84, 0x9E]) :=
  ⟨rfl, rfl,
    (SliceString_unicode_escapes [34] [] [] [] [] 48 48 101 57 rfl rfl rfl rfl rfl rfl).1
      (by decide),
    ((SliceString_unicode_escapes [34] [] [] [] [] 68 56 51 52 rfl rfl rfl rfl rfl rfl).2
      68 68 49 69 rfl rfl rfl rfl (by decide) (by decide)).1,
    ((SliceString_unicode_escapes [34] [] [34] [] [] 68 56 51 52 rfl rfl rfl rfl rfl rfl).2
      68 68 49 69 rfl rfl rfl rfl (by decide) (by decide)).2⟩

/-- C7: two-character escapes.  Inside a string body, after the plain bytes `pre`: (1) for
each of the eight escape letters, a backslash followed by the letter decodes to exactly
one byte (0x22, 0x5C, 0x2F, 0x08, 0x0C, 0x0A, 0x0D, 0x09 for the letters `"`, `\`, `/`, `b`,
`f`, `n`, `r`, `t`), appended after the bytes scanned so far; (2) for every other byte `c`
different from `u`, a backslash followed by `c` makes SliceString return the error
`lex_string_invalid_escaped_char`; (3) the bytes that carry the cVEC flag in
byteLookupTable are exactly those eight. -/
theorem SliceString_two_character_escapes (a pre rest out : List Nat) (post : List JStrItem)
    (hpre : pre.all (fun c => 32 ≤ c && c != 34 && c != 92) = true)
    (hpost : itemsOk post = true) :
    (∀ cb ∈ [(34, 0x22), (92, 0x5C), (47, 0x2F), (98, 0x08), (102, 0x0C), (110, 0x0A),
        (114, 0x0D), (116, 0x09)],
      (rd a (pre ++ ([92, cb.1] ++ (renderItems post ++ 34 :: rest)))).SliceString out
        = some (none, rd (a ++ (pre ++ ([92, cb.1] ++ (renderItems post ++ [34])))) rest,
            out ++ pre ++ [cb.2] ++ decodeItems post)) ∧
    (∀ (c : Nat) (tail : List Nat), c ≠ 117 → c ∉ [34, 92, 47, 98, 102, 110, 114, 116] →
      (rd a (pre ++ 92 :: c :: tail)).SliceString out
        = some (some (.lex_string_invalid_escaped_char c), rd a (pre ++ 92 :: c :: tail), out)) ∧
    (∀ c : Nat, byteLookupTable c &&& cVEC ≠ 0 ↔ c ∈ [34, 92, 47, 98, 102, 110, 114, 116]) := by
  have hpre' : pre.all isPlain = true := hpre
  refine ⟨?_, ?_, ?_⟩
  · intro cb hcb
    have hb : escapeByte cb.1 = some cb.2 := by
      simp only [List.mem_cons, List.mem_singleton, List.not_mem_nil, or_false] at hcb
      rcases hcb with h | h | h | h | h | h | h | h <;> (subst h; rfl)
    have hit : (JStrItem.esc cb.1).wf = true := by
      simp [JStrItem.wf, hb]
    have := SliceString_with_item (.esc cb.1) hit a pre rest out post hpre' hpost
    simp only [JStrItem.render, JStrItem.decode, hb, Option.toList_some] at this
    exact this
  · intro c tail hu hc
    exact SliceString_bad_escape a pre tail out c hpre' hu ((escapeByte_none_iff c).mpr hc)
  · intro c
    rw [ne_eq, cVEC_zero_iff, escapeByte_none_iff, not_not]

/-- The theorem `SliceString_two_character_escapes` on the string bodies `a\nb"` and
`a\qb"`, read after an opening quote. -/
theorem SliceString_two_character_escapes_witness :
    [97].all (fun c => 32 ≤ c && c != 34 && c != 92) = true ∧
    itemsOk [JStrItem.raw 98] = true ∧
    (rd [34] [97, 92, 110, 98, 34]).SliceString [] = some (none, rd [34, 97, 92, 110, 98, 34] [],
      [97, 10, 98]) ∧
    (rd [34] [97, 92, 113, 98, 34]).SliceString []
      = some (some (.lex_string_invalid_escaped_char 113), rd [34] [97, 92, 113, 98, 34], []) :=
  ⟨rfl, rfl,
    (SliceString_two_character_escapes [34] [97] [] [] [JStrItem.raw 98] rfl rfl).1 (110, 0x0A)
      (by decide),
    (SliceString_two_character_escapes [34] [97] [] [] [JStrItem.raw 98] rfl rfl).2.1 113
      [98, 34] (by decide) (by decide)⟩

/-- C6, as the code has it: the string `"\uD834zzDD1E"`, in which the escape of the high
surrogate is followed by the two bytes `zz` and four hex digits, is not rejected: Scan
returns FFTok_string with a nil error and the decoded bytes F0 9D 84 9E of U+1D11E. -/
theorem Scan_high_surrogate_then_any_two_bytes :
    (NewFFLexer [34, 92, 117, 68, 56, 51, 52, 122, 122, 68, 68, 49, 69, 34]).Scan (fun b => b) false
      = some ((.FFTok_string, none),
          { reader := { s := [34, 92, 117, 68, 56, 51, 52, 122, 122, 68, 68, 49, 69, 34],
                        i := 14, l := 14 },
            outputbuf := [0xF0, 0x9D, 0x84, 0x9E], Token := .FFTok_string,
            lastCurrentChar := 0, buf := [] }) := by
  decide

/-- C8, as the code has it: the string `"\uD834` 0x01 0x01 `DD1E"`, whose body holds two
raw bytes 0x01 before its closing quote, is not rejected: Scan returns FFTok_string with a
nil error (the two bytes after the escape of a high surrogate are skipped unread). -/
theorem Scan_control_bytes_after_high_surrogate :
    (NewFFLexer [34, 92, 117, 68, 56, 51, 52, 1, 1, 68, 68, 49, 69, 34]).Scan (fun b => b) false
      = some ((.FFTok_string, none),
          { reader := { s := [34, 92, 117, 68, 56, 51, 52, 1, 1, 68, 68, 49, 69, 34],
                        i := 14, l := 14 },
            outputbuf := [0xF0, 0x9D, 0x84, 0x9E], Token := .FFTok_string,
            lastCurrentChar := 0, buf := [] }) := by
  decide

/-- C9: a string without closing quote is an error.  For every lexer (with a reader as
newffReader and the methods leave it) whose input, from the cursor on, is whitespace, an
opening quote and bytes that hold no unescaped closing quote, Scan in either mode returns
FFTok_error with a non-nil error, never FFTok_string; this covers the end of the input
inside a string and inside an escape sequence. -/
theorem Scan_unterminated_string (WriteJson : List Nat → List Nat) (captureall : Bool)
    (ffl : FFLexer) (ws tail : List Nat) (hwf : ffl.reader.wf)
    (hin : ffl.reader.s.drop ffl.reader.i = ws ++ 34 :: tail)
    (hws : ws.all isWS = true) (hq : hasClosingQuote tail = false) :
    ∃ e ffl', ffl.Scan WriteJson captureall = some ((.FFTok_error, some e), ffl') := by
  obtain ⟨reader, out, T, k, bf⟩ := ffl
  simp only at hwf hin
  rw [wf_eq_rd reader hwf, hin]
  generalize reader.s.take reader.i = a
  cases captureall with
  | false =>
    rw [Scan_false_mk, ReadByteNoWS_rd a ws tail 34 hws rfl]
    obtain ⟨e, r', out', he⟩ := SliceString_unterminated (a ++ ws ++ [34]) tail [] hq
    simp only [FFLexer.Scan_switch, FFLexer.lexString, Bool.false_eq_true, if_false, he,
      FFLexer.afterLex]
    exact ⟨e, _, rfl⟩
  | true =>
    obtain ⟨e, r', out', he⟩ := SliceString_unterminated (a ++ ws ++ [34]) tail [] hq
    have hfuel : (rd a (ws ++ 34 :: tail)).l - (rd a (ws ++ 34 :: tail)).i + 1
        = (tail.length + 1 + 1) + ws.length := by
      rw [rd_fuel]
      simp
      omega
    simp only [FFLexer.Scan, if_true, hfuel]
    rw [Scan_loop_true_ws WriteJson ws hws, FFLexer.Scan_loop]
    simp only [if_true, ReadByte_rd_cons, FFLexer.Scan_switch, FFLexer.lexString, he,
      FFLexer.afterLex]
    exact ⟨e, _, rfl⟩

/-- The theorem `Scan_unterminated_string` in capture mode on the input `"ab\`, which ends
inside an escape sequence, and in the other mode on ` "a\"`, whose only other quote is
escaped. -/
theorem Scan_unterminated_string_witness :
    (NewFFLexer [34, 97, 98, 92]).reader.wf ∧
    [34, 97, 98, 92].drop 0 = [] ++ 34 :: [97, 98, 92] ∧
    ([] : List Nat).all isWS = true ∧ hasClosingQuote [97, 98, 92] = false ∧
    (∃ e ffl', (NewFFLexer [34, 97, 98, 92]).Scan (fun b => b) true
      = some ((.FFTok_error, some e), ffl')) ∧
    (∃ e ffl', (NewFFLexer [32, 34, 97, 92, 34]).Scan (fun b => b) false
      = some ((.FFTok_error, some e), ffl')) :=
  ⟨by decide, rfl, rfl, rfl,
    Scan_unterminated_string (fun b => b) true (NewFFLexer [34, 97, 98, 92]) [] [97, 98, 92]
      (by decide) rfl rfl rfl,
    Scan_unterminated_string (fun b => b) false (NewFFLexer [32, 34, 97, 92, 34]) [32] [97, 92, 34]
      (by decide) rfl rfl rfl⟩

/-- C10: SkipField consumes exactly one value.  For every well-formed JSON array or object
`v` (no comments; whatever the nesting of arrays and objects inside it and whatever
brackets its strings hold), every rest `r` of the input and every lexer at the start of
the input `v ++ r`: Scan(false) returns the opening token `t` with a nil error, and then
SkipField(t) returns nil and leaves the reader cursor at the index len(v), on the first
byte after the value. -/
theorem SkipField_consumes_one_value (WriteJson : List Nat → List Nat) (v : JSyn .value)
    (r : List Nat) (ffl : FFLexer) (hv : v.wf = true) (hc : v.isContainer = true)
    (hffl : ffl.reader = newffReader (v.render ++ r)) :
    ∃ t ffl1 ffl2, ffl.Scan WriteJson false = some ((t, none), ffl1) ∧
      (t = .FFTok_left_brace ∨ t = .FFTok_left_bracket) ∧
      ffl1.SkipField WriteJson t = some (none, ffl2) ∧
      ffl2.reader = { s := v.render ++ r, i := v.render.length, l := (v.render ++ r).length } := by
  obtain ⟨reader, out, T, kk, bf⟩ := ffl
  simp only at hffl
  subst hffl
  have e0 : ∀ x : List Nat, newffReader x = rd [] x := fun x => by simp [newffReader, rd]
  have efin : ∀ x y : List Nat, rd x y = { s := x ++ y, i := x.length, l := (x ++ y).length } :=
    fun _ _ => rfl
  rw [e0]
  match v, hv, hc with
  | .emptyArray ws, hv, _ =>
    have hws := isJsonWS_isWS ws hv
    obtain ⟨ffl1, ffl2, h1, h2, h3, h4⟩ := Scan_then_SkipField_brackets WriteJson 91 93
      (Or.inl ⟨rfl, rfl⟩) [] ws r out T 0 kk bf hws (Nat.le_refl _)
      (fun out T => ⟨out, T, fun fuel => by simp⟩)
    refine ⟨_, ffl1, ffl2, by simpa [JSyn.render] using h1, h2, h3, ?_⟩
    rw [h4, efin]
    simp [JSyn.render]
  | .emptyObject ws, hv, _ =>
    have hws := isJsonWS_isWS ws hv
    obtain ⟨ffl1, ffl2, h1, h2, h3, h4⟩ := Scan_then_SkipField_brackets WriteJson 123 125
      (Or.inr ⟨rfl, rfl⟩) [] ws r out T 0 kk bf hws (Nat.le_refl _)
      (fun out T => ⟨out, T, fun fuel => by simp⟩)
    refine ⟨_, ffl1, ffl2, by simpa [JSyn.render] using h1, h2, h3, ?_⟩
    rw [h4, efin]
    simp [JSyn.render]
  | .array es ws, hv, _ =>
    simp only [JSyn.wf, Bool.and_eq_true] at hv
    have hws := isJsonWS_isWS ws hv.2
    obtain ⟨ffl1, ffl2, h1, h2, h3, h4⟩ := Scan_then_SkipField_brackets WriteJson 91 93
      (Or.inl ⟨rfl, rfl⟩) es.render ws r out T es.tokens kk bf hws (tokens_le_length es hv.1)
      (fun out T => by
        have := SkipField_loop_over WriteJson (singleTok 91) (Or.inl rfl) kk bf es hv.1 [91] []
          (ws ++ 93 :: r) out T 0 rfl (delimHead_ws_append ws _ hws rfl)
        simpa using this)
    refine ⟨_, ffl1, ffl2, by simpa [JSyn.render] using h1, h2, h3, ?_⟩
    rw [h4, efin]
    simp [JSyn.render]
  | .object ms ws, hv, _ =>
    simp only [JSyn.wf, Bool.and_eq_true] at hv
    have hws := isJsonWS_isWS ws hv.2
    obtain ⟨ffl1, ffl2, h1, h2, h3, h4⟩ := Scan_then_SkipField_brackets WriteJson 123 125
      (Or.inr ⟨rfl, rfl⟩) ms.render ws r out T ms.tokens kk bf hws (tokens_le_length ms hv.1)
      (fun out T => by
        have := SkipField_loop_over WriteJson (singleTok 123) (Or.inr rfl) kk bf ms hv.1 [123] []
          (ws ++ 125 :: r) out T 0 rfl (delimHead_ws_append ws _ hws rfl)
        simpa using this)
    refine ⟨_, ffl1, ffl2, by simpa [JSyn.render] using h1, h2, h3, ?_⟩
    rw [h4, efin]
    simp [JSyn.render]

/-- The theorem `SkipField_consumes_one_value` on the input
`[ {"a]" : [1, 2.5e+3, true]}, [] ] x`: the value is the first 34 bytes. -/
theorem SkipField_consumes_one_value_witness :
    JSyn.wf (JSyn.array (.elements [32] (.object (.member [] [.raw 97, .raw 93] [32] [32]
      (.array (.elements [] (.number ⟨false, [49], none, none⟩) [] (.elements [32]
        (.number ⟨false, [50], some [53], some (101, some 43, [51])⟩) []
        (.element [32] (.literal 1)))) [])) []) [] (.element [32] (.emptyArray []))) [32])
      = true ∧
    (∃ t ffl1 ffl2,
      (NewFFLexer [91, 32, 123, 34, 97, 93, 34, 32, 58, 32, 91, 49, 44, 32, 50, 46, 53, 101, 43,
        51, 44, 32, 116, 114, 117, 101, 93, 125, 44, 32, 91, 93, 32, 93, 32, 120]).Scan
          (fun b => b) false = some ((t, none), ffl1) ∧
      (t = .FFTok_left_brace ∨ t = .FFTok_left_bracket) ∧
      ffl1.SkipField (fun b => b) t = some (none, ffl2) ∧
      ffl2.reader = ffReader.mk [91, 32, 123, 34, 97, 93, 34, 32, 58, 32, 91, 49, 44, 32, 50, 46,
        53, 101, 43, 51, 44, 32, 116, 114, 117, 101, 93, 125, 44, 32, 91, 93, 32, 93, 32, 120]
        34 36) :=
  ⟨by decide,
    SkipField_consumes_one_value (fun b => b)
      (JSyn.array (.elements [32] (.object (.member [] [.raw 97, .raw 93] [32] [32]
        (.array (.elements [] (.number ⟨false, [49], none, none⟩) [] (.elements [32]
          (.number ⟨false, [50], some [53], some (101, some 43, [51])⟩) []
          (.element [32] (.literal 1)))) [])) []) [] (.element [32] (.emptyArray []))) [32])
      [32, 120] (NewFFLexer _) (by decide) rfl rfl⟩

/-- C11: CaptureField reproduces a well-formed value.  Given that WriteJson emits a valid
JSON string literal that decodes to its argument (it writes a quote, the items `q s` of
the string grammar whose content is `s`, and a quote), for every well-formed JSON array or
object `v`, every rest `r` of the input and every lexer at the start of the input `v ++ r`:
Scan(false) returns the opening token `t` with a nil error, and then CaptureField(t)
returns a nil error and the text of `v` with every string, keys included, written anew by
WriteJson from its content; this text is itself well-formed JSON and denotes the same value
as `v` (same structure, numbers and literals byte for byte, strings of the same content);
the reader cursor is left at the index len(v). -/
theorem CaptureField_requotes (WriteJson : List Nat → List Nat) (q : List Nat → List JStrItem)
    (hq : ∀ s, itemsOk (q s) = true ∧ decodeItems (q s) = s ∧
      WriteJson s = 34 :: (renderItems (q s) ++ [34]))
    (v : JSyn .value) (r : List Nat) (ffl : FFLexer) (hv : v.wf = true)
    (hc : v.isContainer = true) (hffl : ffl.reader = newffReader (v.render ++ r)) :
    ∃ t ffl1 ffl2, ffl.Scan WriteJson false = some ((t, none), ffl1) ∧
      (t = .FFTok_left_brace ∨ t = .FFTok_left_bracket) ∧
      ffl1.CaptureField WriteJson t = some (.ok (v.requote q).render, ffl2) ∧
      (v.requote q).wf = true ∧ (v.requote q).denote = v.denote ∧
      ffl2.reader = { s := v.render ++ r, i := v.render.length, l := (v.render ++ r).length } := by
  have hwf2 := requote_wf q (fun s => (hq s).1) v hv
  have hden := requote_denote q (fun s => (hq s).2.1) v
  have hW := fun s => (hq s).2.2
  obtain ⟨reader, out, T, kk, bf⟩ := ffl
  simp only at hffl
  subst hffl
  have e0 : ∀ x : List Nat, newffReader x = rd [] x := fun x => by simp [newffReader, rd]
  have efin : ∀ x y : List Nat, rd x y = { s := x ++ y, i := x.length, l := (x ++ y).length } :=
    fun _ _ => rfl
  rw [e0]
  match v, hv, hc, hwf2, hden with
  | .emptyArray ws, hv, _, hwf2, hden =>
    have hws := isJsonWS_isWS ws hv
    obtain ⟨ffl1, ffl2, h1, h2, h3, h4⟩ := Scan_then_CaptureField_brackets WriteJson 91 93
      (Or.inl ⟨rfl, rfl⟩) [] [] ws r out T 0 kk bf hws (Nat.le_refl _)
      (fun out T bf => ⟨T, bf, fun fuel => by simp⟩)
    refine ⟨_, ffl1, ffl2, by simpa [JSyn.render] using h1, h2,
      by simpa [JSyn.render, JSyn.requote] using h3, hwf2, hden, ?_⟩
    rw [h4, efin]
    simp [JSyn.render]
  | .emptyObject ws, hv, _, hwf2, hden =>
    have hws := isJsonWS_isWS ws hv
    obtain ⟨ffl1, ffl2, h1, h2, h3, h4⟩ := Scan_then_CaptureField_brackets WriteJson 123 125
      (Or.inr ⟨rfl, rfl⟩) [] [] ws r out T 0 kk bf hws (Nat.le_refl _)
      (fun out T bf => ⟨T, bf, fun fuel => by simp⟩)
    refine ⟨_, ffl1, ffl2, by simpa [JSyn.render] using h1, h2,
      by simpa [JSyn.render, JSyn.requote] using h3, hwf2, hden, ?_⟩
    rw [h4, efin]
    simp [JSyn.render]
  | .array es ws, hv, _, hwf2, hden =>
    simp only [JSyn.wf, Bool.and_eq_true] at hv
    have hws := isJsonWS_isWS ws hv.2
    obtain ⟨ffl1, ffl2, h1, h2, h3, h4⟩ := Scan_then_CaptureField_brackets WriteJson 91 93
      (Or.inl ⟨rfl, rfl⟩) es.render (es.requote q).render ws r out T es.tokens kk bf hws
      (tokens_le_length es hv.1)
      (fun out T bf => by
        have := captureField_loop_over WriteJson q hW (singleTok 91) (Or.inl rfl) kk es hv.1 [91]
          [] (ws ++ 93 :: r) out T bf 0 rfl (delimHead_ws_append ws _ hws rfl)
        simpa using this)
    refine ⟨_, ffl1, ffl2, by simpa [JSyn.render] using h1, h2,
      by simpa [JSyn.render, JSyn.requote] using h3, hwf2, hden, ?_⟩
    rw [h4, efin]
    simp [JSyn.render]
  | .object ms ws, hv, _, hwf2, hden =>
    simp only [JSyn.wf, Bool.and_eq_true] at hv
    have hws := isJsonWS_isWS ws hv.2
    obtain ⟨ffl1, ffl2, h1, h2, h3, h4⟩ := Scan_then_CaptureField_brackets WriteJson 123 125
      (Or.inr ⟨rfl, rfl⟩) ms.render (ms.requote q).render ws r out T ms.tokens kk bf hws
      (tokens_le_length ms hv.1)
      (fun out T bf => by
        have := captureField_loop_over WriteJson q hW (singleTok 123) (Or.inr rfl) kk ms hv.1
          [123] [] (ws ++ 125 :: r) out T bf 0 rfl (delimHead_ws_append ws _ hws rfl)
        simpa using this)
    refine ⟨_, ffl1, ffl2, by simpa [JSyn.render] using h1, h2,
      by simpa [JSyn.render, JSyn.requote] using h3, hwf2, hden, ?_⟩
    rw [h4, efin]
    simp [JSyn.render]

/-- The theorem `CaptureField_requotes` for the writer `quoteJson` on the input
`[ "aA" , {"k\n" : [1, null]} ]x`: the escape `A` is captured as `A` and the
escape `\n` of the key as `\u000a`. -/
theorem CaptureField_requotes_witness :
    JSyn.wf (JSyn.array (.elements [32] (.string [.raw 97, .u4 48 48 52 49]) [32]
      (.element [32] (.object (.member [] [.raw 107, .esc 110] [32] [32]
        (.array (.elements [] (.number ⟨false, [49], none, none⟩) []
          (.element [32] (.literal 0))) [])) []))) [32]) = true ∧
    (∃ t ffl1 ffl2,
      (NewFFLexer [91, 32, 34, 97, 92, 117, 48, 48, 52, 49, 34, 32, 44, 32, 123, 34, 107, 92, 110,
        34, 32, 58, 32, 91, 49, 44, 32, 110, 117, 108, 108, 93, 125, 32, 93, 120]).Scan
          quoteJson false = some ((t, none), ffl1) ∧
      (t = .FFTok_left_brace ∨ t = .FFTok_left_bracket) ∧
      ffl1.CaptureField quoteJson t
        = some (.ok [91, 32, 34, 97, 65, 34, 32, 44, 32, 123, 34, 107, 92, 117, 48, 48, 48, 97,
            34, 32, 58, 32, 91, 49, 44, 32, 110, 117, 108, 108, 93, 125, 32, 93], ffl2) ∧
      ffl2.reader.i = 35) :=
  ⟨by decide,
    (CaptureField_requotes quoteJson (fun s => s.map quoteItem) quoteJson_ok
      (JSyn.array (.elements [32] (.string [.raw 97, .u4 48 48 52 49]) [32]
        (.element [32] (.object (.member [] [.raw 107, .esc 110] [32] [32]
          (.array (.elements [] (.number ⟨false, [49], none, none⟩) []
            (.element [32] (.literal 0))) [])) []))) [32])
      [120] (NewFFLexer _) (by decide) rfl rfl).imp fun t h => h.imp fun ffl1 h => h.imp
        fun ffl2 h => ⟨h.1, h.2.1, h.2.2.1, by rw [h.2.2.2.2.2]; rfl⟩⟩

/-- C12: depth balance.  On a lexer with a well-formed reader, when the tokens that Scan
finds from the cursor on, up to the end of the input or the first error, never close the
structure that the start token (`[` or `{`) opened, that is, in every run of scans
the closing tokens of the start kind do not outnumber the opening ones, SkipField returns
a non-nil error and CaptureField returns a non-nil error and no bytes. -/
theorem unclosed_structure_is_error (WriteJson : List Nat → List Nat) (start : FFTok)
    (ffl : FFLexer) (hwf : ffl.reader.wf)
    (hstart : start = .FFTok_left_brace ∨ start = .FFTok_left_bracket)
    (hopen : ∀ n toks x, ffl.scans WriteJson false n = some (toks, x) →
      toks.count (endTok start) ≤ toks.count start) :
    (∃ e x, ffl.SkipField WriteJson start = some (some e, x)) ∧
    (∃ e x, ffl.CaptureField WriteJson start = some (.error e, x)) := by
  constructor
  · unfold FFLexer.SkipField
    rw [if_pos hstart]
    refine SkipField_loop_unclosed WriteJson start hstart _ 1 ffl hwf (le_refl _) (le_refl _) ?_
    intro n toks x h
    have := hopen n toks x h
    omega
  · have key : ∀ c : Nat, ∃ e x, FFLexer.captureField_loop WriteJson start
        ((ffl.WriteByte c).reader.l - (ffl.WriteByte c).reader.i + 1) 1 (ffl.WriteByte c)
        = some (.error e, x) := by
      intro c
      refine captureField_loop_unclosed WriteJson start hstart _ 1 (ffl.WriteByte c) hwf
        (le_refl _) (le_refl _) ?_
      intro n toks x h
      obtain ⟨x2, h2⟩ := scans_uniform WriteJson true false n (ffl.WriteByte c) ffl hwf rfl rfl
        toks x h
      have := hopen n toks x2 h2
      omega
    unfold FFLexer.CaptureField FFLexer.captureField
    rw [if_pos hstart]
    by_cases hb : start = .FFTok_left_bracket
    · simp only [hb, if_true]
      rw [← hb]
      exact key 123
    · simp only [hb, if_false]
      exact key 91

/-- The theorem `unclosed_structure_is_error` on the input `[[1] ` after its first `[`:
two openings and one close. -/
theorem unclosed_structure_is_error_witness :
    (FFLexer.mk (ffReader.mk [91, 91, 49, 93, 32] 1 5) [] .FFTok_left_brace 0 []).reader.wf ∧
    (∃ e x, (FFLexer.mk (ffReader.mk [91, 91, 49, 93, 32] 1 5) [] .FFTok_left_brace 0
      []).SkipField (fun b => b) .FFTok_left_brace = some (some e, x)) ∧
    (∃ e x, (FFLexer.mk (ffReader.mk [91, 91, 49, 93, 32] 1 5) [] .FFTok_left_brace 0
      []).CaptureField (fun b => b) .FFTok_left_brace = some (.error e, x)) :=
  have hw : (FFLexer.mk (ffReader.mk [91, 91, 49, 93, 32] 1 5) [] .FFTok_left_brace 0
      []).reader.wf := by decide
  have hopen : ∀ n toks x, (FFLexer.mk (ffReader.mk [91, 91, 49, 93, 32] 1 5) []
      .FFTok_left_brace 0 []).scans (fun b => b) false n = some (toks, x) →
      toks.count (endTok .FFTok_left_brace) ≤ toks.count .FFTok_left_brace := by
    intro n toks x h
    have s1 : (FFLexer.mk (ffReader.mk [91, 91, 49, 93, 32] 1 5) [] .FFTok_left_brace 0
        []).Scan (fun b => b) false = some ((.FFTok_left_brace, none),
          FFLexer.mk (ffReader.mk [91, 91, 49, 93, 32] 2 5) [] .FFTok_left_brace 0 []) := by
      decide
    have s2 : (FFLexer.mk (ffReader.mk [91, 91, 49, 93, 32] 2 5) [] .FFTok_left_brace 0
        []).Scan (fun b => b) false = some ((.FFTok_integer, none),
          FFLexer.mk (ffReader.mk [91, 91, 49, 93, 32] 3 5) [49] .FFTok_integer 0 []) := by
      decide
    have s3 : (FFLexer.mk (ffReader.mk [91, 91, 49, 93, 32] 3 5) [49] .FFTok_integer 0
        []).Scan (fun b => b) false = some ((.FFTok_right_brace, none),
          FFLexer.mk (ffReader.mk [91, 91, 49, 93, 32] 4 5) [] .FFTok_right_brace 0 []) := by
      decide
    have s4 : (FFLexer.mk (ffReader.mk [91, 91, 49, 93, 32] 4 5) [] .FFTok_right_brace 0
        []).Scan (fun b => b) false = some ((.FFTok_eof, some .EOF),
          FFLexer.mk (ffReader.mk [91, 91, 49, 93, 32] 4 5) [] .FFTok_init 0 []) := by
      decide
    rcases n with _ | _ | _ | _ | n
    · simp only [FFLexer.scans, Option.some.injEq, Prod.mk.injEq] at h
      rw [← h.1]; decide
    · simp only [FFLexer.scans, s1, Option.some.injEq, Prod.mk.injEq] at h
      rw [← h.1]; decide
    · simp only [FFLexer.scans, s1, s2, Option.some.injEq, Prod.mk.injEq] at h
      rw [← h.1]; decide
    · simp only [FFLexer.scans, s1, s2, s3, Option.some.injEq, Prod.mk.injEq] at h
      rw [← h.1]; decide
    · simp [FFLexer.scans, s1, s2, s3, s4] at h
  ⟨hw, unclosed_structure_is_error (fun b => b) .FFTok_left_brace _ hw (Or.inl rfl) hopen⟩

/-- C13, as the code has it: SkipField counts only the brackets of the start kind.  On the
input `[{]`, after Scan has returned the first `[`, SkipField returns nil with the cursor
at the end of the input, although the `{` is never closed. -/
theorem SkipField_accepts_unclosed_inner_bracket :
    (NewFFLexer [91, 123, 93]).Scan (fun b => b) false
      = some ((.FFTok_left_brace, none),
          FFLexer.mk (ffReader.mk [91, 123, 93] 1 3) [] .FFTok_left_brace 0 []) ∧
    (FFLexer.mk (ffReader.mk [91, 123, 93] 1 3) [] .FFTok_left_brace 0 []).SkipField
        (fun b => b) .FFTok_left_brace
      = some (none, FFLexer.mk (ffReader.mk [91, 123, 93] 3 3) [] .FFTok_right_brace 0 []) := by
  decide

/-- C13, amended: SkipField validates the nesting of the start kind only.  Whenever
SkipField returns nil for a `[` or `{` start token, it has consumed a run of tokens (the
tokens of successive scans, ending at the lexer it returns) in which the closing tokens of
the start kind are one more than the opening ones, and not more than the opening ones in
any proper prefix; the brackets of the other kind are not matched. -/
theorem SkipField_balanced_in_start_kind (WriteJson : List Nat → List Nat) (start : FFTok)
    (ffl x : FFLexer) (hstart : start = .FFTok_left_brace ∨ start = .FFTok_left_bracket)
    (h : ffl.SkipField WriteJson start = some (none, x)) :
    ∃ n toks, ffl.scans WriteJson false n = some (toks, x) ∧
      toks.count (endTok start) = toks.count start + 1 ∧
      ∀ m, m < n → (toks.take m).count (endTok start) ≤ (toks.take m).count start := by
  unfold FFLexer.SkipField at h
  rw [if_pos hstart] at h
  obtain ⟨n, toks, h1, h2, h3⟩ := SkipField_loop_nil WriteJson start hstart _ 1 ffl x (le_refl _) h
  refine ⟨n, toks, h1, h2, fun m hm => ?_⟩
  have := h3 m hm
  omega

/-- The theorem `SkipField_balanced_in_start_kind` on the input `[[1]]` after its first
`[`. -/
theorem SkipField_balanced_in_start_kind_witness :
    (FFLexer.mk (ffReader.mk [91, 91, 49, 93, 93] 1 5) [] .FFTok_left_brace 0 []).SkipField
        (fun b => b) .FFTok_left_brace
      = some (none, FFLexer.mk (ffReader.mk [91, 91, 49, 93, 93] 5 5) [] .FFTok_right_brace 0 []) ∧
    ∃ n toks, (FFLexer.mk (ffReader.mk [91, 91, 49, 93, 93] 1 5) [] .FFTok_left_brace 0 []).scans
        (fun b => b) false n
        = some (toks, FFLexer.mk (ffReader.mk [91, 91, 49, 93, 93] 5 5) [] .FFTok_right_brace 0 []) ∧
      toks.count (endTok .FFTok_left_brace) = toks.count .FFTok_left_brace + 1 ∧
      ∀ m, m < n → (toks.take m).count (endTok .FFTok_left_brace)
        ≤ (toks.take m).count .FFTok_left_brace :=
  have h : (FFLexer.mk (ffReader.mk [91, 91, 49, 93, 93] 1 5) [] .FFTok_left_brace 0 []).SkipField
      (fun b => b) .FFTok_left_brace
      = some (none, FFLexer.mk (ffReader.mk [91, 91, 49, 93, 93] 5 5) [] .FFTok_right_brace 0 []) := by
    decide
  ⟨h, SkipField_balanced_in_start_kind (fun b => b) .FFTok_left_brace _ _ (Or.inl rfl) h⟩

/-- C14: ScanToValue returns a nil error exactly when the next two tokens that Scan(false)
returns are a colon and then a token of one of the seven value-starting kinds (left_brace,
left_bracket, integer, double, string, bool, null), and then it returns that kind; and for
every kind `tok` that it can return without error, on any lexer `g` neither SkipField(tok)
nor CaptureField(tok) returns the `invalid capture type` error. -/
theorem ScanToValue_kinds (WriteJson : List Nat → List Nat) (ffl g : FFLexer) (hg : g.reader.wf)
    (tok : FFTok) :
    ((∃ ffl2, ffl.ScanToValue WriteJson = some ((tok, none), ffl2)) ↔
      ∃ ffl1 ffl2, ffl.Scan WriteJson false = some ((.FFTok_colon, none), ffl1) ∧
        ffl1.Scan WriteJson false = some ((tok, none), ffl2) ∧
        (tok = .FFTok_left_brace ∨ tok = .FFTok_left_bracket ∨ tok = .FFTok_integer ∨
          tok = .FFTok_double ∨ tok = .FFTok_string ∨ tok = .FFTok_bool ∨ tok = .FFTok_null)) ∧
    ((∃ ffl2, ffl.ScanToValue WriteJson = some ((tok, none), ffl2)) →
      (∀ e x t, g.SkipField WriteJson tok = some (some e, x) → e ≠ .invalid_capture_type t) ∧
      (∀ e x t, g.CaptureField WriteJson tok = some (.error e, x) →
        e ≠ .invalid_capture_type t)) := by
  have hiff : (∃ ffl2, ffl.ScanToValue WriteJson = some ((tok, none), ffl2)) ↔
      ∃ ffl1 ffl2, ffl.Scan WriteJson false = some ((.FFTok_colon, none), ffl1) ∧
        ffl1.Scan WriteJson false = some ((tok, none), ffl2) ∧
        (tok = .FFTok_left_brace ∨ tok = .FFTok_left_bracket ∨ tok = .FFTok_integer ∨
          tok = .FFTok_double ∨ tok = .FFTok_string ∨ tok = .FFTok_bool ∨ tok = .FFTok_null) := by
    constructor
    · rintro ⟨ffl2, h⟩
      unfold FFLexer.ScanToValue at h
      rcases h1 : ffl.Scan WriteJson false with _ | ⟨⟨t1, e1⟩, ffl1⟩
      · rw [h1] at h; simp at h
      rw [h1] at h
      cases e1 with
      | some err => simp at h
      | none =>
        simp only at h
        by_cases hc : t1 = .FFTok_colon
        swap
        · rw [if_pos hc] at h; simp at h
        subst hc
        simp only [ne_eq, not_true_eq_false, if_false] at h
        rcases h2 : ffl1.Scan WriteJson false with _ | ⟨⟨t2, e2⟩, ffl3⟩
        · rw [h2] at h; simp at h
        rw [h2] at h
        cases e2 with
        | some err => simp at h
        | none =>
          simp only at h
          split_ifs at h with h7
          · simp only [Option.some.injEq, Prod.mk.injEq, and_true] at h
            obtain ⟨rfl, rfl⟩ := h
            exact ⟨ffl1, ffl3, rfl, h2, h7⟩
          · simp at h
    · rintro ⟨ffl1, ffl2, h1, h2, h7⟩
      refine ⟨ffl2, ?_⟩
      unfold FFLexer.ScanToValue
      rw [h1]
      simp only [ne_eq, not_true_eq_false, if_false]
      rw [h2]
      simp only [if_pos h7]
  refine ⟨hiff, fun hex => ?_⟩
  obtain ⟨_, _, _, _, h7⟩ := hiff.mp hex
  have hne : ∀ e : GoError, (e.fromLexing = true ∨ e = .unexpected_EOF) →
      ∀ t, e ≠ .invalid_capture_type t := by
    intro e he t h
    subst h
    rcases he with he | he
    · simp [GoError.fromLexing] at he
    · cases he
  constructor
  · intro e x t h
    unfold FFLexer.SkipField at h
    split_ifs at h with c1 c2
    · exact hne e (SkipField_loop_err WriteJson tok _ _ g hg e x h) t
    · simp at h
    · exfalso
      rcases h7 with h | h | h | h | h | h | h
      · exact c1 (Or.inl h)
      · exact c1 (Or.inr h)
      · exact c2 (Or.inr (Or.inl h))
      · exact c2 (Or.inr (Or.inr (Or.inr (Or.inl h))))
      · exact c2 (Or.inr (Or.inr (Or.inr (Or.inr h))))
      · exact c2 (Or.inl h)
      · exact c2 (Or.inr (Or.inr (Or.inl h)))
  · intro e x t h
    unfold FFLexer.CaptureField FFLexer.captureField at h
    split_ifs at h with c1 c2 c3 c4
    · have hw : (g.WriteByte 123).reader.wf := hg
      exact hne e (captureField_loop_err WriteJson tok _ _ _ hw e x h) t
    · have hw : (g.WriteByte 91).reader.wf := hg
      exact hne e (captureField_loop_err WriteJson tok _ _ _ hw e x h) t
    · simp at h
    · simp at h
    · exfalso
      rcases h7 with h | h | h | h | h | h | h
      · exact c1 (Or.inl h)
      · exact c1 (Or.inr h)
      · exact c3 (Or.inr (Or.inl h))
      · exact c3 (Or.inr (Or.inr (Or.inr h)))
      · exact c4 h
      · exact c3 (Or.inl h)
      · exact c3 (Or.inr (Or.inr (Or.inl h)))

/-- The theorem `ScanToValue_kinds` on the input `: [1]` for the kind FFTok_left_brace:
ScanToValue returns it with a nil error. -/
theorem ScanToValue_kinds_witness :
    (NewFFLexer [58, 32, 91, 49, 93]).reader.wf ∧
    (∃ ffl2, (NewFFLexer [58, 32, 91, 49, 93]).ScanToValue (fun b => b)
      = some ((.FFTok_left_brace, none), ffl2)) ∧
    (∀ e x t, (NewFFLexer [58, 32, 91, 49, 93]).SkipField (fun b => b) .FFTok_left_brace
      = some (some e, x) → e ≠ .invalid_capture_type t) :=
  have hw : (NewFFLexer [58, 32, 91, 49, 93]).reader.wf := by decide
  have hex : ∃ ffl2, (NewFFLexer [58, 32, 91, 49, 93]).ScanToValue (fun b => b)
      = some ((.FFTok_left_brace, none), ffl2) :=
    ⟨FFLexer.mk (ffReader.mk [58, 32, 91, 49, 93] 3 5) [] .FFTok_left_brace 0 [], by decide⟩
  ⟨hw, hex, ((ScanToValue_kinds (fun b => b) (NewFFLexer [58, 32, 91, 49, 93])
    (NewFFLexer [58, 32, 91, 49, 93]) hw .FFTok_left_brace).2 hex).1⟩

/-- C15: the value scanners.  On any lexer with a well-formed reader, each of ScanIntValue,
ScanUintValue, ScanStringValue, ScanBoolValue and ScanFloatValue returns a non-nil error
(with the zero value: `.error`) unless the first token that Scan(false) returns is a colon
and the second is of the kind the scanner expects, both with a nil error; when both hold,
ScanIntValue(bitSize) returns exactly ParseInt(buffer, 10, bitSize) of the bytes that the
second scan left in the output buffer; and on the input `: -6 ` ScanIntValue(64) returns
-6 with a nil error. -/
theorem value_scanners_want_colon_then_kind {F : Type}
    (ParseFloat : List Nat → Nat → Except GoError F) (WriteJson : List Nat → List Nat)
    (bitSize : Nat) (ffl : FFLexer) (hwf : ffl.reader.wf) :
    (∀ ffl1 ffl2, ffl.Scan WriteJson false = some ((.FFTok_colon, none), ffl1) →
      ffl1.Scan WriteJson false = some ((.FFTok_integer, none), ffl2) →
      ffl.ScanIntValue WriteJson bitSize = some (ParseInt ffl2.outputbuf 10 bitSize, ffl2)) ∧
    ((¬ ∃ ffl1 ffl2, ffl.Scan WriteJson false = some ((.FFTok_colon, none), ffl1) ∧
        ffl1.Scan WriteJson false = some ((.FFTok_integer, none), ffl2)) →
      (∃ e x, ffl.ScanIntValue WriteJson bitSize = some (.error e, x)) ∧
      (∃ e x, ffl.ScanUintValue WriteJson bitSize = some (.error e, x))) ∧
    ((¬ ∃ ffl1 ffl2, ffl.Scan WriteJson false = some ((.FFTok_colon, none), ffl1) ∧
        ffl1.Scan WriteJson false = some ((.FFTok_string, none), ffl2)) →
      ∃ e x, ffl.ScanStringValue WriteJson = some (.error e, x)) ∧
    ((¬ ∃ ffl1 ffl2, ffl.Scan WriteJson false = some ((.FFTok_colon, none), ffl1) ∧
        ffl1.Scan WriteJson false = some ((.FFTok_bool, none), ffl2)) →
      ∃ e x, ffl.ScanBoolValue WriteJson bitSize = some (.error e, x)) ∧
    ((¬ ∃ ffl1 ffl2, ffl.Scan WriteJson false = some ((.FFTok_colon, none), ffl1) ∧
        ffl1.Scan WriteJson false = some ((.FFTok_double, none), ffl2)) →
      ∃ e x, ffl.ScanFloatValue ParseFloat WriteJson = some (.error e, x)) ∧
    (NewFFLexer [58, 32, 45, 54, 32]).ScanIntValue WriteJson 64
      = some (.ok (-6), FFLexer.mk (ffReader.mk [58, 32, 45, 54, 32] 4 5) [45, 54]
          .FFTok_integer 0 []) := by
  have hcases := two_scans_cases WriteJson ffl hwf
  refine ⟨?_, ?_, ?_, ?_, ?_, ?_⟩
  · intro ffl1 ffl2 h1 h2
    unfold FFLexer.ScanIntValue
    rw [h1]
    simp only [ne_eq, not_true_eq_false, if_false]
    rw [h2]
    simp
  · intro hno
    rcases hcases with ⟨ffl1, tok2, ffl2, h1, h2⟩ | ⟨t, e, x, h1⟩ | ⟨t, x, h1, hne⟩ |
      ⟨ffl1, t, e, x, h1, h2⟩
    · have hk : tok2 ≠ .FFTok_integer := fun h => hno ⟨ffl1, ffl2, h1, h ▸ h2⟩
      constructor
      · unfold FFLexer.ScanIntValue
        rw [h1]
        simp only [ne_eq, not_true_eq_false, if_false]
        rw [h2]
        simp only [ne_eq, hk, not_false_eq_true, if_true]
        exact ⟨_, _, rfl⟩
      · unfold FFLexer.ScanUintValue
        rw [h1]
        simp only [ne_eq, not_true_eq_false, if_false]
        rw [h2]
        simp only [ne_eq, hk, not_false_eq_true, if_true]
        exact ⟨_, _, rfl⟩
    · exact ⟨⟨_, _, by unfold FFLexer.ScanIntValue; rw [h1]⟩,
        ⟨_, _, by unfold FFLexer.ScanUintValue; rw [h1]⟩⟩
    · constructor
      · unfold FFLexer.ScanIntValue
        rw [h1]
        simp only [ne_eq, hne, not_false_eq_true, if_true]
        exact ⟨_, _, rfl⟩
      · unfold FFLexer.ScanUintValue
        rw [h1]
        simp only [ne_eq, hne, not_false_eq_true, if_true]
        exact ⟨_, _, rfl⟩
    · constructor
      · unfold FFLexer.ScanIntValue
        rw [h1]
        simp only [ne_eq, not_true_eq_false, if_false]
        rw [h2]
        exact ⟨_, _, rfl⟩
      · unfold FFLexer.ScanUintValue
        rw [h1]
        simp only [ne_eq, not_true_eq_false, if_false]
        rw [h2]
        exact ⟨_, _, rfl⟩
  · intro hno
    rcases hcases with ⟨ffl1, tok2, ffl2, h1, h2⟩ | ⟨t, e, x, h1⟩ | ⟨t, x, h1, hne⟩ |
      ⟨ffl1, t, e, x, h1, h2⟩
    · have hk : tok2 ≠ .FFTok_string := fun h => hno ⟨ffl1, ffl2, h1, h ▸ h2⟩
      unfold FFLexer.ScanStringValue
      rw [h1]
      simp only [ne_eq, not_true_eq_false, if_false]
      rw [h2]
      simp only [ne_eq, hk, not_false_eq_true, if_true]
      exact ⟨_, _, rfl⟩
    · exact ⟨_, _, by unfold FFLexer.ScanStringValue; rw [h1]⟩
    · unfold FFLexer.ScanStringValue
      rw [h1]
      simp only [ne_eq, hne, not_false_eq_true, if_true]
      exact ⟨_, _, rfl⟩
    · unfold FFLexer.ScanStringValue
      rw [h1]
      simp only [ne_eq, not_true_eq_false, if_false]
      rw [h2]
      exact ⟨_, _, rfl⟩
  · intro hno
    rcases hcases with ⟨ffl1, tok2, ffl2, h1, h2⟩ | ⟨t, e, x, h1⟩ | ⟨t, x, h1, hne⟩ |
      ⟨ffl1, t, e, x, h1, h2⟩
    · have hk : tok2 ≠ .FFTok_bool := fun h => hno ⟨ffl1, ffl2, h1, h ▸ h2⟩
      unfold FFLexer.ScanBoolValue
      rw [h1]
      simp only [ne_eq, not_true_eq_false, if_false]
      rw [h2]
      simp only [ne_eq, hk, not_false_eq_true, if_true]
      exact ⟨_, _, rfl⟩
    · exact ⟨_, _, by unfold FFLexer.ScanBoolValue; rw [h1]⟩
    · unfold FFLexer.ScanBoolValue
      rw [h1]
      simp only [ne_eq, hne, not_false_eq_true, if_true]
      exact ⟨_, _, rfl⟩
    · unfold FFLexer.ScanBoolValue
      rw [h1]
      simp only [ne_eq, not_true_eq_false, if_false]
      rw [h2]
      exact ⟨_, _, rfl⟩
  · intro hno
    rcases hcases with ⟨ffl1, tok2, ffl2, h1, h2⟩ | ⟨t, e, x, h1⟩ | ⟨t, x, h1, hne⟩ |
      ⟨ffl1, t, e, x, h1, h2⟩
    · have hk : tok2 ≠ .FFTok_double := fun h => hno ⟨ffl1, ffl2, h1, h ▸ h2⟩
      unfold FFLexer.ScanFloatValue
      rw [h1]
      simp only [ne_eq, not_true_eq_false, if_false]
      rw [h2]
      simp only [ne_eq, hk, not_false_eq_true, if_true]
      exact ⟨_, _, rfl⟩
    · exact ⟨_, _, by unfold FFLexer.ScanFloatValue; rw [h1]⟩
    · unfold FFLexer.ScanFloatValue
      rw [h1]
      simp only [ne_eq, hne, not_false_eq_true, if_true]
      exact ⟨_, _, rfl⟩
    · unfold FFLexer.ScanFloatValue
      rw [h1]
      simp only [ne_eq, not_true_eq_false, if_false]
      rw [h2]
      exact ⟨_, _, rfl⟩
  · have s1 : (NewFFLexer [58, 32, 45, 54, 32]).Scan WriteJson false
        = some ((.FFTok_colon, none),
            FFLexer.mk (rd [58] [32, 45, 54, 32]) [] .FFTok_colon 0 []) :=
      Scan_single WriteJson [] [] [32, 45, 54, 32] [] 58 .FFTok_init 0 [] rfl rfl
    have s2 : FFLexer.Scan WriteJson false
          (FFLexer.mk (rd [58] [32, 45, 54, 32]) [] .FFTok_colon 0 [])
        = some ((.FFTok_integer, none),
            FFLexer.mk (rd [58, 32, 45, 54] [32]) [45, 54] .FFTok_integer 0 []) :=
      Scan_number WriteJson ⟨true, [54], none, none⟩ rfl [58] [32] [32] [] .FFTok_colon 0 []
        rfl rfl
    unfold FFLexer.ScanIntValue
    rw [s1]
    simp only [ne_eq, not_true_eq_false, if_false]
    rw [s2]
    simp only [ne_eq, not_true_eq_false, if_false]
    have : ParseInt [45, 54] 10 64 = .ok (-6) := by
      simp [ParseInt, ParseUint, ParseUint_loop, digitVal]
    rw [this]
    rfl

/-- The theorem `value_scanners_want_colon_then_kind` on the input `: true ` (with the
identity for WriteJson and a float parser that always fails): the second token is no
integer, and ScanIntValue(64) and ScanUintValue(64) return an error. -/
theorem value_scanners_want_colon_then_kind_witness :
    (NewFFLexer [58, 32, 116, 114, 117, 101, 32]).reader.wf ∧
    (∃ e x, (NewFFLexer [58, 32, 116, 114, 117, 101, 32]).ScanIntValue (fun b => b) 64
      = some (.error e, x)) ∧
    (∃ e x, (NewFFLexer [58, 32, 116, 114, 117, 101, 32]).ScanUintValue (fun b => b) 64
      = some (.error e, x)) :=
  have hw : (NewFFLexer [58, 32, 116, 114, 117, 101, 32]).reader.wf := by decide
  have hno : ¬ ∃ ffl1 ffl2, (NewFFLexer [58, 32, 116, 114, 117, 101, 32]).Scan (fun b => b) false
      = some ((.FFTok_colon, none), ffl1) ∧
      ffl1.Scan (fun b => b) false = some ((.FFTok_integer, none), ffl2) := by
    rintro ⟨ffl1, ffl2, h1, h2⟩
    have e1 : (NewFFLexer [58, 32, 116, 114, 117, 101, 32]).Scan (fun b => b) false
        = some ((.FFTok_colon, none),
            FFLexer.mk (ffReader.mk [58, 32, 116, 114, 117, 101, 32] 1 7) [] .FFTok_colon 0 []) := by
      decide
    rw [e1] at h1
    simp only [Option.some.injEq, Prod.mk.injEq, true_and] at h1
    subst h1
    have e2 : FFLexer.Scan (fun b => b) false
        (FFLexer.mk (ffReader.mk [58, 32, 116, 114, 117, 101, 32] 1 7) [] .FFTok_colon 0 [])
        = some ((.FFTok_bool, none),
            FFLexer.mk (ffReader.mk [58, 32, 116, 114, 117, 101, 32] 6 7) [116, 114, 117, 101]
              .FFTok_bool 0 []) := by
      decide
    rw [e2] at h2
    simp at h2
  ⟨hw, ((value_scanners_want_colon_then_kind (fun (_ : List Nat) (_ : Nat) =>
    (Except.error GoError.parse_error : Except GoError Nat)) (fun b => b) 64
    (NewFFLexer [58, 32, 116, 114, 117, 101, 32]) hw).2.1 hno)⟩

/-- C16: ScanBoolValue.  On a lexer over `a ++ b` with the cursor after `a`, ScanBoolValue
returns (true, nil) exactly when the pending bytes `b` are optional whitespace (the six
bytes of the lexer's whitespace table), a colon, optional whitespace and the literal
`true`; it returns (false, nil) exactly when the literal is `false`; it always returns,
so every other case is an error; the error is never `unknow bool value`, because whenever
Scan(false) returns FFTok_bool the output buffer is exactly `true` or `false`. -/
theorem ScanBoolValue_exact (WriteJson : List Nat → List Nat) (bitSize : Nat)
    (a b out : List Nat) (T : FFTok) (k : Nat) (bf : List Nat) :
    ((∃ x, (FFLexer.mk (rd a b) out T k bf).ScanBoolValue WriteJson bitSize = some (.ok true, x)) ↔
      ∃ ws1 ws2 r, ws1.all isWS = true ∧ ws2.all isWS = true ∧
        b = ws1 ++ 58 :: (ws2 ++ ([116, 114, 117, 101] ++ r))) ∧
    ((∃ x, (FFLexer.mk (rd a b) out T k bf).ScanBoolValue WriteJson bitSize = some (.ok false, x)) ↔
      ∃ ws1 ws2 r, ws1.all isWS = true ∧ ws2.all isWS = true ∧
        b = ws1 ++ 58 :: (ws2 ++ ([102, 97, 108, 115, 101] ++ r))) ∧
    (∃ res x, (FFLexer.mk (rd a b) out T k bf).ScanBoolValue WriteJson bitSize = some (res, x)) ∧
    (∀ x, (FFLexer.mk (rd a b) out T k bf).ScanBoolValue WriteJson bitSize
      ≠ some (.error .unknow_bool_value, x)) ∧
    (∀ x, FFLexer.Scan WriteJson false (FFLexer.mk (rd a b) out T k bf)
        = some ((.FFTok_bool, none), x) →
      x.outputbuf = true_bytes ∨ x.outputbuf = false_bytes) := by
  -- the value on an input of the shape
  have fwd : ∀ (which : Nat) (ws1 ws2 r : List Nat), which ≠ 0 → ws1.all isWS = true →
      ws2.all isWS = true → b = ws1 ++ 58 :: (ws2 ++ (literalText which ++ r)) →
      (FFLexer.mk (rd a b) out T k bf).ScanBoolValue WriteJson bitSize
        = some (.ok (decide (which = 1)),
            FFLexer.mk (rd (a ++ ws1 ++ [58] ++ ws2 ++ literalText which) r) (literalText which)
              .FFTok_bool k bf) := by
    intro which ws1 ws2 r hw h1 h2 hb
    subst hb
    unfold FFLexer.ScanBoolValue
    rw [Scan_single WriteJson a ws1 _ out 58 T k bf h1 rfl]
    simp only [singleTok, Nat.reduceEqDiff, if_false, ne_eq, not_true_eq_false]
    rw [Scan_literal WriteJson which (a ++ ws1 ++ [58]) ws2 r [] .FFTok_colon k bf h2]
    have ht : literalTok which = .FFTok_bool := by simp [literalTok, hw]
    simp only [ht, ne_eq, not_true_eq_false, if_false]
    by_cases h1 : which = 1
    · subst h1
      simp [literalText, true_bytes]
    · simp [literalText, hw, h1, true_bytes, false_bytes]
  -- the shape of the input when the two scans succeed
  have bwd : ∀ v x, (FFLexer.mk (rd a b) out T k bf).ScanBoolValue WriteJson bitSize
      = some (.ok v, x) →
      ∃ ws1 ws2 r lit, (lit = true_bytes ∨ lit = false_bytes) ∧ ws1.all isWS = true ∧
        ws2.all isWS = true ∧ b = ws1 ++ 58 :: (ws2 ++ (lit ++ r)) ∧
        v = decide (lit = true_bytes) := by
    intro v x h
    unfold FFLexer.ScanBoolValue at h
    rcases h1 : FFLexer.Scan WriteJson false (FFLexer.mk (rd a b) out T k bf) with
      _ | ⟨⟨t1, e1⟩, ffl1⟩
    · rw [h1] at h; simp at h
    rw [h1] at h
    cases e1 with
    | some err => simp at h
    | none =>
      simp only at h
      by_cases hc : t1 = .FFTok_colon
      swap
      · rw [if_pos hc] at h; simp at h
      subst hc
      obtain ⟨ws1, r1, hws1, rfl, rfl⟩ := Scan_colon_inv WriteJson a b out T k bf ffl1 h1
      simp only [ne_eq, not_true_eq_false, if_false] at h
      rcases h2 : FFLexer.Scan WriteJson false
          (FFLexer.mk (rd (a ++ ws1 ++ [58]) r1) [] .FFTok_colon k bf) with
        _ | ⟨⟨t2, e2⟩, ffl2⟩
      · rw [h2] at h; simp at h
      rw [h2] at h
      cases e2 with
      | some err => simp at h
      | none =>
        simp only at h
        by_cases hb : t2 = .FFTok_bool
        swap
        · rw [if_pos hb] at h; simp at h
        subst hb
        obtain ⟨ws2, r2, lit, hlit, hws2, rfl, rfl⟩ :=
          Scan_bool_inv WriteJson (a ++ ws1 ++ [58]) r1 [] .FFTok_colon k bf ffl2 h2
        refine ⟨ws1, ws2, r2, lit, hlit, hws1, hws2, rfl, ?_⟩
        simp only [ne_eq, not_true_eq_false, if_false] at h
        rcases hlit with rfl | rfl
        · simp at h
          simp [h.1]
        · have hne : ¬ (true_bytes = false_bytes) := by decide
          simp only [hne, if_false, if_true, Option.some.injEq, Prod.mk.injEq,
            Except.ok.injEq] at h
          rw [← h.1]
          simp [true_bytes, false_bytes]
  refine ⟨⟨?_, ?_⟩, ⟨?_, ?_⟩, ?_, ?_, ?_⟩
  · rintro ⟨x, h⟩
    obtain ⟨ws1, ws2, r, lit, hlit, h1, h2, hb, hv⟩ := bwd true x h
    rcases hlit with rfl | rfl
    · exact ⟨ws1, ws2, r, h1, h2, hb⟩
    · simp [true_bytes, false_bytes] at hv
  · rintro ⟨ws1, ws2, r, h1, h2, hb⟩
    exact ⟨_, fwd 1 ws1 ws2 r (by decide) h1 h2 hb⟩
  · rintro ⟨x, h⟩
    obtain ⟨ws1, ws2, r, lit, hlit, h1, h2, hb, hv⟩ := bwd false x h
    rcases hlit with rfl | rfl
    · simp at hv
    · exact ⟨ws1, ws2, r, h1, h2, hb⟩
  · rintro ⟨ws1, ws2, r, h1, h2, hb⟩
    exact ⟨_, fwd 2 ws1 ws2 r (by decide) h1 h2 hb⟩
  · -- ScanBoolValue always returns
    rcases two_scans_cases WriteJson (FFLexer.mk (rd a b) out T k bf) (rd_wf a b) with
      ⟨ffl1, tok2, ffl2, h1, h2⟩ | ⟨t, e, x, h1⟩ | ⟨t, x, h1, hne⟩ | ⟨ffl1, t, e, x, h1, h2⟩
    · unfold FFLexer.ScanBoolValue
      rw [h1]
      simp only [ne_eq, not_true_eq_false, if_false]
      rw [h2]
      simp only
      split_ifs <;> exact ⟨_, _, rfl⟩
    · exact ⟨_, _, by unfold FFLexer.ScanBoolValue; rw [h1]⟩
    · unfold FFLexer.ScanBoolValue
      rw [h1]
      simp only [ne_eq, hne, not_false_eq_true, if_true]
      exact ⟨_, _, rfl⟩
    · unfold FFLexer.ScanBoolValue
      rw [h1]
      simp only [ne_eq, not_true_eq_false, if_false]
      rw [h2]
      exact ⟨_, _, rfl⟩
  · intro x h
    unfold FFLexer.ScanBoolValue at h
    rcases h1 : FFLexer.Scan WriteJson false (FFLexer.mk (rd a b) out T k bf) with
      _ | ⟨⟨t1, e1⟩, ffl1⟩
    · rw [h1] at h; simp at h
    rw [h1] at h
    cases e1 with
    | some err =>
      simp only [Option.some.injEq, Prod.mk.injEq, Except.error.injEq] at h
      have := (Scan_total WriteJson false (FFLexer.mk (rd a b) out T k bf) (rd_wf a b))
      obtain ⟨tok, e, ffl2, hs, hcl, _⟩ := this
      rw [h1] at hs
      simp only [Option.some.injEq, Prod.mk.injEq] at hs
      have := hcl err hs.1.2.symm
      rw [h.1] at this
      simp [GoError.fromLexing] at this
    | none =>
      simp only at h
      by_cases hc : t1 = .FFTok_colon
      swap
      · rw [if_pos hc] at h; simp at h
      subst hc
      obtain ⟨ws1, r1, hws1, rfl, rfl⟩ := Scan_colon_inv WriteJson a b out T k bf ffl1 h1
      simp only [ne_eq, not_true_eq_false, if_false] at h
      rcases h2 : FFLexer.Scan WriteJson false
          (FFLexer.mk (rd (a ++ ws1 ++ [58]) r1) [] .FFTok_colon k bf) with
        _ | ⟨⟨t2, e2⟩, ffl2⟩
      · rw [h2] at h; simp at h
      rw [h2] at h
      cases e2 with
      | some err =>
        simp only [Option.some.injEq, Prod.mk.injEq, Except.error.injEq] at h
        obtain ⟨tok, e, ffl3, hs, hcl, _⟩ := Scan_total WriteJson false
          (FFLexer.mk (rd (a ++ ws1 ++ [58]) r1) [] .FFTok_colon k bf) (rd_wf _ _)
        rw [h2] at hs
        simp only [Option.some.injEq, Prod.mk.injEq] at hs
        have := hcl err hs.1.2.symm
        rw [h.1] at this
        simp [GoError.fromLexing] at this
      | none =>
        simp only at h
        by_cases hb : t2 = .FFTok_bool
        swap
        · rw [if_pos hb] at h; simp at h
        subst hb
        obtain ⟨ws2, r2, lit, hlit, hws2, rfl, rfl⟩ :=
          Scan_bool_inv WriteJson (a ++ ws1 ++ [58]) r1 [] .FFTok_colon k bf ffl2 h2
        simp only [ne_eq, not_true_eq_false, if_false] at h
        rcases hlit with rfl | rfl
        · simp at h
        · have hne : ¬ (true_bytes = false_bytes) := by decide
          simp [hne] at h
  · intro x h
    obtain ⟨ws, r, lit, hlit, _, _, rfl⟩ := Scan_bool_inv WriteJson a b out T k bf x h
    exact hlit

/-- The theorem `ScanBoolValue_exact` on the input `: true,`: the bytes are a colon, one
blank and the literal `true`, so ScanBoolValue returns (true, nil). -/
theorem ScanBoolValue_exact_witness :
    ∃ x, (FFLexer.mk (rd [] [58, 32, 116, 114, 117, 101, 44]) [] .FFTok_init 0 []).ScanBoolValue
      (fun s => s) 64 = some (.ok true, x) :=
  (ScanBoolValue_exact (fun s => s) 64 [] [58, 32, 116, 114, 117, 101, 44] [] .FFTok_init 0
    []).1.2 ⟨[], [32], [44], rfl, rfl, rfl⟩

/-- C17, as the code has it: Scan returns a comment to its caller as the token
FFTok_comment, and the value scanners stop on it.  On the input `: 1 ` ScanIntValue(64)
returns 1 with a nil error; with a comment before the colon (`/*c*/: 1 `, and the line
comment `//c`, newline, `: 1 `) it returns the error `wanted token: colon, but got token:
comment`, and with a comment before the value (`:/*c*/1 `) the error `wanted int value, but
got token: comment`.  SkipField and CaptureField pass a comment inside the structure: after
the `[` of `[/*c*/1]x`, SkipField returns nil and CaptureField returns `[1]`, both with the
cursor after the `]`. -/
theorem value_scanners_stop_on_comment :
    (NewFFLexer [58, 32, 49, 32]).ScanIntValue (fun b => b) 64
      = some (.ok 1, FFLexer.mk (ffReader.mk [58, 32, 49, 32] 3 4) [49] .FFTok_integer 0 []) ∧
    (NewFFLexer [47, 42, 99, 42, 47, 58, 32, 49, 32]).ScanIntValue (fun b => b) 64
      = some (.error (.wanted_token .FFTok_colon .FFTok_comment []),
          FFLexer.mk (ffReader.mk [47, 42, 99, 42, 47, 58, 32, 49, 32] 5 9) [] .FFTok_comment 0 []) ∧
    (NewFFLexer [47, 47, 99, 10, 58, 32, 49, 32]).ScanIntValue (fun b => b) 64
      = some (.error (.wanted_token .FFTok_colon .FFTok_comment []),
          FFLexer.mk (ffReader.mk [47, 47, 99, 10, 58, 32, 49, 32] 4 8) [] .FFTok_comment 0 []) ∧
    (NewFFLexer [58, 47, 42, 99, 42, 47, 49, 32]).ScanIntValue (fun b => b) 64
      = some (.error (.wanted_value .FFTok_integer .FFTok_comment),
          FFLexer.mk (ffReader.mk [58, 47, 42, 99, 42, 47, 49, 32] 6 8) [] .FFTok_comment 0 []) ∧
    (FFLexer.mk (ffReader.mk [91, 47, 42, 99, 42, 47, 49, 93, 120] 1 9) [] .FFTok_left_brace 0
        []).SkipField (fun b => b) .FFTok_left_brace
      = some (none, FFLexer.mk (ffReader.mk [91, 47, 42, 99, 42, 47, 49, 93, 120] 8 9) []
          .FFTok_right_brace 0 []) ∧
    (FFLexer.mk (ffReader.mk [91, 47, 42, 99, 42, 47, 49, 93, 120] 1 9) [] .FFTok_left_brace 0
        []).CaptureField (fun b => b) .FFTok_left_brace
      = some (.ok [91, 49, 93], FFLexer.mk (ffReader.mk [91, 47, 42, 99, 42, 47, 49, 93, 120] 8 9)
          [91, 49, 93] .FFTok_right_brace 0 []) := by
  refine ⟨?_, ?_, ?_, ?_, ?_, ?_⟩ <;> rfl

/-- C18, as the code has it: inside a block comment a `*` that is not followed by `/`
ends the scan with an error.  On `/* a * b */ x` and on `/***/ x` Scan returns FFTok_error
with FFErr_incomplete_comment, the cursor after the byte that follows the first `*` of the
body; on `/* a b */ x`, whose body has no `*`, it returns FFTok_comment with the cursor
after the closing `*/`. -/
theorem Scan_block_comment_with_star :
    (NewFFLexer [47, 42, 32, 97, 32, 42, 32, 98, 32, 42, 47, 32, 120]).Scan (fun b => b) false
      = some ((.FFTok_error, some (.FFError .FFErr_incomplete_comment)),
          FFLexer.mk (ffReader.mk [47, 42, 32, 97, 32, 42, 32, 98, 32, 42, 47, 32, 120] 7 13) []
            .FFTok_init 0 []) ∧
    (NewFFLexer [47, 42, 42, 42, 47, 32, 120]).Scan (fun b => b) false
      = some ((.FFTok_error, some (.FFError .FFErr_incomplete_comment)),
          FFLexer.mk (ffReader.mk [47, 42, 42, 42, 47, 32, 120] 4 7) [] .FFTok_init 0 []) ∧
    (NewFFLexer [47, 42, 32, 97, 32, 98, 32, 42, 47, 32, 120]).Scan (fun b => b) false
      = some ((.FFTok_comment, none),
          FFLexer.mk (ffReader.mk [47, 42, 32, 97, 32, 98, 32, 42, 47, 32, 120] 9 11) []
            .FFTok_comment 0 []) := by
  decide

/-- C19: literals.  With the first byte `c` of a literal (`t`, `f` or `n`) at the cursor
and `want` the rest of the literal (`rue`, `alse`, `ull`), in either mode of Scan: when
`want` follows, Scan returns the token of the literal (FFTok_bool or FFTok_null) with a nil
error, the literal is what was appended to the output buffer and the cursor is just after
it; when the bytes that follow differ from `want` at a first byte `x`, Scan returns
FFTok_error with FFErr_invalid_string and the cursor is left on `x`; and Scan returns a nil
error exactly when `want` follows. -/
theorem Scan_literal_bytes (WriteJson : List Nat → List Nat) (captureall : Bool) (which c : Nat)
    (want : List Nat) (hlit : literalText which = c :: want) (a rest out : List Nat) (T : FFTok)
    (k : Nat) (bf : List Nat) :
    (∀ r, rest = want ++ r →
      FFLexer.Scan WriteJson captureall (FFLexer.mk (rd a (c :: rest)) out T k bf)
        = some ((literalTok which, none),
            FFLexer.mk (rd (a ++ c :: want) r) ((if captureall then out else []) ++ c :: want)
              (literalTok which) k bf)) ∧
    (∀ p x y w r, want = p ++ y :: w → rest = p ++ x :: r → x ≠ y →
      FFLexer.Scan WriteJson captureall (FFLexer.mk (rd a (c :: rest)) out T k bf)
        = some ((.FFTok_error, some (.FFError .FFErr_invalid_string)),
            FFLexer.mk (rd (a ++ c :: p) (x :: r)) ((if captureall then out else []) ++ c :: p)
              .FFTok_init k bf)) ∧
    ((∃ t ffl', FFLexer.Scan WriteJson captureall (FFLexer.mk (rd a (c :: rest)) out T k bf)
        = some ((t, none), ffl')) ↔ ∃ r, rest = want ++ r) := by
  -- the switch of Scan on the first byte of a literal
  have hsw : ∀ (ffl : FFLexer) (again : FFLexer → Option (TokErr × FFLexer)),
      FFLexer.Scan_switch WriteJson captureall again c ffl
        = FFLexer.afterLex ((ffl.WriteByte c).wantBytes want (literalTok which)) := by
    intro ffl again
    by_cases h0 : which = 0
    · subst h0
      obtain ⟨rfl, rfl⟩ : 110 = c ∧ [117, 108, 108] = want := by
        simpa [literalText] using hlit
      simp [FFLexer.Scan_switch, null_bytes, literalTok]
    · by_cases h1 : which = 1
      · subst h1
        obtain ⟨rfl, rfl⟩ : 116 = c ∧ [114, 117, 101] = want := by
          simpa [literalText] using hlit
        simp [FFLexer.Scan_switch, true_bytes1, literalTok]
      · obtain ⟨rfl, rfl⟩ : 102 = c ∧ [97, 108, 115, 101] = want := by
          simpa [literalText, h0, h1] using hlit
        simp [FFLexer.Scan_switch, false_bytes1, literalTok, h0]
  have hc : isWS c = false := by
    have : c = 110 ∨ c = 116 ∨ c = 102 := by
      unfold literalText at hlit
      split_ifs at hlit <;> simp at hlit <;> omega
    rcases this with rfl | rfl | rfl <;> rfl
  have hscan : FFLexer.Scan WriteJson captureall (FFLexer.mk (rd a (c :: rest)) out T k bf)
      = FFLexer.afterLex (FFLexer.wantBytes want (literalTok which)
          (FFLexer.mk (rd (a ++ [c]) rest) ((if captureall then out else []) ++ [c])
            .FFTok_init k bf)) := by
    rw [Scan_at WriteJson captureall a rest out c T k bf hc, hsw, WriteByte_mk]
  have h1 : ∀ r, rest = want ++ r →
      FFLexer.Scan WriteJson captureall (FFLexer.mk (rd a (c :: rest)) out T k bf)
        = some ((literalTok which, none),
            FFLexer.mk (rd (a ++ c :: want) r) ((if captureall then out else []) ++ c :: want)
              (literalTok which) k bf) := by
    intro r hr
    rw [hscan, hr, wantBytes_run]
    simp [FFLexer.afterLex, FFLexer.lexed]
  have h2 : ∀ p x y w r, want = p ++ y :: w → rest = p ++ x :: r → x ≠ y →
      FFLexer.Scan WriteJson captureall (FFLexer.mk (rd a (c :: rest)) out T k bf)
        = some ((.FFTok_error, some (.FFError .FFErr_invalid_string)),
            FFLexer.mk (rd (a ++ c :: p) (x :: r)) ((if captureall then out else []) ++ c :: p)
              .FFTok_init k bf) := by
    intro p x y w r hw hr hxy
    rw [hscan, hr, hw, wantBytes_mismatch _ p y w x r _ _ _ _ _ hxy]
    simp [FFLexer.afterLex]
  refine ⟨h1, h2, ?_⟩
  constructor
  · rintro ⟨t, ffl', hs⟩
    rcases prefix_trichotomy want rest with hr | ⟨p, x, r, y, w, hw, hr, hxy⟩ | ⟨y, w, hw⟩
    · exact hr
    · rw [h2 p x y w r hw hr hxy] at hs
      simp at hs
    · rw [hscan, hw, wantBytes_eof] at hs
      simp [FFLexer.afterLex] at hs
  · rintro ⟨r, hr⟩
    exact ⟨_, _, h1 r hr⟩

/-- The theorem `Scan_literal_bytes` for `true` in plain mode on the input `trux,`: the
bytes `tru` match and `x` does not. -/
theorem Scan_literal_bytes_witness :
    literalText 1 = 116 :: [114, 117, 101] ∧
    (NewFFLexer [116, 114, 117, 120, 44]).Scan (fun b => b) false
      = some ((.FFTok_error, some (.FFError .FFErr_invalid_string)),
          FFLexer.mk (ffReader.mk [116, 114, 117, 120, 44] 3 5) [116, 114, 117] .FFTok_init 0 []) :=
  ⟨rfl, (Scan_literal_bytes (fun b => b) false 1 116 [114, 117, 101] rfl [] [114, 117, 120, 44] []
    .FFTok_init 0 []).2.1 [114, 117] 120 101 [] [44] rfl rfl (by decide)⟩

/-- C20, as the code has it: on the inputs `-`, `1.` and `1e`, where the input ends at the
place of the missing digits, Scan returns FFTok_error with the kind FFErr_io and none of
the three kinds FFErr_missing_integer_after_minus, FFErr_missing_integer_after_decimal,
FFErr_missing_integer_after_exponent. -/
theorem Scan_number_cut_short_is_io_error :
    (NewFFLexer [45]).Scan (fun b => b) false
      = some ((.FFTok_error, some (.FFError .FFErr_io)),
          FFLexer.mk (ffReader.mk [45] 1 1) [45] .FFTok_init 0 []) ∧
    (NewFFLexer [49, 46]).Scan (fun b => b) false
      = some ((.FFTok_error, some (.FFError .FFErr_io)),
          FFLexer.mk (ffReader.mk [49, 46] 2 2) [49, 46] .FFTok_init 0 []) ∧
    (NewFFLexer [49, 101]).Scan (fun b => b) false
      = some ((.FFTok_error, some (.FFError .FFErr_io)),
          FFLexer.mk (ffReader.mk [49, 101] 2 2) [49, 101] .FFTok_init 0 []) := by
  decide

/-- C20, amended: number grammar errors carry the documented kind when a byte follows the
place of the missing digits, and the kind FFErr_io when the input ends there.  In either
mode of Scan, with `pre` an optional `-`, `int` an integer part, `frac` an optional
fractional part, `e` an exponent marker and `sign` an optional sign: a `-` followed by a
byte `d` that is no digit gives FFErr_missing_integer_after_minus; `pre int .` followed by
such a `d` gives FFErr_missing_integer_after_decimal; `pre int frac e sign` followed by
such a `d` (no sign either when `sign` is empty) gives
FFErr_missing_integer_after_exponent; and each of the three inputs cut before `d` gives
FFErr_io.  The token is FFTok_error in all six cases. -/
theorem Scan_number_missing_digits (WriteJson : List Nat → List Nat) (captureall : Bool)
    (m : Bool) (int : List Nat) (hint : intPartOk int = true) (frac : Option (List Nat))
    (hfrac : fracOk frac = true) (e : Nat) (he : e = 101 ∨ e = 69) (sign : List Nat)
    (hsign : sign = [] ∨ sign = [43] ∨ sign = [45]) (a out : List Nat) (T : FFTok) (k : Nat)
    (bf : List Nat) :
    (∀ d r, isDigit d = false →
      FFLexer.Scan WriteJson captureall (FFLexer.mk (rd a (45 :: d :: r)) out T k bf)
        = some ((.FFTok_error, some (.FFError .FFErr_missing_integer_after_minus)),
            FFLexer.mk (rd (a ++ [45]) (d :: r)) ((if captureall then out else []) ++ [45])
              .FFTok_init k bf)) ∧
    (∀ d r, isDigit d = false →
      FFLexer.Scan WriteJson captureall
          (FFLexer.mk (rd a ((if m then [45] else []) ++ (int ++ 46 :: d :: r))) out T k bf)
        = some ((.FFTok_error, some (.FFError .FFErr_missing_integer_after_decimal)),
            FFLexer.mk (rd (a ++ ((if m then [45] else []) ++ (int ++ [46]))) (d :: r))
              ((if captureall then out else []) ++ ((if m then [45] else []) ++ (int ++ [46])))
              .FFTok_init k bf)) ∧
    (∀ d r, isDigit d = false → (sign = [] → d ≠ 43 ∧ d ≠ 45) →
      FFLexer.Scan WriteJson captureall
          (FFLexer.mk (rd a ((if m then [45] else []) ++ (int ++ (renderFrac frac ++
            e :: (sign ++ d :: r))))) out T k bf)
        = some ((.FFTok_error, some (.FFError .FFErr_missing_integer_after_exponent)),
            FFLexer.mk (rd (a ++ ((if m then [45] else []) ++ (int ++ (renderFrac frac ++
                e :: (sign ++ [d]))))) r)
              ((if captureall then out else []) ++ ((if m then [45] else []) ++ (int ++
                (renderFrac frac ++ e :: sign))))
              .FFTok_init k bf)) ∧
    FFLexer.Scan WriteJson captureall (FFLexer.mk (rd a [45]) out T k bf)
      = some ((.FFTok_error, some (.FFError .FFErr_io)),
          FFLexer.mk (rd (a ++ [45]) []) ((if captureall then out else []) ++ [45])
            .FFTok_init k bf) ∧
    FFLexer.Scan WriteJson captureall
        (FFLexer.mk (rd a ((if m then [45] else []) ++ (int ++ [46]))) out T k bf)
      = some ((.FFTok_error, some (.FFError .FFErr_io)),
          FFLexer.mk (rd (a ++ ((if m then [45] else []) ++ (int ++ [46]))) [])
            ((if captureall then out else []) ++ ((if m then [45] else []) ++ (int ++ [46])))
            .FFTok_init k bf) ∧
    FFLexer.Scan WriteJson captureall
        (FFLexer.mk (rd a ((if m then [45] else []) ++ (int ++ (renderFrac frac ++ e :: sign))))
          out T k bf)
      = some ((.FFTok_error, some (.FFError .FFErr_io)),
          FFLexer.mk (rd (a ++ ((if m then [45] else []) ++ (int ++ (renderFrac frac ++
              e :: sign)))) [])
            ((if captureall then out else []) ++ ((if m then [45] else []) ++ (int ++
              (renderFrac frac ++ e :: sign))))
            .FFTok_init k bf) := by
  obtain ⟨c0, ds0, hi, hc0⟩ := intPartOk_head int hint
  -- Scan on an input that starts with the number prefix
  have start : ∀ tl, FFLexer.Scan WriteJson captureall
      (FFLexer.mk (rd a ((if m then [45] else []) ++ (int ++ tl))) out T k bf)
      = FFLexer.afterLex (FFLexer.lexNumber
          (FFLexer.mk (rd a ((if m then [45] else []) ++ (int ++ tl)))
            (if captureall then out else []) .FFTok_init k bf)) := by
    intro tl
    cases m with
    | true => exact Scan_number_start WriteJson captureall a _ out 45 T k bf (Or.inl rfl)
    | false =>
      subst hi
      exact Scan_number_start WriteJson captureall a _ out c0 T k bf (Or.inr hc0)
  have he46 : e ≠ 46 := by omega
  have hed : isDigit e = false := by rcases he with rfl | rfl <;> rfl
  -- the byte after the integer part, when the exponent marker comes
  have hfe : ∀ tl, ∃ c2 b2, renderFrac frac ++ e :: tl = c2 :: b2 ∧ isDigit c2 = false := by
    intro tl
    cases frac with
    | none => exact ⟨e, tl, rfl, hed⟩
    | some ds => exact ⟨46, ds ++ e :: tl, rfl, rfl⟩
  have hfp : (if frac.isNone then e != 46 else !isDigit e) = true := by
    cases frac with
    | none => simpa using he46
    | some ds => simpa using hed
  have toExp : ∀ tl o, FFLexer.lexNumber
      (FFLexer.mk (rd a ((if m then [45] else []) ++ (int ++ (renderFrac frac ++ e :: tl)))) o
        .FFTok_init k bf)
      = FFLexer.lexNumber_exponent e (if frac.isNone then .FFTok_integer else .FFTok_double)
          (FFLexer.mk (rd (a ++ ((if m then [45] else []) ++ (int ++ renderFrac frac)) ++ [e]) tl)
            (o ++ ((if m then [45] else []) ++ (int ++ renderFrac frac))) .FFTok_init k bf) := by
    intro tl o
    obtain ⟨c2, b2, h2, hd2⟩ := hfe tl
    rw [h2, lexNumber_to_fraction m int hint c2 (Or.inr hd2),
      lexNumber_fraction_pass frac hfrac c2 e b2 tl _ _ _ k bf h2.symm hfp]
    simp
  refine ⟨?_, ?_, ?_, ?_, ?_, ?_⟩
  · intro d r hd
    rw [Scan_number_start WriteJson captureall a _ out 45 T k bf (Or.inl rfl)]
    have := lexNumber_pre true d (fun h => by cases h) a r (if captureall then out else [])
      .FFTok_init k bf
    simp only [if_true, List.cons_append, List.nil_append] at this
    rw [this, lexNumber_integer_missing d hd]
    simp [FFLexer.afterLex]
  · intro d r hd
    rw [start, lexNumber_to_fraction m int hint 46 (Or.inr rfl),
      lexNumber_fraction_missing d hd]
    simp [FFLexer.afterLex]
  · intro d r hd hd2
    rw [start, toExp, lexNumber_exponent_missing e he sign hsign d hd hd2]
    simp [FFLexer.afterLex]
  · rw [Scan_number_start WriteJson captureall a _ out 45 T k bf (Or.inl rfl)]
    simp [FFLexer.lexNumber, readByte_cons, readByte_nil, WriteByte_mk, FFLexer.afterLex]
  · rw [start, lexNumber_to_fraction m int hint 46 (Or.inr rfl), lexNumber_fraction_eof]
    simp [FFLexer.afterLex]
  · rw [start, toExp, lexNumber_exponent_eof e he sign hsign]
    simp [FFLexer.afterLex]

/-- The theorem `Scan_number_missing_digits` in plain mode for the prefix `-1`, the
fractional part `.5`, the marker `e` and the sign `+`, on the three inputs `-x`, `-1.x` and
`-1.5e+x`. -/
theorem Scan_number_missing_digits_witness :
    intPartOk [49] = true ∧ fracOk (some [53]) = true ∧
    (NewFFLexer [45, 120]).Scan (fun b => b) false
      = some ((.FFTok_error, some (.FFError .FFErr_missing_integer_after_minus)),
          FFLexer.mk (ffReader.mk [45, 120] 1 2) [45] .FFTok_init 0 []) ∧
    (NewFFLexer [45, 49, 46, 120]).Scan (fun b => b) false
      = some ((.FFTok_error, some (.FFError .FFErr_missing_integer_after_decimal)),
          FFLexer.mk (ffReader.mk [45, 49, 46, 120] 3 4) [45, 49, 46] .FFTok_init 0 []) ∧
    (NewFFLexer [45, 49, 46, 53, 101, 43, 120]).Scan (fun b => b) false
      = some ((.FFTok_error, some (.FFError .FFErr_missing_integer_after_exponent)),
          FFLexer.mk (ffReader.mk [45, 49, 46, 53, 101, 43, 120] 7 7) [45, 49, 46, 53, 101, 43]
            .FFTok_init 0 []) :=
  have h := Scan_number_missing_digits (fun b => b) false true [49] (by decide) (some [53])
    (by decide) 101 (Or.inl rfl) [43] (Or.inr (Or.inl rfl)) [] [] .FFTok_init 0 []
  ⟨by decide, by decide, h.1 120 [] (by decide), h.2.1 120 [] (by decide),
    h.2.2.1 120 [] (by decide) (fun h => by cases h)⟩

/-- C21: a lexer after Reset is indistinguishable from a new one.  For every lexer `L`
whatsoever (so for every state that calls of Scan, the value scanners, CaptureField and
SkipField can leave, also one with bytes in the scratch buffer `buf`) and every input `d`:
`L.Reset(d)` is the lexer `NewFFLexer(d)` but for the contents of `buf`, and every
sequence of operations (Scan in either mode, the value scanners, ScanToValue, CaptureField
and SkipField with any start token) has the same trace on both: each operation returns
the same tokens, errors, values or captured bytes and leaves the same reader (input and
cursor), output buffer and last token. -/
theorem Reset_is_as_new {F : Type} (ParseFloat : List Nat → Nat → Except GoError F)
    (WriteJson : List Nat → List Nat) (L : FFLexer) (d : List Nat) (ops : List LexOp) :
    L.Reset d = (NewFFLexer d).setBuf L.buf ∧
    (L.Reset d).trace ParseFloat WriteJson ops = (NewFFLexer d).trace ParseFloat WriteJson ops := by
  have h : L.Reset d = (NewFFLexer d).setBuf L.buf := rfl
  refine ⟨h, ?_⟩
  rw [h]
  exact trace_setBuf ParseFloat WriteJson ops _ _

/-- C22, as the code has it: at the end of the input Scan returns FFTok_eof with the error
`io.EOF`, which is no `*FFError`; a string with the escape `\q` gives the error
`lex_string_invalid_escaped_char` of `fmt.Errorf`; and ScanIntValue on `1 `, where no colon
comes first, returns an error of `fmt.Errorf` as well.  None of them carries a kind. -/
theorem Scan_errors_without_kind :
    (NewFFLexer []).Scan (fun b => b) false
      = some ((.FFTok_eof, some .EOF), FFLexer.mk (ffReader.mk [] 0 0) [] .FFTok_init 0 []) ∧
    (∀ k, GoError.EOF ≠ .FFError k) ∧
    (NewFFLexer [34, 92, 113, 34]).Scan (fun b => b) false
      = some ((.FFTok_error, some (.lex_string_invalid_escaped_char 113)),
          FFLexer.mk (ffReader.mk [34, 92, 113, 34] 1 4) [] .FFTok_init 0 []) ∧
    (∀ k, GoError.lex_string_invalid_escaped_char 113 ≠ .FFError k) ∧
    (NewFFLexer [49, 32]).ScanIntValue (fun b => b) 64
      = some (.error (.wanted_token .FFTok_colon .FFTok_integer [49]),
          FFLexer.mk (ffReader.mk [49, 32] 1 2) [49] .FFTok_integer 0 []) ∧
    (∀ k, GoError.wanted_token .FFTok_colon .FFTok_integer [49] ≠ .FFError k) := by
  refine ⟨by decide, fun k h => (by cases h), by decide, fun k h => (by cases h), rfl,
    fun k h => (by cases h)⟩

/-- C22, amended: the errors by their origin.  On every lexer with a well-formed reader,
in either mode, Scan returns, and a non-nil error of Scan is of one of three origins, by
the bytes of the input that were still to read.  Either only whitespace is left: the error
is `io.EOF` and comes with the token FFTok_eof.  Or it comes with the token FFTok_error and
is an `*FFError` whose kind is one of FFErr_io, FFErr_invalid_char, FFErr_invalid_string,
FFErr_missing_integer_after_decimal, FFErr_missing_integer_after_exponent,
FFErr_missing_integer_after_minus and FFErr_incomplete_comment.  Or it comes with the token
FFTok_error and the token under the cursor is a string, its first byte after the
whitespace being the quote: only then may the error be one of a string body, of which
nothing is said.  So every error of the lexing of a number, a literal, a comment or of a
byte that begins no token is an `*FFError` with a kind.  Every operation (Scan, the value
scanners, ScanToValue, CaptureField, SkipField) returns, and its non-nil error is one of
the errors that this operation makes itself (`LexOp.ownError`), or the error of ParseFloat
in ScanFloatValue, or the error of a call of Scan, on a lexer over the same input with the
cursor not before that of the operation, that leaves the lexer that the operation leaves,
and has one of the three origins there.  The errors that the operations make themselves
are no `*FFError`: they carry no kind. -/
theorem errors_by_origin {F : Type} (ParseFloat : List Nat → Nat → Except GoError F)
    (WriteJson : List Nat → List Nat) (x : FFLexer) (hwf : x.reader.wf) :
    (∀ captureall, ∃ tok e y, x.Scan WriteJson captureall = some ((tok, e), y) ∧
      ∀ err, e = some err →
        (tok = .FFTok_eof ∧ err = .EOF ∧ x.reader.pending.all isWS = true) ∨
        (tok = .FFTok_error ∧ ∃ k, err = .FFError k ∧ k.ofScan = true) ∨
        (tok = .FFTok_error ∧
          ∃ ws body, x.reader.pending = ws ++ 34 :: body ∧ ws.all isWS = true)) ∧
    (∀ op : LexOp, ∃ res y, op.run ParseFloat WriteJson x = some (res, y) ∧
      ∀ err, res.err = some err →
        op.ownError err = true ∨
        (op = .ScanFloatValue ∧ ∃ b, ParseFloat b 64 = .error err) ∨
        ∃ (z : FFLexer) (captureall : Bool) (tok : FFTok), z.reader.wf ∧
          z.reader.s = x.reader.s ∧ x.reader.i ≤ z.reader.i ∧
          z.Scan WriteJson captureall = some ((tok, some err), y) ∧
          scanErrorOrigin z.reader.pending tok err) ∧
    (∀ (op : LexOp) (k : FFErrKind), op.ownError (.FFError k) = false) := by
  refine ⟨fun cap => ?_, fun op => ?_, ownError_not_FFError⟩
  · obtain ⟨te, y, h, _⟩ := Scan_returns WriteJson cap x hwf
    obtain ⟨tok, e⟩ := te
    refine ⟨tok, e, y, h, fun err he => ?_⟩
    subst he
    exact Scan_error_origin WriteJson cap x tok err y hwf h
  · obtain ⟨res, y, h, _⟩ := LexOp_run_returns ParseFloat WriteJson op x hwf
    exact ⟨res, y, h, fun err he => LexOp_run_error ParseFloat WriteJson op x res y err hwf h he⟩

/-- The theorem `errors_by_origin` on the lexer over `tx`: Scan returns FFTok_error with
the `*FFError` of the kind FFErr_invalid_string, an error of the second origin, and
ScanIntValue returns this error, which is none of its own, from its first call of Scan. -/
theorem errors_by_origin_witness :
    (NewFFLexer [116, 120]).reader.wf ∧
    (NewFFLexer [116, 120]).Scan (fun b => b) false
      = some ((.FFTok_error, some (.FFError .FFErr_invalid_string)),
          FFLexer.mk (ffReader.mk [116, 120] 1 2) [116] .FFTok_init 0 []) ∧
    ((FFTok.FFTok_error = .FFTok_eof ∧ GoError.FFError .FFErr_invalid_string = .EOF ∧
        (NewFFLexer [116, 120]).reader.pending.all isWS = true) ∨
      (FFTok.FFTok_error = .FFTok_error ∧
        ∃ k, GoError.FFError .FFErr_invalid_string = .FFError k ∧ k.ofScan = true) ∨
      (FFTok.FFTok_error = .FFTok_error ∧
        ∃ ws body, (NewFFLexer [116, 120]).reader.pending = ws ++ 34 :: body ∧
          ws.all isWS = true)) ∧
    (LexOp.ScanIntValue 64).run
        (fun (_ : List Nat) (_ : Nat) => (Except.ok 0 : Except GoError Nat)) (fun b => b)
        (NewFFLexer [116, 120])
      = some (.int (.error (.FFError .FFErr_invalid_string)),
          FFLexer.mk (ffReader.mk [116, 120] 1 2) [116] .FFTok_init 0 []) ∧
    ((LexOp.ScanIntValue 64).ownError (.FFError .FFErr_invalid_string) = true ∨
      (LexOp.ScanIntValue 64 = .ScanFloatValue ∧
        ∃ b, (fun (_ : List Nat) (_ : Nat) => (Except.ok 0 : Except GoError Nat)) b 64
          = .error (.FFError .FFErr_invalid_string)) ∨
      ∃ (z : FFLexer) (captureall : Bool) (tok : FFTok), z.reader.wf ∧
        z.reader.s = (NewFFLexer [116, 120]).reader.s ∧
        (NewFFLexer [116, 120]).reader.i ≤ z.reader.i ∧
        z.Scan (fun b => b) captureall
          = some ((tok, some (.FFError .FFErr_invalid_string)),
              FFLexer.mk (ffReader.mk [116, 120] 1 2) [116] .FFTok_init 0 []) ∧
        scanErrorOrigin z.reader.pending tok (.FFError .FFErr_invalid_string)) := by
  have hw : (NewFFLexer [116, 120]).reader.wf := by decide
  have hs : (NewFFLexer [116, 120]).Scan (fun b => b) false
      = some ((.FFTok_error, some (.FFError .FFErr_invalid_string)),
          FFLexer.mk (ffReader.mk [116, 120] 1 2) [116] .FFTok_init 0 []) := by decide
  have hr : (LexOp.ScanIntValue 64).run
        (fun (_ : List Nat) (_ : Nat) => (Except.ok 0 : Except GoError Nat)) (fun b => b)
        (NewFFLexer [116, 120])
      = some (.int (.error (.FFError .FFErr_invalid_string)),
          FFLexer.mk (ffReader.mk [116, 120] 1 2) [116] .FFTok_init 0 []) := rfl
  have hthm := errors_by_origin
    (fun (_ : List Nat) (_ : Nat) => (Except.ok 0 : Except GoError Nat)) (fun b => b)
    (NewFFLexer [116, 120]) hw
  obtain ⟨tok, e, y, h, hc⟩ := hthm.1 false
  rw [hs] at h
  simp only [Option.some.injEq, Prod.mk.injEq] at h
  obtain ⟨⟨rfl, rfl⟩, _⟩ := h
  obtain ⟨res, y2, h2, hc2⟩ := hthm.2.1 (.ScanIntValue 64)
  rw [hr] at h2
  simp only [Option.some.injEq, Prod.mk.injEq] at h2
  obtain ⟨rfl, rfl⟩ := h2
  exact ⟨hw, hs, hc _ rfl, hr, hc2 _ rfl⟩

/-- C23: untrusted data cannot make the lexer panic.  In the model every panic of the
reader is the result `none`: UnreadByte returns `none` exactly at the cursor 0, a slice
expression `s[a:b]` is `none` exactly when its bounds are out of range, and an index
`s[j]` outside the input is `none` as well.  For every input `d` and every sequence of
calls of Scan (in either mode), the value scanners, ScanToValue, CaptureField and
SkipField (with any start token), on the lexer that NewFFLexer builds for `d` and on any
lexer after Reset with `d`, no call returns `none`: UnreadByte is never called at the
cursor 0 and no index or slice of the reader is out of range. -/
theorem no_panic_on_any_input {F : Type} (ParseFloat : List Nat → Nat → Except GoError F)
    (WriteJson : List Nat → List Nat) (d : List Nat) (ops : List LexOp) :
    none ∉ (NewFFLexer d).trace ParseFloat WriteJson ops ∧
    (∀ L : FFLexer, none ∉ (L.Reset d).trace ParseFloat WriteJson ops) ∧
    (∀ r : ffReader, r.UnreadByte = none ↔ r.i = 0) ∧
    (∀ (s : List Nat) (a b : Nat), goSlice s a b = none ↔ ¬ (a ≤ b ∧ b ≤ s.length)) := by
  refine ⟨trace_no_panic ParseFloat WriteJson ops _ ⟨rfl, Nat.zero_le _⟩,
    fun L => trace_no_panic ParseFloat WriteJson ops _ ⟨rfl, Nat.zero_le _⟩, ?_, ?_⟩
  · intro r
    unfold ffReader.UnreadByte
    by_cases h : r.i ≤ 0
    · simp only [h, if_true, true_iff]
      omega
    · simp only [h, if_false, reduceCtorEq, false_iff]
      omega
  · intro s a b
    unfold goSlice
    by_cases h : a ≤ b ∧ b ≤ s.length
    · simp [h]
    · simp [h]

/-- C24: decimal formatting.  For every `int64` `n`, AppendInt(n, 10) appends to the buffer
a `-` when `n` is negative and then the decimal text of the absolute value of `n`; for
every `uint64` `u`, AppendUint(u, 10) appends the decimal text of `u`; after Reset the
buffer holds only what was appended since.  The decimal text of a number is a text of the
digits `0`-`9` (so without `+`), not empty, with no leading zero unless the number is 0,
and it writes the number.  AppendInt(-6, 10) gives `-6`, and Reset followed by
AppendUint(8, 10) gives `8`. -/
theorem AppendInt_decimal_text (buf : List Nat) :
    (∀ n : Int, -(2 ^ 63) ≤ n → n < 2 ^ 63 →
      Buffer_AppendInt buf n 10
        = some (buf ++ ((if n < 0 then [45] else []) ++ decimalText n.natAbs))) ∧
    (∀ u : Nat, u < 2 ^ 64 → Buffer_AppendUint buf u 10 = some (buf ++ decimalText u)) ∧
    (∀ n : Int, -(2 ^ 63) ≤ n → n < 2 ^ 63 →
      Buffer_AppendInt (Buffer_Reset buf) n 10
        = some ((if n < 0 then [45] else []) ++ decimalText n.natAbs)) ∧
    (∀ u : Nat, u < 2 ^ 64 → Buffer_AppendUint (Buffer_Reset buf) u 10 = some (decimalText u)) ∧
    (∀ u : Nat, decimalText u ≠ [] ∧ (∀ d ∈ decimalText u, 48 ≤ d ∧ d ≤ 57) ∧
      (u ≠ 0 → (decimalText u).head? ≠ some 48) ∧ decimalValue (decimalText u) = u) ∧
    Buffer_AppendInt [] (-6) 10 = some [45, 54] ∧
    Buffer_AppendUint (Buffer_Reset [45, 54]) 8 10 = some [56] := by
  have hu : ∀ (b : List Nat) (u : Nat), u < 2 ^ 64 →
      Buffer_AppendUint b u 10 = some (b ++ decimalText u) := by
    intro b u h
    unfold Buffer_AppendUint formatBits2
    rw [if_neg (by omega)]
    simp only [Bool.false_eq_true, if_false]
    rw [formatBits2_loop_decimal 64 u [] (by
      have : (2 : Nat) ^ 64 ≤ 10 ^ 65 := by norm_num
      omega)]
    simp
  have hi : ∀ (b : List Nat) (n : Int), -(2 ^ 63) ≤ n → n < 2 ^ 63 →
      Buffer_AppendInt b n 10
        = some (b ++ ((if n < 0 then [45] else []) ++ decimalText n.natAbs)) := by
    intro b n h1 h2
    unfold Buffer_AppendInt formatBits2
    rw [if_neg (by omega)]
    have h10 : (2 : Nat) ^ 64 ≤ 10 ^ 65 := by norm_num
    by_cases hn : n < 0
    · have e1 : (if decide (n < 0) = true then (2 ^ 64 - (n % 2 ^ 64).toNat) % 2 ^ 64
          else (n % 2 ^ 64).toNat) = n.natAbs := by
        simp only [hn, decide_True, if_true]
        omega
      simp only [e1]
      rw [formatBits2_loop_decimal 64 _ [] (by omega)]
      simp [hn]
    · have e1 : (if decide (n < 0) = true then (2 ^ 64 - (n % 2 ^ 64).toNat) % 2 ^ 64
          else (n % 2 ^ 64).toNat) = n.natAbs := by
        simp only [hn, decide_False, Bool.false_eq_true, if_false]
        omega
      simp only [e1]
      rw [formatBits2_loop_decimal 64 _ [] (by omega)]
      simp [hn]
  refine ⟨hi buf, hu buf, ?_, ?_, decimalText_facts, rfl, rfl⟩
  · intro n h1 h2
    rw [hi _ n h1 h2]
    rfl
  · intro u h
    rw [hu _ u h]
    rfl

/-- The theorem `AppendInt_decimal_text` for the numbers -6 and 8 of the test
TestWriteJsonNumber. -/
theorem AppendInt_decimal_text_witness :
    Buffer_AppendInt [] (-6) 10 = some ([] ++ ((if (-6 : Int) < 0 then [45] else []) ++
      decimalText (-6 : Int).natAbs)) ∧
    Buffer_AppendUint (Buffer_Reset [45, 54]) 8 10 = some (decimalText 8) :=
  ⟨(AppendInt_decimal_text []).1 (-6) (by decide) (by decide),
    (AppendInt_decimal_text [45, 54]).2.2.2.1 8 (by decide)⟩

/-- C25, as the code has it: after the exponent marker the byte that does not fit is not
pushed back.  On `1ex ` Scan returns FFErr_missing_integer_after_exponent with the cursor
at 3, after the `x`, and the next read returns the blank; on `1e+x ` likewise, with the
cursor at 4.  On `-x ` and `1.x ` (the two other errors) and on `1x ` (a number token) the
cursor is left on the `x` and the next read returns it. -/
theorem Scan_exponent_error_keeps_the_byte :
    (NewFFLexer [49, 101, 120, 32]).Scan (fun b => b) false
      = some ((.FFTok_error, some (.FFError .FFErr_missing_integer_after_exponent)),
          FFLexer.mk (ffReader.mk [49, 101, 120, 32] 3 4) [49, 101] .FFTok_init 0 []) ∧
    (ffReader.mk [49, 101, 120, 32] 3 4).ReadByte
      = some (.ok 32, ffReader.mk [49, 101, 120, 32] 4 4) ∧
    (NewFFLexer [49, 101, 43, 120, 32]).Scan (fun b => b) false
      = some ((.FFTok_error, some (.FFError .FFErr_missing_integer_after_exponent)),
          FFLexer.mk (ffReader.mk [49, 101, 43, 120, 32] 4 5) [49, 101, 43] .FFTok_init 0 []) ∧
    (NewFFLexer [45, 120, 32]).Scan (fun b => b) false
      = some ((.FFTok_error, some (.FFError .FFErr_missing_integer_after_minus)),
          FFLexer.mk (ffReader.mk [45, 120, 32] 1 3) [45] .FFTok_init 0 []) ∧
    (ffReader.mk [45, 120, 32] 1 3).ReadByte = some (.ok 120, ffReader.mk [45, 120, 32] 2 3) ∧
    (NewFFLexer [49, 46, 120, 32]).Scan (fun b => b) false
      = some ((.FFTok_error, some (.FFError .FFErr_missing_integer_after_decimal)),
          FFLexer.mk (ffReader.mk [49, 46, 120, 32] 2 4) [49, 46] .FFTok_init 0 []) ∧
    (ffReader.mk [49, 46, 120, 32] 2 4).ReadByte
      = some (.ok 120, ffReader.mk [49, 46, 120, 32] 3 4) ∧
    (NewFFLexer [49, 120, 32]).Scan (fun b => b) false
      = some ((.FFTok_integer, none),
          FFLexer.mk (ffReader.mk [49, 120, 32] 1 3) [49] .FFTok_integer 0 []) ∧
    (ffReader.mk [49, 120, 32] 1 3).ReadByte = some (.ok 120, ffReader.mk [49, 120, 32] 2 3) := by
  refine ⟨by decide, rfl, by decide, by decide, rfl, by decide, rfl, by decide, rfl⟩

/-- C26: the cursor of the reader stays inside the input.  From a reader made by
newffReader over any input, after each operation of any sequence of ReadByte,
ReadByteNoWS, UnreadByte, SliceString (with any buffer) and Reset (with any new input)
that has returned, the cached length `l` is the length of the input and the cursor
satisfies `0 <= i <= l`; and on every reader in this state each operation returns,
whether with a value or with an error, except UnreadByte at the cursor 0, which is the
panic, and the reader it returns is in this state again. -/
theorem reader_cursor_invariant (d : List Nat) (ops : List ReaderOp) :
    (∀ r2 ∈ (newffReader d).after ops, r2.l = r2.s.length ∧ 0 ≤ r2.i ∧ r2.i ≤ r2.l) ∧
    (∀ (op : ReaderOp) (r : ffReader), r.l = r.s.length → r.i ≤ r.l →
      (op.run r = none ↔ op = .UnreadByte ∧ r.i = 0) ∧
      ∀ r2, op.run r = some r2 → r2.l = r2.s.length ∧ 0 ≤ r2.i ∧ r2.i ≤ r2.l) := by
  constructor
  · intro r2 h
    have := after_wf ops (newffReader d) ⟨rfl, Nat.zero_le _⟩ r2 h
    exact ⟨this.1, Nat.zero_le _, this.2⟩
  · intro op r h1 h2
    have := ReaderOp_run_inv op r ⟨h1, h2⟩
    refine ⟨this.1, fun r2 h => ?_⟩
    have := this.2 r2 h
    exact ⟨this.1, Nat.zero_le _, this.2⟩

/-- The theorem `reader_cursor_invariant` on the reader over `"aA" x` with the cursor
at 1, just after the opening quote: SliceString returns a reader in the same state. -/
theorem reader_cursor_invariant_witness :
    ReaderOp.run (.SliceString []) (ffReader.mk [34, 97, 92, 117, 48, 48, 52, 49, 34, 32, 120] 1 11)
      = some (ffReader.mk [34, 97, 92, 117, 48, 48, 52, 49, 34, 32, 120] 9 11) ∧
    (ffReader.mk [34, 97, 92, 117, 48, 48, 52, 49, 34, 32, 120] 9 11).l
      = (ffReader.mk [34, 97, 92, 117, 48, 48, 52, 49, 34, 32, 120] 9 11).s.length ∧
    0 ≤ (ffReader.mk [34, 97, 92, 117, 48, 48, 52, 49, 34, 32, 120] 9 11).i ∧
    (ffReader.mk [34, 97, 92, 117, 48, 48, 52, 49, 34, 32, 120] 9 11).i
      ≤ (ffReader.mk [34, 97, 92, 117, 48, 48, 52, 49, 34, 32, 120] 9 11).l :=
  have h : ReaderOp.run (.SliceString [])
      (ffReader.mk [34, 97, 92, 117, 48, 48, 52, 49, 34, 32, 120] 1 11)
      = some (ffReader.mk [34, 97, 92, 117, 48, 48, 52, 49, 34, 32, 120] 9 11) := by decide
  ⟨h, ((reader_cursor_invariant [] []).2 (.SliceString [])
    (ffReader.mk [34, 97, 92, 117, 48, 48, 52, 49, 34, 32, 120] 1 11) rfl (by decide)).2 _ h⟩

/-- C27: ReadByteNoWS.  The whitespace of the reader is the six bytes 0x09, 0x0A, 0x0B,
0x0C, 0x0D and 0x20: these are the entries that `whitespaceLookupTable` marks, and they
are the bytes for which the `switch` of Scan takes its whitespace case (another pass of the
loop).  On every reader over `a ++ b` with the cursor after `a`: when `b` is a run `ws` of
whitespace, a byte `c` that is not whitespace, and a rest, ReadByteNoWS returns `c` and
leaves the cursor just after `c` (so a zero byte is returned as a byte); it always
returns; and it signals the end of the input exactly when `b` holds no byte other than
whitespace. -/
theorem ReadByteNoWS_skips_whitespace (a b : List Nat) :
    (∀ c, whitespaceLookupTable c = true ↔
      c = 9 ∨ c = 10 ∨ c = 11 ∨ c = 12 ∨ c = 13 ∨ c = 32) ∧
    (∀ (WriteJson : List Nat → List Nat) (captureall : Bool)
      (again again2 : FFLexer → Option (TokErr × FFLexer)) (c : Nat) (ffl : FFLexer),
      (whitespaceLookupTable c = true →
        FFLexer.Scan_switch WriteJson captureall again c ffl
          = again (if captureall then ffl.WriteByte c else ffl)) ∧
      (whitespaceLookupTable c = false →
        FFLexer.Scan_switch WriteJson captureall again c ffl
          = FFLexer.Scan_switch WriteJson captureall again2 c ffl)) ∧
    (∀ ws c rest, (∀ x ∈ ws, whitespaceLookupTable x = true) → whitespaceLookupTable c = false →
      b = ws ++ c :: rest →
      (rd a b).ReadByteNoWS = some (.ok c, rd (a ++ ws ++ [c]) rest)) ∧
    (∀ ws rest, (∀ x ∈ ws, whitespaceLookupTable x = true) → b = ws ++ 0 :: rest →
      (rd a b).ReadByteNoWS = some (.ok 0, rd (a ++ ws ++ [0]) rest)) ∧
    (∃ res r, (rd a b).ReadByteNoWS = some (res, r)) ∧
    ((∃ r, (rd a b).ReadByteNoWS = some (.error .EOF, r)) ↔
      ∀ x ∈ b, whitespaceLookupTable x = true) := by
  have hall : ∀ ws : List Nat, (∀ x ∈ ws, whitespaceLookupTable x = true) ↔ ws.all isWS = true := by
    intro ws
    simp only [List.all_eq_true, whitespaceLookupTable_eq]
  have run : ∀ ws c rest, (∀ x ∈ ws, whitespaceLookupTable x = true) →
      whitespaceLookupTable c = false → b = ws ++ c :: rest →
      (rd a b).ReadByteNoWS = some (.ok c, rd (a ++ ws ++ [c]) rest) := by
    intro ws c rest hws hc hb
    rw [whitespaceLookupTable_eq] at hc
    rw [hb]
    exact ReadByteNoWS_rd a ws rest c ((hall ws).mp hws) hc
  refine ⟨?_, ?_, run, ?_, ?_, ?_⟩
  · intro c
    rw [whitespaceLookupTable_eq]
    exact isWS_iff c
  · intro WriteJson captureall again again2 c ffl
    rw [whitespaceLookupTable_eq]
    exact ⟨Scan_switch_ws WriteJson captureall again c ffl,
      Scan_switch_not_ws WriteJson captureall again again2 c ffl⟩
  · intro ws rest hws hb
    exact run ws 0 rest hws (by decide) hb
  · rcases ReadByteNoWS_cases a b with ⟨_, h⟩ | ⟨ws, c, rest, _, _, _, h⟩
    · exact ⟨_, _, h⟩
    · exact ⟨_, _, h⟩
  · rw [hall]
    constructor
    · rintro ⟨r, hr⟩
      rcases ReadByteNoWS_cases a b with ⟨h, _⟩ | ⟨ws, c, rest, _, _, _, h⟩
      · exact h
      · rw [h] at hr
        cases hr
    · intro h
      exact ⟨_, ReadByteNoWS_rd_eof a b h⟩

/-- The theorem `ReadByteNoWS_skips_whitespace` on the input blank, tab, zero byte, `x`:
the zero byte is returned and the cursor is left at 3. -/
theorem ReadByteNoWS_skips_whitespace_witness :
    (rd [] [32, 9, 0, 120]).ReadByteNoWS = some (.ok 0, rd [32, 9, 0] [120]) :=
  (ReadByteNoWS_skips_whitespace [] [32, 9, 0, 120]).2.2.2.1 [32, 9] [120] (by decide) rfl

/-- C28, as the code has it: UnreadByte does not look at the last operation.  After two
reads of the input `ab`, two calls of UnreadByte in a row both return, and the cursor is
back at 0. -/
theorem UnreadByte_twice_in_a_row :
    (newffReader [97, 98]).ReadByte = some (.ok 97, ffReader.mk [97, 98] 1 2) ∧
    (ffReader.mk [97, 98] 1 2).ReadByte = some (.ok 98, ffReader.mk [97, 98] 2 2) ∧
    (ffReader.mk [97, 98] 2 2).UnreadByte = some (ffReader.mk [97, 98] 1 2) ∧
    (ffReader.mk [97, 98] 1 2).UnreadByte = some (ffReader.mk [97, 98] 0 2) := by
  refine ⟨rfl, rfl, rfl, rfl⟩

/-- C28, amended: UnreadByte moves the cursor back by exactly one position, leaving the
input and its length as they are, whenever the cursor is not 0, and is fatal (a panic, no
new state) exactly at the position 0; it keeps no record of the last operation, so a
second call in a row moves the cursor back once more when it is not 0 by then. -/
theorem UnreadByte_back_by_one (r : ffReader) :
    (r.UnreadByte = none ↔ r.i = 0) ∧
    (0 < r.i → r.UnreadByte = some { r with i := r.i - 1 }) ∧
    (1 < r.i → r.UnreadByte.bind ffReader.UnreadByte = some { r with i := r.i - 2 }) := by
  refine ⟨?_, ?_, ?_⟩
  · unfold ffReader.UnreadByte
    by_cases h : r.i ≤ 0
    · simp only [h, if_true, true_iff]
      omega
    · simp only [h, if_false]
      constructor
      · intro h2
        cases h2
      · intro h2
        omega
  · intro h
    unfold ffReader.UnreadByte
    rw [if_neg (by omega)]
  · intro h
    unfold ffReader.UnreadByte
    rw [if_neg (by omega)]
    simp only [Option.some_bind]
    rw [if_neg (by omega)]
    rfl

/-- The theorem `UnreadByte_back_by_one` on the reader over `abc` with the cursor at 2. -/
theorem UnreadByte_back_by_one_witness :
    (ffReader.mk [97, 98, 99] 2 3).UnreadByte = some (ffReader.mk [97, 98, 99] 1 3) ∧
    (ffReader.mk [97, 98, 99] 2 3).UnreadByte.bind ffReader.UnreadByte
      = some (ffReader.mk [97, 98, 99] 0 3) :=
  ⟨(UnreadByte_back_by_one (ffReader.mk [97, 98, 99] 2 3)).2.1 (by decide),
    (UnreadByte_back_by_one (ffReader.mk [97, 98, 99] 2 3)).2.2 (by decide)⟩

/-- C29: positions.  For every reader over the input `a ++ b` with the cursor after `a`
(so that `a` is the consumed input and the cursor is `len(a)`), PosWithLine returns the
line number 1 plus the number of line feeds in `a`, and as the column the number of bytes
of `a` after its last line feed, which is `len(a)` when `a` has no line feed; WrapErr
reports these two with the offset `len(a)` and the error it is given. -/
theorem PosWithLine_counts_lines (a b : List Nat) :
    (rd a b).PosWithLine
      = some (1 + a.count 10, (a.reverse.takeWhile (fun c => c != 10)).length) ∧
    (10 ∉ a → (rd a b).PosWithLine = some (1, a.length)) ∧
    ∀ (out : List Nat) (T : FFTok) (k : Nat) (bf : List Nat) (err : GoError),
      (FFLexer.mk (rd a b) out T k bf).WrapErr err
        = some { offset := a.length, line := 1 + a.count 10,
                 char := (a.reverse.takeWhile (fun c => c != 10)).length, err := err } := by
  have key : (rd a b).PosWithLine
      = some (1 + a.count 10, (a.reverse.takeWhile (fun c => c != 10)).length) := by
    have := PosWithLine_loop_run (rd a b) a [] b 1 0 (by simp [rd])
    unfold ffReader.PosWithLine
    simp only [List.length_nil] at this
    rw [show (rd a b).i = a.length from rfl, this]
    by_cases hm : 10 ∈ a
    · rw [if_pos hm]
    · rw [if_neg hm]
      have hall : ∀ x ∈ a.reverse, (x != 10) = true := by
        intro x hx
        have hx2 := List.mem_reverse.mp hx
        simp only [bne_iff_ne, ne_eq]
        intro he
        exact hm (he ▸ hx2)
      rw [List.takeWhile_eq_self_iff.mpr hall]
      simp
  refine ⟨key, ?_, ?_⟩
  · intro hm
    rw [key]
    have hall : ∀ x ∈ a.reverse, (x != 10) = true := by
      intro x hx
      have hx2 := List.mem_reverse.mp hx
      simp only [bne_iff_ne, ne_eq]
      intro he
      exact hm (he ▸ hx2)
    rw [List.takeWhile_eq_self_iff.mpr hall, List.count_eq_zero_of_not_mem hm]
    simp
  · intro out T k bf err
    unfold FFLexer.WrapErr
    simp only [key]
    rfl

/-- The theorem `PosWithLine_counts_lines` on the input `a`, line feed, `bc`, line feed,
`d` with the cursor at 4 (line 2, column 2) and with the cursor at 1 (line 1, column 1). -/
theorem PosWithLine_counts_lines_witness :
    (rd [97, 10, 98, 99] [10, 100]).PosWithLine = some (2, 2) ∧
    (rd [97] [10, 98, 99, 10, 100]).PosWithLine = some (1, 1) :=
  ⟨(PosWithLine_counts_lines [97, 10, 98, 99] [10, 100]).1,
    (PosWithLine_counts_lines [97] [10, 98, 99, 10, 100]).2.1 (by decide)⟩

/-- C30: progress and termination.  On every lexer whose reader is as newffReader, Reset
and the methods leave it (`l = len(s)`, `i <= l`), with any buffers and last token, and in
either mode: Scan returns (the loops of the model never use up their fuel), it leaves the
input as it is and the cursor inside it, and unless the token is FFTok_eof the cursor is
strictly greater after the call than before it, also when the call returns an error.
Consequently the loops of SkipField and captureField, at any depth, return after at most
`l - i + 1` calls of Scan, one for each pass: with this many passes allowed they return,
and with more passes allowed they return the same; so SkipField and CaptureField return
for every start token. -/
theorem Scan_progress_and_termination (WriteJson : List Nat → List Nat) (x : FFLexer)
    (hwf : x.reader.wf) :
    (∀ captureall, ∃ tok e y, x.Scan WriteJson captureall = some ((tok, e), y) ∧
      y.reader.s = x.reader.s ∧ y.reader.l = x.reader.l ∧ y.reader.i ≤ y.reader.l ∧
      x.reader.i ≤ y.reader.i ∧ (tok ≠ .FFTok_eof → x.reader.i < y.reader.i)) ∧
    (∀ start depth, ∃ res y,
      FFLexer.SkipField_loop WriteJson start (x.reader.l - x.reader.i + 1) depth x
        = some (res, y) ∧
      ∀ k, FFLexer.SkipField_loop WriteJson start (x.reader.l - x.reader.i + 1 + k) depth x
        = some (res, y)) ∧
    (∀ start depth, ∃ res y,
      FFLexer.captureField_loop WriteJson start (x.reader.l - x.reader.i + 1) depth x
        = some (res, y) ∧
      ∀ k, FFLexer.captureField_loop WriteJson start (x.reader.l - x.reader.i + 1 + k) depth x
        = some (res, y)) ∧
    (∀ start, ∃ res y, x.SkipField WriteJson start = some (res, y)) ∧
    (∀ start, ∃ res y, x.CaptureField WriteJson start = some (res, y)) := by
  refine ⟨?_, ?_, ?_, ?_, ?_⟩
  · intro cap
    obtain ⟨te, y, h, hadv, _, hprog⟩ := Scan_returns WriteJson cap x hwf
    refine ⟨te.1, te.2, y, h, hadv.2.1, ?_, hadv.1.2, hadv.2.2, hprog⟩
    rw [hadv.1.1, hadv.2.1, hwf.1]
  · intro start depth
    obtain ⟨res, y, h, _⟩ := SkipField_loop_returns WriteJson start _ depth x hwf (le_refl _)
    exact ⟨res, y, h, fun k => SkipField_loop_fuel WriteJson start _ k depth x _ h⟩
  · intro start depth
    obtain ⟨res, y, h, _⟩ := captureField_loop_returns WriteJson start _ depth x hwf (le_refl _)
    exact ⟨res, y, h, fun k => captureField_loop_fuel WriteJson start _ k depth x _ h⟩
  · intro start
    obtain ⟨res, y, h, _⟩ := SkipField_returns WriteJson start x hwf
    exact ⟨res, y, h⟩
  · intro start
    obtain ⟨res, y, h, _⟩ := CaptureField_returns WriteJson start x hwf
    exact ⟨res, y, h⟩

/-- The theorem `Scan_progress_and_termination` on the lexer over `[1e ` after its first
byte: Scan returns an error, and SkipField returns. -/
theorem Scan_progress_and_termination_witness :
    (FFLexer.mk (ffReader.mk [91, 49, 101, 32] 1 4) [] .FFTok_left_brace 0 []).reader.wf ∧
    (∃ tok e y, (FFLexer.mk (ffReader.mk [91, 49, 101, 32] 1 4) [] .FFTok_left_brace 0 []).Scan
        (fun b => b) false = some ((tok, e), y) ∧
      (tok ≠ .FFTok_eof → 1 < y.reader.i)) ∧
    (∃ res y, (FFLexer.mk (ffReader.mk [91, 49, 101, 32] 1 4) [] .FFTok_left_brace 0 []).SkipField
        (fun b => b) .FFTok_left_brace = some (res, y)) :=
  have hw : (FFLexer.mk (ffReader.mk [91, 49, 101, 32] 1 4) [] .FFTok_left_brace 0 []).reader.wf := by
    decide
  ⟨hw,
    ((Scan_progress_and_termination (fun b => b) _ hw).1 false).imp fun _ h => h.imp
      fun _ h => h.imp fun _ h => ⟨h.1, h.2.2.2.2.2⟩,
    (Scan_progress_and_termination (fun b => b) _ hw).2.2.2.1 .FFTok_left_brace⟩

/-- C31, as the code has it: the integer `9223372036854775808` (2^63), a valid JSON number
with no fractional part and no exponent, followed by a blank.  On `:9223372036854775808 `
ScanFloatValue returns its error for an integer token, and ScanIntValue(64) does not
succeed either: it returns the error of ParseInt, as the number does not fit 64 bits. -/
theorem ScanIntValue_out_of_range :
    JNumber.wf ⟨false, [57, 50, 50, 51, 51, 55, 50, 48, 51, 54, 56, 53, 52, 55, 55, 53, 56,
      48, 56], none, none⟩ = true ∧
    JNumber.stoppedBy ⟨false, [57, 50, 50, 51, 51, 55, 50, 48, 51, 54, 56, 53, 52, 55, 55, 53,
      56, 48, 56], none, none⟩ 32 = true ∧
    (NewFFLexer [58, 57, 50, 50, 51, 51, 55, 50, 48, 51, 54, 56, 53, 52, 55, 55, 53, 56, 48,
        56, 32]).ScanFloatValue
        (fun (_ : List Nat) (_ : Nat) => (Except.ok 0 : Except GoError Nat)) (fun b => b)
      = some (.error (.wanted_value .FFTok_double .FFTok_integer),
          FFLexer.mk (ffReader.mk [58, 57, 50, 50, 51, 51, 55, 50, 48, 51, 54, 56, 53, 52, 55,
            55, 53, 56, 48, 56, 32] 20 21)
            [57, 50, 50, 51, 51, 55, 50, 48, 51, 54, 56, 53, 52, 55, 55, 53, 56, 48, 56]
            .FFTok_integer 0 []) ∧
    (NewFFLexer [58, 57, 50, 50, 51, 51, 55, 50, 48, 51, 54, 56, 53, 52, 55, 55, 53, 56, 48,
        56, 32]).ScanIntValue (fun b => b) 64
      = some (.error .parse_error,
          FFLexer.mk (ffReader.mk [58, 57, 50, 50, 51, 51, 55, 50, 48, 51, 54, 56, 53, 52, 55,
            55, 53, 56, 48, 56, 32] 20 21)
            [57, 50, 50, 51, 51, 55, 50, 48, 51, 54, 56, 53, 52, 55, 55, 53, 56, 48, 56]
            .FFTok_integer 0 []) := by
  refine ⟨by decide, by decide, rfl, rfl⟩

/-- C31, amended: ScanFloatValue accepts only tokens lexed as FFTok_double.  For every
valid JSON number `n` with neither a fractional part nor an exponent, followed by a byte
`d` that cannot continue it (and any rest), on a lexer at the start of the input
`:` ++ n ++ d ++ rest: ScanFloatValue returns a non-nil error (wanted a double, got an
integer) and no value, with the cursor after `n`, while ScanIntValue(bitSize) on the same
input passes the same two checks and returns ParseInt(n, 10, bitSize), leaving the same
lexer; this is the value of `n` with a nil error whenever `n` fits a signed integer of
`bitSize` bits, for a bit size from 1 to 64. -/
theorem ScanFloatValue_rejects_integers {F : Type}
    (ParseFloat : List Nat → Nat → Except GoError F) (WriteJson : List Nat → List Nat)
    (bitSize : Nat) (n : JNumber) (d : Nat) (rest : List Nat) (ffl : FFLexer)
    (hn : n.wf = true) (hfrac : n.frac = none) (hexp : n.exp = none)
    (hd : n.stoppedBy d = true)
    (hffl : ffl.reader = newffReader (58 :: (n.render ++ d :: rest))) :
    ∃ y, y.reader = { s := 58 :: (n.render ++ d :: rest), i := n.render.length + 1,
                      l := (58 :: (n.render ++ d :: rest)).length } ∧
      y.outputbuf = n.render ∧
      ffl.ScanFloatValue ParseFloat WriteJson
        = some (.error (.wanted_value .FFTok_double .FFTok_integer), y) ∧
      ffl.ScanIntValue WriteJson bitSize = some (ParseInt n.render 10 bitSize, y) ∧
      (1 ≤ bitSize → bitSize ≤ 64 →
        (if n.minus = true then decimalValue n.int ≤ 2 ^ (bitSize - 1)
          else decimalValue n.int < 2 ^ (bitSize - 1)) →
        ParseInt n.render 10 bitSize
          = .ok (if n.minus = true then -(decimalValue n.int : Int)
              else (decimalValue n.int : Int))) := by
  obtain ⟨reader, out, T, k, bf⟩ := ffl
  simp only at hffl
  subst hffl
  have e0 : newffReader (58 :: (n.render ++ d :: rest)) = rd [] (58 :: (n.render ++ d :: rest)) := by
    simp [newffReader, rd]
  have hkind : n.kind = .FFTok_integer := by
    simp [JNumber.kind, hfrac, hexp]
  have s1 := Scan_single WriteJson [] [] (n.render ++ d :: rest) out 58 T k bf rfl (by decide)
  have s2 := Scan_number WriteJson n hn [58] [] (d :: rest) [] (singleTok 58) k bf rfl
    (by simpa [headOk] using hd)
  simp only [List.nil_append, List.append_nil] at s1 s2
  simp only [numberResult, hkind] at s2
  have hs58 : singleTok 58 = .FFTok_colon := by decide
  rw [hs58] at s1 s2
  refine ⟨FFLexer.mk (rd ([58] ++ n.render) (d :: rest)) n.render .FFTok_integer k bf, ?_, rfl,
    ?_, ?_, ParseInt_integer n bitSize hn hfrac hexp⟩
  · simp [rd, Nat.add_comm]
  · unfold FFLexer.ScanFloatValue
    rw [e0, s1]
    simp only [ne_eq, not_true_eq_false, if_false]
    rw [s2]
    simp
  · unfold FFLexer.ScanIntValue
    rw [e0, s1]
    simp only [ne_eq, not_true_eq_false, if_false]
    rw [s2]
    simp

/-- The theorem `ScanFloatValue_rejects_integers` for the number `-6` on the input
`:-6 `: ScanFloatValue returns the error and ScanIntValue(64) returns -6. -/
theorem ScanFloatValue_rejects_integers_witness :
    JNumber.wf ⟨true, [54], none, none⟩ = true ∧
    JNumber.stoppedBy ⟨true, [54], none, none⟩ 32 = true ∧
    ∃ y, (NewFFLexer [58, 45, 54, 32]).ScanFloatValue
        (fun (_ : List Nat) (_ : Nat) => (Except.ok 0 : Except GoError Nat)) (fun b => b)
        = some (.error (.wanted_value .FFTok_double .FFTok_integer), y) ∧
      (NewFFLexer [58, 45, 54, 32]).ScanIntValue (fun b => b) 64
        = some (ParseInt [45, 54] 10 64, y) ∧
      ParseInt [45, 54] 10 64 = .ok (-6) :=
  ⟨by decide, by decide,
    (ScanFloatValue_rejects_integers
      (fun (_ : List Nat) (_ : Nat) => (Except.ok 0 : Except GoError Nat)) (fun b => b) 64
      ⟨true, [54], none, none⟩ 32 [] (NewFFLexer [58, 45, 54, 32]) (by decide) rfl rfl
      (by decide) rfl).imp fun _ h =>
        ⟨h.2.2.1, h.2.2.2.1, (h.2.2.2.2 (by decide) (by decide) (by decide)).trans rfl⟩⟩

end jsonrt
